import Mathlib

/-!
Principia: flight plans over an ephemeris.

A shallow embedding of `ksp_plugin/flight_plan.cpp` and of the part of
`physics/ephemeris_body.hpp` that it drives (`Prolong`, `FlowWithAdaptiveStep`).

Conventions.

* Instants, durations, masses, lengths and speeds are integers in a fixed unit,
  with exact sums; the sums of doubles are modelled apart (`binary64`), for the
  check of `FlowWithAdaptiveStep` that depends on them.
* A function that can hit a fatal `CHECK` (or undefined behaviour such as
  dereferencing an end iterator) returns `Outcome.aborts` there; the loop of
  `Prolong`, whose termination depends on the integrator, runs on fuel and
  returns `Outcome.diverges` when the fuel is exhausted.
* Pointers to discrete trajectories are natural numbers, keys into `Forest`.
* The integrators, `MakeNavigationManœuvre` and the constant
  `max_ephemeris_steps_per_frame` are not part of the sources at hand; they are
  the fields of `Collaborators`, over which every theorem is universally
  quantified.
* `œ` is not a Lean identifier character: `manœuvre` is written `manoeuvre`.
-/

namespace Principia

/-! ## Results of calls -/

/-- Result of running a piece of the program: it returns a value, it dies on a
fatal check, or it is still running when the fuel is exhausted. -/
inductive Outcome (α : Type) where
  | returns (a : α)
  | aborts
  | diverges
deriving DecidableEq, Repr

/-- Sequencing of two calls. -/
def Outcome.bind {α β : Type} (x : Outcome α) (f : α → Outcome β) : Outcome β :=
  match x with
  | .returns a => f a
  | .aborts => .aborts
  | .diverges => .diverges

instance : Monad Outcome where
  pure := Outcome.returns
  bind := Outcome.bind

/-- The fatal check `CHECK(c)`. -/
def CHECK (c : Prop) [Decidable c] : Outcome Unit :=
  if c then .returns () else .aborts

/-! ## Quantities and samples -/

abbrev Instant := Int
abbrev Time := Int
abbrev Mass := Int
abbrev Length := Int
abbrev Speed := Int

/-- Position and velocity of a massless body (one coordinate each; the flight
plan never looks inside). -/
structure DegreesOfFreedom where
  position : Int
  velocity : Int
deriving DecidableEq, Repr

/-- One point of a discrete trajectory. -/
structure Sample where
  time : Instant
  degrees_of_freedom : DegreesOfFreedom
deriving DecidableEq, Repr

/-! ## Discrete trajectories -/

/-- Modelled from the spec: the class `DiscreteTrajectory` (section 4.2), which
is not among the sources.  A trajectory has its own samples, in increasing
time, and, unless it is a root, the chain of its ancestors, parent first,
each with the point of that ancestor at which the next trajectory down was
forked: the head of `ancestry` is the parent and the fork point `Fork()`. -/
structure DiscreteTrajectory where
  ancestry : List (Nat × Sample)
  timeline : List Sample
deriving DecidableEq, Repr

/-- The memory holding the discrete trajectories: live trajectories by address. -/
abbrev Forest := List (Nat × DiscreteTrajectory)

/-- Dereferencing a pointer to a trajectory. -/
def Forest.deref (F : Forest) (p : Nat) : Option DiscreteTrajectory :=
  (F.find? (fun e => e.1 = p)).map (fun e => e.2)

/-- Overwriting the trajectory at an address. -/
def Forest.store (F : Forest) (p : Nat) (d : DiscreteTrajectory) : Forest :=
  F.map (fun e => if e.1 = p then (p, d) else e)

/-- Every address that occurs in the memory, as a key or as an ancestor. -/
def Forest.addresses (F : Forest) : List Nat :=
  F.flatMap (fun e => e.1 :: e.2.ancestry.map (fun a => a.1))

/-- An address that is not in use. -/
def Forest.fresh (F : Forest) : Nat :=
  (F.addresses.foldr max 0) + 1

/-- Modelled from the spec: `is_root()`. -/
def DiscreteTrajectory.is_root (d : DiscreteTrajectory) : Bool :=
  d.ancestry.isEmpty

/-- Modelled from the spec: `parent()`. -/
def DiscreteTrajectory.parent (d : DiscreteTrajectory) : Option Nat :=
  d.ancestry.head?.map (fun a => a.1)

/-- Modelled from the spec: `Fork()`, the point of the parent at which the
trajectory was forked; there is none for a root. -/
def DiscreteTrajectory.Fork (d : DiscreteTrajectory) : Option Sample :=
  d.ancestry.head?.map (fun a => a.2)

/-- Modelled from the spec: `last()`, the last point of the trajectory seen as a
unified timeline: its own last sample, or its fork point when it has no sample
of its own. -/
def DiscreteTrajectory.last (d : DiscreteTrajectory) : Option Sample :=
  match d.timeline.getLast? with
  | some s => some s
  | none => d.Fork

/-- Modelled from the spec: the unified timeline of a trajectory, the samples
of its ancestors up to and including the fork points followed by its own. -/
def Forest.unified (F : Forest) (d : DiscreteTrajectory) : List Sample :=
  (d.ancestry.reverse.flatMap (fun a =>
    match F.deref a.1 with
    | some anc => anc.timeline.filter (fun s => s.time ≤ a.2.time)
    | none => [])) ++ d.timeline

/-- Modelled from the spec: `NewForkWithoutCopy(time)`, a child of `p` without
samples of its own, forked at the sample of `p` at `time`, which must be one of
the samples of `p` or its fork point. -/
def Forest.NewForkWithoutCopy (F : Forest) (p : Nat) (time : Instant) :
    Outcome (Forest × Nat) :=
  match F.deref p with
  | none => .aborts
  | some d =>
    let at_time : Option Sample :=
      match d.timeline.find? (fun s => s.time = time) with
      | some s => some s
      | none => match d.Fork with
        | some s => if s.time = time then some s else none
        | none => none
    match at_time with
    | none => .aborts
    | some s =>
      .returns (F ++ [(F.fresh, { ancestry := (p, s) :: d.ancestry, timeline := [] })],
                F.fresh)

/-- Modelled from the spec: `NewForkAtLast()`, a child of `p` without samples
of its own, forked at the last point of `p`. -/
def Forest.NewForkAtLast (F : Forest) (p : Nat) : Outcome (Forest × Nat) :=
  match F.deref p with
  | none => .aborts
  | some d =>
    match d.last with
    | none => .aborts
    | some s =>
      .returns (F ++ [(F.fresh, { ancestry := (p, s) :: d.ancestry, timeline := [] })],
                F.fresh)

/-- Modelled from the spec: `DeleteFork(&child)`, which unlinks and destroys
the fork `child` together with the forks that descend from it. -/
def Forest.DeleteFork (F : Forest) (child : Nat) : Outcome Forest :=
  match F.deref child with
  | none => .aborts
  | some d =>
    if d.is_root then .aborts
    else .returns (F.filter (fun e =>
      !(decide (e.1 = child) || (e.2.ancestry.map (fun a => a.1)).contains child)))

/-- Modelled from the spec: `ForgetAfter(t)`, which drops the samples strictly
after `t`, and with them the forks made at those samples. -/
def Forest.ForgetAfter (F : Forest) (p : Nat) (t : Instant) : Outcome Forest :=
  match F.deref p with
  | none => .aborts
  | some d =>
    .returns
      (Forest.store
        (F.filter (fun e => !(e.2.ancestry.any (fun a => decide (a.1 = p ∧ t < a.2.time)))))
        p { d with timeline := d.timeline.filter (fun s => s.time ≤ t) })

/-- Modelled from the spec: `Append(t, state)`, which pushes a sample whose
time is strictly after the last point. -/
def Forest.Append (F : Forest) (p : Nat) (s : Sample) : Outcome Forest :=
  match F.deref p with
  | none => .aborts
  | some d =>
    match d.last with
    | none => .returns (Forest.store F p { d with timeline := d.timeline ++ [s] })
    | some l =>
      if l.time < s.time then .returns (Forest.store F p { d with timeline := d.timeline ++ [s] })
      else .aborts

/-- Appending the states published by an integrator, in order. -/
def Forest.AppendAll (F : Forest) (p : Nat) : List Sample → Outcome Forest
  | [] => .returns F
  | s :: rest =>
    match F.Append p s with
    | .returns F1 => Forest.AppendAll F1 p rest
    | .aborts => .aborts
    | .diverges => .diverges

/-! ## The ephemeris -/

/-- Outcome of the adaptive-step integrator (`integrators::TerminationCondition`). -/
inductive TerminationCondition where
  | Done
  | ReachedMaximalStepCount
  | VanishingStepSize
deriving DecidableEq, Repr

/-- The class `Ephemeris<Frame>::AdaptiveStepParameters`; the integrator is
identified by a number. -/
structure AdaptiveStepParameters where
  integrator_ : Nat
  max_steps_ : Int
  length_integration_tolerance_ : Length
  speed_integration_tolerance_ : Speed
deriving DecidableEq, Repr

/-- The part of the state of an `Ephemeris` that `Prolong` and
`FlowWithAdaptiveStep` read and write: the step `parameters_.step_`, the time
`last_state_.time.value`, the value of `t_max()`, and, as an uninterpreted code,
the rest (positions, velocities and continuous trajectories of the massive
bodies), which only the integrators look at. -/
structure Ephemeris where
  step_ : Time
  last_state_time : Instant
  t_max : Instant
  massive_bodies : Nat
deriving DecidableEq, Repr

/-- Modelled from the spec: the value class `NavigationManœuvre` (section 4.5),
which is not among the sources, reduced to what the flight plan reads, and the
trajectory recorded by `set_coasting_trajectory`. -/
structure NavigationManoeuvre where
  thrust : Int
  specific_impulse : Int
  initial_mass : Mass
  final_mass : Mass
  initial_time : Instant
  final_time : Instant
  is_singular : Bool
  coasting_trajectory : Option Nat
deriving DecidableEq, Repr

/-- Modelled from the spec: `fits_between(t_min, t_max)` returns true iff
`[initial_time, final_time] ⊆ [t_min, t_max]`. -/
def NavigationManoeuvre.FitsBetween (m : NavigationManoeuvre) (t_min t_max : Instant) : Bool :=
  decide (t_min ≤ m.initial_time ∧ m.final_time ≤ t_max)

/-- Modelled from the spec: `is_singular()`. -/
def NavigationManoeuvre.IsSingular (m : NavigationManoeuvre) : Bool :=
  m.is_singular

/-- The method `set_coasting_trajectory`. -/
def NavigationManoeuvre.set_coasting_trajectory (m : NavigationManoeuvre) (p : Nat) :
    NavigationManoeuvre :=
  { m with coasting_trajectory := some p }

/-- Modelled from the spec: the data from which a manœuvre is made (thrust,
specific impulse, start time, Δv), before the initial mass is known. -/
structure Burn where
  thrust : Int
  specific_impulse : Int
  initial_time : Instant
  Δv : Int
deriving DecidableEq, Repr

/-- What the sources at hand use without defining.

* `fixed_Solve e t_final` is `parameters_.integrator_->Solve(problem, step_)`
  on the massive bodies with `problem.t_final = t_final`, together with the
  `AppendMassiveBodiesState` calls it makes: it gives the new
  `last_state_.time`, the new `t_max()` and the new code of the rest.
* `adaptive_Solve e parameters intrinsic_acceleration initial_state t_final`
  is `parameters.integrator_->Solve(problem, step_size)` on one massless body:
  the states it publishes through `append_state`, in order, and its
  termination condition.  The intrinsic acceleration is given by the manœuvre
  it comes from, `none` being `kNoIntrinsicAcceleration`.
* `MakeNavigationManoeuvre burn initial_mass`.
* `max_ephemeris_steps_per_frame`. -/
structure Collaborators where
  fixed_Solve : Ephemeris → Instant → Instant × Instant × Nat
  adaptive_Solve : Ephemeris → AdaptiveStepParameters → Option NavigationManoeuvre →
    Sample → Instant → List Sample × TerminationCondition
  MakeNavigationManoeuvre : Burn → Mass → NavigationManoeuvre
  max_ephemeris_steps_per_frame : Int

/-- The loop `while (t_max() < t) { Solve(problem, step_); problem.t_final += step_; }`
of `Ephemeris::Prolong`. -/
def ProlongLoop (I : Collaborators) : Nat → Ephemeris → Instant → Instant → Outcome Ephemeris
  | 0, e, t, _ => if e.t_max < t then .diverges else .returns e
  | fuel + 1, e, t, problem_t_final =>
    if e.t_max < t then
      let r := I.fixed_Solve e problem_t_final
      ProlongLoop I fuel
        { e with last_state_time := r.1, t_max := r.2.1, massive_bodies := r.2.2 }
        t (problem_t_final + e.step_)
    else .returns e

/-- The method `Ephemeris::Prolong`. -/
def Prolong (I : Collaborators) (fuel : Nat) (e : Ephemeris) (t : Instant) : Outcome Ephemeris :=
  ProlongLoop I fuel e t
    (if t ≤ e.last_state_time then e.last_state_time + e.step_ else t)

/-- The method `Ephemeris::FlowWithAdaptiveStep` on the trajectory at address
`trajectory`. -/
def FlowWithAdaptiveStep (I : Collaborators) (fuel : Nat) (e : Ephemeris) (F : Forest)
    (trajectory : Nat) (intrinsic_acceleration : Option NavigationManoeuvre) (t : Instant)
    (parameters : AdaptiveStepParameters) (max_ephemeris_steps : Int) :
    Outcome (Ephemeris × Forest × Bool) :=
  match (F.deref trajectory).bind DiscreteTrajectory.last with
  | none => .aborts
  | some trajectory_last =>
    let t_final : Instant :=
      min (max (e.last_state_time + max_ephemeris_steps * e.step_)
               (trajectory_last.time + e.step_))
          t
    match Prolong I fuel e t_final with
    | .aborts => .aborts
    | .diverges => .diverges
    | .returns e1 =>
      let first_time_step : Time := t_final - trajectory_last.time
      if first_time_step > 0 then
        let solved := I.adaptive_Solve e1 parameters intrinsic_acceleration trajectory_last t_final
        match Forest.AppendAll F trajectory solved.1 with
        | .aborts => .aborts
        | .diverges => .diverges
        | .returns F1 =>
          .returns (e1, F1, decide (solved.2 = TerminationCondition.Done ∧ t_final = t))
      else .aborts

/-! ## The flight plan -/

/-- Dereferencing something that may be null or past the end is fatal. -/
def Outcome.ofOption {α : Type} : Option α → Outcome α
  | some a => .returns a
  | none => .aborts

/-- The class `FlightPlan`: its data members, the ephemeris that `ephemeris_`
points to, and the memory that the pointers in `segments_` point into. -/
structure FlightPlan where
  initial_time_ : Instant
  final_time_ : Instant
  initial_mass_ : Mass
  adaptive_step_parameters_ : AdaptiveStepParameters
  manoeuvres_ : List NavigationManoeuvre
  segments_ : List Nat
  anomalous_segments_ : Int
  ephemeris_ : Ephemeris
  trajectories : Forest
deriving DecidableEq, Repr

namespace FlightPlan

/-- The method `number_of_manœuvres`. -/
def number_of_manoeuvres (p : FlightPlan) : Int :=
  p.manoeuvres_.length

/-- The method `number_of_segments`. -/
def number_of_segments (p : FlightPlan) : Int :=
  p.segments_.length

/-- The method `adaptive_step_parameters`. -/
def adaptive_step_parameters (p : FlightPlan) : AdaptiveStepParameters :=
  p.adaptive_step_parameters_

/-- The method `final_time`. -/
def final_time (p : FlightPlan) : Instant :=
  p.final_time_

/-- The method `initial_time`. -/
def initial_time (p : FlightPlan) : Instant :=
  p.initial_time_

/-- The method `start_of_last_coast`. -/
def start_of_last_coast (p : FlightPlan) : Instant :=
  match p.manoeuvres_.getLast? with
  | none => p.initial_time_
  | some m => m.final_time

/-- The method `start_of_penultimate_coast`. -/
def start_of_penultimate_coast (p : FlightPlan) : Outcome Instant :=
  if p.manoeuvres_.length = 1 then .returns p.initial_time_
  else if p.manoeuvres_.length < 2 then .aborts
  else (Outcome.ofOption (p.manoeuvres_[p.manoeuvres_.length - 2]?)).bind
    (fun m => .returns m.final_time)

/-- The method `last_coast`. -/
def last_coast (p : FlightPlan) : Outcome Nat :=
  Outcome.ofOption p.segments_.getLast?

/-- The method `penultimate_coast`. -/
def penultimate_coast (p : FlightPlan) : Outcome Nat :=
  if p.segments_.length < 3 then .aborts
  else Outcome.ofOption (p.segments_[p.segments_.length - 3]?)

/-- The method `CoastLastSegment`. -/
def CoastLastSegment (I : Collaborators) (fuel : Nat) (p : FlightPlan) (final_time : Instant) :
    Outcome FlightPlan :=
  if p.anomalous_segments_ > 0 then .returns p
  else do
    let back ← Outcome.ofOption p.segments_.getLast?
    let (e, F, reached_final_time) ←
      FlowWithAdaptiveStep I fuel p.ephemeris_ p.trajectories back none final_time
        p.adaptive_step_parameters_ I.max_ephemeris_steps_per_frame
    let p1 := { p with ephemeris_ := e, trajectories := F }
    if !reached_final_time then .returns { p1 with anomalous_segments_ := 1 }
    else .returns p1

/-- The method `BurnLastSegment`. -/
def BurnLastSegment (I : Collaborators) (fuel : Nat) (p : FlightPlan)
    (manoeuvre : NavigationManoeuvre) : Outcome FlightPlan :=
  if p.anomalous_segments_ > 0 then .returns p
  else if manoeuvre.initial_time < manoeuvre.final_time then do
    let back ← Outcome.ofOption p.segments_.getLast?
    let (e, F, reached_final_time) ←
      FlowWithAdaptiveStep I fuel p.ephemeris_ p.trajectories back (some manoeuvre)
        manoeuvre.final_time p.adaptive_step_parameters_ I.max_ephemeris_steps_per_frame
    let p1 := { p with ephemeris_ := e, trajectories := F }
    if !reached_final_time then .returns { p1 with anomalous_segments_ := 1 }
    else .returns p1
  else .returns p

/-- The method `AddSegment`. -/
def AddSegment (p : FlightPlan) : Outcome FlightPlan := do
  let back ← Outcome.ofOption p.segments_.getLast?
  let (F, fork) ← p.trajectories.NewForkAtLast back
  let p1 := { p with trajectories := F, segments_ := p.segments_ ++ [fork] }
  if p1.anomalous_segments_ > 0 then
    .returns { p1 with anomalous_segments_ := p1.anomalous_segments_ + 1 }
  else .returns p1

/-- The method `ResetLastSegment`. -/
def ResetLastSegment (p : FlightPlan) : Outcome FlightPlan := do
  let back ← Outcome.ofOption p.segments_.getLast?
  let d ← Outcome.ofOption (p.trajectories.deref back)
  let fork ← Outcome.ofOption d.Fork
  let F ← p.trajectories.ForgetAfter back fork.time
  let p1 := { p with trajectories := F }
  if p1.anomalous_segments_ = 1 then .returns { p1 with anomalous_segments_ := 0 }
  else .returns p1

/-- The method `PopLastSegment`. -/
def PopLastSegment (p : FlightPlan) : Outcome FlightPlan := do
  let trajectory ← Outcome.ofOption p.segments_.getLast?
  let d ← Outcome.ofOption (p.trajectories.deref trajectory)
  CHECK (d.is_root = false)
  let F ← p.trajectories.DeleteFork trajectory
  let p1 := { p with trajectories := F, segments_ := p.segments_.dropLast }
  if p1.anomalous_segments_ > 0 then
    .returns { p1 with anomalous_segments_ := p1.anomalous_segments_ - 1 }
  else .returns p1

/-- The method `ReplaceLastSegment`. -/
def ReplaceLastSegment (p : FlightPlan) (segment : Nat) : Outcome FlightPlan := do
  let s ← Outcome.ofOption (p.trajectories.deref segment)
  let back ← Outcome.ofOption p.segments_.getLast?
  let b ← Outcome.ofOption (p.trajectories.deref back)
  CHECK (s.parent = b.parent)
  let s_fork ← Outcome.ofOption s.Fork
  let b_fork ← Outcome.ofOption b.Fork
  CHECK (s_fork.time = b_fork.time)
  let p1 ← PopLastSegment p
  CHECK (0 = p1.anomalous_segments_)
  .returns { p1 with segments_ := p1.segments_ ++ [segment] }

/-- The method `CoastIfReachesManœuvreInitialTime`; the result is the new fork,
or `none` for `nullptr`. -/
def CoastIfReachesManoeuvreInitialTime (I : Collaborators) (fuel : Nat) (p : FlightPlan)
    (coast : Nat) (manoeuvre : NavigationManoeuvre) : Outcome (FlightPlan × Option Nat) := do
  let c ← Outcome.ofOption (p.trajectories.deref coast)
  let parent ← Outcome.ofOption c.parent
  let fork ← Outcome.ofOption c.Fork
  let (F, recomputed_coast) ← p.trajectories.NewForkWithoutCopy parent fork.time
  let (e, F1, reached_manoeuvre_initial_time) ←
    FlowWithAdaptiveStep I fuel p.ephemeris_ F recomputed_coast none manoeuvre.initial_time
      p.adaptive_step_parameters_ I.max_ephemeris_steps_per_frame
  if !reached_manoeuvre_initial_time then do
    let F2 ← F1.DeleteFork recomputed_coast
    .returns ({ p with ephemeris_ := e, trajectories := F2 }, none)
  else .returns ({ p with ephemeris_ := e, trajectories := F1 }, some recomputed_coast)

/-- The private method `Append(NavigationManœuvre)`. -/
def AppendNavigationManoeuvre (I : Collaborators) (fuel : Nat) (p : FlightPlan)
    (manoeuvre : NavigationManoeuvre) : Outcome FlightPlan := do
  let back ← Outcome.ofOption p.segments_.getLast?
  let last ← Outcome.ofOption ((p.trajectories.deref back).bind DiscreteTrajectory.last)
  CHECK (manoeuvre.initial_time = last.time)
  let manoeuvre := manoeuvre.set_coasting_trajectory back
  let p1 := { p with manoeuvres_ := p.manoeuvres_ ++ [manoeuvre] }
  let p2 ← AddSegment p1
  let p3 ← BurnLastSegment I fuel p2 manoeuvre
  let p4 ← AddSegment p3
  CoastLastSegment I fuel p4 p4.final_time_

/-- The mass with which `Append(Burn)` builds its manœuvre, the expression
`manœuvres_.empty() ? initial_mass_ : manœuvres_.back().final_mass()`. -/
def tail_mass (p : FlightPlan) : Mass :=
  match p.manoeuvres_.getLast? with
  | none => p.initial_mass_
  | some m => m.final_mass

/-- The public method `Append(Burn)`. -/
def Append (I : Collaborators) (fuel : Nat) (p : FlightPlan) (burn : Burn) :
    Outcome (FlightPlan × Bool) :=
  let manoeuvre := I.MakeNavigationManoeuvre burn (tail_mass p)
  if manoeuvre.FitsBetween p.start_of_last_coast p.final_time_ && !manoeuvre.IsSingular then do
    let coast ← p.last_coast
    let (p1, recomputed_last_coast) ← CoastIfReachesManoeuvreInitialTime I fuel p coast manoeuvre
    match recomputed_last_coast with
    | some segment => do
      let p2 ← ReplaceLastSegment p1 segment
      let p3 ← AppendNavigationManoeuvre I fuel p2 manoeuvre
      .returns (p3, true)
    | none => .returns (p1, false)
  else .returns (p, false)

/-- The method `RemoveLast`. -/
def RemoveLast (I : Collaborators) (fuel : Nat) (p : FlightPlan) : Outcome FlightPlan := do
  CHECK (p.manoeuvres_.isEmpty = false)
  let p1 := { p with manoeuvres_ := p.manoeuvres_.dropLast }
  let p2 ← PopLastSegment p1
  let p3 ← PopLastSegment p2
  let p4 ← ResetLastSegment p3
  CoastLastSegment I fuel p4 p4.final_time_

/-- The method `ReplaceLast`. -/
def ReplaceLast (I : Collaborators) (fuel : Nat) (p : FlightPlan) (burn : Burn) :
    Outcome (FlightPlan × Bool) := do
  CHECK (p.manoeuvres_.isEmpty = false)
  let back ← Outcome.ofOption p.manoeuvres_.getLast?
  let manoeuvre := I.MakeNavigationManoeuvre burn back.initial_mass
  let start ← p.start_of_penultimate_coast
  if manoeuvre.FitsBetween start p.final_time_ && !manoeuvre.IsSingular then do
    let coast ← p.penultimate_coast
    let (p1, recomputed_penultimate_coast) ←
      CoastIfReachesManoeuvreInitialTime I fuel p coast manoeuvre
    match recomputed_penultimate_coast with
    | some segment => do
      let p2 := { p1 with manoeuvres_ := p1.manoeuvres_.dropLast }
      let p3 ← PopLastSegment p2
      let p4 ← PopLastSegment p3
      let p5 ← ReplaceLastSegment p4 segment
      let p6 ← AppendNavigationManoeuvre I fuel p5 manoeuvre
      .returns (p6, true)
    | none => .returns (p1, false)
  else .returns (p, false)

/-- The method `SetFinalTime`. -/
def SetFinalTime (I : Collaborators) (fuel : Nat) (p : FlightPlan) (final_time : Instant) :
    Outcome (FlightPlan × Bool) :=
  if p.start_of_last_coast > final_time then .returns (p, false)
  else do
    let p1 := { p with final_time_ := final_time }
    let p2 ← ResetLastSegment p1
    let p3 ← CoastLastSegment I fuel p2 p2.final_time_
    .returns (p3, true)

/-- The loop `while (segments_.size() > 1) { PopLastSegment(); }` of
`RecomputeSegments`, on fuel. -/
def PopAllButFirst : Nat → FlightPlan → Outcome FlightPlan
  | 0, p => if p.segments_.length > 1 then .diverges else .returns p
  | n + 1, p =>
    if p.segments_.length > 1 then (PopLastSegment p).bind (PopAllButFirst n)
    else .returns p

/-- The loop `for (auto& manœuvre : manœuvres_)` of `RecomputeSegments`:
`done` are the manœuvres already visited, the first argument those to come. -/
def RecomputeLoop (I : Collaborators) (fuel : Nat) :
    List NavigationManoeuvre → List NavigationManoeuvre → FlightPlan → Outcome FlightPlan
  | [], _, p => .returns p
  | manoeuvre :: rest, done, p => do
    let p1 ← CoastLastSegment I fuel p manoeuvre.initial_time
    let back ← Outcome.ofOption p1.segments_.getLast?
    let manoeuvre := manoeuvre.set_coasting_trajectory back
    let p2 := { p1 with manoeuvres_ := done ++ manoeuvre :: rest }
    let p3 ← AddSegment p2
    let p4 ← BurnLastSegment I fuel p3 manoeuvre
    let p5 ← AddSegment p4
    RecomputeLoop I fuel rest (done ++ [manoeuvre]) p5

/-- The method `RecomputeSegments`. -/
def RecomputeSegments (I : Collaborators) (fuel : Nat) (p : FlightPlan) :
    Outcome (FlightPlan × Bool) := do
  let p1 ← PopAllButFirst p.segments_.length p
  let p2 ← ResetLastSegment p1
  let p3 ← RecomputeLoop I fuel p2.manoeuvres_ [] p2
  let p4 ← CoastLastSegment I fuel p3 p3.final_time_
  .returns (p4, decide (p4.anomalous_segments_ ≤ 2))

/-- The method `SetAdaptiveStepParameters`. -/
def SetAdaptiveStepParameters (I : Collaborators) (fuel : Nat) (p : FlightPlan)
    (adaptive_step_parameters : AdaptiveStepParameters) : Outcome (FlightPlan × Bool) := do
  let original_adaptive_step_parameters := p.adaptive_step_parameters_
  let p1 := { p with adaptive_step_parameters_ := adaptive_step_parameters }
  let (p2, ok) ← RecomputeSegments I fuel p1
  if ok then .returns (p2, true)
  else do
    let p3 := { p2 with adaptive_step_parameters_ := original_adaptive_step_parameters }
    let (p4, ok_again) ← RecomputeSegments I fuel p3
    CHECK (ok_again = true)
    .returns (p4, false)

/-- The constructor `FlightPlan::FlightPlan`, on the trajectory at address
`root` of the memory `F`. -/
def new (I : Collaborators) (fuel : Nat) (F : Forest) (root : Nat) (initial_time : Instant)
    (final_time : Instant) (initial_mass : Mass) (ephemeris : Ephemeris)
    (adaptive_step_parameters : AdaptiveStepParameters) : Outcome FlightPlan := do
  CHECK (final_time ≥ initial_time)
  let r ← Outcome.ofOption (F.deref root)
  let timeline := F.unified r
  -- |root->LowerBound(initial_time_)|, as an index into the timeline.
  let it := timeline.findIdx (fun s => decide (initial_time ≤ s.time))
  let at_it ← Outcome.ofOption timeline[it]?
  -- |if (it.time() != initial_time_) { --it; }|
  let at_it ← (if at_it.time ≠ initial_time then
      (if it = 0 then Outcome.aborts else Outcome.ofOption timeline[it - 1]?)
    else Outcome.returns at_it)
  let (F1, fork) ← F.NewForkWithoutCopy root at_it.time
  CoastLastSegment I fuel
    { initial_time_ := at_it.time
      final_time_ := final_time
      initial_mass_ := initial_mass
      adaptive_step_parameters_ := adaptive_step_parameters
      manoeuvres_ := []
      segments_ := [fork]
      anomalous_segments_ := 0
      ephemeris_ := ephemeris
      trajectories := F1 }
    final_time

/-- The flight plans that the public interface can produce: the result of the
constructor, and the result of any call of a public mutator on such a plan,
provided the call returns. -/
inductive Reachable (I : Collaborators) : FlightPlan → Prop where
  | new {fuel : Nat} {F : Forest} {root : Nat} {initial_time final_time : Instant}
      {initial_mass : Mass} {ephemeris : Ephemeris} {parameters : AdaptiveStepParameters}
      {p : FlightPlan}
      (h : FlightPlan.new I fuel F root initial_time final_time initial_mass ephemeris
        parameters = .returns p) : Reachable I p
  | Append {fuel : Nat} {p q : FlightPlan} {burn : Burn} {r : Bool}
      (hp : Reachable I p) (h : Append I fuel p burn = .returns (q, r)) : Reachable I q
  | ReplaceLast {fuel : Nat} {p q : FlightPlan} {burn : Burn} {r : Bool}
      (hp : Reachable I p) (h : ReplaceLast I fuel p burn = .returns (q, r)) : Reachable I q
  | RemoveLast {fuel : Nat} {p q : FlightPlan}
      (hp : Reachable I p) (h : RemoveLast I fuel p = .returns q) : Reachable I q
  | SetFinalTime {fuel : Nat} {p q : FlightPlan} {t : Instant} {r : Bool}
      (hp : Reachable I p) (h : SetFinalTime I fuel p t = .returns (q, r)) : Reachable I q
  | SetAdaptiveStepParameters {fuel : Nat} {p q : FlightPlan}
      {parameters : AdaptiveStepParameters} {r : Bool}
      (hp : Reachable I p) (h : SetAdaptiveStepParameters I fuel p parameters = .returns (q, r)) :
      Reachable I q

/-- The trial coast of `CoastIfReachesManœuvreInitialTime(coast, manœuvre)`
reaches the initial time of the manœuvre: the fork of the parent of `coast` at
the fork time of `coast` is made, and `FlowWithAdaptiveStep` on it towards
`manœuvre.initial_time()` returns true. -/
def TrialCoastReaches (I : Collaborators) (fuel : Nat) (p : FlightPlan) (coast : Nat)
    (manoeuvre : NavigationManoeuvre) : Prop :=
  ∃ c parent fork F recomputed_coast e F1,
    p.trajectories.deref coast = some c ∧ c.parent = some parent ∧ c.Fork = some fork ∧
    p.trajectories.NewForkWithoutCopy parent fork.time = .returns (F, recomputed_coast) ∧
    FlowWithAdaptiveStep I fuel p.ephemeris_ F recomputed_coast none manoeuvre.initial_time
      p.adaptive_step_parameters_ I.max_ephemeris_steps_per_frame = .returns (e, F1, true)

/-- Two flight plans have the same times, initial mass, adaptive step
parameters and manœuvres. -/
def SameSettings (p q : FlightPlan) : Prop :=
  q.initial_time_ = p.initial_time_ ∧ q.final_time_ = p.final_time_ ∧
  q.initial_mass_ = p.initial_mass_ ∧
  q.adaptive_step_parameters_ = p.adaptive_step_parameters_ ∧
  q.manoeuvres_ = p.manoeuvres_

/-- The final time of the last of the manœuvres `ms`, or `t` when there is none. -/
def last_final_time (t : Instant) (ms : List NavigationManoeuvre) : Instant :=
  match ms.getLast? with
  | none => t
  | some m => m.final_time

/-- The manœuvres `ms` follow one another between `t_min` and `t_max`: each
starts no earlier than the previous one (or `t_min`) ends, ends no earlier than
it starts, and the last one (or `t_min`) ends no later than `t_max`. -/
def TimesOrdered : Instant → List NavigationManoeuvre → Instant → Prop
  | t_min, [], t_max => t_min ≤ t_max
  | t_min, m :: rest, t_max =>
    t_min ≤ m.initial_time ∧ m.initial_time ≤ m.final_time ∧ TimesOrdered m.final_time rest t_max

/-- The initial mass of each of the manœuvres `ms` is the final mass of the
previous one, or `mass` for the first. -/
def MassesChained : Mass → List NavigationManoeuvre → Prop
  | _, [] => True
  | mass, m :: rest => m.initial_mass = mass ∧ MassesChained m.final_mass rest

/-- The final mass of the last of the manœuvres `ms`, or `mass` when there is none. -/
def last_final_mass (mass : Mass) (ms : List NavigationManoeuvre) : Mass :=
  match ms.getLast? with
  | none => mass
  | some m => m.final_mass

/-- The manœuvres without the pointers recorded by `set_coasting_trajectory`. -/
def manoeuvre_values (p : FlightPlan) : List NavigationManoeuvre :=
  p.manoeuvres_.map (fun m => { m with coasting_trajectory := none })

end FlightPlan

/-! ## A small instance

An integrator that advances the massive bodies exactly to the requested time,
and an adaptive integrator that walks one unit of time per step (`thrust` units
of work per unit of time under thrust) and publishes the state it ends on. -/

namespace Example

/-- The collaborators of the instance. -/
def collaborators : Collaborators where
  fixed_Solve := fun e t_final => (t_final, t_final, e.massive_bodies + 1)
  adaptive_Solve := fun _ parameters intrinsic_acceleration initial_state t_final =>
    let work : Int := match intrinsic_acceleration with
      | some m => m.thrust
      | none => 1
    let dv : Int := match intrinsic_acceleration with
      | some m => m.thrust
      | none => 0
    let x := initial_state.degrees_of_freedom
    if (t_final - initial_state.time) * work ≤ parameters.max_steps_ then
      ([⟨t_final, ⟨x.position + (t_final - initial_state.time) * x.velocity, x.velocity + dv⟩⟩],
        TerminationCondition.Done)
    else
      ([⟨initial_state.time + 1, ⟨x.position + x.velocity, x.velocity⟩⟩],
        TerminationCondition.ReachedMaximalStepCount)
  MakeNavigationManoeuvre := fun burn initial_mass =>
    { thrust := burn.thrust
      specific_impulse := burn.specific_impulse
      initial_mass := initial_mass
      final_mass := initial_mass - burn.Δv.natAbs
      initial_time := burn.initial_time
      final_time := burn.initial_time + burn.Δv.natAbs
      is_singular := decide (burn.specific_impulse = 0)
      coasting_trajectory := none }
  max_ephemeris_steps_per_frame := 1000

/-- A memory with one root trajectory, at address 0, with one sample at time 0. -/
def memory : Forest :=
  [(0, { ancestry := [], timeline := [⟨0, ⟨0, 1⟩⟩] })]

/-- An ephemeris with step 1, integrated up to time 0. -/
def ephemeris : Ephemeris :=
  { step_ := 1, last_state_time := 0, t_max := 0, massive_bodies := 0 }

/-- Adaptive step parameters with `max_steps` steps. -/
def parameters (max_steps : Int) : AdaptiveStepParameters :=
  { integrator_ := 0, max_steps_ := max_steps, length_integration_tolerance_ := 1,
    speed_integration_tolerance_ := 1 }

/-- A burn from time 10 to time 15, with thrust 3. -/
def burn_10 : Burn :=
  { thrust := 3, specific_impulse := 1, initial_time := 10, Δv := 5 }

/-- A burn from time 20 to time 25, with thrust 3. -/
def burn_20 : Burn :=
  { thrust := 3, specific_impulse := 1, initial_time := 20, Δv := 5 }

/-- A burn from time 200 to time 205, with thrust 3. -/
def burn_200 : Burn :=
  { thrust := 3, specific_impulse := 1, initial_time := 200, Δv := 5 }

/-- A burn from time 1500 to time 1600, with thrust 1. -/
def burn_1500 : Burn :=
  { thrust := 1, specific_impulse := 1, initial_time := 1500, Δv := 100 }

/-- A burn from time 3000 to time 3100, with thrust 1. -/
def burn_3000 : Burn :=
  { thrust := 1, specific_impulse := 1, initial_time := 3000, Δv := 100 }

/-- A burn from time 4000 to time 4100, with thrust 1. -/
def burn_4000 : Burn :=
  { thrust := 1, specific_impulse := 1, initial_time := 4000, Δv := 100 }

/-- The plan made by the constructor on `memory` and `ephemeris`, from time 0 to
time 50, with mass 1000 and 100 steps. -/
def fresh_plan : FlightPlan :=
  { initial_time_ := 0
    final_time_ := 50
    initial_mass_ := 1000
    adaptive_step_parameters_ := parameters 100
    manoeuvres_ := []
    segments_ := [1]
    anomalous_segments_ := 0
    ephemeris_ := ⟨1, 50, 50, 1⟩
    trajectories :=
      [(0, ⟨[], [⟨0, ⟨0, 1⟩⟩]⟩),
       (1, ⟨[(0, ⟨0, ⟨0, 1⟩⟩)], [⟨50, ⟨50, 1⟩⟩]⟩)] }

/-- The plan `fresh_plan` after `Append` of a burn from time 10 to time 15. -/
def one_burn : FlightPlan :=
  { initial_time_ := 0
    final_time_ := 50
    initial_mass_ := 1000
    adaptive_step_parameters_ := parameters 100
    manoeuvres_ := [⟨3, 1, 1000, 995, 10, 15, false, some 2⟩]
    segments_ := [2, 3, 4]
    anomalous_segments_ := 0
    ephemeris_ := ⟨1, 50, 50, 1⟩
    trajectories :=
      [(0, ⟨[], [⟨0, ⟨0, 1⟩⟩]⟩),
       (2, ⟨[(0, ⟨0, ⟨0, 1⟩⟩)], [⟨10, ⟨10, 1⟩⟩]⟩),
       (3, ⟨[(2, ⟨10, ⟨10, 1⟩⟩), (0, ⟨0, ⟨0, 1⟩⟩)], [⟨15, ⟨15, 4⟩⟩]⟩),
       (4, ⟨[(3, ⟨15, ⟨15, 4⟩⟩), (2, ⟨10, ⟨10, 1⟩⟩), (0, ⟨0, ⟨0, 1⟩⟩)], [⟨50, ⟨155, 4⟩⟩]⟩)] }

/-- The plan `one_burn` after `Append` of a burn from time 20 to time 25. -/
def two_burns : FlightPlan :=
  { initial_time_ := 0
    final_time_ := 50
    initial_mass_ := 1000
    adaptive_step_parameters_ := parameters 100
    manoeuvres_ := [⟨3, 1, 1000, 995, 10, 15, false, some 2⟩, ⟨3, 1, 995, 990, 20, 25, false, some 5⟩]
    segments_ := [2, 3, 5, 6, 7]
    anomalous_segments_ := 0
    ephemeris_ := ⟨1, 50, 50, 1⟩
    trajectories :=
      [(0, ⟨[], [⟨0, ⟨0, 1⟩⟩]⟩),
       (2, ⟨[(0, ⟨0, ⟨0, 1⟩⟩)], [⟨10, ⟨10, 1⟩⟩]⟩),
       (3, ⟨[(2, ⟨10, ⟨10, 1⟩⟩), (0, ⟨0, ⟨0, 1⟩⟩)], [⟨15, ⟨15, 4⟩⟩]⟩),
       (5, ⟨[(3, ⟨15, ⟨15, 4⟩⟩), (2, ⟨10, ⟨10, 1⟩⟩), (0, ⟨0, ⟨0, 1⟩⟩)], [⟨20, ⟨35, 4⟩⟩]⟩),
       (6, ⟨[(5, ⟨20, ⟨35, 4⟩⟩), (3, ⟨15, ⟨15, 4⟩⟩), (2, ⟨10, ⟨10, 1⟩⟩), (0, ⟨0, ⟨0, 1⟩⟩)], [⟨25, ⟨55, 7⟩⟩]⟩),
       (7, ⟨[(6, ⟨25, ⟨55, 7⟩⟩), (5, ⟨20, ⟨35, 4⟩⟩), (3, ⟨15, ⟨15, 4⟩⟩), (2, ⟨10, ⟨10, 1⟩⟩), (0, ⟨0, ⟨0, 1⟩⟩)], [⟨50, ⟨230, 7⟩⟩]⟩)] }

/-- The plan `two_burns` after `RecomputeSegments` with 12 steps: the first burn,
which needs 15, does not reach its final time. -/
def two_burns_recomputed : FlightPlan :=
  { initial_time_ := 0
    final_time_ := 50
    initial_mass_ := 1000
    adaptive_step_parameters_ := parameters 12
    manoeuvres_ := [⟨3, 1, 1000, 995, 10, 15, false, some 2⟩, ⟨3, 1, 995, 990, 20, 25, false, some 4⟩]
    segments_ := [2, 3, 4, 5, 6]
    anomalous_segments_ := 4
    ephemeris_ := ⟨1, 50, 50, 1⟩
    trajectories :=
      [(0, ⟨[], [⟨0, ⟨0, 1⟩⟩]⟩),
       (2, ⟨[(0, ⟨0, ⟨0, 1⟩⟩)], [⟨10, ⟨10, 1⟩⟩]⟩),
       (3, ⟨[(2, ⟨10, ⟨10, 1⟩⟩), (0, ⟨0, ⟨0, 1⟩⟩)], [⟨11, ⟨11, 1⟩⟩]⟩),
       (4, ⟨[(3, ⟨11, ⟨11, 1⟩⟩), (2, ⟨10, ⟨10, 1⟩⟩), (0, ⟨0, ⟨0, 1⟩⟩)], []⟩),
       (5, ⟨[(4, ⟨11, ⟨11, 1⟩⟩), (3, ⟨11, ⟨11, 1⟩⟩), (2, ⟨10, ⟨10, 1⟩⟩), (0, ⟨0, ⟨0, 1⟩⟩)], []⟩),
       (6, ⟨[(5, ⟨11, ⟨11, 1⟩⟩), (4, ⟨11, ⟨11, 1⟩⟩), (3, ⟨11, ⟨11, 1⟩⟩), (2, ⟨10, ⟨10, 1⟩⟩), (0, ⟨0, ⟨0, 1⟩⟩)], []⟩)] }

/-- The plan `two_burns` after `SetAdaptiveStepParameters` with 12 steps, which
returns false. -/
def two_burns_restored : FlightPlan :=
  { initial_time_ := 0
    final_time_ := 50
    initial_mass_ := 1000
    adaptive_step_parameters_ := parameters 100
    manoeuvres_ := [⟨3, 1, 1000, 995, 10, 15, false, some 2⟩, ⟨3, 1, 995, 990, 20, 25, false, some 4⟩]
    segments_ := [2, 3, 4, 5, 6]
    anomalous_segments_ := 0
    ephemeris_ := ⟨1, 50, 50, 1⟩
    trajectories :=
      [(0, ⟨[], [⟨0, ⟨0, 1⟩⟩]⟩),
       (2, ⟨[(0, ⟨0, ⟨0, 1⟩⟩)], [⟨10, ⟨10, 1⟩⟩]⟩),
       (3, ⟨[(2, ⟨10, ⟨10, 1⟩⟩), (0, ⟨0, ⟨0, 1⟩⟩)], [⟨15, ⟨15, 4⟩⟩]⟩),
       (4, ⟨[(3, ⟨15, ⟨15, 4⟩⟩), (2, ⟨10, ⟨10, 1⟩⟩), (0, ⟨0, ⟨0, 1⟩⟩)], [⟨20, ⟨35, 4⟩⟩]⟩),
       (5, ⟨[(4, ⟨20, ⟨35, 4⟩⟩), (3, ⟨15, ⟨15, 4⟩⟩), (2, ⟨10, ⟨10, 1⟩⟩), (0, ⟨0, ⟨0, 1⟩⟩)], [⟨25, ⟨55, 7⟩⟩]⟩),
       (6, ⟨[(5, ⟨25, ⟨55, 7⟩⟩), (4, ⟨20, ⟨35, 4⟩⟩), (3, ⟨15, ⟨15, 4⟩⟩), (2, ⟨10, ⟨10, 1⟩⟩), (0, ⟨0, ⟨0, 1⟩⟩)], [⟨50, ⟨230, 7⟩⟩]⟩)] }

/-- The plan `one_burn` after `RemoveLast`. -/
def one_burn_removed : FlightPlan :=
  { initial_time_ := 0
    final_time_ := 50
    initial_mass_ := 1000
    adaptive_step_parameters_ := parameters 100
    manoeuvres_ := []
    segments_ := [2]
    anomalous_segments_ := 0
    ephemeris_ := ⟨1, 50, 50, 1⟩
    trajectories :=
      [(0, ⟨[], [⟨0, ⟨0, 1⟩⟩]⟩),
       (2, ⟨[(0, ⟨0, ⟨0, 1⟩⟩)], [⟨50, ⟨50, 1⟩⟩]⟩)] }

/-- The plan made by the constructor from time 0 to time 500 with 100 steps: the
coast stops short. -/
def slow_plan : FlightPlan :=
  { initial_time_ := 0
    final_time_ := 500
    initial_mass_ := 1000
    adaptive_step_parameters_ := parameters 100
    manoeuvres_ := []
    segments_ := [1]
    anomalous_segments_ := 1
    ephemeris_ := ⟨1, 500, 500, 1⟩
    trajectories :=
      [(0, ⟨[], [⟨0, ⟨0, 1⟩⟩]⟩),
       (1, ⟨[(0, ⟨0, ⟨0, 1⟩⟩)], [⟨1, ⟨1, 1⟩⟩]⟩)] }

/-- The plan made by the constructor from time 0 to time 4500 with 10000 steps:
the ephemeris advances by 1000 steps of 1 per call, so the coast stops at time
1000. -/
def capped_plan : FlightPlan :=
  { initial_time_ := 0
    final_time_ := 4500
    initial_mass_ := 1000
    adaptive_step_parameters_ := parameters 10000
    manoeuvres_ := []
    segments_ := [1]
    anomalous_segments_ := 1
    ephemeris_ := ⟨1, 1000, 1000, 1⟩
    trajectories :=
      [(0, ⟨[], [⟨0, ⟨0, 1⟩⟩]⟩),
       (1, ⟨[(0, ⟨0, ⟨0, 1⟩⟩)], [⟨1000, ⟨1000, 1⟩⟩]⟩)] }

/-- The plan `capped_plan` after `Append` of a burn from time 1500 to time 1600;
the ephemeris has reached time 2600. -/
def capped_one_burn : FlightPlan :=
  { initial_time_ := 0
    final_time_ := 4500
    initial_mass_ := 1000
    adaptive_step_parameters_ := parameters 10000
    manoeuvres_ := [⟨1, 1, 1000, 900, 1500, 1600, false, some 2⟩]
    segments_ := [2, 3, 4]
    anomalous_segments_ := 1
    ephemeris_ := ⟨1, 2600, 2600, 4⟩
    trajectories :=
      [(0, ⟨[], [⟨0, ⟨0, 1⟩⟩]⟩),
       (2, ⟨[(0, ⟨0, ⟨0, 1⟩⟩)], [⟨1500, ⟨1500, 1⟩⟩]⟩),
       (3, ⟨[(2, ⟨1500, ⟨1500, 1⟩⟩), (0, ⟨0, ⟨0, 1⟩⟩)], [⟨1600, ⟨1600, 2⟩⟩]⟩),
       (4, ⟨[(3, ⟨1600, ⟨1600, 2⟩⟩), (2, ⟨1500, ⟨1500, 1⟩⟩), (0, ⟨0, ⟨0, 1⟩⟩)], [⟨2600, ⟨3600, 2⟩⟩]⟩)] }

/-- The plan `capped_one_burn` after a `ReplaceLast` that returns false: only the
ephemeris has advanced, to time 3600. -/
def capped_one_burn_later : FlightPlan :=
  { initial_time_ := 0
    final_time_ := 4500
    initial_mass_ := 1000
    adaptive_step_parameters_ := parameters 10000
    manoeuvres_ := [⟨1, 1, 1000, 900, 1500, 1600, false, some 2⟩]
    segments_ := [2, 3, 4]
    anomalous_segments_ := 1
    ephemeris_ := ⟨1, 3600, 3600, 5⟩
    trajectories :=
      [(0, ⟨[], [⟨0, ⟨0, 1⟩⟩]⟩),
       (2, ⟨[(0, ⟨0, ⟨0, 1⟩⟩)], [⟨1500, ⟨1500, 1⟩⟩]⟩),
       (3, ⟨[(2, ⟨1500, ⟨1500, 1⟩⟩), (0, ⟨0, ⟨0, 1⟩⟩)], [⟨1600, ⟨1600, 2⟩⟩]⟩),
       (4, ⟨[(3, ⟨1600, ⟨1600, 2⟩⟩), (2, ⟨1500, ⟨1500, 1⟩⟩), (0, ⟨0, ⟨0, 1⟩⟩)], [⟨2600, ⟨3600, 2⟩⟩]⟩)] }

/-- The plan `capped_one_burn` after `RemoveLast`; the ephemeris has reached time
3600. -/
def capped_removed : FlightPlan :=
  { initial_time_ := 0
    final_time_ := 4500
    initial_mass_ := 1000
    adaptive_step_parameters_ := parameters 10000
    manoeuvres_ := []
    segments_ := [2]
    anomalous_segments_ := 1
    ephemeris_ := ⟨1, 3600, 3600, 5⟩
    trajectories :=
      [(0, ⟨[], [⟨0, ⟨0, 1⟩⟩]⟩),
       (2, ⟨[(0, ⟨0, ⟨0, 1⟩⟩)], [⟨3600, ⟨3600, 1⟩⟩]⟩)] }

/-- The plan `capped_removed` after `Append` of a burn from time 4000 to time
4100. -/
def capped_appended_4000 : FlightPlan :=
  { initial_time_ := 0
    final_time_ := 4500
    initial_mass_ := 1000
    adaptive_step_parameters_ := parameters 10000
    manoeuvres_ := [⟨1, 1, 1000, 900, 4000, 4100, false, some 3⟩]
    segments_ := [3, 4, 5]
    anomalous_segments_ := 0
    ephemeris_ := ⟨1, 4500, 4500, 8⟩
    trajectories :=
      [(0, ⟨[], [⟨0, ⟨0, 1⟩⟩]⟩),
       (3, ⟨[(0, ⟨0, ⟨0, 1⟩⟩)], [⟨4000, ⟨4000, 1⟩⟩]⟩),
       (4, ⟨[(3, ⟨4000, ⟨4000, 1⟩⟩), (0, ⟨0, ⟨0, 1⟩⟩)], [⟨4100, ⟨4100, 2⟩⟩]⟩),
       (5, ⟨[(4, ⟨4100, ⟨4100, 2⟩⟩), (3, ⟨4000, ⟨4000, 1⟩⟩), (0, ⟨0, ⟨0, 1⟩⟩)], [⟨4500, ⟨4900, 2⟩⟩]⟩)] }

/-- The plan `capped_one_burn` after `ReplaceLast` with a burn from time 3000 to
time 3100. -/
def capped_replaced_3000 : FlightPlan :=
  { initial_time_ := 0
    final_time_ := 4500
    initial_mass_ := 1000
    adaptive_step_parameters_ := parameters 10000
    manoeuvres_ := [⟨1, 1, 1000, 900, 3000, 3100, false, some 5⟩]
    segments_ := [5, 6, 7]
    anomalous_segments_ := 1
    ephemeris_ := ⟨1, 4100, 4100, 7⟩
    trajectories :=
      [(0, ⟨[], [⟨0, ⟨0, 1⟩⟩]⟩),
       (5, ⟨[(0, ⟨0, ⟨0, 1⟩⟩)], [⟨3000, ⟨3000, 1⟩⟩]⟩),
       (6, ⟨[(5, ⟨3000, ⟨3000, 1⟩⟩), (0, ⟨0, ⟨0, 1⟩⟩)], [⟨3100, ⟨3100, 2⟩⟩]⟩),
       (7, ⟨[(6, ⟨3100, ⟨3100, 2⟩⟩), (5, ⟨3000, ⟨3000, 1⟩⟩), (0, ⟨0, ⟨0, 1⟩⟩)], [⟨4100, ⟨5100, 2⟩⟩]⟩)] }

/-- The plan `capped_removed` after `Append` of a burn from time 3000 to time
3100. -/
def capped_appended_3000 : FlightPlan :=
  { initial_time_ := 0
    final_time_ := 4500
    initial_mass_ := 1000
    adaptive_step_parameters_ := parameters 10000
    manoeuvres_ := [⟨1, 1, 1000, 900, 3000, 3100, false, some 3⟩]
    segments_ := [3, 4, 5]
    anomalous_segments_ := 0
    ephemeris_ := ⟨1, 4500, 4500, 6⟩
    trajectories :=
      [(0, ⟨[], [⟨0, ⟨0, 1⟩⟩]⟩),
       (3, ⟨[(0, ⟨0, ⟨0, 1⟩⟩)], [⟨3000, ⟨3000, 1⟩⟩]⟩),
       (4, ⟨[(3, ⟨3000, ⟨3000, 1⟩⟩), (0, ⟨0, ⟨0, 1⟩⟩)], [⟨3100, ⟨3100, 2⟩⟩]⟩),
       (5, ⟨[(4, ⟨3100, ⟨3100, 2⟩⟩), (3, ⟨3000, ⟨3000, 1⟩⟩), (0, ⟨0, ⟨0, 1⟩⟩)], [⟨4500, ⟨5900, 2⟩⟩]⟩)] }

end Example

end Principia

namespace Principia

/-! ## The calls of `Solve` made by `Prolong` -/

/-- The values of `problem.t_final` with which the loop of `Ephemeris::Prolong`
calls `Solve`, in the order of the calls, as far as the fuel goes. -/
def ProlongLoopSolveCalls (I : Collaborators) : Nat → Ephemeris → Instant → Instant → List Instant
  | 0, _, _, _ => []
  | fuel + 1, e, t, problem_t_final =>
    if e.t_max < t then
      let r := I.fixed_Solve e problem_t_final
      problem_t_final ::
        ProlongLoopSolveCalls I fuel
          { e with last_state_time := r.1, t_max := r.2.1, massive_bodies := r.2.2 }
          t (problem_t_final + e.step_)
    else []

/-- The values of `problem.t_final` with which `Ephemeris::Prolong` calls
`Solve`, in the order of the calls. -/
def ProlongSolveCalls (I : Collaborators) (fuel : Nat) (e : Ephemeris) (t : Instant) :
    List Instant :=
  ProlongLoopSolveCalls I fuel e t
    (if t ≤ e.last_state_time then e.last_state_time + e.step_ else t)

namespace Example

/-- An ephemeris with step 1, integrated up to time 10, all of it covered by the
continuous trajectories. -/
def ephemeris_at_10 : Ephemeris :=
  { step_ := 1, last_state_time := 10, t_max := 10, massive_bodies := 0 }

/-- An ephemeris with step 1, integrated up to time 10, whose continuous
trajectories only cover the times up to 4. -/
def ephemeris_behind : Ephemeris :=
  { step_ := 1, last_state_time := 10, t_max := 4, massive_bodies := 0 }

/-- The ephemeris `ephemeris` prolonged to time 1000. -/
def ephemeris_at_1000 : Ephemeris :=
  { step_ := 1, last_state_time := 1000, t_max := 1000, massive_bodies := 1 }

/-- The memory `memory` after a flow of its trajectory up to time 1000. -/
def memory_at_1000 : Forest :=
  [(0, { ancestry := [], timeline := [⟨0, ⟨0, 1⟩⟩, ⟨1000, ⟨1000, 1⟩⟩] })]

end Example

end Principia

namespace Principia

/-! ## The shape of the memory around a flight plan -/

/-- The samples of a timeline come in strictly increasing time. -/
def Increasing (l : List Sample) : Prop :=
  l.Pairwise (fun a b => a.time < b.time)

instance (l : List Sample) : Decidable (Increasing l) :=
  inferInstanceAs (Decidable (l.Pairwise (fun (a b : Sample) => a.time < b.time)))

/-- The memory `G` differs from `F` at most at the address `p` and at the
trajectories that descend from `p`. -/
def Forest.Untouched (F G : Forest) (p : Nat) : Prop :=
  ∀ k, k ≠ p → (∀ d, F.deref k = some d → ∀ a ∈ d.ancestry, a.1 ≠ p) → G.deref k = F.deref k

/-- The trajectories at the addresses below `m` have their ancestors below `m`. -/
def Forest.Closed (F : Forest) (m : Nat) : Prop :=
  ∀ k d, k < m → F.deref k = some d → ∀ a ∈ d.ancestry, a.1 < m

/-- The trajectories at the addresses `chain`, last segment first, are forks of
one another: the last of the list is a fork of the trajectory `r` at address
`root` at a point with time `t0`, every other one is a fork of the next one in
the list at its last point, and the samples of each come in increasing time. -/
def Forest.Chained (F : Forest) (m root : Nat) (r : DiscreteTrajectory) (t0 : Instant) :
    List Nat → Prop
  | [] => False
  | [k] => m ≤ k ∧ ∃ d s, F.deref k = some d ∧ d.ancestry = (root, s) :: r.ancestry ∧
      s.time = t0 ∧ (s ∈ r.timeline ∨ r.Fork = some s) ∧ Increasing d.timeline
  | b :: a :: rest => a < b ∧
      (∃ da db s, F.deref a = some da ∧ F.deref b = some db ∧
        db.ancestry = (a, s) :: da.ancestry ∧ da.last = some s ∧ Increasing db.timeline) ∧
      Forest.Chained F m root r t0 (a :: rest)

/-- The memory `F` around the segments `chain` (last segment first) of a flight
plan whose initial time is `t0`: the trajectory `r` at the address `root` and
its ancestors are below `m`, the segments are not, `r` has a point at `t0`,
and the segments are chained from `root`. -/
structure Forest.Invariant (F : Forest) (m root : Nat) (r : DiscreteTrajectory) (t0 : Instant)
    (chain : List Nat) : Prop where
  root_lt : root < m
  root_deref : F.deref root = some r
  closed : F.Closed m
  sample : ∃ s ∈ F.unified r, s.time = t0
  chained : F.Chained m root r t0 chain

namespace FlightPlan

/-- The invariant of the memory around the segments of a flight plan. -/
def Invariant (m root : Nat) (r : DiscreteTrajectory) (p : FlightPlan) : Prop :=
  p.trajectories.Invariant m root r p.initial_time_ p.segments_.reverse

/-- The flight plans that the public interface can produce on the trajectory
at the address `root`: the result of the constructor on `root`, and the result
of any call of a public mutator on such a plan, provided the call returns. -/
inductive ReachableFrom (I : Collaborators) (root : Nat) : FlightPlan → Prop where
  | new {fuel : Nat} {F : Forest} {initial_time final_time : Instant}
      {initial_mass : Mass} {ephemeris : Ephemeris} {parameters : AdaptiveStepParameters}
      {p : FlightPlan}
      (h : FlightPlan.new I fuel F root initial_time final_time initial_mass ephemeris
        parameters = .returns p) : ReachableFrom I root p
  | Append {fuel : Nat} {p q : FlightPlan} {burn : Burn} {r : Bool}
      (hp : ReachableFrom I root p) (h : Append I fuel p burn = .returns (q, r)) :
      ReachableFrom I root q
  | ReplaceLast {fuel : Nat} {p q : FlightPlan} {burn : Burn} {r : Bool}
      (hp : ReachableFrom I root p) (h : ReplaceLast I fuel p burn = .returns (q, r)) :
      ReachableFrom I root q
  | RemoveLast {fuel : Nat} {p q : FlightPlan}
      (hp : ReachableFrom I root p) (h : RemoveLast I fuel p = .returns q) :
      ReachableFrom I root q
  | SetFinalTime {fuel : Nat} {p q : FlightPlan} {t : Instant} {r : Bool}
      (hp : ReachableFrom I root p) (h : SetFinalTime I fuel p t = .returns (q, r)) :
      ReachableFrom I root q
  | SetAdaptiveStepParameters {fuel : Nat} {p q : FlightPlan}
      {parameters : AdaptiveStepParameters} {r : Bool}
      (hp : ReachableFrom I root p)
      (h : SetAdaptiveStepParameters I fuel p parameters = .returns (q, r)) :
      ReachableFrom I root q

end FlightPlan

/-! ## Serialization of the flight plan -/

/-- The constructor of `Ephemeris<Frame>::AdaptiveStepParameters`, with its
three `CHECK_LT`. -/
def AdaptiveStepParameters.new (integrator : Nat) (max_steps : Int)
    (length_integration_tolerance : Length) (speed_integration_tolerance : Speed) :
    Outcome AdaptiveStepParameters := do
  CHECK (0 < max_steps)
  CHECK ((0 : Length) < length_integration_tolerance)
  CHECK ((0 : Speed) < speed_integration_tolerance)
  .returns
    { integrator_ := integrator
      max_steps_ := max_steps
      length_integration_tolerance_ := length_integration_tolerance
      speed_integration_tolerance_ := speed_integration_tolerance }

namespace serialization

/-- The message `serialization::Ephemeris::AdaptiveStepParameters`; the records
of the integrator and of the quantities are taken to round-trip, and stand for
themselves. -/
structure AdaptiveStepParameters where
  integrator : Nat
  max_steps : Int
  length_integration_tolerance : Length
  speed_integration_tolerance : Speed
deriving DecidableEq, Repr

/-- Modelled from the spec: the record of a manœuvre, which is taken to
round-trip: the values of the manœuvre, without the trajectory recorded by
`set_coasting_trajectory`, which is a pointer of the running program. -/
structure Manoeuvre where
  thrust : Int
  specific_impulse : Int
  initial_mass : Mass
  final_mass : Mass
  initial_time : Instant
  final_time : Instant
  is_singular : Bool
deriving DecidableEq, Repr

/-- The message `serialization::FlightPlan`, as far as `WriteToMessage` and
`ReadFromMessage` use it: the fields written since Буняковский, and those read
from older messages, namely the segments (pointers to trajectories, here their
addresses), the integrator and the two tolerances.  A field of message type
that has not been set is `none`. -/
structure FlightPlan where
  initial_mass : Mass
  initial_time : Instant
  final_time : Instant
  adaptive_step_parameters : Option AdaptiveStepParameters
  manoeuvre : List Manoeuvre
  segment : List Nat
  integrator : Option Nat
  length_integration_tolerance : Option Length
  speed_integration_tolerance : Option Speed
deriving DecidableEq, Repr

end serialization

/-- The method `Ephemeris<Frame>::AdaptiveStepParameters::WriteToMessage`. -/
def AdaptiveStepParameters.WriteToMessage (p : AdaptiveStepParameters) :
    serialization.AdaptiveStepParameters :=
  { integrator := p.integrator_
    max_steps := p.max_steps_
    length_integration_tolerance := p.length_integration_tolerance_
    speed_integration_tolerance := p.speed_integration_tolerance_ }

/-- The method `Ephemeris<Frame>::AdaptiveStepParameters::ReadFromMessage`. -/
def AdaptiveStepParameters.ReadFromMessage (message : serialization.AdaptiveStepParameters) :
    Outcome AdaptiveStepParameters :=
  AdaptiveStepParameters.new message.integrator message.max_steps
    message.length_integration_tolerance message.speed_integration_tolerance

/-- Modelled from the spec: `NavigationManœuvre::WriteToMessage`. -/
def NavigationManoeuvre.WriteToMessage (m : NavigationManoeuvre) : serialization.Manoeuvre :=
  { thrust := m.thrust
    specific_impulse := m.specific_impulse
    initial_mass := m.initial_mass
    final_mass := m.final_mass
    initial_time := m.initial_time
    final_time := m.final_time
    is_singular := m.is_singular }

/-- Modelled from the spec: `NavigationManœuvre::ReadFromMessage`; the manœuvre
that is read has no coasting trajectory yet. -/
def NavigationManoeuvre.ReadFromMessage (message : serialization.Manoeuvre)
    (_ephemeris : Ephemeris) : NavigationManoeuvre :=
  { thrust := message.thrust
    specific_impulse := message.specific_impulse
    initial_mass := message.initial_mass
    final_mass := message.final_mass
    initial_time := message.initial_time
    final_time := message.final_time
    is_singular := message.is_singular
    coasting_trajectory := none }

namespace FlightPlan

/-- The method `FlightPlan::WriteToMessage`. -/
def WriteToMessage (p : FlightPlan) : serialization.FlightPlan :=
  { initial_mass := p.initial_mass_
    initial_time := p.initial_time_
    final_time := p.final_time_
    adaptive_step_parameters := some p.adaptive_step_parameters_.WriteToMessage
    manoeuvre := p.manoeuvres_.map NavigationManoeuvre.WriteToMessage
    segment := []
    integrator := none
    length_integration_tolerance := none
    speed_integration_tolerance := none }

/-- The value `is_pre_буняковский` of `FlightPlan::ReadFromMessage`. -/
def is_pre_bunyakovsky (message : serialization.FlightPlan) : Bool :=
  decide (message.segment.length > 0)

/-- The loop over the manœuvres of a message older than Буняковский in
`FlightPlan::ReadFromMessage`, from the index `i` on. -/
def ReadLegacyLoop (ephemeris : Ephemeris) :
    Nat → List serialization.Manoeuvre → FlightPlan → Outcome FlightPlan
  | _, [], p => .returns p
  | i, manoeuvre :: rest, p => do
    let read := NavigationManoeuvre.ReadFromMessage manoeuvre ephemeris
    let p1 := { p with manoeuvres_ := p.manoeuvres_ ++ [read] }
    let m ← Outcome.ofOption p1.manoeuvres_[i]?
    let segment ← Outcome.ofOption p1.segments_[2 * i]?
    ReadLegacyLoop ephemeris (i + 1) rest
      { p1 with manoeuvres_ := p1.manoeuvres_.set i (m.set_coasting_trajectory segment) }

/-- The method `FlightPlan::ReadFromMessage`, on the trajectory at address
`root` of the memory `F`; the result is `none` for a null pointer. -/
def ReadFromMessage (I : Collaborators) (fuel : Nat) (message : serialization.FlightPlan)
    (F : Forest) (root : Nat) (ephemeris : Ephemeris) : Outcome (Option FlightPlan) := do
  let adaptive_step_parameters ←
    (if is_pre_bunyakovsky message then do
      let integrator ← Outcome.ofOption message.integrator
      let length_integration_tolerance ← Outcome.ofOption message.length_integration_tolerance
      let speed_integration_tolerance ← Outcome.ofOption message.speed_integration_tolerance
      AdaptiveStepParameters.new integrator 1000 length_integration_tolerance
        speed_integration_tolerance
    else do
      -- |CHECK(message.has_adaptive_step_parameters())|
      let record ← Outcome.ofOption message.adaptive_step_parameters
      AdaptiveStepParameters.ReadFromMessage record)
  let flight_plan ← FlightPlan.new I fuel F root message.initial_time message.final_time
    message.initial_mass ephemeris adaptive_step_parameters
  if is_pre_bunyakovsky message then do
    -- The constructor has forked a segment.  Remove it.
    let p1 ← PopLastSegment flight_plan
    let p2 := { p1 with segments_ := p1.segments_ ++ message.segment }
    let p3 ← ReadLegacyLoop ephemeris 0 message.manoeuvre p2
    let (p4, ok) ← RecomputeSegments I fuel p3
    if !ok then .returns none else .returns (some p4)
  else do
    let read := message.manoeuvre.map
      (fun manoeuvre => NavigationManoeuvre.ReadFromMessage manoeuvre ephemeris)
    let p1 := { flight_plan with manoeuvres_ := flight_plan.manoeuvres_ ++ read }
    let e ← Prolong I fuel p1.ephemeris_ p1.start_of_last_coast
    let p2 := { p1 with ephemeris_ := e }
    let (p3, ok) ← RecomputeSegments I fuel p2
    CHECK (ok = true)
    .returns (some p3)

end FlightPlan

namespace Example

/-- The plan read from the message written by `one_burn`, with the root at
address 0 of the memory of `one_burn`: its segments are new forks of the root. -/
def one_burn_read : FlightPlan :=
  { initial_time_ := 0
    final_time_ := 50
    initial_mass_ := 1000
    adaptive_step_parameters_ := parameters 100
    manoeuvres_ := [⟨3, 1, 1000, 995, 10, 15, false, some 5⟩]
    segments_ := [5, 6, 7]
    anomalous_segments_ := 0
    ephemeris_ := ⟨1, 50, 50, 1⟩
    trajectories :=
      [(0, ⟨[], [⟨0, ⟨0, 1⟩⟩]⟩),
       (2, ⟨[(0, ⟨0, ⟨0, 1⟩⟩)], [⟨10, ⟨10, 1⟩⟩]⟩),
       (3, ⟨[(2, ⟨10, ⟨10, 1⟩⟩), (0, ⟨0, ⟨0, 1⟩⟩)], [⟨15, ⟨15, 4⟩⟩]⟩),
       (4, ⟨[(3, ⟨15, ⟨15, 4⟩⟩), (2, ⟨10, ⟨10, 1⟩⟩), (0, ⟨0, ⟨0, 1⟩⟩)], [⟨50, ⟨155, 4⟩⟩]⟩),
       (5, ⟨[(0, ⟨0, ⟨0, 1⟩⟩)], [⟨10, ⟨10, 1⟩⟩]⟩),
       (6, ⟨[(5, ⟨10, ⟨10, 1⟩⟩), (0, ⟨0, ⟨0, 1⟩⟩)], [⟨15, ⟨15, 4⟩⟩]⟩),
       (7, ⟨[(6, ⟨15, ⟨15, 4⟩⟩), (5, ⟨10, ⟨10, 1⟩⟩), (0, ⟨0, ⟨0, 1⟩⟩)], [⟨50, ⟨155, 4⟩⟩]⟩)] }

end Example

end Principia

namespace Principia

/-! ## The ephemeris in detail

The class `physics::Ephemeris` with its bodies, its continuous trajectories, its
last state, its checkpoints and its acceleration kernel.  `Principia.Ephemeris`
above keeps of all this the times that the flight plan depends on.

* Coordinates are taken in a field `K`, in which the arithmetic is exact; the
  square root of the quantity library is a parameter `Sqrt`.
* A pointer to a massive body is the `address` of the body; the bodies are
  constant, so that a pointer is kept together with what it points to.
* The class `ContinuousTrajectory` is not among the sources.  An object of it is
  represented by how it was made and by the calls of its mutating methods that
  it has received since; what it answers to `t_max()` is a collaborator.  A
  pointer to a continuous trajectory is the key under which
  `bodies_to_trajectories_` owns it.
* The unit of time is the second. -/

namespace physics

variable {K : Type}

/-- The coordinates x, y, z of a vector in the frame. -/
abbrev Vector (K : Type) := K × K × K

/-- The inner product of the geometry library, which is not among the sources:
the Euclidean one. -/
def InnerProduct [Field K] (v w : Vector K) : K :=
  v.1 * w.1 + v.2.1 * w.2.1 + v.2.2 * w.2.2

/-- The class `DegreesOfFreedom<Frame>` of a massive body. -/
structure DegreesOfFreedom (K : Type) where
  position : Vector K
  velocity : Vector K
deriving DecidableEq, Repr

/-- What `OblateBody<Frame>` adds to a massive body. -/
structure OblateBody (K : Type) where
  j2_over_μ : K
  axis : Vector K
deriving DecidableEq, Repr

/-- The class `MassiveBody`, at its address; `oblateness` is there when the
object is an `OblateBody<Frame>`. -/
structure MassiveBody (K : Type) where
  address : Nat
  gravitational_parameter : K
  oblateness : Option (OblateBody K)
deriving DecidableEq, Repr

/-- The method `is_oblate`. -/
def MassiveBody.is_oblate (body : MassiveBody K) : Bool :=
  body.oblateness.isSome

/-- The cast `static_cast<OblateBody<Frame> const&>(body)`, undefined on a body
that is not oblate. -/
def MassiveBody.as_oblate (body : MassiveBody K) : Outcome (OblateBody K) :=
  Outcome.ofOption body.oblateness

/-- The function `Order2ZonalEffect`. -/
def Order2ZonalEffect [Field K] (body : OblateBody K) (r : Vector K)
    (one_over_r_squared one_over_r_cubed : K) : Vector K :=
  let axis := body.axis
  let r_axis_projection := InnerProduct axis r
  let j2_over_r_fifth := body.j2_over_μ * one_over_r_cubed * one_over_r_squared
  let axis_effect := (-3 * j2_over_r_fifth * r_axis_projection) • axis
  let radial_effect :=
    (j2_over_r_fifth *
      (-1.5 + 7.5 * r_axis_projection * r_axis_projection * one_over_r_squared)) • r
  axis_effect + radial_effect

/-- The statements `acceleration_on_b1 -= μ2 * effect;` and
`acceleration_on_b2 += μ1 * effect;`, on the pair of the two accelerations. -/
def ApplyEffect [Field K] (μ1 μ2 : K) (effect : Vector K) (a : Vector K × Vector K) :
    Vector K × Vector K :=
  (a.1 - μ2 • effect, a.2 + μ1 • effect)

/-- The body of the loop of
`ComputeGravitationalAccelerationByMassiveBodyOnMassiveBodies`, for one `b2`. -/
def PairStep [Field K] (Sqrt : K → K) (body1_is_oblate body2_is_oblate : Bool)
    (body1 : MassiveBody K) (b1 : Nat) (bodies2 : List (MassiveBody K)) (b2_begin : Nat)
    (positions : List (Vector K)) (accelerations : List (Vector K)) (b2 : Nat) :
    Outcome (List (Vector K)) := do
  let acceleration_on_b1 ← Outcome.ofOption accelerations[b1]?
  let μ1 := body1.gravitational_parameter
  let acceleration_on_b2 ← Outcome.ofOption accelerations[b2]?
  let body2 ← Outcome.ofOption bodies2[b2 - b2_begin]?
  let μ2 := body2.gravitational_parameter
  let q1 ← Outcome.ofOption positions[b1]?
  let q2 ← Outcome.ofOption positions[b2]?
  let Δq : Vector K := q1 - q2
  let Δq_squared := InnerProduct Δq Δq
  let one_over_Δq_cubed := Sqrt Δq_squared / (Δq_squared * Δq_squared)
  let μ1_over_Δq_cubed := μ1 * one_over_Δq_cubed
  let μ2_over_Δq_cubed := μ2 * one_over_Δq_cubed
  let a : Vector K × Vector K :=
    (acceleration_on_b1 - μ2_over_Δq_cubed • Δq, acceleration_on_b2 + μ1_over_Δq_cubed • Δq)
  let a ← (if body1_is_oblate || body2_is_oblate then do
      let one_over_Δq_squared := 1 / Δq_squared
      let a ← (if body1_is_oblate then do
          let oblate1 ← body1.as_oblate
          let order_2_zonal_effect1 :=
            Order2ZonalEffect oblate1 Δq one_over_Δq_squared one_over_Δq_cubed
          Outcome.returns (ApplyEffect μ1 μ2 order_2_zonal_effect1 a)
        else Outcome.returns a)
      (if body2_is_oblate then do
          let oblate2 ← body2.as_oblate
          let order_2_zonal_effect2 :=
            Order2ZonalEffect oblate2 Δq one_over_Δq_squared one_over_Δq_cubed
          Outcome.returns (ApplyEffect μ1 μ2 order_2_zonal_effect2 a)
        else Outcome.returns a)
    else Outcome.returns a)
  Outcome.returns ((accelerations.set b1 a.1).set b2 a.2)

/-- The values of `b2` that the loop
`for (b2 = std::max(b1 + 1, b2_begin); b2 < b2_end; ++b2)` goes through. -/
def LoopRange (b1 b2_begin b2_end : Nat) : List Nat :=
  List.range' (max (b1 + 1) b2_begin) (b2_end - max (b1 + 1) b2_begin)

/-- The function `ComputeGravitationalAccelerationByMassiveBodyOnMassiveBodies`;
the two template parameters come first. -/
def ComputeGravitationalAccelerationByMassiveBodyOnMassiveBodies [Field K] (Sqrt : K → K)
    (body1_is_oblate body2_is_oblate : Bool) (body1 : MassiveBody K) (b1 : Nat)
    (bodies2 : List (MassiveBody K)) (b2_begin b2_end : Nat)
    (positions : List (Vector K)) (accelerations : List (Vector K)) :
    Outcome (List (Vector K)) := do
  let _ ← Outcome.ofOption accelerations[b1]?
  (LoopRange b1 b2_begin b2_end).foldlM
    (PairStep Sqrt body1_is_oblate body2_is_oblate body1 b1 bodies2 b2_begin positions)
    accelerations

/-- One call of a mutating method of a continuous trajectory. -/
inductive ContinuousTrajectoryCall (K : Type) where
  | Append (time : Instant) (degrees_of_freedom : DegreesOfFreedom K)
  | ForgetAfter (time : Instant) (degrees_of_freedom : DegreesOfFreedom K)
  | ForgetBefore (time : Instant)
deriving DecidableEq, Repr

/-- An object of the class `ContinuousTrajectory<Frame>`: the step and the
tolerance it was constructed with, and the calls of its mutating methods since,
oldest first. -/
structure ContinuousTrajectory (K : Type) where
  step_ : Time
  tolerance_ : K
  calls : List (ContinuousTrajectoryCall K)
deriving DecidableEq, Repr

/-- The class `NewtonianMotionEquation::SystemState`. -/
structure SystemState (K : Type) where
  time : Instant
  positions : List (Vector K)
  velocities : List (Vector K)
deriving DecidableEq, Repr

/-- The members `positions[index]` and `velocities[index]` of a state, as
degrees of freedom. -/
def SystemState.degrees_of_freedom (state : SystemState K) (index : Nat) :
    Outcome (DegreesOfFreedom K) := do
  let position ← Outcome.ofOption state.positions[index]?
  let velocity ← Outcome.ofOption state.velocities[index]?
  .returns { position := position, velocity := velocity }

/-- The class `Ephemeris<Frame>::FixedStepParameters`; the integrator is
identified by a number. -/
structure FixedStepParameters where
  integrator_ : Nat
  step_ : Time
deriving DecidableEq, Repr

/-- The data members of the class `Ephemeris<Frame>`.  The two maps are lists of
pairs, with the address of the body as key. -/
structure Ephemeris (K : Type) where
  bodies_ : List (MassiveBody K)
  unowned_bodies_ : List (MassiveBody K)
  unowned_bodies_indices_ : List (Nat × Nat)
  oblate_bodies_ : List (MassiveBody K)
  spherical_bodies_ : List (MassiveBody K)
  bodies_to_trajectories_ : List (Nat × ContinuousTrajectory K)
  trajectories_ : List Nat
  fitting_tolerance_ : K
  parameters_ : FixedStepParameters
  last_state_ : SystemState K
  intermediate_states_ : List (SystemState K)
  number_of_oblate_bodies_ : Nat
  number_of_spherical_bodies_ : Nat
deriving DecidableEq, Repr

/-- The constant `kMaxTimeBetweenIntermediateStates`, 180 days. -/
def kMaxTimeBetweenIntermediateStates : Time := 180 * 86400

/-- The function `FindOrDie` on a map. -/
def FindOrDie {V : Type} (map : List (Nat × V)) (key : Nat) : Outcome V :=
  Outcome.ofOption ((map.find? (fun kv => kv.1 = key)).map (fun kv => kv.2))

/-- What the calls `map.emplace(key, value)` leave in the map: nothing is
inserted when the key is there. -/
def emplace {V : Type} (map : List (Nat × V)) (key : Nat) (value : V) : List (Nat × V) :=
  if map.any (fun kv => kv.1 = key) then map else map ++ [(key, value)]

namespace Ephemeris

/-- The method `trajectory(body)`. -/
def trajectory (e : Ephemeris K) (body : MassiveBody K) : Outcome (ContinuousTrajectory K) :=
  FindOrDie e.bodies_to_trajectories_ body.address

/-- A call of a mutating method through a pointer to a continuous trajectory. -/
def call (e : Ephemeris K) (trajectory : Nat) (c : ContinuousTrajectoryCall K) :
    Outcome (Ephemeris K) :=
  if e.bodies_to_trajectories_.any (fun kv => kv.1 = trajectory) then
    .returns { e with bodies_to_trajectories_ := e.bodies_to_trajectories_.map (fun kv =>
      if kv.1 = trajectory then (kv.1, { kv.2 with calls := kv.2.calls ++ [c] }) else kv) }
  else .aborts

/-- The loop `for (int i = 0; i < bodies.size(); ++i)` of the constructor, from
`i` on. -/
def ConstructorLoop (initial_time : Instant) :
    Nat → List (MassiveBody K) → List (DegreesOfFreedom K) → Ephemeris K → Outcome (Ephemeris K)
  | _, [], _, e => .returns e
  | _, _ :: _, [], _ => .aborts
  | i, body :: bodies, degrees_of_freedom :: initial_state, e => do
    let e1 := { e with
      unowned_bodies_ := e.unowned_bodies_ ++ [body]
      unowned_bodies_indices_ := emplace e.unowned_bodies_indices_ body.address i }
    -- |bodies_to_trajectories_.emplace(...)| and |CHECK(inserted.second)|.
    CHECK (e1.bodies_to_trajectories_.any (fun kv => kv.1 = body.address) = false)
    let made : ContinuousTrajectory K :=
      { step_ := e1.parameters_.step_, tolerance_ := e1.fitting_tolerance_, calls := [] }
    let e2 := { e1 with
      bodies_to_trajectories_ := emplace e1.bodies_to_trajectories_ body.address made }
    let trajectory := body.address
    let e3 ← e2.call trajectory (.Append initial_time degrees_of_freedom)
    let e4 : Ephemeris K :=
      if body.is_oblate then
        { e3 with
          oblate_bodies_ := body :: e3.oblate_bodies_
          bodies_ := body :: e3.bodies_
          trajectories_ := trajectory :: e3.trajectories_
          last_state_ := { e3.last_state_ with
            positions := degrees_of_freedom.position :: e3.last_state_.positions
            velocities := degrees_of_freedom.velocity :: e3.last_state_.velocities }
          number_of_oblate_bodies_ := e3.number_of_oblate_bodies_ + 1 }
      else
        { e3 with
          spherical_bodies_ := e3.spherical_bodies_ ++ [body]
          bodies_ := e3.bodies_ ++ [body]
          trajectories_ := e3.trajectories_ ++ [trajectory]
          last_state_ := { e3.last_state_ with
            positions := e3.last_state_.positions ++ [degrees_of_freedom.position]
            velocities := e3.last_state_.velocities ++ [degrees_of_freedom.velocity] }
          number_of_spherical_bodies_ := e3.number_of_spherical_bodies_ + 1 }
    ConstructorLoop initial_time (i + 1) bodies initial_state e4

/-- The constructor `Ephemeris<Frame>::Ephemeris`. -/
def new (bodies : List (MassiveBody K)) (initial_state : List (DegreesOfFreedom K))
    (initial_time : Instant) (fitting_tolerance : K) (parameters : FixedStepParameters) :
    Outcome (Ephemeris K) := do
  CHECK (bodies.isEmpty = false)
  CHECK (bodies.length = initial_state.length)
  ConstructorLoop initial_time 0 bodies initial_state
    { bodies_ := []
      unowned_bodies_ := []
      unowned_bodies_indices_ := []
      oblate_bodies_ := []
      spherical_bodies_ := []
      bodies_to_trajectories_ := []
      trajectories_ := []
      fitting_tolerance_ := fitting_tolerance
      parameters_ := parameters
      last_state_ := { time := initial_time, positions := [], velocities := [] }
      intermediate_states_ := []
      number_of_oblate_bodies_ := 0
      number_of_spherical_bodies_ := 0 }

/-- The method `bodies`. -/
def bodies (e : Ephemeris K) : List (MassiveBody K) :=
  e.unowned_bodies_

/-- The method `serialization_index_for_body`. -/
def serialization_index_for_body (e : Ephemeris K) (body : MassiveBody K) : Outcome Nat :=
  FindOrDie e.unowned_bodies_indices_ body.address

/-- The method `body_for_serialization_index`. -/
def body_for_serialization_index (e : Ephemeris K) (serialization_index : Nat) :
    Outcome (MassiveBody K) :=
  Outcome.ofOption e.unowned_bodies_[serialization_index]?

/-- The method `ComputeMassiveBodiesGravitationalAccelerations`. -/
def ComputeMassiveBodiesGravitationalAccelerations [Field K] (Sqrt : K → K) (e : Ephemeris K)
    (_t : Instant) (positions : List (Vector K)) (accelerations : List (Vector K)) :
    Outcome (List (Vector K)) := do
  let accelerations : List (Vector K) := List.replicate accelerations.length 0
  let accelerations ← (List.range e.number_of_oblate_bodies_).foldlM
    (fun accelerations b1 => do
      let body1 ← Outcome.ofOption e.oblate_bodies_[b1]?
      let accelerations ← ComputeGravitationalAccelerationByMassiveBodyOnMassiveBodies Sqrt
        true true body1 b1 e.oblate_bodies_ 0 e.number_of_oblate_bodies_
        positions accelerations
      ComputeGravitationalAccelerationByMassiveBodyOnMassiveBodies Sqrt
        true false body1 b1 e.spherical_bodies_ e.number_of_oblate_bodies_
        (e.number_of_oblate_bodies_ + e.number_of_spherical_bodies_)
        positions accelerations)
    accelerations
  (List.range' e.number_of_oblate_bodies_ e.number_of_spherical_bodies_).foldlM
    (fun accelerations b1 => do
      let body1 ← Outcome.ofOption e.spherical_bodies_[b1 - e.number_of_oblate_bodies_]?
      ComputeGravitationalAccelerationByMassiveBodyOnMassiveBodies Sqrt
        false false body1 b1 e.spherical_bodies_ e.number_of_oblate_bodies_
        (e.number_of_oblate_bodies_ + e.number_of_spherical_bodies_)
        positions accelerations)
    accelerations

end Ephemeris

end physics

end Principia

namespace Principia

namespace physics

variable {K : Type}

/-- The constructor of `Ephemeris<Frame>::FixedStepParameters`. -/
def FixedStepParameters.new (integrator : Nat) (step : Time) : Outcome FixedStepParameters := do
  CHECK ((0 : Time) < step)
  .returns { integrator_ := integrator, step_ := step }

/-- What the class `Ephemeris` uses without the sources at hand defining it.

* `Sqrt` is the square root of the quantity library.
* `t_max trajectory` is what `trajectory->t_max()` answers, `⊥` being -∞.
* `fixed_Solve integrator compute_acceleration initial_state t_final step` is
  `integrator->Solve(problem, step)` on the massive bodies: the states that it
  publishes through `problem.append_state`, in order. -/
structure Collaborators (K : Type) where
  Sqrt : K → K
  t_max : ContinuousTrajectory K → WithBot Instant
  fixed_Solve : Nat → (Instant → List (Vector K) → List (Vector K) → Outcome (List (Vector K))) →
    SystemState K → Instant → Time → List (SystemState K)

/-- Modelled from the C++ standard: `std::lower_bound` on the checkpoints with
the comparison `left.time.value < right`, as an index.  On a range that the
comparison partitions it is the first position at which the comparison is
false; on another range the behaviour is undefined. -/
def lower_bound (states : List (SystemState K)) (t : Instant) : Outcome Nat :=
  if (states.dropWhile (fun left => decide (left.time < t))).all
      (fun left => !decide (left.time < t)) then
    .returns (states.findIdx (fun left => !decide (left.time < t)))
  else .aborts

namespace Ephemeris

/-- The method `t_max`. -/
def t_max (C : Collaborators K) (e : Ephemeris K) : Outcome (WithBot Instant) := do
  let first ← Outcome.ofOption e.bodies_to_trajectories_.head?
  .returns (e.bodies_to_trajectories_.foldl (fun t_max pair => min t_max (C.t_max pair.2))
    (C.t_max first.2))

/-- The loops `for (auto const& trajectory : trajectories_)` that call a method
on each trajectory, with an `index` that counts them. -/
def CallAll (call_at : Nat → Outcome (ContinuousTrajectoryCall K)) :
    Nat → List Nat → Ephemeris K → Outcome (Ephemeris K)
  | _, [], e => .returns e
  | index, trajectory :: rest, e => do
    let c ← call_at index
    let e1 ← e.call trajectory c
    CallAll call_at (index + 1) rest e1

/-- The method `ForgetAfter`. -/
def ForgetAfter (e : Ephemeris K) (t : Instant) : Outcome (Ephemeris K) := do
  let it ← lower_bound e.intermediate_states_ t
  if it = e.intermediate_states_.length then .returns e
  else do
    let at_it ← Outcome.ofOption e.intermediate_states_[it]?
    CHECK (t ≤ at_it.time)
    let e1 ← CallAll
      (fun index => do
        let degrees_of_freedom ← at_it.degrees_of_freedom index
        .returns (.ForgetAfter at_it.time degrees_of_freedom))
      0 e.trajectories_ e
    .returns { e1 with
      last_state_ := at_it
      intermediate_states_ := e1.intermediate_states_.take it }

/-- The method `ForgetBefore`. -/
def ForgetBefore (e : Ephemeris K) (t : Instant) : Ephemeris K :=
  { e with bodies_to_trajectories_ := e.bodies_to_trajectories_.map (fun pair =>
      (pair.1, { pair.2 with calls := pair.2.calls ++ [.ForgetBefore t] })) }

/-- The method `AppendMassiveBodiesState`. -/
def AppendMassiveBodiesState (C : Collaborators K) (e : Ephemeris K) (state : SystemState K) :
    Outcome (Ephemeris K) := do
  let e1 := { e with last_state_ := state }
  let e2 ← CallAll
    (fun index => do
      let degrees_of_freedom ← state.degrees_of_freedom index
      .returns (.Append state.time degrees_of_freedom))
    0 e1.trajectories_ e1
  CHECK (e2.trajectories_.isEmpty = false)
  let front ← Outcome.ofOption e2.trajectories_.head?
  let front_trajectory ← FindOrDie e2.bodies_to_trajectories_ front
  let t_max := C.t_max front_trajectory
  if t_max = (state.time : WithBot Instant) then do
    let t_last_intermediate_state : WithBot Instant :=
      match e2.intermediate_states_.getLast? with
      | none => ⊥
      | some back => (back.time : WithBot Instant)
    CHECK (t_last_intermediate_state ≤ t_max)
    -- |t_max - t_last_intermediate_state|, infinite when there is no checkpoint.
    let exceeds : Bool :=
      match e2.intermediate_states_.getLast? with
      | none => true
      | some back => decide (state.time - back.time > kMaxTimeBetweenIntermediateStates)
    if exceeds then
      .returns { e2 with intermediate_states_ := e2.intermediate_states_ ++ [state] }
    else .returns e2
  else .returns e2

/-- The loop `while (t_max() < t) { Solve(problem, step_); problem.t_final += step_; }`
of `Prolong`, on fuel. -/
def ProlongLoop [Field K] (C : Collaborators K) :
    Nat → Ephemeris K → Instant → Instant → Outcome (Ephemeris K)
  | 0, e, t, _ => do
    let t_max ← e.t_max C
    if t_max < (t : WithBot Instant) then .diverges else .returns e
  | fuel + 1, e, t, problem_t_final => do
    let t_max ← e.t_max C
    if t_max < (t : WithBot Instant) then do
      let published := C.fixed_Solve e.parameters_.integrator_
        (ComputeMassiveBodiesGravitationalAccelerations C.Sqrt e)
        e.last_state_ problem_t_final e.parameters_.step_
      let e1 ← published.foldlM (AppendMassiveBodiesState C) e
      ProlongLoop C fuel e1 t (problem_t_final + e.parameters_.step_)
    else .returns e

/-- The method `Prolong`. -/
def Prolong [Field K] (C : Collaborators K) (fuel : Nat) (e : Ephemeris K) (t : Instant) :
    Outcome (Ephemeris K) :=
  ProlongLoop C fuel e t
    (if t ≤ e.last_state_.time then e.last_state_.time + e.parameters_.step_ else t)

end Ephemeris

/-- One record `serialization::Plugin::CelestialAndProperties`, as
`ReadFromPreBourbakiMessages` reads it: the body that
`MassiveBody::ReadFromMessage` makes, at its address, the points of the history
in the order of the iteration, and the time of the last point of the
prolongation. -/
structure CelestialAndProperties (K : Type) where
  body : MassiveBody K
  history : List (Instant × DegreesOfFreedom K)
  prolongation_last_time : Instant
deriving DecidableEq, Repr

namespace Ephemeris

/-- The loop `for (; it != history->End(); ++it)` of
`ReadFromPreBourbakiMessages`, on the points from `it` on; it gives the final
values of `last_time` and `last_degrees_of_freedom`. -/
def ReplayLoop (step : Time) (continuous_trajectory : Nat) :
    List (Instant × DegreesOfFreedom K) → Instant → DegreesOfFreedom K → Ephemeris K →
    Outcome (Instant × DegreesOfFreedom K × Ephemeris K)
  | [], last_time, last_degrees_of_freedom, e =>
    .returns (last_time, last_degrees_of_freedom, e)
  | it :: rest, last_time, last_degrees_of_freedom, e =>
    let duration_since_last_time : Time := it.1 - last_time
    if duration_since_last_time = step then do
      let e1 ← e.call continuous_trajectory (.Append it.1 it.2)
      ReplayLoop step continuous_trajectory rest it.1 it.2 e1
    else if duration_since_last_time > step then
      .returns (last_time, last_degrees_of_freedom, e)
    else ReplayLoop step continuous_trajectory rest last_time last_degrees_of_freedom e

/-- The loop `for (int i = 0; i < histories.size(); ++i)` of
`ReadFromPreBourbakiMessages`, from `i` on; `last_state_time` lists the times
inserted into the set of that name. -/
def HistoriesLoop (step : Time) :
    Nat → List (List (Instant × DegreesOfFreedom K)) → List Instant → Ephemeris K →
    Outcome (List Instant × Ephemeris K)
  | _, [], last_state_time, e => .returns (last_state_time, e)
  | i, history :: rest, last_state_time, e => do
    let body ← Outcome.ofOption e.unowned_bodies_[i]?
    let j ← e.serialization_index_for_body body
    let continuous_trajectory ← Outcome.ofOption e.trajectories_[j]?
    let it ← Outcome.ofOption history.head?
    let (last_time, last_degrees_of_freedom, e1) ←
      ReplayLoop step continuous_trajectory history it.1 it.2 e
    CHECK (j < e1.last_state_.positions.length ∧ j < e1.last_state_.velocities.length)
    let e2 := { e1 with last_state_ := { e1.last_state_ with
      positions := e1.last_state_.positions.set j last_degrees_of_freedom.position
      velocities := e1.last_state_.velocities.set j last_degrees_of_freedom.velocity } }
    HistoriesLoop step (i + 1) rest (last_state_time ++ [last_time]) e2

/-- The function `ReadFromPreBourbakiMessages`.  A `std::set` of instants is the
list of its elements without repetition. -/
def ReadFromPreBourbakiMessages [Field K] (C : Collaborators K) (fuel : Nat)
    (messages : List (CelestialAndProperties K)) (fitting_tolerance : K)
    (fixed_parameters : FixedStepParameters) : Outcome (Ephemeris K) := do
  let bodies := messages.map (fun message => message.body)
  let histories := messages.map (fun message => message.history)
  let history_begin ← messages.mapM (fun message => Outcome.ofOption message.history.head?)
  let initial_state := history_begin.map (fun it => it.2)
  let initial_time := (history_begin.map (fun it => it.1)).dedup
  let final_time := (messages.map (fun message => message.prolongation_last_time)).dedup
  CHECK (1 = initial_time.length)
  CHECK (1 = final_time.length)
  let initial_time_cbegin ← Outcome.ofOption initial_time.head?
  let final_time_cbegin ← Outcome.ofOption final_time.head?
  let ephemeris ← Ephemeris.new bodies initial_state initial_time_cbegin fitting_tolerance
    fixed_parameters
  let (last_state_time, ephemeris) ←
    HistoriesLoop fixed_parameters.step_ 0 histories [] ephemeris
  CHECK (1 = last_state_time.dedup.length)
  let last_state_time_cbegin ← Outcome.ofOption last_state_time.dedup.head?
  let ephemeris := { ephemeris with
    last_state_ := { ephemeris.last_state_ with time := last_state_time_cbegin } }
  Prolong C fuel ephemeris final_time_cbegin

end Ephemeris

/-! ### A small system of massive bodies -/

namespace Example

/-- A spherical body at the address 10. -/
def sun : MassiveBody ℚ :=
  { address := 10, gravitational_parameter := 4, oblateness := none }

/-- An oblate body at the address 20, with its axis along z. -/
def earth : MassiveBody ℚ :=
  { address := 20, gravitational_parameter := 2,
    oblateness := some { j2_over_μ := 3, axis := (0, 0, 1) } }

/-- A spherical body at the address 30. -/
def moon : MassiveBody ℚ :=
  { address := 30, gravitational_parameter := 1, oblateness := none }

/-- Collaborators: the square root is exact on the squares of integers; a
continuous trajectory reaches the time of its last call; the integrator
publishes the state it is given at the final time, once. -/
def collaborators : Collaborators ℚ where
  Sqrt := fun x => Rat.sqrt x
  t_max := fun trajectory =>
    match trajectory.calls.getLast? with
    | some (.Append time _) => (time : WithBot Instant)
    | some (.ForgetAfter time _) => (time : WithBot Instant)
    | _ => ⊥
  fixed_Solve := fun _ _ initial_state t_final _ => [{ initial_state with time := t_final }]

/-- Degrees of freedom at rest at the point `(x, 0, 0)`. -/
def at_rest (x : ℚ) : DegreesOfFreedom ℚ :=
  { position := (x, 0, 0), velocity := (0, 0, 0) }

/-- Two records read in pre-Bourbaki compatibility mode, the spherical body
first: histories from time 0 to time 10 with the step 10. -/
def celestials : List (CelestialAndProperties ℚ) :=
  [{ body := sun, history := [(0, at_rest 1), (10, at_rest 2)], prolongation_last_time := 10 },
   { body := earth, history := [(0, at_rest 5), (10, at_rest 6)], prolongation_last_time := 10 }]

end Example

end physics

end Principia

namespace Principia

namespace physics

variable {K : Type}

/-! ### What the kernel goes through -/

/-- The norm of a vector, `Sqrt(InnerProduct(v, v))`. -/
def Norm [Field K] (Sqrt : K → K) (v : Vector K) : K :=
  Sqrt (InnerProduct v v)

namespace Ephemeris

/-- The members that the acceleration kernel reads fit together: `bodies_` is
`oblate_bodies_` followed by `spherical_bodies_`, the two counts are the lengths
of these, and the bodies are oblate in the former and only there. -/
def KernelConsistent (e : Ephemeris K) : Prop :=
  e.bodies_ = e.oblate_bodies_ ++ e.spherical_bodies_ ∧
  e.number_of_oblate_bodies_ = e.oblate_bodies_.length ∧
  e.number_of_spherical_bodies_ = e.spherical_bodies_.length ∧
  (∀ body ∈ e.oblate_bodies_, body.is_oblate = true) ∧
  (∀ body ∈ e.spherical_bodies_, body.is_oblate = false)

/-- The gravitational parameter of the body at the index `i` of `bodies_`. -/
def gravitational_parameter_at [Zero K] (e : Ephemeris K) (i : Nat) : K :=
  match e.bodies_[i]? with
  | some body => body.gravitational_parameter
  | none => 0

/-- The sum of the accelerations of the bodies of `bodies_`, each multiplied by
the gravitational parameter of its body. -/
def WeightedSum [Field K] (e : Ephemeris K) (accelerations : List (Vector K)) : Vector K :=
  ((e.bodies_.zip accelerations).map (fun p => p.1.gravitational_parameter • p.2)).sum

/-- Newton's law: the acceleration that the body at the index `j` gives to the
body at the index `i`, `μ_j (q_j - q_i) / ‖q_j - q_i‖³`, for the `positions` q. -/
def NewtonianAcceleration [Field K] (Sqrt : K → K) (e : Ephemeris K)
    (positions : List (Vector K)) (j i : Nat) : Vector K :=
  (e.gravitational_parameter_at j / Norm Sqrt (positions.getD j 0 - positions.getD i 0) ^ 3) •
    (positions.getD j 0 - positions.getD i 0)

/-- What the visit of the pair `(b1, b2)` of bodies that are not oblate adds to
the acceleration at the index `i`: `μ1 Δq Sqrt(Δq²) / (Δq² Δq²)` for `i = b2` and
the opposite of `μ2 Δq Sqrt(Δq²) / (Δq² Δq²)` for `i = b1`. -/
def SphericalContribution [Field K] (Sqrt : K → K) (e : Ephemeris K)
    (positions : List (Vector K)) (b1 b2 i : Nat) : Vector K :=
  let Δq := positions.getD b1 0 - positions.getD b2 0
  let Δq_squared := InnerProduct Δq Δq
  let one_over_Δq_cubed := Sqrt Δq_squared / (Δq_squared * Δq_squared)
  (if i = b2 then (e.gravitational_parameter_at b1 * one_over_Δq_cubed) • Δq else 0) +
  (if i = b1 then -((e.gravitational_parameter_at b2 * one_over_Δq_cubed) • Δq) else 0)

/-- The pairs `(b1, b2)` for which `ComputeMassiveBodiesGravitationalAccelerations`
executes the body of the loop of
`ComputeGravitationalAccelerationByMassiveBodyOnMassiveBodies`, in the order of
execution: for each oblate `b1` the oblate/oblate pass then the
oblate/spherical pass, then for each spherical `b1` the spherical/spherical
pass. -/
def VisitedPairs (e : Ephemeris K) : List (Nat × Nat) :=
  (List.range e.number_of_oblate_bodies_).flatMap (fun b1 =>
    (LoopRange b1 0 e.number_of_oblate_bodies_).map (fun b2 => (b1, b2)) ++
    (LoopRange b1 e.number_of_oblate_bodies_
      (e.number_of_oblate_bodies_ + e.number_of_spherical_bodies_)).map (fun b2 => (b1, b2))) ++
  (List.range' e.number_of_oblate_bodies_ e.number_of_spherical_bodies_).flatMap (fun b1 =>
    (LoopRange b1 e.number_of_oblate_bodies_
      (e.number_of_oblate_bodies_ + e.number_of_spherical_bodies_)).map (fun b2 => (b1, b2)))

/-- The body of the loop of
`ComputeGravitationalAccelerationByMassiveBodyOnMassiveBodies` for the pair
`(b1, b2)` of indices into `bodies_`, each body being taken as oblate when its
index is below `number_of_oblate_bodies_`. -/
def VisitPair [Field K] (Sqrt : K → K) (e : Ephemeris K) (positions : List (Vector K))
    (accelerations : List (Vector K)) (pair : Nat × Nat) : Outcome (List (Vector K)) := do
  let body1 ← Outcome.ofOption e.bodies_[pair.1]?
  PairStep Sqrt (decide (pair.1 < e.number_of_oblate_bodies_))
    (decide (pair.2 < e.number_of_oblate_bodies_)) body1 pair.1 e.bodies_ 0
    positions accelerations pair.2

end Ephemeris

end physics

end Principia

namespace Principia

namespace physics

namespace Example

/-- A spherical body at the address 40. -/
def mars : MassiveBody ℚ :=
  { address := 40, gravitational_parameter := 3, oblateness := none }

/-- The oblateness of the earth of the system: an axis along z. -/
def oblate_earth : OblateBody ℚ :=
  { j2_over_μ := 3, axis := (0, 0, 1) }

/-- A displacement of norm 5. -/
def displacement : Vector ℚ :=
  (3, 4, 0)

/-- A square root that is exact on 1, 4 and 9. -/
def exact_sqrt : ℚ → ℚ :=
  fun x => if x = 1 then 1 else if x = 4 then 2 else if x = 9 then 3 else 0

/-- The continuous trajectory made with step 10 and tolerance 1 that has
received the point at rest at `(x, 0, 0)` at time 0. -/
def trajectory_from (x : ℚ) : ContinuousTrajectory ℚ :=
  { step_ := 10, tolerance_ := 1, calls := [.Append 0 (at_rest x)] }

/-- The ephemeris that the constructor makes of the sun, the moon and Mars, none
of them oblate, at rest at the abscissas 0, 1 and 3 at time 0. -/
def spherical_system : Ephemeris ℚ :=
  { bodies_ := [sun, moon, mars]
    unowned_bodies_ := [sun, moon, mars]
    unowned_bodies_indices_ := [(10, 0), (30, 1), (40, 2)]
    oblate_bodies_ := []
    spherical_bodies_ := [sun, moon, mars]
    bodies_to_trajectories_ :=
      [(10, trajectory_from 0), (30, trajectory_from 1), (40, trajectory_from 3)]
    trajectories_ := [10, 30, 40]
    fitting_tolerance_ := 1
    parameters_ := { integrator_ := 0, step_ := 10 }
    last_state_ :=
      { time := 0
        positions := [(0, 0, 0), (1, 0, 0), (3, 0, 0)]
        velocities := [(0, 0, 0), (0, 0, 0), (0, 0, 0)] }
    intermediate_states_ := []
    number_of_oblate_bodies_ := 0
    number_of_spherical_bodies_ := 3 }

/-- The ephemeris that the constructor makes of the sun, the earth, which is
oblate, and the moon, given in that order, at rest at the abscissas 0, 1 and 3
at time 0: the earth comes first in `bodies_`. -/
def system : Ephemeris ℚ :=
  { bodies_ := [earth, sun, moon]
    unowned_bodies_ := [sun, earth, moon]
    unowned_bodies_indices_ := [(10, 0), (20, 1), (30, 2)]
    oblate_bodies_ := [earth]
    spherical_bodies_ := [sun, moon]
    bodies_to_trajectories_ :=
      [(10, trajectory_from 0), (20, trajectory_from 1), (30, trajectory_from 3)]
    trajectories_ := [20, 10, 30]
    fitting_tolerance_ := 1
    parameters_ := { integrator_ := 0, step_ := 10 }
    last_state_ :=
      { time := 0
        positions := [(1, 0, 0), (0, 0, 0), (3, 0, 0)]
        velocities := [(0, 0, 0), (0, 0, 0), (0, 0, 0)] }
    intermediate_states_ := []
    number_of_oblate_bodies_ := 1
    number_of_spherical_bodies_ := 2 }

/-- A state of three bodies at the time `time`, at the abscissas `x0`, `x1` and
`x2`, with the speed 1 along x. -/
def state_at (time : Instant) (x0 x1 x2 : ℚ) : SystemState ℚ :=
  { time := time
    positions := [(x0, 0, 0), (x1, 0, 0), (x2, 0, 0)]
    velocities := [(1, 0, 0), (1, 0, 0), (1, 0, 0)] }

/-- The ephemeris `system` integrated up to the time 250, with checkpoints at
the times 100 and 200. -/
def system_with_checkpoints : Ephemeris ℚ :=
  { system with
    last_state_ := state_at 250 250 251 252
    intermediate_states_ := [state_at 100 100 101 102, state_at 200 200 201 202] }

/-- What `ForgetAfter(150)` makes of `system_with_checkpoints`. -/
def system_rewound : Ephemeris ℚ :=
  { system with
    bodies_to_trajectories_ :=
      [(10, { step_ := 10, tolerance_ := 1,
              calls := [.Append 0 (at_rest 0),
                        .ForgetAfter 200 { position := (201, 0, 0), velocity := (1, 0, 0) }] }),
       (20, { step_ := 10, tolerance_ := 1,
              calls := [.Append 0 (at_rest 1),
                        .ForgetAfter 200 { position := (200, 0, 0), velocity := (1, 0, 0) }] }),
       (30, { step_ := 10, tolerance_ := 1,
              calls := [.Append 0 (at_rest 3),
                        .ForgetAfter 200 { position := (202, 0, 0), velocity := (1, 0, 0) }] })]
    last_state_ := state_at 200 200 201 202
    intermediate_states_ := [state_at 100 100 101 102] }

/-- What `ReadFromPreBourbakiMessages` makes of `celestials`: the trajectory of
the sun has received the point of the history of the earth at time 10, and that
of the earth the point of the history of the sun. -/
def celestials_read : Ephemeris ℚ :=
  { bodies_ := [earth, sun]
    unowned_bodies_ := [sun, earth]
    unowned_bodies_indices_ := [(10, 0), (20, 1)]
    oblate_bodies_ := [earth]
    spherical_bodies_ := [sun]
    bodies_to_trajectories_ :=
      [(10, { step_ := 10, tolerance_ := 1,
              calls := [.Append 0 (at_rest 1), .Append 10 (at_rest 6)] }),
       (20, { step_ := 10, tolerance_ := 1,
              calls := [.Append 0 (at_rest 5), .Append 10 (at_rest 2)] })]
    trajectories_ := [20, 10]
    fitting_tolerance_ := 1
    parameters_ := { integrator_ := 0, step_ := 10 }
    last_state_ :=
      { time := 10
        positions := [(2, 0, 0), (6, 0, 0)]
        velocities := [(0, 0, 0), (0, 0, 0)] }
    intermediate_states_ := []
    number_of_oblate_bodies_ := 1
    number_of_spherical_bodies_ := 1 }

end Example

end physics

end Principia

namespace Principia

/-! ## The flow with a fixed step -/

/-- The class `NewtonianMotionEquation::SystemState` for massless bodies. -/
structure SystemState where
  time : Instant
  positions : List Int
  velocities : List Int
deriving DecidableEq, Repr

/-- What `Ephemeris::FlowWithFixedStep` uses without the sources at hand
defining it.

* `empty e` is what `empty()` answers, which depends on the continuous
  trajectories.
* `Solve e integrator intrinsic_accelerations initial_state t_final step` is
  `parameters.integrator_->Solve(problem, parameters.step_)` on the massless
  bodies: the states that it publishes through `problem.append_state`, in
  order. -/
structure FixedStepCollaborators where
  empty : Ephemeris → Bool
  Solve : Ephemeris → Nat → List (Option NavigationManoeuvre) → SystemState → Instant → Time →
    List SystemState

/-- The loop `for (auto const& trajectory : trajectories)` of
`Ephemeris::FlowWithFixedStep`, which fills `initial_state`. -/
def InitialStateLoop (F : Forest) : List Nat → SystemState → Outcome SystemState
  | [], initial_state => .returns initial_state
  | trajectory :: rest, initial_state => do
    let trajectory_last ← Outcome.ofOption ((F.deref trajectory).bind DiscreteTrajectory.last)
    let last_degrees_of_freedom := trajectory_last.degrees_of_freedom
    InitialStateLoop F rest
      { time := trajectory_last.time
        positions := initial_state.positions ++ [last_degrees_of_freedom.position]
        velocities := initial_state.velocities ++ [last_degrees_of_freedom.velocity] }

/-- The function `Ephemeris::AppendMasslessBodiesState`, from `index` on. -/
def AppendMasslessBodiesState (state : SystemState) : Nat → List Nat → Forest → Outcome Forest
  | _, [], F => .returns F
  | index, trajectory :: rest, F => do
    let position ← Outcome.ofOption state.positions[index]?
    let velocity ← Outcome.ofOption state.velocities[index]?
    let F1 ← F.Append trajectory ⟨state.time, ⟨position, velocity⟩⟩
    AppendMasslessBodiesState state (index + 1) rest F1

/-- The method `Ephemeris::FlowWithFixedStep` on the trajectories at the
addresses `trajectories`. -/
def FlowWithFixedStep (I : Collaborators) (J : FixedStepCollaborators) (fuel : Nat)
    (e : Ephemeris) (F : Forest) (trajectories : List Nat)
    (intrinsic_accelerations : List (Option NavigationManoeuvre)) (t : Instant)
    (parameters : physics.FixedStepParameters) : Outcome (Ephemeris × Forest) := do
  let e1 ← (if J.empty e || decide (t > e.t_max) then Prolong I fuel e t else .returns e)
  let initial_state ← InitialStateLoop F trajectories { time := 0, positions := [], velocities := [] }
  -- |problem.t_final = t|
  let published := J.Solve e1 parameters.integrator_ intrinsic_accelerations initial_state t
    parameters.step_
  let F1 ← published.foldlM
    (fun F state => AppendMasslessBodiesState state 0 trajectories F) F
  .returns (e1, F1)

namespace Example

/-- Collaborators of the flow with a fixed step: the ephemeris is empty until it
has integrated anything, and the integrator publishes the final state only. -/
def fixed_step_collaborators : FixedStepCollaborators where
  empty := fun e => decide (e.massive_bodies = 0)
  Solve := fun _ _ _ initial_state t_final _ =>
    [{ time := t_final
       positions := initial_state.positions.zipWith
         (fun x v => x + (t_final - initial_state.time) * v) initial_state.velocities
       velocities := initial_state.velocities }]

/-- A burn from time 10 to time 15, with thrust 30: too much work for an
integrator that is allowed 100 steps. -/
def burn_hard : Burn :=
  { thrust := 30, specific_impulse := 1, initial_time := 10, Δv := 5 }

/-- The plan `fresh_plan` after `Append` of `burn_hard`, which returns true: the
burn stops at time 11, and its segment and the coast after it are anomalous. -/
def failed_burn : FlightPlan :=
  { initial_time_ := 0
    final_time_ := 50
    initial_mass_ := 1000
    adaptive_step_parameters_ := parameters 100
    manoeuvres_ := [⟨30, 1, 1000, 995, 10, 15, false, some 2⟩]
    segments_ := [2, 3, 4]
    anomalous_segments_ := 2
    ephemeris_ := ⟨1, 50, 50, 1⟩
    trajectories :=
      [(0, ⟨[], [⟨0, ⟨0, 1⟩⟩]⟩),
       (2, ⟨[(0, ⟨0, ⟨0, 1⟩⟩)], [⟨10, ⟨10, 1⟩⟩]⟩),
       (3, ⟨[(2, ⟨10, ⟨10, 1⟩⟩), (0, ⟨0, ⟨0, 1⟩⟩)], [⟨11, ⟨11, 1⟩⟩]⟩),
       (4, ⟨[(3, ⟨11, ⟨11, 1⟩⟩), (2, ⟨10, ⟨10, 1⟩⟩), (0, ⟨0, ⟨0, 1⟩⟩)], []⟩)] }

/-- The plan `failed_burn` after the trial coast towards a manœuvre at time 20:
the memory has a new fork of the burn, at the address 5, which reaches time 20. -/
def failed_burn_trial : FlightPlan :=
  { failed_burn with
    trajectories := failed_burn.trajectories ++
      [(5, ⟨[(3, ⟨11, ⟨11, 1⟩⟩), (2, ⟨10, ⟨10, 1⟩⟩), (0, ⟨0, ⟨0, 1⟩⟩)], [⟨20, ⟨20, 1⟩⟩]⟩)] }

end Example

namespace physics

variable {K : Type}

/-! ## Sequences of calls that change the checkpoints -/

/-- A call of one of the two methods of the ephemeris that write
`intermediate_states_`. -/
inductive CheckpointCall (K : Type) where
  | AppendMassiveBodiesState (state : SystemState K)
  | ForgetAfter (t : Instant)
deriving DecidableEq, Repr

/-- The times of the states of the calls of `AppendMassiveBodiesState` among
`calls`, in order. -/
def AppendedTimes : List (CheckpointCall K) → List Instant
  | [] => []
  | .AppendMassiveBodiesState state :: rest => state.time :: AppendedTimes rest
  | .ForgetAfter _ :: rest => AppendedTimes rest

namespace Ephemeris

/-- The calls `calls` made on the ephemeris one after the other. -/
def RunCalls (C : Collaborators K) : List (CheckpointCall K) → Ephemeris K → Outcome (Ephemeris K)
  | [], e => .returns e
  | .AppendMassiveBodiesState state :: rest, e => do
    let e1 ← e.AppendMassiveBodiesState C state
    RunCalls C rest e1
  | .ForgetAfter t :: rest, e => do
    let e1 ← e.ForgetAfter t
    RunCalls C rest e1

end Ephemeris

/-! ## Apsides

The times of the points of the discrete trajectories that `ComputeApsides`
reads and writes are taken in the field `K`, as the coordinates are: an apsis
falls between two points. -/

/-- Modelled from the spec: the class `Sign` of the quantity library, which is
not among the sources, as its member `negative_`: the sign of a quantity is
negative when the quantity is below zero, zero being non-negative. -/
def Sign [LinearOrderedField K] (x : K) : Bool :=
  decide (x < 0)

/-- Modelled from the spec: the method `Sign::Negative`. -/
def Sign.Negative (sign : Bool) : Bool :=
  sign

/-- Modelled from the spec: the function `Barycentre` of the geometry library,
which is not among the sources, on two points: the points, each multiplied by
its weight, over the sum of the weights. -/
def Barycentre [Field K] (points : K × K) (weights : K × K) : K :=
  (points.1 * weights.1 + points.2 * weights.2) / (weights.1 + weights.2)

/-- Modelled from the spec: the points of a discrete trajectory, or of a range
of one, in the order of the iteration. -/
abbrev DiscreteTrajectory (K : Type) := List (K × DegreesOfFreedom K)

/-- Modelled from the spec: `Append(t, state)`, which pushes a point whose
time is strictly after the last point. -/
def DiscreteTrajectory.Append [LinearOrderedField K] (trajectory : DiscreteTrajectory K)
    (time : K) (degrees_of_freedom : DegreesOfFreedom K) : Outcome (DiscreteTrajectory K) :=
  match trajectory.getLast? with
  | none => .returns (trajectory ++ [(time, degrees_of_freedom)])
  | some last =>
    if last.1 < time then .returns (trajectory ++ [(time, degrees_of_freedom)]) else .aborts

/-- What `ComputeApsides` uses without the sources at hand defining it.

* `EvaluateDegreesOfFreedom trajectory time` is what
  `trajectory->EvaluateDegreesOfFreedom(time, &hint)` answers.
* `FindExtrema times values derivatives` is `FindExtrema()` on the
  `Hermite3<Instant, Square<Length>>` made of these arguments: the elements of
  the set, in increasing order.
* `Evaluate times positions velocities t` and `EvaluateDerivative` are the
  methods of these names of the `Hermite3<Instant, Position<Frame>>` made of
  these arguments. -/
structure ApsidesCollaborators (K : Type) where
  EvaluateDegreesOfFreedom : ContinuousTrajectory K → K → DegreesOfFreedom K
  FindExtrema : K × K → K × K → K × K → List K
  Evaluate : K × K → Vector K × Vector K → Vector K × Vector K → K → Vector K
  EvaluateDerivative : K × K → Vector K × Vector K → Vector K × Vector K → K → Vector K

/-- The value of `squared_distance` of `ComputeApsides` at a point of the range. -/
def SquaredDistance [Field K] (A : ApsidesCollaborators K)
    (body_trajectory : ContinuousTrajectory K) (it : K × DegreesOfFreedom K) : K :=
  let body_degrees_of_freedom := A.EvaluateDegreesOfFreedom body_trajectory it.1
  let displacement := it.2.position - body_degrees_of_freedom.position
  InnerProduct displacement displacement

/-- The value of `squared_distance_derivative` of `ComputeApsides` at a point of
the range. -/
def SquaredDistanceDerivative [Field K] (A : ApsidesCollaborators K)
    (body_trajectory : ContinuousTrajectory K) (it : K × DegreesOfFreedom K) : K :=
  let body_degrees_of_freedom := A.EvaluateDegreesOfFreedom body_trajectory it.1
  let displacement := it.2.position - body_degrees_of_freedom.position
  let velocity := it.2.velocity - body_degrees_of_freedom.velocity
  2 * InnerProduct displacement velocity

/-- The loop `for (auto const& extremum : extrema)` of `ComputeApsides`: the
final values of `apsis_time`, which starts as a default instant, and of
`valid_extrema`. -/
def ValidExtrema [LinearOrderedField K] (previous_time time : K) (extrema : List K) : K × Int :=
  extrema.foldl
    (fun r extremum =>
      if extremum ≥ previous_time ∧ extremum ≤ time then (extremum, r.2 + 1) else r)
    (0, 0)

/-- The value of `apsis_time` of `ComputeApsides` when the sign of the derivative
has changed. -/
def ApsisTime [LinearOrderedField K] (A : ApsidesCollaborators K) (previous_time time : K)
    (previous_squared_distance squared_distance : K)
    (previous_squared_distance_derivative squared_distance_derivative : K) : K :=
  let extrema := A.FindExtrema (previous_time, time)
    (previous_squared_distance, squared_distance)
    (previous_squared_distance_derivative, squared_distance_derivative)
  let r := ValidExtrema previous_time time extrema
  if r.2 ≠ 1 then
    Barycentre (time, previous_time)
      (previous_squared_distance_derivative, -squared_distance_derivative)
  else r.1

/-- The value of `apsis_degrees_of_freedom` of `ComputeApsides`. -/
def ApsisDegreesOfFreedom (A : ApsidesCollaborators K) (previous_time time : K)
    (previous_degrees_of_freedom degrees_of_freedom : DegreesOfFreedom K) (apsis_time : K) :
    DegreesOfFreedom K :=
  { position := A.Evaluate (previous_time, time)
      (previous_degrees_of_freedom.position, degrees_of_freedom.position)
      (previous_degrees_of_freedom.velocity, degrees_of_freedom.velocity) apsis_time
    velocity := A.EvaluateDerivative (previous_time, time)
      (previous_degrees_of_freedom.position, degrees_of_freedom.position)
      (previous_degrees_of_freedom.velocity, degrees_of_freedom.velocity) apsis_time }

/-- The variables of `ComputeApsides` that change in its loop, the two output
trajectories, and `appended`, which is not a variable of the code: the calls
of `Append` made so far, in the order in which they were made, each with
`true` when it was made on `apoapsides`, and with the time it was given. -/
structure ApsidesState (K : Type) where
  previous_time : Option K
  previous_degrees_of_freedom : Option (DegreesOfFreedom K)
  previous_squared_distance : Option K
  previous_squared_distance_derivative : Option K
  apoapsides : DiscreteTrajectory K
  periapsides : DiscreteTrajectory K
  appended : List (Bool × K × DegreesOfFreedom K)

/-- The body of the loop `for (auto it = begin; it != end; ++it)` of
`ComputeApsides`. -/
def ApsidesStep [LinearOrderedField K] (A : ApsidesCollaborators K)
    (body_trajectory : ContinuousTrajectory K) (s : ApsidesState K)
    (it : K × DegreesOfFreedom K) : Outcome (ApsidesState K) := do
  let time := it.1
  let degrees_of_freedom := it.2
  let squared_distance := SquaredDistance A body_trajectory it
  let squared_distance_derivative := SquaredDistanceDerivative A body_trajectory it
  let s1 ← (match s.previous_squared_distance_derivative with
    | none => Outcome.returns s
    | some previous_squared_distance_derivative =>
      if Sign squared_distance_derivative != Sign previous_squared_distance_derivative then do
        -- |CHECK(previous_time && previous_degrees_of_freedom && previous_squared_distance)|
        let previous_time ← Outcome.ofOption s.previous_time
        let previous_degrees_of_freedom ← Outcome.ofOption s.previous_degrees_of_freedom
        let previous_squared_distance ← Outcome.ofOption s.previous_squared_distance
        let apsis_time := ApsisTime A previous_time time previous_squared_distance
          squared_distance previous_squared_distance_derivative squared_distance_derivative
        let apsis_degrees_of_freedom := ApsisDegreesOfFreedom A previous_time time
          previous_degrees_of_freedom degrees_of_freedom apsis_time
        if Sign.Negative (Sign squared_distance_derivative) then do
          let apoapsides ← s.apoapsides.Append apsis_time apsis_degrees_of_freedom
          Outcome.returns { s with
            apoapsides := apoapsides
            appended := s.appended ++ [(true, apsis_time, apsis_degrees_of_freedom)] }
        else do
          let periapsides ← s.periapsides.Append apsis_time apsis_degrees_of_freedom
          Outcome.returns { s with
            periapsides := periapsides
            appended := s.appended ++ [(false, apsis_time, apsis_degrees_of_freedom)] }
      else Outcome.returns s)
  .returns { s1 with
    previous_time := some time
    previous_degrees_of_freedom := some degrees_of_freedom
    previous_squared_distance := some squared_distance
    previous_squared_distance_derivative := some squared_distance_derivative }

namespace Ephemeris

/-- The method `ComputeApsides` on the points `range` from `begin` to `end`; it
gives the two output trajectories and the calls of `Append` in the order in
which it made them. -/
def ComputeApsides [LinearOrderedField K] (A : ApsidesCollaborators K) (e : Ephemeris K)
    (body : MassiveBody K) (range : DiscreteTrajectory K)
    (apoapsides periapsides : DiscreteTrajectory K) :
    Outcome (DiscreteTrajectory K × DiscreteTrajectory K ×
      List (Bool × K × DegreesOfFreedom K)) := do
  let body_trajectory ← e.trajectory body
  let s ← range.foldlM (ApsidesStep A body_trajectory)
    { previous_time := none
      previous_degrees_of_freedom := none
      previous_squared_distance := none
      previous_squared_distance_derivative := none
      apoapsides := apoapsides
      periapsides := periapsides
      appended := [] }
  .returns (s.apoapsides, s.periapsides, s.appended)

end Ephemeris

/-- The pairs of adjacent points of a range at which the derivative of the
squared distance changes sign. -/
def SignChanges [LinearOrderedField K] (A : ApsidesCollaborators K)
    (body_trajectory : ContinuousTrajectory K) (range : DiscreteTrajectory K) :
    List ((K × DegreesOfFreedom K) × (K × DegreesOfFreedom K)) :=
  (range.zip range.tail).filter (fun pair =>
    Sign (SquaredDistanceDerivative A body_trajectory pair.2) !=
      Sign (SquaredDistanceDerivative A body_trajectory pair.1))

/-- The apsis between two adjacent points of a range: whether it is an
apoapsis, that is whether the derivative at the later point is negative, its
time and its degrees of freedom. -/
def Apsis [LinearOrderedField K] (A : ApsidesCollaborators K)
    (body_trajectory : ContinuousTrajectory K)
    (pair : (K × DegreesOfFreedom K) × (K × DegreesOfFreedom K)) :
    Bool × K × DegreesOfFreedom K :=
  let apsis_time := ApsisTime A pair.1.1 pair.2.1
    (SquaredDistance A body_trajectory pair.1) (SquaredDistance A body_trajectory pair.2)
    (SquaredDistanceDerivative A body_trajectory pair.1)
    (SquaredDistanceDerivative A body_trajectory pair.2)
  (decide (SquaredDistanceDerivative A body_trajectory pair.2 < 0), apsis_time,
    ApsisDegreesOfFreedom A pair.1.1 pair.2.1 pair.1.2 pair.2.2 apsis_time)

/-- The state of the loop of `ComputeApsides` when its body has last run on the
point `p`, with the outputs and the calls as given. -/
def ApsidesState.after [Field K] (A : ApsidesCollaborators K)
    (body_trajectory : ContinuousTrajectory K) (p : K × DegreesOfFreedom K)
    (apoapsides periapsides : DiscreteTrajectory K)
    (appended : List (Bool × K × DegreesOfFreedom K)) : ApsidesState K :=
  { previous_time := some p.1
    previous_degrees_of_freedom := some p.2
    previous_squared_distance := some (SquaredDistance A body_trajectory p)
    previous_squared_distance_derivative := some (SquaredDistanceDerivative A body_trajectory p)
    apoapsides := apoapsides
    periapsides := periapsides
    appended := appended }

/-! ## The acceleration of one massive body -/

/-- What `Order2ZonalEffect` gives for a body at the displacement `Δq`, with the
arguments that the body of the loop of
`ComputeGravitationalAccelerationByMassiveBodyOnMassiveBodies` passes to it;
zero for a body that is not oblate, for which it is not called. -/
def ZonalEffect [Field K] (Sqrt : K → K) (body : MassiveBody K) (Δq : Vector K) : Vector K :=
  match body.oblateness with
  | some oblate =>
    Order2ZonalEffect oblate Δq (1 / InnerProduct Δq Δq)
      (Sqrt (InnerProduct Δq Δq) / (InnerProduct Δq Δq * InnerProduct Δq Δq))
  | none => 0

/-- What the body of the loop of
`ComputeGravitationalAccelerationByMassiveBodyOnMassiveBodies` multiplies by `μ2`
and subtracts from the acceleration on `b1`, and multiplies by `μ1` and adds to
the acceleration on `b2`, when its template parameters tell which bodies are
oblate: `Δq / Δq³` and the effects of the oblateness of the two bodies. -/
def PairEffect [Field K] (Sqrt : K → K) (body1 body2 : MassiveBody K) (Δq : Vector K) :
    Vector K :=
  (Sqrt (InnerProduct Δq Δq) / (InnerProduct Δq Δq * InnerProduct Δq Δq)) • Δq +
    ZonalEffect Sqrt body1 Δq + ZonalEffect Sqrt body2 Δq

/-- The body of the loop `for (int b = 0; b < bodies_.size(); ++b)` of
`ComputeGravitationalAccelerationOnMassiveBody`, on `other_oblate_bodies`,
`other_spherical_bodies` and `positions`.  `EvaluatePosition trajectory t` is
what `trajectory->EvaluatePosition(t, &hint)` answers. -/
def OtherBodiesStep (EvaluatePosition : ContinuousTrajectory K → Instant → Vector K)
    (e : Ephemeris K) (body : MassiveBody K) (t : Instant)
    (s : List (MassiveBody K) × List (MassiveBody K) × List (Vector K)) (b : Nat) :
    Outcome (List (MassiveBody K) × List (MassiveBody K) × List (Vector K)) := do
  let other_body ← Outcome.ofOption e.bodies_[b]?
  let other_body_trajectory ← (Outcome.ofOption e.trajectories_[b]?).bind
    (FindOrDie e.bodies_to_trajectories_)
  if other_body.address = body.address then
    .returns (s.1, s.2.1, s.2.2.set 0 (EvaluatePosition other_body_trajectory t))
  else if b < e.number_of_oblate_bodies_ then do
    CHECK (other_body.is_oblate = true)
    .returns (s.1 ++ [other_body], s.2.1,
      s.2.2 ++ [EvaluatePosition other_body_trajectory t])
  else do
    CHECK (other_body.is_oblate = false)
    .returns (s.1, s.2.1 ++ [other_body],
      s.2.2 ++ [EvaluatePosition other_body_trajectory t])

namespace Ephemeris

/-- The method `ComputeGravitationalAccelerationOnMassiveBody`. -/
def ComputeGravitationalAccelerationOnMassiveBody [Field K] (Sqrt : K → K)
    (EvaluatePosition : ContinuousTrajectory K → Instant → Vector K)
    (e : Ephemeris K) (body : MassiveBody K) (t : Instant) : Outcome (Vector K) := do
  let body_is_oblate := body.is_oblate
  let accelerations : List (Vector K) := List.replicate e.bodies_.length 0
  -- Make room for |body|.
  let positions : List (Vector K) := [0]
  let s ← (List.range e.bodies_.length).foldlM (OtherBodiesStep EvaluatePosition e body t)
    ([], [], positions)
  let other_oblate_bodies := s.1
  let other_spherical_bodies := s.2.1
  let positions := s.2.2
  let accelerations ← (if body_is_oblate then do
      let accelerations ← ComputeGravitationalAccelerationByMassiveBodyOnMassiveBodies Sqrt
        true true body 0 other_oblate_bodies 1 (other_oblate_bodies.length + 1)
        positions accelerations
      ComputeGravitationalAccelerationByMassiveBodyOnMassiveBodies Sqrt
        true false body 0 other_spherical_bodies (other_oblate_bodies.length + 1)
        e.bodies_.length positions accelerations
    else do
      let accelerations ← ComputeGravitationalAccelerationByMassiveBodyOnMassiveBodies Sqrt
        false true body 0 other_oblate_bodies 1 (other_oblate_bodies.length + 1)
        positions accelerations
      ComputeGravitationalAccelerationByMassiveBodyOnMassiveBodies Sqrt
        false false body 0 other_spherical_bodies (other_oblate_bodies.length + 1)
        e.bodies_.length positions accelerations)
  Outcome.ofOption accelerations[0]?

/-- The positions at the time `t` of the bodies of `bodies_`, in this order, as
their trajectories give them; the origin for a trajectory that is not there. -/
def EvaluatedPositions (EvaluatePosition : ContinuousTrajectory K → Instant → Vector K)
    [Zero K] (e : Ephemeris K) (t : Instant) : List (Vector K) :=
  e.trajectories_.map (fun trajectory =>
    match FindOrDie e.bodies_to_trajectories_ trajectory with
    | .returns found => EvaluatePosition found t
    | _ => 0)

/-- What the visit of the pair `(b1, b2)` adds to the acceleration at the index
`i`: the effect of the pair multiplied by `μ1` for `i = b2`, and the opposite of
the effect multiplied by `μ2` for `i = b1`. -/
def Contribution [Field K] (Sqrt : K → K) (e : Ephemeris K) (positions : List (Vector K))
    (b1 b2 i : Nat) : Vector K :=
  match e.bodies_[b1]?, e.bodies_[b2]? with
  | some body1, some body2 =>
    (if i = b2 then body1.gravitational_parameter •
        PairEffect Sqrt body1 body2 (positions.getD b1 0 - positions.getD b2 0) else 0) +
    (if i = b1 then -(body2.gravitational_parameter •
        PairEffect Sqrt body1 body2 (positions.getD b1 0 - positions.getD b2 0)) else 0)
  | _, _ => 0

/-- The acceleration that the body at the index `j` of `bodies_` gives to the
body at the index `i`, by the effect of the pair with the body at `i` first. -/
def AccelerationBy [Field K] (Sqrt : K → K) (e : Ephemeris K) (positions : List (Vector K))
    (j i : Nat) : Vector K :=
  match e.bodies_[i]?, e.bodies_[j]? with
  | some body, some other_body =>
    -(other_body.gravitational_parameter •
      PairEffect Sqrt body other_body (positions.getD i 0 - positions.getD j 0))
  | _, _ => 0

end Ephemeris

namespace Example

/-- The cubic that has the values `q0` and `q1` and the derivatives `d0` and `d1`
at the times `t0` and `t1`, at the time `t`. -/
def hermite3 (t0 t1 q0 q1 d0 d1 t : ℚ) : ℚ :=
  let h := t1 - t0
  let s := (t - t0) / h
  q0 + d0 * h * s + (3 * (q1 - q0) - 2 * d0 * h - d1 * h) * s ^ 2 +
    (-2 * (q1 - q0) + d0 * h + d1 * h) * s ^ 3

/-- The derivative of that cubic at the time `t`. -/
def hermite3_derivative (t0 t1 q0 q1 d0 d1 t : ℚ) : ℚ :=
  let h := t1 - t0
  let s := (t - t0) / h
  (d0 * h + 2 * (3 * (q1 - q0) - 2 * d0 * h - d1 * h) * s +
    3 * (-2 * (q1 - q0) + d0 * h + d1 * h) * s ^ 2) / h

/-- Collaborators for `ComputeApsides`: the body stays at the origin; the
positions are interpolated by cubics; the extrema are found when the cubic is
of degree two, where the extremum is rational, and not otherwise, as happens
to the code when the problem is ill-conditioned. -/
def apsides_collaborators : ApsidesCollaborators ℚ where
  EvaluateDegreesOfFreedom := fun _ _ => at_rest 0
  FindExtrema := fun times values derivatives =>
    if 2 * (values.2 - values.1) = (derivatives.1 + derivatives.2) * (times.2 - times.1) ∧
        derivatives.1 ≠ derivatives.2 then
      [times.1 + (times.2 - times.1) * derivatives.1 / (derivatives.1 - derivatives.2)]
    else []
  Evaluate := fun times positions velocities t =>
    (hermite3 times.1 times.2 positions.1.1 positions.2.1 velocities.1.1 velocities.2.1 t,
      hermite3 times.1 times.2 positions.1.2.1 positions.2.2.1 velocities.1.2.1
        velocities.2.2.1 t,
      hermite3 times.1 times.2 positions.1.2.2 positions.2.2.2 velocities.1.2.2
        velocities.2.2.2 t)
  EvaluateDerivative := fun times positions velocities t =>
    (hermite3_derivative times.1 times.2 positions.1.1 positions.2.1 velocities.1.1
        velocities.2.1 t,
      hermite3_derivative times.1 times.2 positions.1.2.1 positions.2.2.1 velocities.1.2.1
        velocities.2.2.1 t,
      hermite3_derivative times.1 times.2 positions.1.2.2 positions.2.2.2 velocities.1.2.2
        velocities.2.2.2 t)

/-- Five points of a probe that moves on the axis of the abscissas, at the times
0 to 4: it comes closer to the origin, goes away twice, comes closer and goes
away. -/
def probe_range : DiscreteTrajectory ℚ :=
  [(0, { position := (2, 0, 0), velocity := (-1, 0, 0) }),
   (1, { position := (1, 0, 0), velocity := (1, 0, 0) }),
   (2, { position := (2, 0, 0), velocity := (1, 0, 0) }),
   (3, { position := (3, 0, 0), velocity := (-1, 0, 0) }),
   (4, { position := (3, 0, 0), velocity := (1, 0, 0) })]

/-- What `EvaluatePosition` answers for a body at rest: the position of the
first point that the trajectory has received. -/
def position_at_rest (trajectory : ContinuousTrajectory ℚ) (_t : Instant) : Vector ℚ :=
  match trajectory.calls with
  | .Append _ degrees_of_freedom :: _ => degrees_of_freedom.position
  | _ => 0

/-- Calls of `AppendMassiveBodiesState` and of `ForgetAfter` on `system`: the
states at the times 100 and 200, a state more than 180 days later,
`ForgetAfter(150)`, and a state another 180 days later. -/
def checkpoint_calls : List (CheckpointCall ℚ) :=
  [.AppendMassiveBodiesState (state_at 100 100 101 102),
   .AppendMassiveBodiesState (state_at 200 200 201 202),
   .AppendMassiveBodiesState (state_at 20000000 300 301 302),
   .ForgetAfter 150,
   .AppendMassiveBodiesState (state_at 40000000 400 401 402)]

/-- What the calls `checkpoint_calls` make of `system`: the state at the time
200 was not recorded, and `ForgetAfter(150)` has rewound to the checkpoint of
the third call and removed it. -/
def system_after_calls : Ephemeris ℚ :=
  { system with
    bodies_to_trajectories_ :=
      [(10, { step_ := 10, tolerance_ := 1,
              calls :=
                [.Append 0 (at_rest 0),
                 .Append 100 { position := (101, 0, 0), velocity := (1, 0, 0) },
                 .Append 200 { position := (201, 0, 0), velocity := (1, 0, 0) },
                 .Append 20000000 { position := (301, 0, 0), velocity := (1, 0, 0) },
                 .ForgetAfter 20000000 { position := (301, 0, 0), velocity := (1, 0, 0) },
                 .Append 40000000 { position := (401, 0, 0), velocity := (1, 0, 0) }] }),
       (20, { step_ := 10, tolerance_ := 1,
              calls :=
                [.Append 0 (at_rest 1),
                 .Append 100 { position := (100, 0, 0), velocity := (1, 0, 0) },
                 .Append 200 { position := (200, 0, 0), velocity := (1, 0, 0) },
                 .Append 20000000 { position := (300, 0, 0), velocity := (1, 0, 0) },
                 .ForgetAfter 20000000 { position := (300, 0, 0), velocity := (1, 0, 0) },
                 .Append 40000000 { position := (400, 0, 0), velocity := (1, 0, 0) }] }),
       (30, { step_ := 10, tolerance_ := 1,
              calls :=
                [.Append 0 (at_rest 3),
                 .Append 100 { position := (102, 0, 0), velocity := (1, 0, 0) },
                 .Append 200 { position := (202, 0, 0), velocity := (1, 0, 0) },
                 .Append 20000000 { position := (302, 0, 0), velocity := (1, 0, 0) },
                 .ForgetAfter 20000000 { position := (302, 0, 0), velocity := (1, 0, 0) },
                 .Append 40000000 { position := (402, 0, 0), velocity := (1, 0, 0) }] })]
    last_state_ := state_at 40000000 400 401 402
    intermediate_states_ := [state_at 100 100 101 102, state_at 40000000 400 401 402] }

end Example

end physics

end Principia

namespace Principia

/-! ## The flow with an adaptive step in the arithmetic of doubles

`Instant` and `Time` wrap a `double` in the code.  Above, the times are whole
numbers with exact sums; this suits what depends on the order of times only.
Here the sums, differences and products are those of doubles, on the doubles
that are whole numbers of the unit: a whole number is a double when it has at
most 53 significant bits, and an operation gives the exact result rounded to
the nearest double, to the one with an even significand in a tie.  A result
beyond the largest finite double, which the code turns into an infinity, is
rounded as if the exponent had no bound. -/

namespace binary64

/-- The number of low bits that a double cannot hold of the natural number `n`:
the number of halvings that bring `n` below `2 ^ 53`; `fuel` bounds the
halvings. -/
def exponent : Nat → Nat → Nat
  | 0, _ => 0
  | fuel + 1, n => if n < 2 ^ 53 then 0 else exponent fuel (n / 2) + 1

/-- The gap between the doubles around the natural number `n`. -/
def ulp (n : Nat) : Nat :=
  2 ^ exponent n n

/-- Modelled from the IEEE 754 standard: the double nearest to the natural
number `n`, the one whose significand is even when two are equally near. -/
def roundNat (n : Nat) : Nat :=
  if 2 * (n % ulp n) < ulp n ∨ (2 * (n % ulp n) = ulp n ∧ n / ulp n % 2 = 0) then
    n / ulp n * ulp n
  else (n / ulp n + 1) * ulp n

/-- Modelled from the IEEE 754 standard: the double nearest to the whole number
`x`; the rounding is symmetric about zero. -/
def round (x : Int) : Int :=
  if 0 ≤ x then (roundNat x.toNat : Int) else -(roundNat (-x).toNat : Int)

/-- The sum of two doubles. -/
def add (a b : Int) : Int :=
  round (a + b)

/-- The difference of two doubles. -/
def sub (a b : Int) : Int :=
  round (a - b)

/-- The product of two doubles. -/
def mul (a b : Int) : Int :=
  round (a * b)

/-- The loop `while (t_max() < t) { Solve(problem, step_); problem.t_final += step_; }`
of `Ephemeris::Prolong`, with the sum of doubles. -/
def ProlongLoop (I : Collaborators) : Nat → Ephemeris → Instant → Instant → Outcome Ephemeris
  | 0, e, t, _ => if e.t_max < t then .diverges else .returns e
  | fuel + 1, e, t, problem_t_final =>
    if e.t_max < t then
      let r := I.fixed_Solve e problem_t_final
      ProlongLoop I fuel
        { e with last_state_time := r.1, t_max := r.2.1, massive_bodies := r.2.2 }
        t (add problem_t_final e.step_)
    else .returns e

/-- The method `Ephemeris::Prolong`, with the sum of doubles. -/
def Prolong (I : Collaborators) (fuel : Nat) (e : Ephemeris) (t : Instant) : Outcome Ephemeris :=
  ProlongLoop I fuel e t
    (if t ≤ e.last_state_time then add e.last_state_time e.step_ else t)

/-- The value of `t_final` in `Ephemeris::FlowWithAdaptiveStep`, with the sums
and the product of doubles; `max_ephemeris_steps`, a `std::int64_t`, is
converted to a double before it is multiplied by the step. -/
def t_final (e : Ephemeris) (trajectory_last_time : Instant) (t : Instant)
    (max_ephemeris_steps : Int) : Instant :=
  min (max (add e.last_state_time (mul (round max_ephemeris_steps) e.step_))
           (add trajectory_last_time e.step_))
      t

/-- The method `Ephemeris::FlowWithAdaptiveStep` on the trajectory at address
`trajectory`, with the arithmetic of doubles: in `t_final` and in
`first_time_step`, which is a difference of doubles. -/
def FlowWithAdaptiveStep (I : Collaborators) (fuel : Nat) (e : Ephemeris) (F : Forest)
    (trajectory : Nat) (intrinsic_acceleration : Option NavigationManoeuvre) (t : Instant)
    (parameters : AdaptiveStepParameters) (max_ephemeris_steps : Int) :
    Outcome (Ephemeris × Forest × Bool) :=
  match (F.deref trajectory).bind DiscreteTrajectory.last with
  | none => .aborts
  | some trajectory_last =>
    let t_final : Instant := binary64.t_final e trajectory_last.time t max_ephemeris_steps
    match Prolong I fuel e t_final with
    | .aborts => .aborts
    | .diverges => .diverges
    | .returns e1 =>
      let first_time_step : Time := sub t_final trajectory_last.time
      if first_time_step > 0 then
        let solved := I.adaptive_Solve e1 parameters intrinsic_acceleration trajectory_last t_final
        match Forest.AppendAll F trajectory solved.1 with
        | .aborts => .aborts
        | .diverges => .diverges
        | .returns F1 =>
          .returns (e1, F1, decide (solved.2 = TerminationCondition.Done ∧ t_final = t))
      else .aborts

end binary64

namespace Example

/-- The time `2 ^ 53`, from which on the doubles are two units apart. -/
def far : Instant :=
  9007199254740992

/-- The time `2 ^ 63`, around which the doubles are 2048 units apart. -/
def farther : Instant :=
  9223372036854775808

/-- A root trajectory with one point, at the time `at_time`. -/
def memory_at (at_time : Instant) : Forest :=
  [(0, { ancestry := [], timeline := [⟨at_time, ⟨0, 1⟩⟩] })]

/-- An ephemeris with the step `step`, integrated up to the time `at_time`. -/
def ephemeris_at (step : Time) (at_time : Instant) : Ephemeris :=
  { step_ := step, last_state_time := at_time, t_max := at_time, massive_bodies := 1 }

/-- A burn from time 30 to time 35, with thrust 3. -/
def burn_30 : Burn :=
  { thrust := 3, specific_impulse := 1, initial_time := 30, Δv := 5 }

end Example

end Principia

namespace Principia

/-! ## Basic facts about results of calls -/

@[simp] theorem Outcome.bind_def {α β : Type} (x : Outcome α) (f : α → Outcome β) :
    (x >>= f) = x.bind f := rfl

@[simp] theorem Outcome.pure_def {α : Type} (a : α) : (pure a : Outcome α) = .returns a := rfl

@[simp] theorem Outcome.returns_bind {α β : Type} (a : α) (f : α → Outcome β) :
    (Outcome.returns a).bind f = f a := rfl

@[simp] theorem Outcome.aborts_bind {α β : Type} (f : α → Outcome β) :
    (Outcome.aborts : Outcome α).bind f = .aborts := rfl

@[simp] theorem Outcome.diverges_bind {α β : Type} (f : α → Outcome β) :
    (Outcome.diverges : Outcome α).bind f = .diverges := rfl

theorem Outcome.bind_eq_returns {α β : Type} {x : Outcome α} {f : α → Outcome β} {b : β} :
    x.bind f = .returns b ↔ ∃ a, x = .returns a ∧ f a = .returns b := by
  cases x <;> simp [Outcome.bind]

theorem Outcome.ofOption_eq_returns {α : Type} {o : Option α} {a : α} :
    Outcome.ofOption o = .returns a ↔ o = some a := by
  cases o <;> simp [Outcome.ofOption]

theorem CHECK_eq_returns {c : Prop} [Decidable c] {u : Unit} :
    CHECK c = .returns u ↔ c := by
  unfold CHECK; split <;> simp [*]

namespace FlightPlan

theorem SameSettings.refl (p : FlightPlan) : SameSettings p p :=
  ⟨rfl, rfl, rfl, rfl, rfl⟩

theorem SameSettings.trans {p q r : FlightPlan} (h1 : SameSettings p q) (h2 : SameSettings q r) :
    SameSettings p r := by
  obtain ⟨a1, a2, a3, a4, a5⟩ := h1
  obtain ⟨b1, b2, b3, b4, b5⟩ := h2
  exact ⟨b1.trans a1, b2.trans a2, b3.trans a3, b4.trans a4, b5.trans a5⟩

/-- What `CoastLastSegment` does when it returns. -/
theorem CoastLastSegment_returns {I : Collaborators} {fuel : Nat} {p q : FlightPlan} {t : Instant}
    (h : CoastLastSegment I fuel p t = .returns q) :
    SameSettings p q ∧ q.segments_ = p.segments_ ∧
    ((0 < p.anomalous_segments_ ∧ q = p) ∨
     (p.anomalous_segments_ ≤ 0 ∧ ∃ back e F reached,
        p.segments_.getLast? = some back ∧
        FlowWithAdaptiveStep I fuel p.ephemeris_ p.trajectories back none t
          p.adaptive_step_parameters_ I.max_ephemeris_steps_per_frame = .returns (e, F, reached) ∧
        q = { p with ephemeris_ := e, trajectories := F,
                     anomalous_segments_ := if reached then p.anomalous_segments_ else 1 })) := by
  unfold CoastLastSegment at h
  split at h
  · cases h; exact ⟨SameSettings.refl _, rfl, Or.inl ⟨by assumption, rfl⟩⟩
  · simp only [Outcome.bind_def, Outcome.bind_eq_returns, Outcome.ofOption_eq_returns] at h
    obtain ⟨back, hb, ⟨e, F, r⟩, hf, h⟩ := h
    simp only at h
    cases r
    · simp at h; subst h
      exact ⟨⟨rfl, rfl, rfl, rfl, rfl⟩, rfl, Or.inr ⟨by omega, back, e, F, false, hb, hf, by simp⟩⟩
    · simp at h; subst h
      exact ⟨⟨rfl, rfl, rfl, rfl, rfl⟩, rfl, Or.inr ⟨by omega, back, e, F, true, hb, hf, by simp⟩⟩

theorem CoastLastSegment_anomalous {I : Collaborators} {fuel : Nat} {p q : FlightPlan} {t : Instant}
    (h : CoastLastSegment I fuel p t = .returns q) :
    (0 < p.anomalous_segments_ ∧ q.anomalous_segments_ = p.anomalous_segments_) ∨
    (p.anomalous_segments_ ≤ 0 ∧
      (q.anomalous_segments_ = p.anomalous_segments_ ∨ q.anomalous_segments_ = 1)) := by
  obtain ⟨_, _, h | ⟨h0, _, _, _, r, _, _, h⟩⟩ := CoastLastSegment_returns h
  · exact Or.inl ⟨h.1, by rw [h.2]⟩
  · subst h; cases r <;> simp [h0]

/-- What `BurnLastSegment` does when it returns. -/
theorem BurnLastSegment_returns {I : Collaborators} {fuel : Nat} {p q : FlightPlan}
    {m : NavigationManoeuvre} (h : BurnLastSegment I fuel p m = .returns q) :
    SameSettings p q ∧ q.segments_ = p.segments_ ∧
    ((0 < p.anomalous_segments_ ∧ q = p) ∨
     (p.anomalous_segments_ ≤ 0 ∧ ¬ m.initial_time < m.final_time ∧ q = p) ∨
     (p.anomalous_segments_ ≤ 0 ∧ m.initial_time < m.final_time ∧ ∃ back e F reached,
        p.segments_.getLast? = some back ∧
        FlowWithAdaptiveStep I fuel p.ephemeris_ p.trajectories back (some m) m.final_time
          p.adaptive_step_parameters_ I.max_ephemeris_steps_per_frame = .returns (e, F, reached) ∧
        q = { p with ephemeris_ := e, trajectories := F,
                     anomalous_segments_ := if reached then p.anomalous_segments_ else 1 })) := by
  unfold BurnLastSegment at h
  split at h
  · cases h; exact ⟨SameSettings.refl _, rfl, Or.inl ⟨by assumption, rfl⟩⟩
  · split at h
    · simp only [Outcome.bind_def, Outcome.bind_eq_returns, Outcome.ofOption_eq_returns] at h
      obtain ⟨back, hb, ⟨e, F, r⟩, hf, h⟩ := h
      simp only at h
      cases r
      · simp at h; subst h
        exact ⟨⟨rfl, rfl, rfl, rfl, rfl⟩, rfl,
          Or.inr (Or.inr ⟨by omega, by assumption, back, e, F, false, hb, hf, by simp⟩)⟩
      · simp at h; subst h
        exact ⟨⟨rfl, rfl, rfl, rfl, rfl⟩, rfl,
          Or.inr (Or.inr ⟨by omega, by assumption, back, e, F, true, hb, hf, by simp⟩)⟩
    · cases h
      exact ⟨SameSettings.refl _, rfl, Or.inr (Or.inl ⟨by omega, by assumption, rfl⟩)⟩

theorem BurnLastSegment_anomalous {I : Collaborators} {fuel : Nat} {p q : FlightPlan}
    {m : NavigationManoeuvre} (h : BurnLastSegment I fuel p m = .returns q) :
    (0 < p.anomalous_segments_ ∧ q.anomalous_segments_ = p.anomalous_segments_) ∨
    (p.anomalous_segments_ ≤ 0 ∧
      (q.anomalous_segments_ = p.anomalous_segments_ ∨ q.anomalous_segments_ = 1)) := by
  obtain ⟨_, _, h | ⟨h0, _, h⟩ | ⟨h0, _, _, _, _, r, _, _, h⟩⟩ := BurnLastSegment_returns h
  · exact Or.inl ⟨h.1, by rw [h.2]⟩
  · subst h; exact Or.inr ⟨h0, Or.inl rfl⟩
  · subst h; cases r <;> simp [h0]

/-- What `AddSegment` does when it returns. -/
theorem AddSegment_returns {p q : FlightPlan} (h : AddSegment p = .returns q) :
    SameSettings p q ∧ q.ephemeris_ = p.ephemeris_ ∧
    (∃ back F fork, p.segments_.getLast? = some back ∧
      p.trajectories.NewForkAtLast back = .returns (F, fork) ∧
      q.trajectories = F ∧ q.segments_ = p.segments_ ++ [fork]) ∧
    q.anomalous_segments_ =
      (if 0 < p.anomalous_segments_ then p.anomalous_segments_ + 1 else p.anomalous_segments_) := by
  unfold AddSegment at h
  simp only [Outcome.bind_def, Outcome.bind_eq_returns, Outcome.ofOption_eq_returns] at h
  obtain ⟨back, hb, ⟨F, fork⟩, hf, h⟩ := h
  simp only at h
  split at h <;> cases h
  · rename_i hc
    exact ⟨⟨rfl, rfl, rfl, rfl, rfl⟩, rfl, ⟨back, F, fork, hb, hf, rfl, rfl⟩, by
      simp only [gt_iff_lt] at hc; simp [hc]⟩
  · rename_i hc
    exact ⟨⟨rfl, rfl, rfl, rfl, rfl⟩, rfl, ⟨back, F, fork, hb, hf, rfl, rfl⟩, by
      simp only [gt_iff_lt] at hc; simp [hc]⟩

/-- What `ResetLastSegment` does when it returns. -/
theorem ResetLastSegment_returns {p q : FlightPlan} (h : ResetLastSegment p = .returns q) :
    SameSettings p q ∧ q.ephemeris_ = p.ephemeris_ ∧ q.segments_ = p.segments_ ∧
    (∃ back d fork, p.segments_.getLast? = some back ∧ p.trajectories.deref back = some d ∧
      d.Fork = some fork ∧ p.trajectories.ForgetAfter back fork.time = .returns q.trajectories) ∧
    q.anomalous_segments_ =
      (if p.anomalous_segments_ = 1 then 0 else p.anomalous_segments_) := by
  unfold ResetLastSegment at h
  simp only [Outcome.bind_def, Outcome.bind_eq_returns, Outcome.ofOption_eq_returns] at h
  obtain ⟨back, hb, d, hd, fork, hfk, F, hF, h⟩ := h
  split at h <;> cases h
  · rename_i hc
    exact ⟨⟨rfl, rfl, rfl, rfl, rfl⟩, rfl, rfl, ⟨back, d, fork, hb, hd, hfk, hF⟩, by
      simp [hc]⟩
  · rename_i hc
    exact ⟨⟨rfl, rfl, rfl, rfl, rfl⟩, rfl, rfl, ⟨back, d, fork, hb, hd, hfk, hF⟩, by
      simp [hc]⟩

/-- What `PopLastSegment` does when it returns. -/
theorem PopLastSegment_returns {p q : FlightPlan} (h : PopLastSegment p = .returns q) :
    SameSettings p q ∧ q.ephemeris_ = p.ephemeris_ ∧ q.segments_ = p.segments_.dropLast ∧
    (∃ trajectory d, p.segments_.getLast? = some trajectory ∧
      p.trajectories.deref trajectory = some d ∧ d.is_root = false ∧
      p.trajectories.DeleteFork trajectory = .returns q.trajectories) ∧
    q.anomalous_segments_ =
      (if 0 < p.anomalous_segments_ then p.anomalous_segments_ - 1 else p.anomalous_segments_) := by
  unfold PopLastSegment at h
  simp only [Outcome.bind_def, Outcome.bind_eq_returns, Outcome.ofOption_eq_returns,
    CHECK_eq_returns] at h
  obtain ⟨trajectory, hb, d, hd, _, hr, F, hF, h⟩ := h
  split at h <;> cases h
  · rename_i hc
    exact ⟨⟨rfl, rfl, rfl, rfl, rfl⟩, rfl, rfl, ⟨trajectory, d, hb, hd, hr, hF⟩, by
      simp only [gt_iff_lt] at hc; simp [hc]⟩
  · rename_i hc
    exact ⟨⟨rfl, rfl, rfl, rfl, rfl⟩, rfl, rfl, ⟨trajectory, d, hb, hd, hr, hF⟩, by
      simp only [gt_iff_lt] at hc; simp [hc]⟩

/-- What `ReplaceLastSegment` does when it returns. -/
theorem ReplaceLastSegment_returns {p q : FlightPlan} {segment : Nat}
    (h : ReplaceLastSegment p segment = .returns q) :
    SameSettings p q ∧ q.ephemeris_ = p.ephemeris_ ∧
    q.segments_ = p.segments_.dropLast ++ [segment] ∧ q.anomalous_segments_ = 0 ∧
    p.anomalous_segments_ ≤ 1 ∧
    (∃ p1 s back b s_fork b_fork, PopLastSegment p = .returns p1 ∧
      q.trajectories = p1.trajectories ∧
      p.trajectories.deref segment = some s ∧ p.segments_.getLast? = some back ∧
      p.trajectories.deref back = some b ∧ s.parent = b.parent ∧
      s.Fork = some s_fork ∧ b.Fork = some b_fork ∧ s_fork.time = b_fork.time) := by
  unfold ReplaceLastSegment at h
  simp only [Outcome.bind_def, Outcome.bind_eq_returns, Outcome.ofOption_eq_returns,
    CHECK_eq_returns] at h
  obtain ⟨s, hs, back, hb, b, hbd, _, hpar, s_fork, hsf, b_fork, hbf, _, hft, p1, hp1, _, h0, h⟩ := h
  cases h
  obtain ⟨hset, he, hseg, _, ha⟩ := PopLastSegment_returns hp1
  refine ⟨hset, he, by simp [hseg], h0.symm, ?_,
    ⟨p1, s, back, b, s_fork, b_fork, hp1, rfl, hs, hb, hbd, hpar, hsf, hbf, hft⟩⟩
  split at ha <;> omega

/-- What `CoastIfReachesManœuvreInitialTime` does when it returns. -/
theorem CoastIfReachesManoeuvreInitialTime_returns {I : Collaborators} {fuel : Nat}
    {p q : FlightPlan} {coast : Nat} {m : NavigationManoeuvre} {o : Option Nat}
    (h : CoastIfReachesManoeuvreInitialTime I fuel p coast m = .returns (q, o)) :
    ∃ c parent fork F recomputed_coast e F1 reached,
      p.trajectories.deref coast = some c ∧ c.parent = some parent ∧ c.Fork = some fork ∧
      p.trajectories.NewForkWithoutCopy parent fork.time = .returns (F, recomputed_coast) ∧
      FlowWithAdaptiveStep I fuel p.ephemeris_ F recomputed_coast none m.initial_time
        p.adaptive_step_parameters_ I.max_ephemeris_steps_per_frame = .returns (e, F1, reached) ∧
      ((reached = true ∧ o = some recomputed_coast ∧
          q = { p with ephemeris_ := e, trajectories := F1 }) ∨
       (reached = false ∧ o = none ∧ ∃ F2, F1.DeleteFork recomputed_coast = .returns F2 ∧
          q = { p with ephemeris_ := e, trajectories := F2 })) := by
  unfold CoastIfReachesManoeuvreInitialTime at h
  simp only [Outcome.bind_def, Outcome.bind_eq_returns, Outcome.ofOption_eq_returns] at h
  obtain ⟨c, hc, parent, hpar, fork, hfk, ⟨F, rc⟩, hnew, ⟨e, F1, reached⟩, hflow, h⟩ := h
  refine ⟨c, parent, fork, F, rc, e, F1, reached, hc, hpar, hfk, hnew, hflow, ?_⟩
  cases reached
  · simp only [Bool.not_false, if_true, Outcome.bind_def, Outcome.bind_eq_returns] at h
    obtain ⟨F2, hdel, h⟩ := h
    cases h
    exact Or.inr ⟨rfl, rfl, F2, hdel, rfl⟩
  · simp at h
    obtain ⟨h1, h2⟩ := h
    subst h1 h2
    exact Or.inl ⟨rfl, rfl, rfl⟩

/-- What the private `Append(NavigationManœuvre)` does when it returns. -/
theorem AppendNavigationManoeuvre_returns {I : Collaborators} {fuel : Nat} {p q : FlightPlan}
    {m : NavigationManoeuvre} (h : AppendNavigationManoeuvre I fuel p m = .returns q) :
    ∃ back last p2 p3 p4,
      p.segments_.getLast? = some back ∧
      (p.trajectories.deref back).bind DiscreteTrajectory.last = some last ∧
      m.initial_time = last.time ∧
      AddSegment { p with manoeuvres_ := p.manoeuvres_ ++ [m.set_coasting_trajectory back] }
        = .returns p2 ∧
      BurnLastSegment I fuel p2 (m.set_coasting_trajectory back) = .returns p3 ∧
      AddSegment p3 = .returns p4 ∧
      CoastLastSegment I fuel p4 p4.final_time_ = .returns q := by
  unfold AppendNavigationManoeuvre at h
  simp only [Outcome.bind_def, Outcome.bind_eq_returns, Outcome.ofOption_eq_returns,
    CHECK_eq_returns] at h
  obtain ⟨back, hb, last, hl, _, hchk, p2, h2, p3, h3, p4, h4, h⟩ := h
  exact ⟨back, last, p2, p3, p4, hb, hl, hchk, h2, h3, h4, h⟩

/-- The data members of the plan after the private `Append(NavigationManœuvre)`. -/
theorem AppendNavigationManoeuvre_plan {I : Collaborators} {fuel : Nat} {p q : FlightPlan}
    {m : NavigationManoeuvre} (h : AppendNavigationManoeuvre I fuel p m = .returns q) :
    ∃ back b k, p.segments_.getLast? = some back ∧
      q.manoeuvres_ = p.manoeuvres_ ++ [m.set_coasting_trajectory back] ∧
      q.segments_ = p.segments_ ++ [b, k] ∧
      q.initial_time_ = p.initial_time_ ∧ q.final_time_ = p.final_time_ ∧
      q.initial_mass_ = p.initial_mass_ ∧
      q.adaptive_step_parameters_ = p.adaptive_step_parameters_ ∧
      (p.anomalous_segments_ = 0 → 0 ≤ q.anomalous_segments_ ∧ q.anomalous_segments_ ≤ 2) := by
  obtain ⟨back, last, p2, p3, p4, hb, _, _, h2, h3, h4, h5⟩ := AppendNavigationManoeuvre_returns h
  obtain ⟨s2, _, ⟨_, _, b, _, _, _, g2⟩, a2⟩ := AddSegment_returns h2
  obtain ⟨s3, g3, _⟩ := BurnLastSegment_returns h3
  have a3 := BurnLastSegment_anomalous h3
  obtain ⟨s4, _, ⟨_, _, k, _, _, _, g4⟩, a4⟩ := AddSegment_returns h4
  obtain ⟨s5, g5, _⟩ := CoastLastSegment_returns h5
  have a5 := CoastLastSegment_anomalous h5
  have hs := (s2.trans s3).trans (s4.trans s5)
  obtain ⟨t1, t2, t3, t4, t5⟩ := hs
  refine ⟨back, b, k, hb, t5, ?_, t1, t2, t3, t4, ?_⟩
  · rw [g5, g4, g3, g2]; simp
  · intro h0
    simp only [h0, lt_self_iff_false, if_false] at a2
    split at a4 <;> omega

/-- The steps of a call of `Append(Burn)` that returns. -/
theorem Append_returns {I : Collaborators} {fuel : Nat} {p q : FlightPlan} {burn : Burn}
    {r : Bool} (h : Append I fuel p burn = .returns (q, r)) :
    (¬ ((I.MakeNavigationManoeuvre burn (tail_mass p)).FitsBetween p.start_of_last_coast
          p.final_time_ = true ∧
        (I.MakeNavigationManoeuvre burn (tail_mass p)).IsSingular = false) ∧
      q = p ∧ r = false) ∨
    ((I.MakeNavigationManoeuvre burn (tail_mass p)).FitsBetween p.start_of_last_coast
        p.final_time_ = true ∧
      (I.MakeNavigationManoeuvre burn (tail_mass p)).IsSingular = false ∧
      ∃ coast p1 o, p.segments_.getLast? = some coast ∧
        CoastIfReachesManoeuvreInitialTime I fuel p coast
          (I.MakeNavigationManoeuvre burn (tail_mass p)) = .returns (p1, o) ∧
        ((o = none ∧ q = p1 ∧ r = false) ∨
         (∃ segment p2, o = some segment ∧ ReplaceLastSegment p1 segment = .returns p2 ∧
            AppendNavigationManoeuvre I fuel p2 (I.MakeNavigationManoeuvre burn (tail_mass p))
              = .returns q ∧ r = true))) := by
  unfold Append at h
  simp only [] at h
  split at h
  · rename_i hc
    simp only [Bool.and_eq_true, Bool.not_eq_true'] at hc
    simp only [last_coast, Outcome.bind_def, Outcome.bind_eq_returns,
      Outcome.ofOption_eq_returns] at h
    obtain ⟨coast, hcoast, ⟨p1, o⟩, htrial, h⟩ := h
    refine Or.inr ⟨hc.1, hc.2, coast, p1, o, hcoast, htrial, ?_⟩
    cases o with
    | none =>
      simp only [Outcome.returns.injEq, Prod.mk.injEq] at h
      exact Or.inl ⟨rfl, h.1.symm, h.2.symm⟩
    | some segment =>
      simp only [Outcome.bind_def, Outcome.bind_eq_returns] at h
      obtain ⟨p2, h2, p3, h3, h⟩ := h
      simp only [Outcome.returns.injEq, Prod.mk.injEq] at h
      obtain ⟨rfl, rfl⟩ := h
      exact Or.inr ⟨segment, p2, rfl, h2, h3, rfl⟩
  · rename_i hc
    simp only [Bool.and_eq_true, Bool.not_eq_true'] at hc
    simp only [Outcome.returns.injEq, Prod.mk.injEq] at h
    exact Or.inl ⟨hc, h.1.symm, h.2.symm⟩

/-- The trial coast leaves the data members of the plan alone. -/
theorem CoastIfReachesManoeuvreInitialTime_plan {I : Collaborators} {fuel : Nat}
    {p q : FlightPlan} {coast : Nat} {m : NavigationManoeuvre} {o : Option Nat}
    (h : CoastIfReachesManoeuvreInitialTime I fuel p coast m = .returns (q, o)) :
    SameSettings p q ∧ q.segments_ = p.segments_ ∧
    q.anomalous_segments_ = p.anomalous_segments_ := by
  obtain ⟨_, _, _, _, _, _, _, _, _, _, _, _, _, h | h⟩ :=
    CoastIfReachesManoeuvreInitialTime_returns h
  · obtain ⟨_, _, rfl⟩ := h
    exact ⟨⟨rfl, rfl, rfl, rfl, rfl⟩, rfl, rfl⟩
  · obtain ⟨_, _, _, _, rfl⟩ := h
    exact ⟨⟨rfl, rfl, rfl, rfl, rfl⟩, rfl, rfl⟩

/-- The data members of the plan after `Append(Burn)`. -/
theorem Append_plan {I : Collaborators} {fuel : Nat} {p q : FlightPlan} {burn : Burn}
    {r : Bool} (h : Append I fuel p burn = .returns (q, r)) :
    (r = false ∧ SameSettings p q ∧ q.segments_ = p.segments_ ∧
      q.anomalous_segments_ = p.anomalous_segments_) ∨
    (r = true ∧
      (I.MakeNavigationManoeuvre burn (tail_mass p)).FitsBetween p.start_of_last_coast
        p.final_time_ = true ∧
      (I.MakeNavigationManoeuvre burn (tail_mass p)).IsSingular = false ∧
      p.anomalous_segments_ ≤ 1 ∧
      ∃ c b k, q.manoeuvres_ = p.manoeuvres_ ++
          [(I.MakeNavigationManoeuvre burn (tail_mass p)).set_coasting_trajectory c] ∧
        q.segments_ = p.segments_.dropLast ++ [c, b, k] ∧
        q.initial_time_ = p.initial_time_ ∧ q.final_time_ = p.final_time_ ∧
        q.initial_mass_ = p.initial_mass_ ∧
        q.adaptive_step_parameters_ = p.adaptive_step_parameters_ ∧
        0 ≤ q.anomalous_segments_ ∧ q.anomalous_segments_ ≤ 2) := by
  obtain ⟨_, rfl, rfl⟩ | ⟨hfit, hsing, coast, p1, o, _, htrial, h⟩ := Append_returns h
  · exact Or.inl ⟨rfl, SameSettings.refl _, rfl, rfl⟩
  · obtain ⟨s1, g1, a1⟩ := CoastIfReachesManoeuvreInitialTime_plan htrial
    obtain ⟨_, rfl, rfl⟩ | ⟨segment, p2, _, h2, h3, rfl⟩ := h
    · exact Or.inl ⟨rfl, s1, g1, a1⟩
    · obtain ⟨s2, _, g2, a2, a2le, _⟩ := ReplaceLastSegment_returns h2
      obtain ⟨back, b, k, hb, m3, g3, t1, t2, t3, t4, a3⟩ := AppendNavigationManoeuvre_plan h3
      have hback : back = segment := by
        rw [g2] at hb; simpa using hb.symm
      subst hback
      obtain ⟨u1, u2, u3, u4, u5⟩ := s1.trans s2
      refine Or.inr ⟨rfl, hfit, hsing, by omega, back, b, k, ?_, ?_, t1.trans u1, t2.trans u2,
        t3.trans u3, t4.trans u4, (a3 a2).1, (a3 a2).2⟩
      · rw [m3, u5]
      · rw [g3, g2, g1]; simp

/-- The steps of a call of `ReplaceLast` that returns. -/
theorem ReplaceLast_returns {I : Collaborators} {fuel : Nat} {p q : FlightPlan} {burn : Burn}
    {r : Bool} (h : ReplaceLast I fuel p burn = .returns (q, r)) :
    ∃ back start, p.manoeuvres_.getLast? = some back ∧
      p.start_of_penultimate_coast = .returns start ∧
      ((¬ ((I.MakeNavigationManoeuvre burn back.initial_mass).FitsBetween start
              p.final_time_ = true ∧
            (I.MakeNavigationManoeuvre burn back.initial_mass).IsSingular = false) ∧
          q = p ∧ r = false) ∨
       ((I.MakeNavigationManoeuvre burn back.initial_mass).FitsBetween start p.final_time_ = true ∧
        (I.MakeNavigationManoeuvre burn back.initial_mass).IsSingular = false ∧
        ∃ coast p1 o, p.penultimate_coast = .returns coast ∧
          CoastIfReachesManoeuvreInitialTime I fuel p coast
            (I.MakeNavigationManoeuvre burn back.initial_mass) = .returns (p1, o) ∧
          ((o = none ∧ q = p1 ∧ r = false) ∨
           (∃ segment p3 p4 p5, o = some segment ∧
              PopLastSegment { p1 with manoeuvres_ := p1.manoeuvres_.dropLast } = .returns p3 ∧
              PopLastSegment p3 = .returns p4 ∧
              ReplaceLastSegment p4 segment = .returns p5 ∧
              AppendNavigationManoeuvre I fuel p5
                (I.MakeNavigationManoeuvre burn back.initial_mass) = .returns q ∧
              r = true)))) := by
  unfold ReplaceLast at h
  simp only [Outcome.bind_def, Outcome.bind_eq_returns, Outcome.ofOption_eq_returns,
    CHECK_eq_returns] at h
  obtain ⟨_, _, back, hback, start, hstart, h⟩ := h
  refine ⟨back, start, hback, hstart, ?_⟩
  split at h
  · rename_i hc
    simp only [Bool.and_eq_true, Bool.not_eq_true'] at hc
    simp only [Outcome.bind_def, Outcome.bind_eq_returns] at h
    obtain ⟨coast, hcoast, ⟨p1, o⟩, htrial, h⟩ := h
    refine Or.inr ⟨hc.1, hc.2, coast, p1, o, hcoast, htrial, ?_⟩
    cases o with
    | none =>
      simp only [Outcome.returns.injEq, Prod.mk.injEq] at h
      exact Or.inl ⟨rfl, h.1.symm, h.2.symm⟩
    | some segment =>
      simp only [Outcome.bind_def, Outcome.bind_eq_returns] at h
      obtain ⟨p3, h3, p4, h4, p5, h5, p6, h6, h⟩ := h
      simp only [Outcome.returns.injEq, Prod.mk.injEq] at h
      obtain ⟨rfl, rfl⟩ := h
      exact Or.inr ⟨segment, p3, p4, p5, rfl, h3, h4, h5, h6, rfl⟩
  · rename_i hc
    simp only [Bool.and_eq_true, Bool.not_eq_true'] at hc
    simp only [Outcome.returns.injEq, Prod.mk.injEq] at h
    exact Or.inl ⟨hc, h.1.symm, h.2.symm⟩

/-- The data members of the plan after `ReplaceLast`. -/
theorem ReplaceLast_plan {I : Collaborators} {fuel : Nat} {p q : FlightPlan} {burn : Burn}
    {r : Bool} (h : ReplaceLast I fuel p burn = .returns (q, r)) :
    ∃ back start, p.manoeuvres_.getLast? = some back ∧
      p.start_of_penultimate_coast = .returns start ∧
      ((r = false ∧ SameSettings p q ∧ q.segments_ = p.segments_ ∧
          q.anomalous_segments_ = p.anomalous_segments_) ∨
       (r = true ∧
        (I.MakeNavigationManoeuvre burn back.initial_mass).FitsBetween start p.final_time_ = true ∧
        (I.MakeNavigationManoeuvre burn back.initial_mass).IsSingular = false ∧
        ∃ c b k, q.manoeuvres_ = p.manoeuvres_.dropLast ++
            [(I.MakeNavigationManoeuvre burn back.initial_mass).set_coasting_trajectory c] ∧
          q.segments_ = p.segments_.dropLast.dropLast.dropLast ++ [c, b, k] ∧
          q.initial_time_ = p.initial_time_ ∧ q.final_time_ = p.final_time_ ∧
          q.initial_mass_ = p.initial_mass_ ∧
          q.adaptive_step_parameters_ = p.adaptive_step_parameters_ ∧
          0 ≤ q.anomalous_segments_ ∧ q.anomalous_segments_ ≤ 2)) := by
  obtain ⟨back, start, hback, hstart, h⟩ := ReplaceLast_returns h
  refine ⟨back, start, hback, hstart, ?_⟩
  obtain ⟨_, rfl, rfl⟩ | ⟨hfit, hsing, coast, p1, o, _, htrial, h⟩ := h
  · exact Or.inl ⟨rfl, SameSettings.refl _, rfl, rfl⟩
  · obtain ⟨s1, g1, a1⟩ := CoastIfReachesManoeuvreInitialTime_plan htrial
    obtain ⟨_, rfl, rfl⟩ | ⟨segment, p3, p4, p5, _, h3, h4, h5, h6, rfl⟩ := h
    · exact Or.inl ⟨rfl, s1, g1, a1⟩
    · obtain ⟨s3, _, g3, _, _⟩ := PopLastSegment_returns h3
      obtain ⟨s4, _, g4, _, _⟩ := PopLastSegment_returns h4
      obtain ⟨s5, _, g5, a5, _, _⟩ := ReplaceLastSegment_returns h5
      obtain ⟨bk, b, k, hb, m6, g6, t1, t2, t3, t4, a6⟩ := AppendNavigationManoeuvre_plan h6
      have hbk : bk = segment := by
        rw [g5] at hb; simpa using hb.symm
      subst hbk
      obtain ⟨v1, v2, v3, v4, v5⟩ := s3.trans (s4.trans s5)
      obtain ⟨u1, u2, u3, u4, u5⟩ := s1
      simp only at v1 v2 v3 v4 v5
      refine Or.inr ⟨rfl, hfit, hsing, bk, b, k, ?_, ?_, (t1.trans v1).trans u1,
        (t2.trans v2).trans u2, (t3.trans v3).trans u3, (t4.trans v4).trans u4,
        (a6 a5).1, (a6 a5).2⟩
      · rw [m6, v5, u5]
      · rw [g6, g5, g4, g3]; simp [g1]

/-- The steps of a call of `RemoveLast` that returns. -/
theorem RemoveLast_returns {I : Collaborators} {fuel : Nat} {p q : FlightPlan}
    (h : RemoveLast I fuel p = .returns q) :
    p.manoeuvres_ ≠ [] ∧ ∃ p2 p3 p4,
      PopLastSegment { p with manoeuvres_ := p.manoeuvres_.dropLast } = .returns p2 ∧
      PopLastSegment p2 = .returns p3 ∧ ResetLastSegment p3 = .returns p4 ∧
      CoastLastSegment I fuel p4 p4.final_time_ = .returns q := by
  unfold RemoveLast at h
  simp only [Outcome.bind_def, Outcome.bind_eq_returns, CHECK_eq_returns] at h
  obtain ⟨_, hne, p2, h2, p3, h3, p4, h4, h⟩ := h
  refine ⟨?_, p2, p3, p4, h2, h3, h4, h⟩
  intro h0; simp [h0] at hne

/-- The data members of the plan after `RemoveLast`. -/
theorem RemoveLast_plan {I : Collaborators} {fuel : Nat} {p q : FlightPlan}
    (h : RemoveLast I fuel p = .returns q) :
    p.manoeuvres_ ≠ [] ∧ q.manoeuvres_ = p.manoeuvres_.dropLast ∧
    q.segments_ = p.segments_.dropLast.dropLast ∧ q.segments_ ≠ [] ∧
    q.initial_time_ = p.initial_time_ ∧ q.final_time_ = p.final_time_ ∧
    q.initial_mass_ = p.initial_mass_ ∧
    q.adaptive_step_parameters_ = p.adaptive_step_parameters_ ∧
    (0 ≤ p.anomalous_segments_ → p.anomalous_segments_ ≤ 2 →
      q.anomalous_segments_ = 0 ∨ q.anomalous_segments_ = 1) := by
  obtain ⟨hne, p2, p3, p4, h2, h3, h4, h5⟩ := RemoveLast_returns h
  obtain ⟨s2, _, g2, _, a2⟩ := PopLastSegment_returns h2
  obtain ⟨s3, _, g3, _, a3⟩ := PopLastSegment_returns h3
  obtain ⟨s4, _, g4, ⟨back, _, _, hb, _⟩, a4⟩ := ResetLastSegment_returns h4
  obtain ⟨s5, g5, _⟩ := CoastLastSegment_returns h5
  have a5 := CoastLastSegment_anomalous h5
  obtain ⟨t1, t2, t3, t4, t5⟩ := s2.trans (s3.trans (s4.trans s5))
  simp only at t1 t2 t3 t4 t5 g2 a2
  refine ⟨hne, t5, by rw [g5, g4, g3, g2], ?_, t1, t2, t3, t4, ?_⟩
  · rw [g5, g4]; intro h0; simp [h0] at hb
  · intro h0 h2
    split at a2 <;> split at a3 <;> split at a4 <;> omega

/-- The steps of a call of `SetFinalTime` that returns. -/
theorem SetFinalTime_returns {I : Collaborators} {fuel : Nat} {p q : FlightPlan} {t : Instant}
    {r : Bool} (h : SetFinalTime I fuel p t = .returns (q, r)) :
    (t < p.start_of_last_coast ∧ q = p ∧ r = false) ∨
    (p.start_of_last_coast ≤ t ∧ r = true ∧ ∃ p2,
      ResetLastSegment { p with final_time_ := t } = .returns p2 ∧
      CoastLastSegment I fuel p2 p2.final_time_ = .returns q) := by
  unfold SetFinalTime at h
  split at h
  · rename_i hc
    simp only [Outcome.returns.injEq, Prod.mk.injEq] at h
    exact Or.inl ⟨hc, h.1.symm, h.2.symm⟩
  · rename_i hc
    simp only [Outcome.bind_def, Outcome.bind_eq_returns] at h
    obtain ⟨p2, h2, p3, h3, h⟩ := h
    simp only [Outcome.returns.injEq, Prod.mk.injEq] at h
    obtain ⟨rfl, rfl⟩ := h
    exact Or.inr ⟨not_lt.mp hc, rfl, p2, h2, h3⟩

/-- The data members of the plan after `SetFinalTime`. -/
theorem SetFinalTime_plan {I : Collaborators} {fuel : Nat} {p q : FlightPlan} {t : Instant}
    {r : Bool} (h : SetFinalTime I fuel p t = .returns (q, r)) :
    (t < p.start_of_last_coast ∧ q = p ∧ r = false) ∨
    (p.start_of_last_coast ≤ t ∧ r = true ∧ q.final_time_ = t ∧
      q.manoeuvres_ = p.manoeuvres_ ∧ q.segments_ = p.segments_ ∧ p.segments_ ≠ [] ∧
      q.initial_time_ = p.initial_time_ ∧ q.initial_mass_ = p.initial_mass_ ∧
      q.adaptive_step_parameters_ = p.adaptive_step_parameters_ ∧
      ((p.anomalous_segments_ = 0 ∨ p.anomalous_segments_ = 1) →
        (q.anomalous_segments_ = 0 ∨ q.anomalous_segments_ = 1)) ∧
      (1 < p.anomalous_segments_ → q.anomalous_segments_ = p.anomalous_segments_)) := by
  obtain h | ⟨hle, rfl, p2, h2, h3⟩ := SetFinalTime_returns h
  · exact Or.inl h
  · obtain ⟨s2, _, g2, ⟨back, _, _, hb, _⟩, a2⟩ := ResetLastSegment_returns h2
    obtain ⟨s3, g3, _⟩ := CoastLastSegment_returns h3
    have a3 := CoastLastSegment_anomalous h3
    obtain ⟨t1, t2, t3, t4, t5⟩ := s2.trans s3
    simp only at t1 t2 t3 t4 t5 hb a2
    refine Or.inr ⟨hle, rfl, t2, t5, by rw [g3, g2], ?_, t1, t3, t4, ?_, ?_⟩
    · intro h0; simp [h0] at hb
    · intro h0; split at a2 <;> omega
    · intro h0; split at a2 <;> omega

/-- The loop that pops all segments but the first leaves one segment, and never
runs out of the fuel it is given by `RecomputeSegments`. -/
theorem PopAllButFirst_returns (n : Nat) {p q : FlightPlan}
    (h : PopAllButFirst n p = .returns q) :
    SameSettings p q ∧ q.ephemeris_ = p.ephemeris_ ∧ q.segments_.length ≤ 1 ∧
    (p.segments_ ≠ [] → q.segments_.length = 1) ∧
    (0 ≤ p.anomalous_segments_ → 0 ≤ q.anomalous_segments_) ∧
    (p.anomalous_segments_ ≤ p.segments_.length → q.anomalous_segments_ ≤ q.segments_.length) := by
  induction n generalizing p with
  | zero =>
    unfold PopAllButFirst at h
    split at h
    · cases h
    · rename_i hc
      have hq : q = p := by simpa using h.symm
      subst hq
      refine ⟨SameSettings.refl _, rfl, by omega, ?_, fun h0 => h0, fun h0 => h0⟩
      intro hne
      have : q.segments_.length ≠ 0 := fun h0 => hne (List.length_eq_zero.mp h0)
      omega
  | succ n ih =>
    unfold PopAllButFirst at h
    split at h
    · rename_i hc
      obtain ⟨p1, h1, h2⟩ := Outcome.bind_eq_returns.mp h
      obtain ⟨s1, e1, g1, _, a1⟩ := PopLastSegment_returns h1
      obtain ⟨s2, e2, l2, n2, a2, b2⟩ := ih h2
      have hlen : p1.segments_.length = p.segments_.length - 1 := by
        rw [g1, List.length_dropLast]
      refine ⟨s1.trans s2, e2.trans e1, l2, ?_, ?_, ?_⟩
      · intro _
        apply n2
        intro h0
        rw [h0] at hlen
        simp at hlen
        omega
      · intro h0
        apply a2
        split at a1 <;> omega
      · intro h0
        apply b2
        split at a1 <;> omega
    · rename_i hc
      have hq : q = p := by simpa using h.symm
      subst hq
      refine ⟨SameSettings.refl _, rfl, by omega, ?_, fun h0 => h0, fun h0 => h0⟩
      intro hne
      have : q.segments_.length ≠ 0 := fun h0 => hne (List.length_eq_zero.mp h0)
      omega

/-- One turn of the loop over the manœuvres in `RecomputeSegments`. -/
theorem RecomputeLoop_cons_returns {I : Collaborators} {fuel : Nat} {m : NavigationManoeuvre}
    {rest done : List NavigationManoeuvre} {p q : FlightPlan}
    (h : RecomputeLoop I fuel (m :: rest) done p = .returns q) :
    ∃ p1 back p3 p4 p5,
      CoastLastSegment I fuel p m.initial_time = .returns p1 ∧
      p1.segments_.getLast? = some back ∧
      AddSegment { p1 with manoeuvres_ := done ++ m.set_coasting_trajectory back :: rest }
        = .returns p3 ∧
      BurnLastSegment I fuel p3 (m.set_coasting_trajectory back) = .returns p4 ∧
      AddSegment p4 = .returns p5 ∧
      RecomputeLoop I fuel rest (done ++ [m.set_coasting_trajectory back]) p5 = .returns q := by
  unfold RecomputeLoop at h
  simp only [Outcome.bind_def, Outcome.bind_eq_returns, Outcome.ofOption_eq_returns] at h
  obtain ⟨p1, h1, back, hb, p3, h3, p4, h4, p5, h5, h⟩ := h
  exact ⟨p1, back, p3, p4, p5, h1, hb, h3, h4, h5, h⟩

/-- Erasing the coasting trajectory forgets `set_coasting_trajectory`. -/
theorem erase_set_coasting_trajectory (m : NavigationManoeuvre) (c : Nat) :
    ({ m.set_coasting_trajectory c with coasting_trajectory := none } : NavigationManoeuvre) =
      { m with coasting_trajectory := none } := rfl

/-- The data members of the plan after the loop over the manœuvres. -/
theorem RecomputeLoop_plan {I : Collaborators} {fuel : Nat} (ms : List NavigationManoeuvre) :
    ∀ {done : List NavigationManoeuvre} {p q : FlightPlan},
    RecomputeLoop I fuel ms done p = .returns q →
    manoeuvre_values p = (done ++ ms).map (fun m => { m with coasting_trajectory := none }) →
    manoeuvre_values q = (done ++ ms).map (fun m => { m with coasting_trajectory := none }) ∧
    q.segments_.length = p.segments_.length + 2 * ms.length ∧
    q.initial_time_ = p.initial_time_ ∧ q.final_time_ = p.final_time_ ∧
    q.initial_mass_ = p.initial_mass_ ∧
    q.adaptive_step_parameters_ = p.adaptive_step_parameters_ ∧
    (0 < p.anomalous_segments_ → q.anomalous_segments_ = p.anomalous_segments_ + 2 * ms.length) ∧
    (p.anomalous_segments_ = 0 → 0 ≤ q.anomalous_segments_ ∧
      q.anomalous_segments_ ≤ 2 * ms.length + 1 ∧ (ms = [] → q.anomalous_segments_ = 0)) := by
  induction ms with
  | nil =>
    intro done p q h hv
    unfold RecomputeLoop at h
    cases h
    exact ⟨hv, by simp, rfl, rfl, rfl, rfl, fun _ => by simp, fun h0 => by simp [h0]⟩
  | cons m rest ih =>
    intro done p q h hv
    obtain ⟨p1, back, p3, p4, p5, h1, hb, h3, h4, h5, h6⟩ := RecomputeLoop_cons_returns h
    obtain ⟨s1, g1, _⟩ := CoastLastSegment_returns h1
    have a1 := CoastLastSegment_anomalous h1
    obtain ⟨s3, _, ⟨_, _, f3, _, _, _, g3⟩, a3⟩ := AddSegment_returns h3
    obtain ⟨s4, g4, _⟩ := BurnLastSegment_returns h4
    have a4 := BurnLastSegment_anomalous h4
    obtain ⟨s5, _, ⟨_, _, f5, _, _, _, g5⟩, a5⟩ := AddSegment_returns h5
    obtain ⟨t1, t2, t3, t4, t5⟩ := s3.trans (s4.trans s5)
    obtain ⟨u1, u2, u3, u4, _⟩ := s1
    simp only at t1 t2 t3 t4 t5 g3 a3
    have hv5 : manoeuvre_values p5 =
        ((done ++ [m.set_coasting_trajectory back]) ++ rest).map
          (fun m => { m with coasting_trajectory := none }) := by
      unfold manoeuvre_values
      rw [t5]
      simp [erase_set_coasting_trajectory]
    obtain ⟨v, l, w1, w2, w3, w4, b1, b2⟩ := ih h6 hv5
    have hlen : p5.segments_.length = p.segments_.length + 2 := by
      rw [g5, g4, g3, g1]; simp
    refine ⟨?_, ?_, (w1.trans t1).trans u1, (w2.trans t2).trans u2, (w3.trans t3).trans u3,
      (w4.trans t4).trans u4, ?_, ?_⟩
    · rw [v]; simp [erase_set_coasting_trajectory]
    · rw [l, hlen]; simp; omega
    · intro h0
      have e5 : p5.anomalous_segments_ = p.anomalous_segments_ + 2 := by
        split at a3 <;> split at a5 <;> omega
      rw [b1 (by omega), e5]; simp; omega
    · intro h0
      have hcases : p5.anomalous_segments_ = 0 ∨
          (0 < p5.anomalous_segments_ ∧ p5.anomalous_segments_ ≤ 3) := by
        split at a3 <;> split at a5 <;> omega
      rcases hcases with h5z | ⟨h5p, h5l⟩
      · obtain ⟨c1, c2, _⟩ := b2 h5z
        refine ⟨c1, ?_, by simp⟩
        simp; omega
      · have := b1 h5p
        refine ⟨by omega, ?_, by simp⟩
        simp; omega

/-- The steps of a call of `RecomputeSegments` that returns. -/
theorem RecomputeSegments_returns {I : Collaborators} {fuel : Nat} {p q : FlightPlan} {r : Bool}
    (h : RecomputeSegments I fuel p = .returns (q, r)) :
    ∃ p1 p2 p3, PopAllButFirst p.segments_.length p = .returns p1 ∧
      ResetLastSegment p1 = .returns p2 ∧
      RecomputeLoop I fuel p2.manoeuvres_ [] p2 = .returns p3 ∧
      CoastLastSegment I fuel p3 p3.final_time_ = .returns q ∧
      r = decide (q.anomalous_segments_ ≤ 2) := by
  unfold RecomputeSegments at h
  simp only [Outcome.bind_def, Outcome.bind_eq_returns] at h
  obtain ⟨p1, h1, p2, h2, p3, h3, p4, h4, h⟩ := h
  simp only [Outcome.returns.injEq, Prod.mk.injEq] at h
  obtain ⟨rfl, rfl⟩ := h
  exact ⟨p1, p2, p3, h1, h2, h3, h4, rfl⟩

/-- The data members of the plan after `RecomputeSegments`. -/
theorem RecomputeSegments_plan {I : Collaborators} {fuel : Nat} {p q : FlightPlan} {r : Bool}
    (h : RecomputeSegments I fuel p = .returns (q, r)) :
    manoeuvre_values q = manoeuvre_values p ∧
    q.segments_.length = 2 * p.manoeuvres_.length + 1 ∧
    q.initial_time_ = p.initial_time_ ∧ q.final_time_ = p.final_time_ ∧
    q.initial_mass_ = p.initial_mass_ ∧
    q.adaptive_step_parameters_ = p.adaptive_step_parameters_ ∧
    r = decide (q.anomalous_segments_ ≤ 2) ∧
    (0 ≤ p.anomalous_segments_ → p.anomalous_segments_ ≤ p.segments_.length →
      0 ≤ q.anomalous_segments_ ∧ q.anomalous_segments_ ≤ q.segments_.length) := by
  obtain ⟨p1, p2, p3, h1, h2, h3, h4, hr⟩ := RecomputeSegments_returns h
  obtain ⟨s1, _, l1, _, a1, b1⟩ := PopAllButFirst_returns _ h1
  obtain ⟨s2, _, g2, ⟨back, _, _, hb, _⟩, a2⟩ := ResetLastSegment_returns h2
  have hlen1 : p1.segments_.length = 1 := by
    have : p1.segments_ ≠ [] := by intro h0; simp [h0] at hb
    have : p1.segments_.length ≠ 0 := fun h0 => this (List.length_eq_zero.mp h0)
    omega
  obtain ⟨v, l, w1, w2, w3, w4, c1, c2⟩ := RecomputeLoop_plan p2.manoeuvres_ h3
    (by simp [manoeuvre_values])
  obtain ⟨s4, g4, _⟩ := CoastLastSegment_returns h4
  have a4 := CoastLastSegment_anomalous h4
  obtain ⟨t1, t2, t3, t4, t5⟩ := s1.trans s2
  obtain ⟨u1, u2, u3, u4, u5⟩ := s4
  have hlen : q.segments_.length = 2 * p.manoeuvres_.length + 1 := by
    rw [g4, l, g2, hlen1, t5]; omega
  refine ⟨?_, hlen, (u1.trans w1).trans t1, (u2.trans w2).trans t2, (u3.trans w3).trans t3,
    (u4.trans w4).trans t4, hr, ?_⟩
  · unfold manoeuvre_values at v ⊢
    rw [u5, v, t5]; simp
  · intro h0 hle
    have a1z := a1 h0
    have b1z := b1 hle
    rw [hlen1] at b1z
    have hp2 : p2.anomalous_segments_ = 0 := by
      split at a2 <;> omega
    obtain ⟨d1, d2, d3⟩ := c2 hp2
    rw [hlen]
    rw [t5] at d2 d3
    rcases Nat.eq_zero_or_pos p.manoeuvres_.length with hz | hpos
    · have := d3 (List.length_eq_zero.mp hz)
      rw [hz]
      omega
    · push_cast
      omega

/-- The steps of a call of `SetAdaptiveStepParameters` that returns. -/
theorem SetAdaptiveStepParameters_returns {I : Collaborators} {fuel : Nat} {p q : FlightPlan}
    {parameters : AdaptiveStepParameters} {r : Bool}
    (h : SetAdaptiveStepParameters I fuel p parameters = .returns (q, r)) :
    ∃ p2 ok,
      RecomputeSegments I fuel { p with adaptive_step_parameters_ := parameters }
        = .returns (p2, ok) ∧
      ((ok = true ∧ q = p2 ∧ r = true) ∨
       (ok = false ∧ r = false ∧
        RecomputeSegments I fuel
          { p2 with adaptive_step_parameters_ := p.adaptive_step_parameters_ }
          = .returns (q, true))) := by
  unfold SetAdaptiveStepParameters at h
  simp only [Outcome.bind_def, Outcome.bind_eq_returns] at h
  obtain ⟨⟨p2, ok⟩, h2, h⟩ := h
  refine ⟨p2, ok, h2, ?_⟩
  cases ok
  · simp only [Bool.false_eq_true, if_false, Outcome.bind_def, Outcome.bind_eq_returns,
      CHECK_eq_returns] at h
    obtain ⟨⟨p4, ok_again⟩, h4, _, hchk, h⟩ := h
    simp only [Outcome.returns.injEq, Prod.mk.injEq] at h
    obtain ⟨rfl, rfl⟩ := h
    simp only at hchk
    subst hchk
    exact Or.inr ⟨rfl, rfl, h4⟩
  · simp only [if_true, Outcome.returns.injEq, Prod.mk.injEq] at h
    obtain ⟨rfl, rfl⟩ := h
    exact Or.inl ⟨rfl, rfl, rfl⟩

/-- The steps of a call of the constructor that returns. -/
theorem new_returns {I : Collaborators} {fuel : Nat} {F : Forest} {root : Nat}
    {initial_time final_time : Instant} {initial_mass : Mass} {ephemeris : Ephemeris}
    {parameters : AdaptiveStepParameters} {q : FlightPlan}
    (h : FlightPlan.new I fuel F root initial_time final_time initial_mass ephemeris parameters
      = .returns q) :
    initial_time ≤ final_time ∧ ∃ (t : Instant) (F1 : Forest) (fork : Nat),
      t ≤ initial_time ∧ F.NewForkWithoutCopy root t = .returns (F1, fork) ∧
      CoastLastSegment I fuel
        { initial_time_ := t
          final_time_ := final_time
          initial_mass_ := initial_mass
          adaptive_step_parameters_ := parameters
          manoeuvres_ := []
          segments_ := [fork]
          anomalous_segments_ := 0
          ephemeris_ := ephemeris
          trajectories := F1 }
        final_time = .returns q := by
  unfold FlightPlan.new at h
  simp only [Outcome.bind_def, Outcome.bind_eq_returns, Outcome.ofOption_eq_returns,
    CHECK_eq_returns] at h
  obtain ⟨_, hle, r, _, s0, hs0, s1, hs1, ⟨F1, fork⟩, hnew, h⟩ := h
  refine ⟨hle, s1.time, F1, fork, ?_, hnew, h⟩
  split at hs1
  · split at hs1
    · cases hs1
    · rename_i hne hpos
      rw [Outcome.ofOption_eq_returns] at hs1
      obtain ⟨hlt, heq⟩ := List.getElem?_eq_some_iff.mp hs1
      have := @List.not_of_lt_findIdx Sample (fun s : Sample => decide (initial_time ≤ s.time))
        (F.unified r)
        (List.findIdx (fun s => decide (initial_time ≤ s.time)) (F.unified r) - 1)
        (by omega)
      simp only [decide_eq_false_iff_not] at this
      rw [← heq]
      exact le_of_lt (not_le.mp this)
  · rename_i heq
    simp only [ne_eq, not_not] at heq
    cases hs1
    exact le_of_eq heq

end FlightPlan
end Principia

namespace Principia

/-! ## Facts about the times and masses of the manœuvres -/
namespace FlightPlan

theorem last_final_time_append (t : Instant) (ms : List NavigationManoeuvre)
    (m : NavigationManoeuvre) : last_final_time t (ms ++ [m]) = m.final_time := by
  simp [last_final_time]

theorem TimesOrdered_append {t_min t_max : Instant} {ms : List NavigationManoeuvre}
    {m : NavigationManoeuvre} :
    TimesOrdered t_min (ms ++ [m]) t_max ↔
      TimesOrdered t_min ms m.initial_time ∧ m.initial_time ≤ m.final_time ∧
      m.final_time ≤ t_max := by
  induction ms generalizing t_min with
  | nil => simp [TimesOrdered]
  | cons a rest ih => simp [TimesOrdered, ih, and_assoc]

theorem TimesOrdered_last_final_time {t_min t_max : Instant} {ms : List NavigationManoeuvre}
    (h : TimesOrdered t_min ms t_max) : last_final_time t_min ms ≤ t_max := by
  induction ms generalizing t_min with
  | nil => simpa [TimesOrdered, last_final_time] using h
  | cons a rest ih =>
    obtain ⟨_, _, h3⟩ := h
    have := ih h3
    cases rest with
    | nil => simpa [last_final_time] using this
    | cons b rest2 =>
      simpa [last_final_time, List.getLast?_cons_cons] using this

theorem TimesOrdered_change_end {t_min t_max t : Instant} {ms : List NavigationManoeuvre}
    (h : TimesOrdered t_min ms t_max) (ht : last_final_time t_min ms ≤ t) :
    TimesOrdered t_min ms t := by
  induction ms generalizing t_min with
  | nil => simpa [TimesOrdered, last_final_time] using ht
  | cons a rest ih =>
    obtain ⟨h1, h2, h3⟩ := h
    refine ⟨h1, h2, ih h3 ?_⟩
    cases rest with
    | nil => simpa [last_final_time] using ht
    | cons b rest2 => simpa [last_final_time, List.getLast?_cons_cons] using ht

theorem TimesOrdered_map {t_min t_max : Instant} {ms : List NavigationManoeuvre}
    (f : NavigationManoeuvre → NavigationManoeuvre)
    (hf : ∀ m, (f m).initial_time = m.initial_time ∧ (f m).final_time = m.final_time) :
    TimesOrdered t_min (ms.map f) t_max ↔ TimesOrdered t_min ms t_max := by
  induction ms generalizing t_min with
  | nil => simp [TimesOrdered]
  | cons a rest ih => simp [TimesOrdered, ih, (hf a).1, (hf a).2]

theorem TimesOrdered_values {t_min t_max : Instant} {p q : FlightPlan}
    (h : manoeuvre_values q = manoeuvre_values p) :
    TimesOrdered t_min q.manoeuvres_ t_max ↔ TimesOrdered t_min p.manoeuvres_ t_max := by
  have key : ∀ r : FlightPlan, TimesOrdered t_min (manoeuvre_values r) t_max ↔
      TimesOrdered t_min r.manoeuvres_ t_max := fun r =>
    TimesOrdered_map _ (fun m => ⟨rfl, rfl⟩)
  rw [← key q, ← key p, h]

theorem TimesOrdered_index {t_min t_max : Instant} {ms : List NavigationManoeuvre}
    (h : TimesOrdered t_min ms t_max) :
    (∀ m, ms[0]? = some m → t_min ≤ m.initial_time) ∧
    (∀ i a b, ms[i]? = some a → ms[i + 1]? = some b → a.final_time ≤ b.initial_time) ∧
    (∀ m, ms.getLast? = some m → m.final_time ≤ t_max) := by
  induction ms generalizing t_min with
  | nil => simp
  | cons a rest ih =>
    obtain ⟨h1, h2, h3⟩ := h
    obtain ⟨i1, i2, i3⟩ := ih h3
    refine ⟨?_, ?_, ?_⟩
    · intro m hm
      simp at hm
      subst hm
      exact h1
    · intro i x y hx hy
      cases i with
      | zero =>
        simp at hx hy
        subst hx
        exact i1 y hy
      | succ j =>
        simp at hx hy
        exact i2 j x y hx hy
    · intro m hm
      have := @TimesOrdered_last_final_time t_min t_max (a :: rest) ⟨h1, h2, h3⟩
      simpa [last_final_time, hm] using this

theorem getLast?_dropLast_eq {α : Type} (l : List α) (h : 2 ≤ l.length) :
    l.dropLast.getLast? = l[l.length - 2]? := by
  rw [List.getLast?_eq_getElem?, List.length_dropLast, List.getElem?_dropLast]
  have : l.length - 1 - 1 = l.length - 2 := by omega
  rw [this]
  simp
  omega

theorem start_of_penultimate_coast_returns {p : FlightPlan} {start : Instant}
    (h : p.start_of_penultimate_coast = .returns start) :
    start = last_final_time p.initial_time_ p.manoeuvres_.dropLast := by
  unfold start_of_penultimate_coast at h
  split at h
  · rename_i h1
    obtain ⟨a, ha⟩ := List.length_eq_one.mp h1
    simp only [Outcome.returns.injEq] at h
    rw [ha]
    simp [last_final_time, h]
  · split at h
    · cases h
    · rename_i h1 h2
      simp only [Outcome.bind_eq_returns, Outcome.ofOption_eq_returns] at h
      obtain ⟨m, hm, h⟩ := h
      simp only [Outcome.returns.injEq] at h
      unfold last_final_time
      rw [getLast?_dropLast_eq _ (by omega), hm]
      exact h.symm

end FlightPlan
end Principia

namespace Principia

/-! ## Counts on the plans that the public interface can produce -/
namespace FlightPlan

theorem manoeuvre_values_length {p q : FlightPlan} (h : manoeuvre_values q = manoeuvre_values p) :
    q.manoeuvres_.length = p.manoeuvres_.length := by
  have := congrArg List.length h
  simpa [manoeuvre_values] using this

/-- The counts of a flight plan right after the constructor. -/
theorem new_plan {I : Collaborators} {fuel : Nat} {F : Forest} {root : Nat}
    {initial_time final_time : Instant} {initial_mass : Mass} {ephemeris : Ephemeris}
    {parameters : AdaptiveStepParameters} {q : FlightPlan}
    (h : FlightPlan.new I fuel F root initial_time final_time initial_mass ephemeris parameters
      = .returns q) :
    q.manoeuvres_ = [] ∧ q.segments_.length = 1 ∧
    (q.anomalous_segments_ = 0 ∨ q.anomalous_segments_ = 1) ∧
    q.initial_time_ ≤ q.final_time_ ∧ q.final_time_ = final_time ∧
    q.initial_time_ ≤ initial_time ∧ q.initial_mass_ = initial_mass ∧
    q.adaptive_step_parameters_ = parameters := by
  obtain ⟨hle, t, F1, fork, ht, _, hc⟩ := new_returns h
  obtain ⟨⟨s1, s2, s3, s4, s5⟩, g, _⟩ := CoastLastSegment_returns hc
  have a := CoastLastSegment_anomalous hc
  simp only at s1 s2 s3 s4 s5 g a
  refine ⟨s5, by rw [g]; rfl, by omega, ?_, s2, by rw [s1]; exact ht, s3, s4⟩
  rw [s1, s2]
  exact le_trans ht hle

/-- On every flight plan that the public interface can produce, the number of
segments is twice the number of manœuvres plus one, and the count of anomalous
segments is between 0 and 2 and at most the number of segments. -/
theorem Reachable_counts {I : Collaborators} {p : FlightPlan} (hp : Reachable I p) :
    p.segments_.length = 2 * p.manoeuvres_.length + 1 ∧
    0 ≤ p.anomalous_segments_ ∧ p.anomalous_segments_ ≤ 2 ∧
    p.anomalous_segments_ ≤ p.segments_.length := by
  induction hp with
  | new h =>
    obtain ⟨hm, hs, ha, _⟩ := new_plan h
    rw [hm, hs]
    refine ⟨rfl, ?_, ?_, ?_⟩ <;> omega
  | @Append fuel p q burn r _ h ih =>
    obtain ⟨i1, i2, i3, i4⟩ := ih
    obtain ⟨_, ⟨_, _, _, _, hm⟩, hs, ha⟩ | ⟨_, _, _, _, c, b, k, hm, hs, _, _, _, _, a1, a2⟩ :=
      Append_plan h
    · rw [hm, hs, ha]; exact ⟨i1, i2, i3, i4⟩
    · have hl := congrArg List.length hs
      have hk := congrArg List.length hm
      simp at hl hk
      refine ⟨by omega, a1, a2, by omega⟩
  | @ReplaceLast fuel p q burn r _ h ih =>
    obtain ⟨i1, i2, i3, i4⟩ := ih
    obtain ⟨back, _, hback, _, h⟩ := ReplaceLast_plan h
    obtain ⟨_, ⟨_, _, _, _, hm⟩, hs, ha⟩ | ⟨_, _, _, c, b, k, hm, hs, _, _, _, _, a1, a2⟩ := h
    · rw [hm, hs, ha]; exact ⟨i1, i2, i3, i4⟩
    · have hl := congrArg List.length hs
      have hk := congrArg List.length hm
      have hne : p.manoeuvres_ ≠ [] := fun h0 => by rw [h0] at hback; simp at hback
      have hpos := List.length_pos.mpr hne
      simp at hl hk
      refine ⟨by omega, a1, a2, by omega⟩
  | @RemoveLast fuel p q _ h ih =>
    obtain ⟨i1, i2, i3, i4⟩ := ih
    obtain ⟨hne, hm, hs, hsn, _, _, _, _, ha⟩ := RemoveLast_plan h
    have hl := congrArg List.length hs
    have hk := congrArg List.length hm
    have hpos := List.length_pos.mpr hne
    have hpos2 := List.length_pos.mpr hsn
    simp at hl hk
    have := ha i2 i3
    refine ⟨by omega, by omega, by omega, by omega⟩
  | @SetFinalTime fuel p q t r _ h ih =>
    obtain ⟨i1, i2, i3, i4⟩ := ih
    obtain ⟨_, rfl, _⟩ | ⟨_, _, _, hm, hs, hne, _, _, _, a1, a2⟩ := SetFinalTime_plan h
    · exact ⟨i1, i2, i3, i4⟩
    · rw [hm, hs]
      have hpos := List.length_pos.mpr hne
      have hcases : (p.anomalous_segments_ = 0 ∨ p.anomalous_segments_ = 1) ∨
          1 < p.anomalous_segments_ := by omega
      rcases hcases with h01 | h2
      · have := a1 h01
        refine ⟨i1, ?_, ?_, ?_⟩ <;> omega
      · have := a2 h2
        refine ⟨i1, ?_, ?_, ?_⟩ <;> omega
  | @SetAdaptiveStepParameters fuel p q parameters r _ h ih =>
    obtain ⟨i1, i2, i3, i4⟩ := ih
    obtain ⟨p2, ok, h2, hcase⟩ := SetAdaptiveStepParameters_returns h
    obtain ⟨v2, l2, _, _, _, _, r2, b2⟩ := RecomputeSegments_plan h2
    have k2 := manoeuvre_values_length v2
    simp only at k2 l2 b2
    obtain ⟨c1, c2⟩ := b2 i2 i4
    rcases hcase with ⟨rfl, rfl, _⟩ | ⟨_, _, h4⟩
    · have : q.anomalous_segments_ ≤ 2 := of_decide_eq_true r2.symm
      exact ⟨by rw [l2, k2], c1, this, c2⟩
    · obtain ⟨v4, l4, _, _, _, _, r4, b4⟩ := RecomputeSegments_plan h4
      have k4 := manoeuvre_values_length v4
      simp only at k4 l4 b4
      obtain ⟨d1, d2⟩ := b4 c1 c2
      have : q.anomalous_segments_ ≤ 2 := of_decide_eq_true r4.symm
      exact ⟨by rw [l4, k4], d1, this, d2⟩

end FlightPlan
end Principia

namespace Principia

/-! ## Times and masses on the plans that the public interface can produce -/
namespace FlightPlan

theorem eq_dropLast_append_of_getLast? {α : Type} {l : List α} {a : α}
    (h : l.getLast? = some a) : l = l.dropLast ++ [a] :=
  (List.dropLast_append_getLast? a h).symm

theorem FitsBetween_eq_true {m : NavigationManoeuvre} {t_min t_max : Instant}
    (h : m.FitsBetween t_min t_max = true) : t_min ≤ m.initial_time ∧ m.final_time ≤ t_max :=
  of_decide_eq_true h

theorem start_of_last_coast_eq (p : FlightPlan) :
    p.start_of_last_coast = last_final_time p.initial_time_ p.manoeuvres_ := rfl

/-- On every flight plan that the public interface can produce, the manœuvres
follow one another between the initial and the final time of the plan, provided
no manœuvre is made that ends before it starts. -/
theorem Reachable_ordered {I : Collaborators}
    (hI : ∀ burn mass, (I.MakeNavigationManoeuvre burn mass).initial_time ≤
      (I.MakeNavigationManoeuvre burn mass).final_time)
    {p : FlightPlan} (hp : Reachable I p) :
    TimesOrdered p.initial_time_ p.manoeuvres_ p.final_time_ := by
  induction hp with
  | new h =>
    obtain ⟨hm, _, _, hle, _⟩ := new_plan h
    rw [hm]
    exact hle
  | @Append fuel p q burn r _ h ih =>
    obtain ⟨_, ⟨t1, t2, _, _, hm⟩, _, _⟩ | ⟨_, hfit, _, _, c, b, k, hm, _, t1, t2, _⟩ :=
      Append_plan h
    · rw [hm, t1, t2]; exact ih
    · obtain ⟨f1, f2⟩ := FitsBetween_eq_true hfit
      rw [hm, t1, t2, TimesOrdered_append]
      exact ⟨TimesOrdered_change_end ih f1, hI _ _, f2⟩
  | @ReplaceLast fuel p q burn r _ h ih =>
    obtain ⟨back, start, hback, hstart, h⟩ := ReplaceLast_plan h
    obtain ⟨_, ⟨t1, t2, _, _, hm⟩, _, _⟩ | ⟨_, hfit, _, c, b, k, hm, _, t1, t2, _⟩ := h
    · rw [hm, t1, t2]; exact ih
    · obtain ⟨f1, f2⟩ := FitsBetween_eq_true hfit
      rw [eq_dropLast_append_of_getLast? hback, TimesOrdered_append] at ih
      rw [start_of_penultimate_coast_returns hstart] at f1
      rw [hm, t1, t2, TimesOrdered_append]
      exact ⟨TimesOrdered_change_end ih.1 f1, hI _ _, f2⟩
  | @RemoveLast fuel p q _ h ih =>
    obtain ⟨hne, hm, _, _, t1, t2, _⟩ := RemoveLast_plan h
    obtain ⟨back, hback⟩ : ∃ back, p.manoeuvres_.getLast? = some back := by
      cases hl : p.manoeuvres_.getLast? with
      | none => exact absurd (List.getLast?_eq_none_iff.mp hl) hne
      | some a => exact ⟨a, rfl⟩
    rw [eq_dropLast_append_of_getLast? hback, TimesOrdered_append] at ih
    rw [hm, t1, t2]
    refine TimesOrdered_change_end ih.1 ?_
    exact le_trans (TimesOrdered_last_final_time ih.1) (le_trans ih.2.1 ih.2.2)
  | @SetFinalTime fuel p q t r _ h ih =>
    obtain ⟨_, rfl, _⟩ | ⟨hle, _, hf, hm, _, _, t1, _⟩ := SetFinalTime_plan h
    · exact ih
    · rw [hm, t1, hf]
      exact TimesOrdered_change_end ih hle
  | @SetAdaptiveStepParameters fuel p q parameters r _ h ih =>
    obtain ⟨p2, ok, h2, hcase⟩ := SetAdaptiveStepParameters_returns h
    obtain ⟨v2, _, t1, t2, _⟩ := RecomputeSegments_plan h2
    simp only at t1 t2
    have v2p : manoeuvre_values p2 = manoeuvre_values p := v2
    rcases hcase with ⟨_, rfl, _⟩ | ⟨_, _, h4⟩
    · rw [t1, t2, TimesOrdered_values v2p]; exact ih
    · obtain ⟨v4, _, u1, u2, _⟩ := RecomputeSegments_plan h4
      simp only at u1 u2
      have v4p : manoeuvre_values q = manoeuvre_values p2 := v4
      rw [u1, u2, t1, t2, TimesOrdered_values v4p, TimesOrdered_values v2p]; exact ih

theorem MassesChained_append {mass : Mass} {ms : List NavigationManoeuvre}
    {m : NavigationManoeuvre} :
    MassesChained mass (ms ++ [m]) ↔
      MassesChained mass ms ∧ m.initial_mass = last_final_mass mass ms := by
  induction ms generalizing mass with
  | nil => simp [MassesChained, last_final_mass]
  | cons a rest ih =>
    have hl : last_final_mass mass (a :: rest) = last_final_mass a.final_mass rest := by
      cases rest with
      | nil => simp [last_final_mass]
      | cons b rest2 =>
        obtain ⟨x, hx⟩ : ∃ x, (b :: rest2).getLast? = some x :=
          ⟨_, List.getLast?_eq_getLast _ (by simp)⟩
        simp [last_final_mass, List.getLast?_cons_cons, hx]
    simp [MassesChained, ih, hl, and_assoc]

theorem MassesChained_map {mass : Mass} {ms : List NavigationManoeuvre}
    (f : NavigationManoeuvre → NavigationManoeuvre)
    (hf : ∀ m, (f m).initial_mass = m.initial_mass ∧ (f m).final_mass = m.final_mass) :
    MassesChained mass (ms.map f) ↔ MassesChained mass ms := by
  induction ms generalizing mass with
  | nil => simp [MassesChained]
  | cons a rest ih => simp [MassesChained, ih, (hf a).1, (hf a).2]

theorem MassesChained_values {mass : Mass} {p q : FlightPlan}
    (h : manoeuvre_values q = manoeuvre_values p) :
    MassesChained mass q.manoeuvres_ ↔ MassesChained mass p.manoeuvres_ := by
  have key : ∀ r : FlightPlan, MassesChained mass (manoeuvre_values r) ↔
      MassesChained mass r.manoeuvres_ := fun r =>
    MassesChained_map _ (fun m => ⟨rfl, rfl⟩)
  rw [← key q, ← key p, h]

theorem tail_mass_eq (p : FlightPlan) :
    tail_mass p = last_final_mass p.initial_mass_ p.manoeuvres_ := rfl

/-- On every flight plan that the public interface can produce, each manœuvre
starts with the mass that the previous one ends with, and the first with the
initial mass of the plan, provided manœuvres are made with the initial mass they
are given. -/
theorem Reachable_masses {I : Collaborators}
    (hI : ∀ burn mass, (I.MakeNavigationManoeuvre burn mass).initial_mass = mass)
    {p : FlightPlan} (hp : Reachable I p) :
    MassesChained p.initial_mass_ p.manoeuvres_ := by
  induction hp with
  | new h =>
    obtain ⟨hm, _⟩ := new_plan h
    rw [hm]
    trivial
  | @Append fuel p q burn r _ h ih =>
    obtain ⟨_, ⟨_, _, t3, _, hm⟩, _, _⟩ | ⟨_, _, _, _, c, b, k, hm, _, _, _, t3, _⟩ :=
      Append_plan h
    · rw [hm, t3]; exact ih
    · rw [hm, t3, MassesChained_append]
      exact ⟨ih, hI _ _⟩
  | @ReplaceLast fuel p q burn r _ h ih =>
    obtain ⟨back, start, hback, hstart, h⟩ := ReplaceLast_plan h
    obtain ⟨_, ⟨_, _, t3, _, hm⟩, _, _⟩ | ⟨_, _, _, c, b, k, hm, _, _, _, t3, _⟩ := h
    · rw [hm, t3]; exact ih
    · rw [eq_dropLast_append_of_getLast? hback, MassesChained_append] at ih
      rw [hm, t3, MassesChained_append]
      refine ⟨ih.1, ?_⟩
      show (I.MakeNavigationManoeuvre burn back.initial_mass).initial_mass = _
      rw [hI, ih.2]
  | @RemoveLast fuel p q _ h ih =>
    obtain ⟨hne, hm, _, _, _, _, t3, _⟩ := RemoveLast_plan h
    obtain ⟨back, hback⟩ : ∃ back, p.manoeuvres_.getLast? = some back := by
      cases hl : p.manoeuvres_.getLast? with
      | none => exact absurd (List.getLast?_eq_none_iff.mp hl) hne
      | some a => exact ⟨a, rfl⟩
    rw [eq_dropLast_append_of_getLast? hback, MassesChained_append] at ih
    rw [hm, t3]
    exact ih.1
  | @SetFinalTime fuel p q t r _ h ih =>
    obtain ⟨_, rfl, _⟩ | ⟨_, _, _, hm, _, _, _, t3, _⟩ := SetFinalTime_plan h
    · exact ih
    · rw [hm, t3]; exact ih
  | @SetAdaptiveStepParameters fuel p q parameters r _ h ih =>
    obtain ⟨p2, ok, h2, hcase⟩ := SetAdaptiveStepParameters_returns h
    obtain ⟨v2, _, _, _, t3, _⟩ := RecomputeSegments_plan h2
    simp only at t3
    have v2p : manoeuvre_values p2 = manoeuvre_values p := v2
    rcases hcase with ⟨_, rfl, _⟩ | ⟨_, _, h4⟩
    · rw [t3, MassesChained_values v2p]; exact ih
    · obtain ⟨v4, _, _, _, u3, _⟩ := RecomputeSegments_plan h4
      simp only at u3
      have v4p : manoeuvre_values q = manoeuvre_values p2 := v4
      rw [u3, t3, MassesChained_values v4p, MassesChained_values v2p]; exact ih

end FlightPlan
end Principia

namespace Principia

/-! ## Facts about the memory of discrete trajectories -/

theorem le_foldr_max {l : List Nat} {x : Nat} (h : x ∈ l) : x ≤ l.foldr max 0 := by
  induction l with
  | nil => cases h
  | cons a rest ih =>
    simp only [List.foldr_cons]
    rcases List.mem_cons.mp h with rfl | h
    · exact le_max_left _ _
    · exact le_trans (ih h) (le_max_right _ _)

/-- A fresh address is neither the address of a live trajectory nor that of an
ancestor of one. -/
theorem Forest.lt_fresh (F : Forest) {e : Nat × DiscreteTrajectory} (he : e ∈ F) :
    e.1 < F.fresh ∧ ∀ a ∈ e.2.ancestry, a.1 < F.fresh := by
  have key : ∀ x ∈ F.addresses, x < F.fresh := fun x hx =>
    Nat.lt_succ_of_le (le_foldr_max hx)
  constructor
  · apply key
    simp only [Forest.addresses, List.mem_flatMap]
    exact ⟨e, he, by simp⟩
  · intro a ha
    apply key
    simp only [Forest.addresses, List.mem_flatMap]
    exact ⟨e, he, by simp only [List.mem_cons, List.mem_map]; exact Or.inr ⟨a, ha, rfl⟩⟩

theorem Forest.key_ne_fresh (F : Forest) : ∀ e ∈ F, e.1 ≠ F.fresh :=
  fun _ he => Nat.ne_of_lt (F.lt_fresh he).1

theorem Forest.mem_of_deref {F : Forest} {p : Nat} {d : DiscreteTrajectory}
    (h : F.deref p = some d) : (p, d) ∈ F := by
  unfold Forest.deref at h
  simp only [Option.map_eq_some'] at h
  obtain ⟨e, he, rfl⟩ := h
  have h1 := List.mem_of_find?_eq_some he
  have h2 := List.find?_some he
  simp only [decide_eq_true_eq] at h2
  subst h2
  exact h1

theorem Forest.deref_eq_none {F : Forest} {k : Nat} (h : ∀ e ∈ F, e.1 ≠ k) :
    F.deref k = none := by
  unfold Forest.deref
  simp only [Option.map_eq_none', List.find?_eq_none, decide_eq_true_eq]
  exact h

theorem Forest.deref_fresh (F : Forest) : F.deref F.fresh = none :=
  Forest.deref_eq_none F.key_ne_fresh

theorem Forest.deref_append_of_some {F : Forest} {j : Nat} {d : DiscreteTrajectory}
    (G : Forest) (h : F.deref j = some d) : Forest.deref (F ++ G) j = some d := by
  unfold Forest.deref at h ⊢
  simp only [Option.map_eq_some'] at h
  obtain ⟨e, he, rfl⟩ := h
  simp [List.find?_append, he]

theorem Forest.deref_append_of_none {F : Forest} {j : Nat} (G : Forest)
    (h : F.deref j = none) : Forest.deref (F ++ G) j = Forest.deref G j := by
  unfold Forest.deref at h ⊢
  simp only [Option.map_eq_none'] at h
  simp [List.find?_append, h]

theorem Forest.deref_singleton (k j : Nat) (n : DiscreteTrajectory) :
    Forest.deref [(k, n)] j = if k = j then some n else none := by
  unfold Forest.deref
  by_cases h : k = j <;> simp [List.find?, h]

/-- The trajectory at a fresh address appended to the memory. -/
theorem Forest.deref_append_new {F : Forest} {k : Nat} (n : DiscreteTrajectory)
    (h : ∀ e ∈ F, e.1 ≠ k) : Forest.deref (F ++ [(k, n)]) k = some n := by
  rw [Forest.deref_append_of_none _ (Forest.deref_eq_none h), Forest.deref_singleton]
  simp

/-- The other trajectories when one is appended to the memory. -/
theorem Forest.deref_append_old {F : Forest} {k j : Nat} (n : DiscreteTrajectory)
    (h : j ≠ k) : Forest.deref (F ++ [(k, n)]) j = F.deref j := by
  cases hj : F.deref j with
  | some d => exact Forest.deref_append_of_some _ hj
  | none =>
    rw [Forest.deref_append_of_none _ hj, Forest.deref_singleton]
    simp [Ne.symm h]

theorem Forest.store_of_absent {F : Forest} {k : Nat} (d : DiscreteTrajectory)
    (h : ∀ e ∈ F, e.1 ≠ k) : Forest.store F k d = F := by
  unfold Forest.store
  conv_rhs => rw [← List.map_id F]
  apply List.map_congr_left
  intro e he
  simp [h e he]

/-- Overwriting the trajectory that was appended last. -/
theorem Forest.store_append_new {F : Forest} {k : Nat} (n d : DiscreteTrajectory)
    (h : ∀ e ∈ F, e.1 ≠ k) : Forest.store (F ++ [(k, n)]) k d = F ++ [(k, d)] := by
  have := Forest.store_of_absent d h
  unfold Forest.store at this ⊢
  rw [List.map_append, this]
  simp

/-- What `NewForkWithoutCopy` does when it returns. -/
theorem Forest.NewForkWithoutCopy_returns {F F1 : Forest} {p r : Nat} {t : Instant}
    (h : F.NewForkWithoutCopy p t = .returns (F1, r)) :
    ∃ d s, F.deref p = some d ∧ s.time = t ∧ (s ∈ d.timeline ∨ d.Fork = some s) ∧
      r = F.fresh ∧
      F1 = F ++ [(F.fresh, { ancestry := (p, s) :: d.ancestry, timeline := [] })] := by
  unfold Forest.NewForkWithoutCopy at h
  split at h
  · cases h
  · rename_i d hd
    simp only at h
    split at h
    · cases h
    · rename_i s hs
      simp only [Outcome.returns.injEq, Prod.mk.injEq] at h
      refine ⟨d, s, hd, ?_, ?_, h.2.symm, h.1.symm⟩
      · split at hs
        · rename_i s1 hfind
          cases hs
          simpa using List.find?_some hfind
        · split at hs
          · split at hs
            · rename_i heq
              cases hs
              exact heq
            · cases hs
          · cases hs
      · split at hs
        · rename_i s1 hfind
          cases hs
          exact Or.inl (List.mem_of_find?_eq_some hfind)
        · split at hs
          · rename_i s1 hfork
            split at hs
            · cases hs
              exact Or.inr hfork
            · cases hs
          · cases hs

/-- What `NewForkAtLast` does when it returns. -/
theorem Forest.NewForkAtLast_returns {F F1 : Forest} {p r : Nat}
    (h : F.NewForkAtLast p = .returns (F1, r)) :
    ∃ d s, F.deref p = some d ∧ d.last = some s ∧ r = F.fresh ∧
      F1 = F ++ [(F.fresh, { ancestry := (p, s) :: d.ancestry, timeline := [] })] := by
  unfold Forest.NewForkAtLast at h
  split at h
  · cases h
  · rename_i d hd
    split at h
    · cases h
    · rename_i s hs
      simp only [Outcome.returns.injEq, Prod.mk.injEq] at h
      exact ⟨d, s, hd, hs, h.2.symm, h.1.symm⟩

/-- What `Append` does when it returns. -/
theorem Forest.Append_sample_returns {F F1 : Forest} {p : Nat} {s : Sample}
    (h : F.Append p s = .returns F1) :
    ∃ d, F.deref p = some d ∧ F1 = Forest.store F p { d with timeline := d.timeline ++ [s] } := by
  unfold Forest.Append at h
  split at h
  · cases h
  · rename_i d hd
    split at h
    · cases h; exact ⟨d, hd, rfl⟩
    · split at h
      · cases h; exact ⟨d, hd, rfl⟩
      · cases h

/-- Appending a sample to the trajectory that was added last to the memory. -/
theorem Forest.Append_new {F F1 : Forest} {k : Nat} {n : DiscreteTrajectory} {s : Sample}
    (hk : ∀ e ∈ F, e.1 ≠ k) (h : Forest.Append (F ++ [(k, n)]) k s = .returns F1) :
    F1 = F ++ [(k, { n with timeline := n.timeline ++ [s] })] := by
  obtain ⟨d, hd, rfl⟩ := Forest.Append_sample_returns h
  rw [Forest.deref_append_new n hk] at hd
  cases hd
  exact Forest.store_append_new _ _ hk

/-- Appending samples to the trajectory that was added last to the memory. -/
theorem Forest.AppendAll_new {F : Forest} {k : Nat} (hk : ∀ e ∈ F, e.1 ≠ k)
    (l : List Sample) : ∀ {n : DiscreteTrajectory} {F1 : Forest},
    Forest.AppendAll (F ++ [(k, n)]) k l = .returns F1 →
    F1 = F ++ [(k, { n with timeline := n.timeline ++ l })] := by
  induction l with
  | nil =>
    intro n F1 h
    unfold Forest.AppendAll at h
    cases h
    simp
  | cons s rest ih =>
    intro n F1 h
    unfold Forest.AppendAll at h
    split at h
    · rename_i F2 h2
      rw [Forest.Append_new hk h2] at h
      rw [ih h]
      simp
    · cases h
    · cases h

/-- The steps of a call of `FlowWithAdaptiveStep` that returns. -/
theorem FlowWithAdaptiveStep_returns {I : Collaborators} {fuel : Nat} {e e1 : Ephemeris}
    {F F1 : Forest} {trajectory : Nat} {a : Option NavigationManoeuvre} {t : Instant}
    {parameters : AdaptiveStepParameters} {max_ephemeris_steps : Int} {r : Bool}
    (h : FlowWithAdaptiveStep I fuel e F trajectory a t parameters max_ephemeris_steps
      = .returns (e1, F1, r)) :
    ∃ d trajectory_last, F.deref trajectory = some d ∧ d.last = some trajectory_last ∧
      Prolong I fuel e
        (min (max (e.last_state_time + max_ephemeris_steps * e.step_)
          (trajectory_last.time + e.step_)) t) = .returns e1 ∧
      0 < min (max (e.last_state_time + max_ephemeris_steps * e.step_)
          (trajectory_last.time + e.step_)) t - trajectory_last.time ∧
      Forest.AppendAll F trajectory
        (I.adaptive_Solve e1 parameters a trajectory_last
          (min (max (e.last_state_time + max_ephemeris_steps * e.step_)
            (trajectory_last.time + e.step_)) t)).1 = .returns F1 ∧
      r = decide ((I.adaptive_Solve e1 parameters a trajectory_last
          (min (max (e.last_state_time + max_ephemeris_steps * e.step_)
            (trajectory_last.time + e.step_)) t)).2 = TerminationCondition.Done ∧
        min (max (e.last_state_time + max_ephemeris_steps * e.step_)
            (trajectory_last.time + e.step_)) t = t) := by
  unfold FlowWithAdaptiveStep at h
  split at h
  · cases h
  · rename_i trajectory_last hl
    simp only at h
    split at h
    · cases h
    · cases h
    · rename_i e2 hp
      split at h
      · rename_i hpos
        split at h
        · cases h
        · cases h
        · rename_i F2 hF
          simp only [Outcome.returns.injEq, Prod.mk.injEq] at h
          obtain ⟨rfl, rfl, rfl⟩ := h
          cases hd : F.deref trajectory with
          | none => simp [hd] at hl
          | some d =>
            simp only [hd, Option.some_bind] at hl
            exact ⟨d, trajectory_last, rfl, hl, hp, hpos, hF, rfl⟩
      · cases h

/-- A flow on the trajectory that was added last to the memory changes that
trajectory only, and only by giving it more samples. -/
theorem FlowWithAdaptiveStep_new {I : Collaborators} {fuel : Nat} {e e1 : Ephemeris}
    {F F1 : Forest} {k : Nat} {n : DiscreteTrajectory} {a : Option NavigationManoeuvre}
    {t : Instant} {parameters : AdaptiveStepParameters} {max_ephemeris_steps : Int} {r : Bool}
    (hk : ∀ e ∈ F, e.1 ≠ k)
    (h : FlowWithAdaptiveStep I fuel e (F ++ [(k, n)]) k a t parameters max_ephemeris_steps
      = .returns (e1, F1, r)) :
    ∃ l, F1 = F ++ [(k, { n with timeline := n.timeline ++ l })] := by
  obtain ⟨_, _, _, _, _, _, hF, _⟩ := FlowWithAdaptiveStep_returns h
  exact ⟨_, Forest.AppendAll_new hk _ hF⟩

/-- Deleting the fork that was added last to the memory gives the memory back. -/
theorem Forest.DeleteFork_new {F : Forest} {k : Nat} {n : DiscreteTrajectory}
    (hk : ∀ e ∈ F, e.1 ≠ k ∧ ∀ a ∈ e.2.ancestry, a.1 ≠ k) (hn : n.ancestry ≠ []) :
    Forest.DeleteFork (F ++ [(k, n)]) k = .returns F := by
  unfold Forest.DeleteFork
  rw [Forest.deref_append_new n (fun e he => (hk e he).1)]
  have hroot : n.is_root = false := by
    unfold DiscreteTrajectory.is_root
    cases hh : n.ancestry with
    | nil => exact absurd hh hn
    | cons a rest => rfl
  simp only [hroot, Bool.false_eq_true, if_false, Outcome.returns.injEq]
  rw [List.filter_append]
  have h1 : List.filter (fun e : Nat × DiscreteTrajectory =>
      !(decide (e.1 = k) || (e.2.ancestry.map (fun a => a.1)).contains k)) F = F := by
    rw [List.filter_eq_self]
    intro e he
    obtain ⟨h1, h2⟩ := hk e he
    simp only [Bool.not_eq_true', Bool.or_eq_false_iff, decide_eq_false_iff_not]
    refine ⟨h1, ?_⟩
    rw [← Bool.not_eq_true]
    simp only [List.contains_eq_any_beq, List.any_eq_true, List.mem_map, beq_iff_eq,
      not_exists, not_and]
    rintro x ⟨a, ha, rfl⟩ heq
    exact h2 a ha heq.symm
  rw [h1]
  simp

end Principia

namespace Principia

/-! ## The trial coast and the claims about `Append` returning -/
namespace FlightPlan

/-- A trial coast that does not reach the manœuvre leaves the plan and the
memory as they were; only the ephemeris has advanced. -/
theorem CoastIfReachesManoeuvreInitialTime_none {I : Collaborators} {fuel : Nat}
    {p q : FlightPlan} {coast : Nat} {m : NavigationManoeuvre}
    (h : CoastIfReachesManoeuvreInitialTime I fuel p coast m = .returns (q, none)) :
    q = { p with ephemeris_ := q.ephemeris_ } := by
  obtain ⟨c, parent, fork, F, rc, e, F1, reached, _, _, _, hnew, hflow, hcase⟩ :=
    CoastIfReachesManoeuvreInitialTime_returns h
  obtain ⟨d, s, _, _, _, rfl, rfl⟩ := Forest.NewForkWithoutCopy_returns hnew
  obtain ⟨l, rfl⟩ := FlowWithAdaptiveStep_new p.trajectories.key_ne_fresh hflow
  rcases hcase with ⟨_, ho, _⟩ | ⟨_, _, F2, hdel, rfl⟩
  · cases ho
  · rw [Forest.DeleteFork_new (fun e he =>
        ⟨Nat.ne_of_lt (p.trajectories.lt_fresh he).1,
         fun a ha => Nat.ne_of_lt ((p.trajectories.lt_fresh he).2 a ha)⟩)
      (by simp)] at hdel
    cases hdel
    rfl

/-- When the flow of the trial coast returns false, the trial coast returns
`nullptr`. -/
theorem CoastIfReachesManoeuvreInitialTime_of_false {I : Collaborators} {fuel : Nat}
    {p : FlightPlan} {coast : Nat} {m : NavigationManoeuvre}
    {c : DiscreteTrajectory} {parent : Nat} {fork : Sample} {F F1 : Forest} {rc : Nat}
    {e : Ephemeris}
    (hc : p.trajectories.deref coast = some c) (hpar : c.parent = some parent)
    (hfork : c.Fork = some fork)
    (hnew : p.trajectories.NewForkWithoutCopy parent fork.time = .returns (F, rc))
    (hflow : FlowWithAdaptiveStep I fuel p.ephemeris_ F rc none m.initial_time
      p.adaptive_step_parameters_ I.max_ephemeris_steps_per_frame = .returns (e, F1, false)) :
    CoastIfReachesManoeuvreInitialTime I fuel p coast m =
      .returns ({ p with ephemeris_ := e }, none) := by
  obtain ⟨d, s, _, _, _, rfl, rfl⟩ := Forest.NewForkWithoutCopy_returns hnew
  obtain ⟨l, rfl⟩ := FlowWithAdaptiveStep_new p.trajectories.key_ne_fresh hflow
  have hdel := Forest.DeleteFork_new (F := p.trajectories) (k := p.trajectories.fresh)
    (n := { ancestry := (parent, s) :: d.ancestry, timeline := [] ++ l })
    (fun e he => ⟨Nat.ne_of_lt (p.trajectories.lt_fresh he).1,
      fun a ha => Nat.ne_of_lt ((p.trajectories.lt_fresh he).2 a ha)⟩) (by simp)
  unfold CoastIfReachesManoeuvreInitialTime
  simp only [hc, hpar, hfork, hnew, hflow, Outcome.ofOption, Outcome.bind_def,
    Outcome.returns_bind, Bool.not_false, if_true]
  simp only [List.nil_append] at hdel ⊢
  rw [hdel]
  rfl

/-- The value of the calls of `Append(burn)` that return.  Whenever `Append(burn)`
returns, it returns true if and only if the manœuvre built from the burn fits
between the start of the last coast and the final time, is not singular, and
the trial coast forked at the fork point of the last coast reaches the initial
time of the manœuvre (the adaptive flow of the ephemeris returns true on it).
Moreover the cases where it returns false are calls that do return: when the
manœuvre does not fit or is singular, and when the flow on the trial coast
returns false.  A call in which the three conditions hold need not return. -/
theorem Append_returns_true_iff (I : Collaborators) (fuel : Nat) (p : FlightPlan) (burn : Burn)
    (q : FlightPlan) (r : Bool) (h : Append I fuel p burn = .returns (q, r)) :
    (r = true ↔
      ((I.MakeNavigationManoeuvre burn (tail_mass p)).FitsBetween p.start_of_last_coast
          p.final_time_ = true ∧
        (I.MakeNavigationManoeuvre burn (tail_mass p)).IsSingular = false ∧
        ∃ coast, p.last_coast = .returns coast ∧
          TrialCoastReaches I fuel p coast (I.MakeNavigationManoeuvre burn (tail_mass p)))) ∧
    (¬ ((I.MakeNavigationManoeuvre burn (tail_mass p)).FitsBetween p.start_of_last_coast
          p.final_time_ = true ∧
        (I.MakeNavigationManoeuvre burn (tail_mass p)).IsSingular = false) →
      Append I fuel p burn = .returns (p, false)) ∧
    (∀ coast c parent fork F rc e F1,
      (I.MakeNavigationManoeuvre burn (tail_mass p)).FitsBetween p.start_of_last_coast
          p.final_time_ = true →
      (I.MakeNavigationManoeuvre burn (tail_mass p)).IsSingular = false →
      p.last_coast = .returns coast →
      p.trajectories.deref coast = some c → c.parent = some parent → c.Fork = some fork →
      p.trajectories.NewForkWithoutCopy parent fork.time = .returns (F, rc) →
      FlowWithAdaptiveStep I fuel p.ephemeris_ F rc none
        (I.MakeNavigationManoeuvre burn (tail_mass p)).initial_time
        p.adaptive_step_parameters_ I.max_ephemeris_steps_per_frame = .returns (e, F1, false) →
      Append I fuel p burn = .returns ({ p with ephemeris_ := e }, false)) := by
  refine ⟨?_, ?_, ?_⟩
  · obtain ⟨hn, _, rfl⟩ | ⟨hfit, hsing, coast, p1, o, hcoast, htrial, hcase⟩ := Append_returns h
    · constructor
      · intro h0; cases h0
      · rintro ⟨h1, h2, _⟩
        exact absurd ⟨h1, h2⟩ hn
    · obtain ⟨c, parent, fork, F, rc, e, F1, reached, hc, hpar, hfork, hnew, hflow, hreach⟩ :=
        CoastIfReachesManoeuvreInitialTime_returns htrial
      have hlast : p.last_coast = .returns coast := by
        simp [last_coast, Outcome.ofOption, hcoast]
      rcases hcase with ⟨rfl, _, rfl⟩ | ⟨segment, p2, rfl, _, _, rfl⟩
      · constructor
        · intro h0; cases h0
        · rintro ⟨_, _, coast2, hcoast2, c2, parent2, fork2, F2, rc2, e2, F12, hc2, hpar2, hfork2,
            hnew2, hflow2⟩
          rw [hlast] at hcoast2
          cases hcoast2
          rw [hc] at hc2; cases hc2
          rw [hpar] at hpar2; cases hpar2
          rw [hfork] at hfork2; cases hfork2
          rw [hnew] at hnew2; cases hnew2
          rw [hflow] at hflow2; cases hflow2
          rcases hreach with ⟨_, ho, _⟩ | ⟨hr, _⟩
          · cases ho
          · cases hr
      · constructor
        · intro _
          rcases hreach with ⟨rfl, _, _⟩ | ⟨_, ho, _⟩
          · exact ⟨hfit, hsing, coast, hlast, c, parent, fork, F, rc, e, F1, hc, hpar, hfork,
              hnew, hflow⟩
          · cases ho
        · intro _; rfl
  · intro hn
    unfold Append
    simp only []
    split
    · rename_i hc
      exfalso
      apply hn
      simpa using hc
    · rfl
  · intro coast c parent fork F rc e F1 hfit hsing hcoast hc hpar hfork hnew hflow
    have htrial := CoastIfReachesManoeuvreInitialTime_of_false hc hpar hfork hnew hflow
    unfold Append
    simp only [hfit, hsing, hcoast, htrial, Outcome.bind_def, Outcome.returns_bind,
      Bool.not_false, Bool.and_self, if_true]

/-- Claim C3.  Atomicity on failure: whenever `Append(burn)` or `ReplaceLast(burn)`
returns false, the manœuvres, the segments, the count of anomalous segments,
the initial and final times, the initial mass and the adaptive step parameters
are what they were before the call, and so is the memory of the trajectories:
the segments have the points they had, and the trial fork, made at the first
free address, is gone.  In particular `Append` of a burn that starts before the
start of the last coast returns false and changes nothing at all. -/
theorem failure_leaves_plan_unchanged (I : Collaborators) (fuel : Nat) (p : FlightPlan)
    (burn : Burn) (q : FlightPlan)
    (h : Append I fuel p burn = .returns (q, false) ∨
      ReplaceLast I fuel p burn = .returns (q, false)) :
    q.manoeuvres_ = p.manoeuvres_ ∧ q.segments_ = p.segments_ ∧
    q.anomalous_segments_ = p.anomalous_segments_ ∧
    q.initial_time_ = p.initial_time_ ∧ q.final_time_ = p.final_time_ ∧
    q.initial_mass_ = p.initial_mass_ ∧
    q.adaptive_step_parameters_ = p.adaptive_step_parameters_ ∧
    q.trajectories = p.trajectories ∧
    q.trajectories.deref p.trajectories.fresh = none ∧
    ((I.MakeNavigationManoeuvre burn (tail_mass p)).initial_time < p.start_of_last_coast →
      Append I fuel p burn = .returns (p, false)) := by
  have hq : q = { p with ephemeris_ := q.ephemeris_ } := by
    rcases h with h | h
    · obtain ⟨_, rfl, _⟩ | ⟨_, _, coast, p1, o, _, htrial, hcase⟩ := Append_returns h
      · rfl
      · rcases hcase with ⟨rfl, rfl, _⟩ | ⟨_, _, _, _, _, hr⟩
        · exact CoastIfReachesManoeuvreInitialTime_none htrial
        · cases hr
    · obtain ⟨back, start, _, _, hcase⟩ := ReplaceLast_returns h
      obtain ⟨_, rfl, _⟩ | ⟨_, _, coast, p1, o, _, htrial, hcase⟩ := hcase
      · rfl
      · rcases hcase with ⟨rfl, rfl, _⟩ | ⟨_, _, _, _, _, _, _, _, _, hr⟩
        · exact CoastIfReachesManoeuvreInitialTime_none htrial
        · cases hr
  refine ⟨by rw [hq], by rw [hq], by rw [hq], by rw [hq], by rw [hq], by rw [hq], by rw [hq],
    by rw [hq], ?_, ?_⟩
  · rw [hq]
    exact p.trajectories.deref_fresh
  · intro hlt
    unfold Append
    simp only []
    split
    · rename_i hc
      simp only [Bool.and_eq_true] at hc
      have := (FitsBetween_eq_true hc.1).1
      exact absurd hlt (not_lt.mpr this)
    · rfl

end FlightPlan
end Principia

namespace Principia

/-! ## The effect of a successful `Append` -/

/-- Deleting a fork of the older part of the memory. -/
theorem Forest.DeleteFork_append {F G X : Forest} {j : Nat} {d : DiscreteTrajectory}
    (hd : F.deref j = some d) (h : Forest.DeleteFork (F ++ G) j = .returns X) :
    ∃ kept, F.DeleteFork j = .returns kept ∧
      X = kept ++ G.filter (fun e =>
        !(decide (e.1 = j) || (e.2.ancestry.map (fun a => a.1)).contains j)) := by
  unfold Forest.DeleteFork at h ⊢
  rw [Forest.deref_append_of_some G hd] at h
  rw [hd]
  simp only at h ⊢
  split at h
  · cases h
  · rename_i hroot
    simp only [Outcome.returns.injEq] at h
    rw [if_neg hroot]
    exact ⟨_, rfl, by rw [← h, List.filter_append]⟩

theorem Forest.DeleteFork_keys {F X : Forest} {j : Nat} (h : F.DeleteFork j = .returns X) :
    ∀ e ∈ X, e ∈ F := by
  unfold Forest.DeleteFork at h
  split at h
  · cases h
  · split at h
    · cases h
    · simp only [Outcome.returns.injEq] at h
      subst h
      intro e he
      exact (List.mem_filter.mp he).1

namespace FlightPlan

/-- The segment that `AddSegment` adds. -/
theorem AddSegment_new {p q : FlightPlan} {j : Nat} (hb : p.segments_.getLast? = some j)
    (h : AddSegment p = .returns q) :
    ∃ d s, p.trajectories.deref j = some d ∧ d.last = some s ∧
      q.trajectories = p.trajectories ++
        [(p.trajectories.fresh, { ancestry := (j, s) :: d.ancestry, timeline := [] })] ∧
      q.segments_ = p.segments_ ++ [p.trajectories.fresh] := by
  obtain ⟨_, _, ⟨back, F, fork, hb2, hnew, hF, hs⟩, _⟩ := AddSegment_returns h
  rw [hb] at hb2
  cases hb2
  obtain ⟨d, s, hd, hl, rfl, rfl⟩ := Forest.NewForkAtLast_returns hnew
  exact ⟨d, s, hd, hl, hF, hs⟩

/-- A coast of the last segment, when that segment is the trajectory added last
to the memory, changes that trajectory only, by giving it more samples. -/
theorem CoastLastSegment_new {I : Collaborators} {fuel : Nat} {p q : FlightPlan} {t : Instant}
    {G : Forest} {k : Nat} {n : DiscreteTrajectory}
    (hb : p.segments_.getLast? = some k) (hF : p.trajectories = G ++ [(k, n)])
    (hk : ∀ e ∈ G, e.1 ≠ k) (h : CoastLastSegment I fuel p t = .returns q) :
    ∃ l, q.trajectories = G ++ [(k, { n with timeline := n.timeline ++ l })] := by
  obtain ⟨_, _, ⟨_, rfl⟩ | ⟨_, back, e, F, reached, hb2, hflow, rfl⟩⟩ := CoastLastSegment_returns h
  · exact ⟨[], by simp [hF]⟩
  · rw [hb] at hb2
    cases hb2
    rw [hF] at hflow
    exact FlowWithAdaptiveStep_new hk hflow

/-- A burn of the last segment, when that segment is the trajectory added last
to the memory, changes that trajectory only, by giving it more samples. -/
theorem BurnLastSegment_new {I : Collaborators} {fuel : Nat} {p q : FlightPlan}
    {m : NavigationManoeuvre} {G : Forest} {k : Nat} {n : DiscreteTrajectory}
    (hb : p.segments_.getLast? = some k) (hF : p.trajectories = G ++ [(k, n)])
    (hk : ∀ e ∈ G, e.1 ≠ k) (h : BurnLastSegment I fuel p m = .returns q) :
    ∃ l, q.trajectories = G ++ [(k, { n with timeline := n.timeline ++ l })] := by
  obtain ⟨_, _, ⟨_, rfl⟩ | ⟨_, _, rfl⟩ | ⟨_, _, back, e, F, reached, hb2, hflow, rfl⟩⟩ :=
    BurnLastSegment_returns h
  · exact ⟨[], by simp [hF]⟩
  · exact ⟨[], by simp [hF]⟩
  · rw [hb] at hb2
    cases hb2
    rw [hF] at hflow
    exact FlowWithAdaptiveStep_new hk hflow

/-- The memory after the private `Append(NavigationManœuvre)`, when the last
segment is the trajectory added last to the memory: a burn forked at the last
point of that segment and a coast forked at the last point of the burn. -/
theorem AppendNavigationManoeuvre_memory {I : Collaborators} {fuel : Nat} {p q : FlightPlan}
    {m : NavigationManoeuvre} {G : Forest} {c : Nat} {nc : DiscreteTrajectory}
    (hb : p.segments_.getLast? = some c) (hF : p.trajectories = G ++ [(c, nc)])
    (hc : ∀ e ∈ G, e.1 ≠ c) (h : AppendNavigationManoeuvre I fuel p m = .returns q) :
    ∃ b k nb nk, q.segments_ = p.segments_ ++ [b, k] ∧
      q.trajectories = G ++ [(c, nc), (b, nb), (k, nk)] ∧
      nc.last.map (fun s => s.time) = some m.initial_time ∧
      nb.parent = some c ∧ nb.Fork = nc.last ∧ nk.parent = some b ∧ nk.Fork = nb.last := by
  obtain ⟨back, last, p2, p3, p4, hb1, hlast, hchk, h2, h3, h4, h5⟩ :=
    AppendNavigationManoeuvre_returns h
  rw [hb] at hb1
  cases hb1
  have hderef : p.trajectories.deref c = some nc := by
    rw [hF]; exact Forest.deref_append_new nc hc
  rw [hderef] at hlast
  simp only [Option.some_bind] at hlast
  -- the burn segment
  obtain ⟨d2, s2, hd2, hl2, hF2, hs2⟩ := AddSegment_new (p := { p with manoeuvres_ :=
    p.manoeuvres_ ++ [m.set_coasting_trajectory c] }) hb h2
  simp only at hd2 hF2 hs2
  rw [hderef] at hd2
  cases hd2
  rw [hlast] at hl2
  cases hl2
  have hb3 : p2.segments_.getLast? = some p.trajectories.fresh := by rw [hs2]; simp
  obtain ⟨l3, hF3⟩ := BurnLastSegment_new hb3 hF2 p.trajectories.key_ne_fresh h3
  obtain ⟨_, g3, _⟩ := BurnLastSegment_returns h3
  -- the coast segment
  have hb4 : p3.segments_.getLast? = some p.trajectories.fresh := by rw [g3]; exact hb3
  obtain ⟨d4, s4, hd4, hl4, hF4, hs4⟩ := AddSegment_new hb4 h4
  rw [hF3, Forest.deref_append_new _ p.trajectories.key_ne_fresh] at hd4
  cases hd4
  have hb5 : p4.segments_.getLast? = some p3.trajectories.fresh := by rw [hs4]; simp
  obtain ⟨l5, hF5⟩ := CoastLastSegment_new hb5 hF4 p3.trajectories.key_ne_fresh h5
  obtain ⟨_, g5, _⟩ := CoastLastSegment_returns h5
  refine ⟨p.trajectories.fresh, p3.trajectories.fresh,
    { ancestry := (c, last) :: nc.ancestry, timeline := [] ++ l3 },
    { ancestry := (p.trajectories.fresh, s4) :: (c, last) :: nc.ancestry, timeline := [] ++ l5 },
    ?_, ?_, ?_, rfl, ?_, rfl, ?_⟩
  · rw [g5, hs4, g3, hs2]; simp
  · rw [hF5, hF3, hF]; simp
  · rw [hlast]; simp [hchk]
  · rw [hlast]; rfl
  · exact hl4.symm

/-- Claim C4.  Effect of a successful `Append(burn)`.  When it returns true, one
manœuvre has been added at the end of the list, made from the burn with the
initial mass of the plan if there was no manœuvre and with the final mass of
the last manœuvre otherwise; the last coast has been deleted and replaced by
the recomputed coast, a new fork of the same parent at the same fork time
whose last point is at the initial time of the manœuvre; a burn forked at the
last point of the recomputed coast and a coast forked at the last point of the
burn have been added after it, so that the number of segments has grown by 2;
and the coasting trajectory of the new manœuvre is the recomputed coast. -/
theorem Append_true_effect (I : Collaborators) (fuel : Nat) (p : FlightPlan) (burn : Burn)
    (q : FlightPlan) (h : Append I fuel p burn = .returns (q, true)) :
    ∃ (coast c b k : Nat) (old nc nb nk : DiscreteTrajectory) (kept : Forest),
      p.segments_.getLast? = some coast ∧ p.trajectories.deref coast = some old ∧
      q.manoeuvres_ = p.manoeuvres_ ++
        [(I.MakeNavigationManoeuvre burn (tail_mass p)).set_coasting_trajectory c] ∧
      (p.manoeuvres_ = [] → tail_mass p = p.initial_mass_) ∧
      (∀ m, p.manoeuvres_.getLast? = some m → tail_mass p = m.final_mass) ∧
      q.segments_ = p.segments_.dropLast ++ [c, b, k] ∧
      q.number_of_segments = p.number_of_segments + 2 ∧
      p.trajectories.DeleteFork coast = .returns kept ∧
      q.trajectories = kept ++ [(c, nc), (b, nb), (k, nk)] ∧
      p.trajectories.deref c = none ∧
      nc.parent = old.parent ∧
      nc.Fork.map (fun s => s.time) = old.Fork.map (fun s => s.time) ∧
      nc.last.map (fun s => s.time) =
        some (I.MakeNavigationManoeuvre burn (tail_mass p)).initial_time ∧
      nb.parent = some c ∧ nb.Fork = nc.last ∧ nk.parent = some b ∧ nk.Fork = nb.last := by
  obtain ⟨_, _, hr⟩ | ⟨_, _, coast, p1, o, hcoast, htrial, hcase⟩ := Append_returns h
  · cases hr
  rcases hcase with ⟨_, _, hr⟩ | ⟨segment, p2, rfl, h2, h3, _⟩
  · cases hr
  obtain ⟨old, parent, fork, F, rc, e, F1, reached, hold, hpar, hfork, hnew, hflow, hreach⟩ :=
    CoastIfReachesManoeuvreInitialTime_returns htrial
  rcases hreach with ⟨_, ho, rfl⟩ | ⟨_, ho, _⟩
  swap
  · cases ho
  cases ho
  obtain ⟨d, s, _, hst, _, rfl, rfl⟩ := Forest.NewForkWithoutCopy_returns hnew
  obtain ⟨l, rfl⟩ := FlowWithAdaptiveStep_new p.trajectories.key_ne_fresh hflow
  obtain ⟨_, _, g2, _, _, p1x, _, _, _, _, _, hpop, hF2, _⟩ := ReplaceLastSegment_returns h2
  obtain ⟨_, _, _, ⟨trajectory, _, htr, _, _, hdel⟩, _⟩ := PopLastSegment_returns hpop
  simp only at htr hdel g2
  rw [hcoast] at htr
  cases htr
  obtain ⟨kept, hkept, hX⟩ := Forest.DeleteFork_append hold hdel
  have hkeys : ∀ e ∈ kept, e.1 ≠ p.trajectories.fresh := fun e he =>
    p.trajectories.key_ne_fresh e (Forest.DeleteFork_keys hkept e he)
  have hback : p2.segments_.getLast? = some p.trajectories.fresh := by rw [g2]; simp
  -- the recomputed coast has survived the deletion of the old one
  obtain ⟨back, last, _, _, _, hb, hlast, _⟩ := AppendNavigationManoeuvre_returns h3
  rw [hback] at hb
  cases hb
  have hF2x : p2.trajectories = kept ++
      [(p.trajectories.fresh,
        { ancestry := (parent, s) :: d.ancestry, timeline := [] ++ l })] := by
    rw [hF2, hX]
    congr 1
    rw [List.filter_cons]
    split
    · rfl
    · exfalso
      rw [hF2, hX, List.filter_cons] at hlast
      rename_i hc
      rw [if_neg hc] at hlast
      simp only [List.filter_nil, List.append_nil] at hlast
      rw [Forest.deref_eq_none hkeys] at hlast
      cases hlast
  obtain ⟨b, k, nb, nk, hs, hF, hl, hb1, hb2, hk1, hk2⟩ :=
    AppendNavigationManoeuvre_memory hback hF2x hkeys h3
  obtain ⟨back3, _, _, hb3, hm3, _⟩ := AppendNavigationManoeuvre_plan h3
  obtain ⟨_, _, _, _, u5⟩ := (ReplaceLastSegment_returns h2).1
  have hne : p.segments_ ≠ [] := fun h0 => by rw [h0] at hcoast; cases hcoast
  refine ⟨coast, p.trajectories.fresh, b, k, old, _, nb, nk, kept, hcoast, hold, ?_, ?_, ?_, ?_,
    ?_, hkept, hF, p.trajectories.deref_fresh, ?_, ?_, hl, hb1, hb2, hk1, hk2⟩
  · rw [hback] at hb3
    cases hb3
    rw [hm3, u5]
  · intro h0
    simp [tail_mass, h0]
  · intro m hm
    simp [tail_mass, hm]
  · rw [hs, g2]; simp
  · have hpos := List.length_pos.mpr hne
    unfold number_of_segments
    rw [hs, g2]
    simp only [List.length_append, List.length_dropLast, List.length_cons, List.length_nil]
    push_cast
    omega
  · exact hpar.symm
  · rw [hfork]
    show some s.time = some fork.time
    rw [hst]

end FlightPlan
end Principia

namespace Principia
namespace FlightPlan

/-! ## The claims about counts and times -/

/-- Claim C1.  Segment count: on every flight plan produced by the constructor
followed by any sequence of returning calls of `Append`, `ReplaceLast`,
`RemoveLast`, `SetFinalTime` and `SetAdaptiveStepParameters`, the number of
segments is twice the number of manœuvres plus one.  In particular a plan fresh
from the constructor has no manœuvre and one segment, and `RecomputeSegments`,
when it returns, leaves `2 K + 1` segments for the `K` manœuvres it was given. -/
theorem segment_count_invariant (I : Collaborators) (p : FlightPlan) (hp : Reachable I p) :
    p.number_of_segments = 2 * p.number_of_manoeuvres + 1 ∧
    (∀ fuel F root initial_time final_time initial_mass ephemeris parameters q,
      FlightPlan.new I fuel F root initial_time final_time initial_mass ephemeris parameters
        = .returns q →
      q.number_of_manoeuvres = 0 ∧ q.number_of_segments = 1) ∧
    (∀ fuel r q b, RecomputeSegments I fuel r = .returns (q, b) →
      q.number_of_manoeuvres = r.number_of_manoeuvres ∧
      q.number_of_segments = 2 * r.number_of_manoeuvres + 1) := by
  refine ⟨?_, ?_, ?_⟩
  · have := (Reachable_counts hp).1
    unfold number_of_segments number_of_manoeuvres
    rw [this]
    push_cast
    rfl
  · intro fuel F root initial_time final_time initial_mass ephemeris parameters q h
    obtain ⟨hm, hs, _⟩ := new_plan h
    unfold number_of_segments number_of_manoeuvres
    rw [hm, hs]
    exact ⟨rfl, rfl⟩
  · intro fuel r q b h
    obtain ⟨v, l, _⟩ := RecomputeSegments_plan h
    have k := manoeuvre_values_length v
    unfold number_of_segments number_of_manoeuvres
    rw [l, k]
    push_cast
    exact ⟨rfl, rfl⟩

/-- Claim C9.  Manœuvre times are ordered on every flight plan produced by the
constructor followed by returning calls of the public mutators, when
`FitsBetween(a, b)` means `a ≤ initial_time` and `final_time ≤ b` and no
manœuvre is made that ends before it starts: the first manœuvre starts no
earlier than the initial time of the plan, each manœuvre starts no earlier than
the previous one ends, and the last ends no later than the final time of the
plan. -/
theorem manoeuvre_times_ordered (I : Collaborators)
    (hI : ∀ burn mass, (I.MakeNavigationManoeuvre burn mass).initial_time ≤
      (I.MakeNavigationManoeuvre burn mass).final_time)
    (p : FlightPlan) (hp : Reachable I p) :
    (∀ m, p.manoeuvres_[0]? = some m → p.initial_time_ ≤ m.initial_time) ∧
    (∀ i a b, p.manoeuvres_[i]? = some a → p.manoeuvres_[i + 1]? = some b →
      a.final_time ≤ b.initial_time) ∧
    (∀ m, p.manoeuvres_.getLast? = some m → m.final_time ≤ p.final_time_) :=
  TimesOrdered_index (Reachable_ordered hI hp)

/-- Claim C8.  `SetAdaptiveStepParameters(p)`, when it returns, returns the result
of `RecomputeSegments` with the new parameters, which is true exactly when
that recomputation leaves at most 2 anomalous segments.  When it returns true
the plan is the recomputed one and has the new parameters; when it returns
false the plan has the parameters it had before the call and its segments are
those of a second `RecomputeSegments`, with these parameters, which returned
true. -/
theorem SetAdaptiveStepParameters_effect (I : Collaborators) (fuel : Nat) (p : FlightPlan)
    (parameters : AdaptiveStepParameters) (q : FlightPlan) (r : Bool)
    (h : SetAdaptiveStepParameters I fuel p parameters = .returns (q, r)) :
    ∃ p2,
      RecomputeSegments I fuel { p with adaptive_step_parameters_ := parameters }
        = .returns (p2, r) ∧
      r = decide (p2.anomalous_segments_ ≤ 2) ∧
      (r = true → q = p2 ∧ q.adaptive_step_parameters = parameters) ∧
      (r = false → q.adaptive_step_parameters = p.adaptive_step_parameters ∧
        RecomputeSegments I fuel
          { p2 with adaptive_step_parameters_ := p.adaptive_step_parameters_ }
          = .returns (q, true)) := by
  obtain ⟨p2, ok, h2, hcase⟩ := SetAdaptiveStepParameters_returns h
  obtain ⟨_, _, _, _, _, t4, r2, _⟩ := RecomputeSegments_plan h2
  rcases hcase with ⟨rfl, rfl, rfl⟩ | ⟨rfl, rfl, h4⟩
  · exact ⟨q, h2, r2, fun _ => ⟨rfl, t4⟩, fun h0 => (by cases h0)⟩
  · obtain ⟨_, _, _, _, _, u4, _⟩ := RecomputeSegments_plan h4
    exact ⟨p2, h2, r2, fun h0 => (by cases h0), fun _ => ⟨u4, h4⟩⟩

/-- Claim C6.  `RemoveLast` on a plan with at most 2 anomalous segments, when it
returns: the plan had a manœuvre, and it now has the former manœuvres but the
last; its segments are the former segments but the last two (the first
`2 K - 1` of `2 K + 1`), the last coast and the last burn having been deleted
in this order; the last of the remaining segments has been truncated to its
fork point and coasted towards the final time of the plan; and the count of
anomalous segments is 0 if that coast reached the final time and 1 otherwise.
On a plan without manœuvre `RemoveLast` dies on its fatal check. -/
theorem RemoveLast_effect (I : Collaborators) (fuel : Nat) (p q : FlightPlan)
    (ha0 : 0 ≤ p.anomalous_segments_) (ha2 : p.anomalous_segments_ ≤ 2)
    (h : RemoveLast I fuel p = .returns q) :
    1 ≤ p.number_of_manoeuvres ∧ q.manoeuvres_ = p.manoeuvres_.dropLast ∧
    q.segments_ = p.segments_.dropLast.dropLast ∧
    (p.segments_.length = 2 * p.manoeuvres_.length + 1 →
      q.segments_ = p.segments_.take (2 * p.manoeuvres_.length - 1)) ∧
    (∃ coast burn back Fa Fb d fork F e F1 reached,
      p.segments_.getLast? = some coast ∧ p.trajectories.DeleteFork coast = .returns Fa ∧
      p.segments_.dropLast.getLast? = some burn ∧ Fa.DeleteFork burn = .returns Fb ∧
      q.segments_.getLast? = some back ∧ Fb.deref back = some d ∧ d.Fork = some fork ∧
      Fb.ForgetAfter back fork.time = .returns F ∧
      FlowWithAdaptiveStep I fuel p.ephemeris_ F back none p.final_time_
        p.adaptive_step_parameters_ I.max_ephemeris_steps_per_frame = .returns (e, F1, reached) ∧
      q.ephemeris_ = e ∧ q.trajectories = F1 ∧
      q.anomalous_segments_ = (if reached then 0 else 1)) ∧
    q.initial_time_ = p.initial_time_ ∧ q.final_time_ = p.final_time_ ∧
    q.initial_mass_ = p.initial_mass_ ∧
    q.adaptive_step_parameters_ = p.adaptive_step_parameters_ ∧
    (∀ fuel1 p1, p1.manoeuvres_ = [] → RemoveLast I fuel1 p1 = .aborts) := by
  obtain ⟨hne, p2, p3, p4, h2, h3, h4, h5⟩ := RemoveLast_returns h
  obtain ⟨s2, e2, g2, ⟨coast, _, hcoast, _, _, hdel2⟩, a2⟩ := PopLastSegment_returns h2
  obtain ⟨s3, e3, g3, ⟨burn, _, hburn, _, _, hdel3⟩, a3⟩ := PopLastSegment_returns h3
  obtain ⟨s4, e4, g4, ⟨back, d, fork, hback, hd, hfork, hforget⟩, a4⟩ :=
    ResetLastSegment_returns h4
  obtain ⟨s5, g5, hcase⟩ := CoastLastSegment_returns h5
  obtain ⟨t1, t2, t3, t4, t5⟩ := s2.trans (s3.trans s4)
  obtain ⟨u1, u2, u3, u4, u5⟩ := s5
  simp only at t1 t2 t3 t4 t5 g2 a2 hcoast hdel2 e2
  have h4a : p4.anomalous_segments_ = 0 := by
    split at a2 <;> split at a3 <;> split at a4 <;> omega
  have hpos := List.length_pos.mpr hne
  have hseg : q.segments_ = p.segments_.dropLast.dropLast := by rw [g5, g4, g3, g2]
  refine ⟨?_, u5.trans t5, hseg, ?_, ?_, u1.trans t1, u2.trans t2, u3.trans t3, u4.trans t4, ?_⟩
  · unfold number_of_manoeuvres
    omega
  · intro hlen
    rw [hseg, List.dropLast_eq_take, List.dropLast_eq_take, List.take_take, List.length_take]
    congr 1
    omega
  · rcases hcase with ⟨hpos4, _⟩ | ⟨_, back5, e, F, reached, hb5, hflow, rfl⟩
    · omega
    · rw [g4, g3, g2] at hb5
      rw [g3, g2] at hback
      rw [hback] at hb5
      cases hb5
      rw [g2] at hburn
      rw [e4, e3, e2, t2, t4] at hflow
      refine ⟨coast, burn, back, _, _, d, fork, _, e, F, reached, hcoast, hdel2, hburn, hdel3,
        ?_, hd, hfork, hforget, hflow, rfl, rfl, ?_⟩
      · rw [← hback, hseg]
      · show (if reached = true then p4.anomalous_segments_ else 1) = _
        rw [h4a]
  · intro fuel1 p1 h0
    unfold RemoveLast
    simp [CHECK, h0]

end FlightPlan
end Principia

namespace Principia

/-! ## The count of anomalous segments, and `ReplaceLast` against `RemoveLast` and `Append` -/
namespace FlightPlan

/-- Once a segment is anomalous, every later manœuvre of the loop of
`RecomputeSegments` adds two anomalous segments. -/
theorem RecomputeLoop_anomalous {I : Collaborators} {fuel : Nat}
    {ms done : List NavigationManoeuvre} {p q : FlightPlan}
    (h : RecomputeLoop I fuel ms done p = .returns q) (ha : 0 < p.anomalous_segments_) :
    q.anomalous_segments_ = p.anomalous_segments_ + 2 * ms.length := by
  cases ms with
  | nil =>
    unfold RecomputeLoop at h
    cases h
    simp
  | cons m rest =>
    obtain ⟨p1, back, p3, p4, p5, h1, hb, h3, h4, h5, h6⟩ := RecomputeLoop_cons_returns h
    have a1 := CoastLastSegment_anomalous h1
    obtain ⟨s3, _, _, a3⟩ := AddSegment_returns h3
    have a4 := BurnLastSegment_anomalous h4
    obtain ⟨s5, _, _, a5⟩ := AddSegment_returns h5
    simp only at a3
    have e5 : p5.anomalous_segments_ = p.anomalous_segments_ + 2 := by
      split at a3 <;> split at a5 <;> omega
    have hv : manoeuvre_values p5 = ((done ++ [m.set_coasting_trajectory back]) ++ rest).map
        (fun m => { m with coasting_trajectory := none }) := by
      obtain ⟨_, _, _, _, t5⟩ := s3.trans ((BurnLastSegment_returns h4).1.trans s5)
      simp only at t5
      unfold manoeuvre_values
      rw [t5]
      simp
    obtain ⟨_, _, _, _, _, _, b1, _⟩ := RecomputeLoop_plan rest h6 hv
    rw [b1 (by omega), e5]
    simp only [List.length_cons]
    push_cast
    omega

/-- Claim C10, as amended.  On every flight plan produced by the constructor
followed by returning calls of the public mutators, the count of anomalous
segments is between 0 and 2 and at most the number of segments.
`RecomputeSegments` returns exactly whether the count it leaves is at most 2,
and it can leave more: once the count is positive every later manœuvre of its
loop adds 2; so when the first failure is that of the coast before a manœuvre,
with `j` manœuvres from that one on, the loop ends with `1 + 2 j`, and when it
is that of the burn of a manœuvre, with `j` manœuvres after that one, the loop
ends with `2 + 2 j`; the final coast does not change a positive count. -/
theorem anomalous_segments_valid (I : Collaborators) (p : FlightPlan) (hp : Reachable I p) :
    0 ≤ p.anomalous_segments_ ∧ p.anomalous_segments_ ≤ 2 ∧
    p.anomalous_segments_ ≤ p.number_of_segments ∧
    (∀ fuel r q b, RecomputeSegments I fuel r = .returns (q, b) →
      b = decide (q.anomalous_segments_ ≤ 2)) ∧
    (∀ fuel ms done r q, 0 < r.anomalous_segments_ →
      RecomputeLoop I fuel ms done r = .returns q →
      q.anomalous_segments_ = r.anomalous_segments_ + 2 * ms.length) ∧
    (∀ fuel m rest done r r1 q, r.anomalous_segments_ = 0 →
      CoastLastSegment I fuel r m.initial_time = .returns r1 → r1.anomalous_segments_ = 1 →
      RecomputeLoop I fuel (m :: rest) done r = .returns q →
      q.anomalous_segments_ = 1 + 2 * (m :: rest).length) ∧
    (∀ fuel m rest done r r1 back r3 r4 q, r.anomalous_segments_ = 0 →
      CoastLastSegment I fuel r m.initial_time = .returns r1 →
      r1.segments_.getLast? = some back →
      AddSegment { r1 with manoeuvres_ := done ++ m.set_coasting_trajectory back :: rest }
        = .returns r3 →
      r3.anomalous_segments_ = 0 →
      BurnLastSegment I fuel r3 (m.set_coasting_trajectory back) = .returns r4 →
      r4.anomalous_segments_ = 1 →
      RecomputeLoop I fuel (m :: rest) done r = .returns q →
      q.anomalous_segments_ = 2 + 2 * rest.length) ∧
    (∀ fuel r t q, 0 < r.anomalous_segments_ → CoastLastSegment I fuel r t = .returns q →
      q.anomalous_segments_ = r.anomalous_segments_) := by
  obtain ⟨_, c2, c3, c4⟩ := Reachable_counts hp
  refine ⟨c2, c3, c4, ?_, ?_, ?_, ?_, ?_⟩
  · intro fuel r q b h
    exact (RecomputeSegments_plan h).2.2.2.2.2.2.1
  · intro fuel ms done r q ha h
    exact RecomputeLoop_anomalous h ha
  · intro fuel m rest done r r1 q _ hc h1 h
    obtain ⟨p1, back, p3, p4, p5, g1, hb, h3, h4, h5, h6⟩ := RecomputeLoop_cons_returns h
    rw [hc] at g1
    cases g1
    obtain ⟨_, _, _, a3⟩ := AddSegment_returns h3
    have a4 := BurnLastSegment_anomalous h4
    obtain ⟨_, _, _, a5⟩ := AddSegment_returns h5
    simp only at a3
    have e5 : p5.anomalous_segments_ = 3 := by
      split at a3 <;> split at a5 <;> omega
    rw [RecomputeLoop_anomalous h6 (by omega), e5]
    simp only [List.length_cons]
    push_cast
    omega
  · intro fuel m rest done r r1 back r3 r4 q _ hc hb h3 a3 h4 a4 h
    obtain ⟨p1, back1, p3, p4, p5, g1, hb1, g3, g4, h5, h6⟩ := RecomputeLoop_cons_returns h
    rw [hc] at g1
    cases g1
    rw [hb] at hb1
    cases hb1
    rw [h3] at g3
    cases g3
    rw [h4] at g4
    cases g4
    obtain ⟨_, _, _, a5⟩ := AddSegment_returns h5
    have e5 : p5.anomalous_segments_ = 2 := by
      split at a5 <;> omega
    rw [RecomputeLoop_anomalous h6 (by omega), e5]
  · intro fuel r t q ha h
    rcases CoastLastSegment_anomalous h with ⟨_, h1⟩ | ⟨h1, _⟩
    · exact h1
    · omega

/-- Claim C5, as amended.  On a flight plan produced through the public interface,
with manœuvres made with the initial mass they are given, `ReplaceLast(burn)`
and `RemoveLast()` followed by `Append(burn)` make the same manœuvre from the
burn (the initial mass of the last manœuvre is the mass at the end of the
previous one) and test it against the same interval; each returns true only if
the manœuvre fits and is not singular; and whenever both return true they
leave the same manœuvres, up to the recorded coasting trajectories, and the
same number of segments.  Nothing is said of the values returned when the
manœuvre fits, nor of the count of anomalous segments: both depend on how far
the ephemeris has been prolonged, which the coast of `RemoveLast` changes. -/
theorem ReplaceLast_and_RemoveLast_Append (I : Collaborators)
    (hM : ∀ burn mass, (I.MakeNavigationManoeuvre burn mass).initial_mass = mass)
    (p : FlightPlan) (hp : Reachable I p) (fuel1 fuel2 fuel3 : Nat) (burn : Burn)
    (q1 : FlightPlan) (r1 : Bool) (p2 q3 : FlightPlan) (r3 : Bool)
    (h1 : ReplaceLast I fuel1 p burn = .returns (q1, r1))
    (h2 : RemoveLast I fuel2 p = .returns p2)
    (h3 : Append I fuel3 p2 burn = .returns (q3, r3)) :
    (∃ back, p.manoeuvres_.getLast? = some back ∧ back.initial_mass = tail_mass p2) ∧
    p.start_of_penultimate_coast = .returns p2.start_of_last_coast ∧
    p2.final_time_ = p.final_time_ ∧
    (r1 = true →
      (I.MakeNavigationManoeuvre burn (tail_mass p2)).FitsBetween p2.start_of_last_coast
        p.final_time_ = true ∧
      (I.MakeNavigationManoeuvre burn (tail_mass p2)).IsSingular = false) ∧
    (r3 = true →
      (I.MakeNavigationManoeuvre burn (tail_mass p2)).FitsBetween p2.start_of_last_coast
        p.final_time_ = true ∧
      (I.MakeNavigationManoeuvre burn (tail_mass p2)).IsSingular = false) ∧
    (r1 = true → r3 = true →
      manoeuvre_values q1 = manoeuvre_values q3 ∧
      q1.number_of_segments = q3.number_of_segments) := by
  obtain ⟨back, start, hback, hstart, hcase1⟩ := ReplaceLast_plan h1
  obtain ⟨_, hm2, _, _, t1, t2, t3, _⟩ := RemoveLast_plan h2
  have hchain := Reachable_masses hM hp
  rw [eq_dropLast_append_of_getLast? hback, MassesChained_append] at hchain
  have hmass : back.initial_mass = tail_mass p2 := by
    rw [tail_mass_eq, hm2, t3]
    exact hchain.2
  have hstart2 : start = p2.start_of_last_coast := by
    rw [start_of_penultimate_coast_returns hstart, start_of_last_coast_eq, hm2, t1]
  rw [hstart2] at hstart
  rw [hmass, hstart2] at hcase1
  have hcase3 := Append_plan h3
  rw [t2] at hcase3
  refine ⟨⟨back, hback, hmass⟩, hstart, t2, ?_, ?_, ?_⟩
  · intro hr
    rcases hcase1 with ⟨hf, _⟩ | ⟨_, hfit, hsing, _⟩
    · rw [hr] at hf; cases hf
    · exact ⟨hfit, hsing⟩
  · intro hr
    rcases hcase3 with ⟨hf, _⟩ | ⟨_, hfit, hsing, _⟩
    · rw [hr] at hf; cases hf
    · exact ⟨hfit, hsing⟩
  · intro hr1 hr3
    rcases hcase1 with ⟨hf, _⟩ | ⟨_, _, _, c1, _, _, hq1, _⟩
    · rw [hr1] at hf; cases hf
    rcases hcase3 with ⟨hf, _⟩ | ⟨_, _, _, _, c3, _, _, hq3, _⟩
    · rw [hr3] at hf; cases hf
    constructor
    · unfold manoeuvre_values
      rw [hq1, hq3, hm2]
      simp [erase_set_coasting_trajectory]
    · have k1 := (Reachable_counts (Reachable.ReplaceLast hp h1)).1
      have k3 := (Reachable_counts (Reachable.Append (Reachable.RemoveLast hp h2) h3)).1
      have l1 := congrArg List.length hq1
      have l3 := congrArg List.length hq3
      rw [hm2] at l3
      simp only [List.length_append, List.length_cons, List.length_nil] at l1 l3
      unfold number_of_segments
      rw [k1, k3, l1, l3]

end FlightPlan
end Principia

namespace Principia

/-! ## Flows of zero length -/

/-- The trajectory read at an address that has just been written is the one
that was written. -/
theorem Forest.deref_store_self {F : Forest} {k : Nat} {x y : DiscreteTrajectory}
    (h : Forest.deref (Forest.store F k x) k = some y) : y = x := by
  induction F with
  | nil => simp [Forest.store, Forest.deref] at h
  | cons e rest ih =>
    by_cases he : e.1 = k
    · have : Forest.deref (Forest.store (e :: rest) k x) k = some x := by
        simp [Forest.store, Forest.deref, he, List.find?]
      rw [this] at h
      cases h
      rfl
    · apply ih
      have : Forest.deref (Forest.store (e :: rest) k x) k =
          Forest.deref (Forest.store rest k x) k := by
        simp [Forest.store, Forest.deref, he, List.find?]
      rw [this] at h
      exact h

namespace FlightPlan

/-- The method `SetFinalTime` at the start of the last coast does not return on a plan
whose last segment starts there and is not after an anomalous segment: the
coast of the truncated segment asks the ephemeris for a flow of zero length,
which dies on `CHECK_GT(step_size.first_time_step, 0 * Second)`, unless
`Prolong` has not come back before. -/
theorem SetFinalTime_at_start_of_last_coast {I : Collaborators} {fuel : Nat} {p : FlightPlan}
    {back : Nat} {d : DiscreteTrajectory} {fork : Sample}
    (ha0 : 0 ≤ p.anomalous_segments_) (ha1 : p.anomalous_segments_ ≤ 1)
    (hb : p.segments_.getLast? = some back) (hd : p.trajectories.deref back = some d)
    (hf : d.Fork = some fork) (hs : ∀ s ∈ d.timeline, fork.time < s.time)
    (ht : fork.time = p.start_of_last_coast) (q : FlightPlan) (r : Bool) :
    SetFinalTime I fuel p p.start_of_last_coast ≠ .returns (q, r) := by
  intro h
  obtain ⟨hlt, _⟩ | ⟨_, _, p2, h2, h3⟩ := SetFinalTime_returns h
  · exact lt_irrefl _ hlt
  obtain ⟨⟨_, t2, _⟩, _, g2, ⟨back2, d2, fork2, hb2, hd2, hf2, hforget⟩, a2⟩ :=
    ResetLastSegment_returns h2
  simp only at hb2 hd2 a2 t2 hforget
  rw [hb] at hb2; cases hb2
  rw [hd] at hd2; cases hd2
  rw [hf] at hf2; cases hf2
  have hp2a : p2.anomalous_segments_ = 0 := by
    split at a2 <;> omega
  obtain ⟨_, _, ⟨hpos, _⟩ | ⟨_, back3, e, F, reached, hb3, hflow, _⟩⟩ := CoastLastSegment_returns h3
  · omega
  rw [g2] at hb3
  simp only at hb3
  rw [hb] at hb3; cases hb3
  obtain ⟨d3, last, hd3, hlast, _, hpos, _⟩ := FlowWithAdaptiveStep_returns hflow
  unfold Forest.ForgetAfter at hforget
  rw [hd] at hforget
  simp only [Outcome.returns.injEq] at hforget
  rw [← hforget] at hd3
  have hd3x := Forest.deref_store_self hd3
  have hempty : d.timeline.filter (fun s => decide (s.time ≤ fork.time)) = [] := by
    rw [List.filter_eq_nil_iff]
    intro s hs1
    simp only [decide_eq_true_eq, not_le]
    exact hs s hs1
  rw [hd3x] at hlast
  unfold DiscreteTrajectory.last at hlast
  simp only [hempty, List.getLast?_nil] at hlast
  have hlf : some last = some fork := by
    rw [← hlast, ← hf]
    rfl
  cases hlf
  rw [t2, ← ht] at hpos
  exact absurd (sub_pos.mp hpos) (not_lt.mpr (min_le_right _ _))

end FlightPlan
end Principia

namespace Principia
namespace Example

open FlightPlan

/-! ## The claims on the small instance -/

/-- The manœuvres of the instance are made with the initial mass they are given. -/
theorem collaborators_initial_mass (burn : Burn) (mass : Mass) :
    (collaborators.MakeNavigationManoeuvre burn mass).initial_mass = mass := rfl

/-- The manœuvres of the instance do not end before they start. -/
theorem collaborators_times (burn : Burn) (mass : Mass) :
    (collaborators.MakeNavigationManoeuvre burn mass).initial_time ≤
      (collaborators.MakeNavigationManoeuvre burn mass).final_time :=
  Int.le_add_of_nonneg_right (Int.ofNat_nonneg _)

/-- C1 on the instance: the plan with one burn has three segments. -/
theorem segment_count_invariant_witness :
    Reachable collaborators one_burn ∧
    one_burn.number_of_segments = 2 * one_burn.number_of_manoeuvres + 1 :=
  have h : Reachable collaborators one_burn :=
    @Reachable.Append collaborators 10 fresh_plan one_burn burn_10 true
      (@Reachable.new collaborators 10 memory 0 0 50 1000 ephemeris (parameters 100) fresh_plan
        (by decide))
      (by decide)
  ⟨h, (segment_count_invariant collaborators one_burn h).1⟩

/-- On the instance: `Append` of the burn at time 10 to the fresh plan returns
true, so the manœuvre fits, is not singular, and the trial coast reaches it. -/
theorem Append_returns_true_iff_witness :
    Append collaborators 10 fresh_plan burn_10 = .returns (one_burn, true) ∧
    ((collaborators.MakeNavigationManoeuvre burn_10 (tail_mass fresh_plan)).FitsBetween
        fresh_plan.start_of_last_coast fresh_plan.final_time_ = true ∧
      (collaborators.MakeNavigationManoeuvre burn_10 (tail_mass fresh_plan)).IsSingular = false ∧
      ∃ coast, fresh_plan.last_coast = .returns coast ∧
        TrialCoastReaches collaborators 10 fresh_plan coast
          (collaborators.MakeNavigationManoeuvre burn_10 (tail_mass fresh_plan))) :=
  ⟨by decide,
   (Append_returns_true_iff collaborators 10 fresh_plan burn_10 one_burn true (by decide)).1.mp
     rfl⟩

/-- C3 on the instance: a `ReplaceLast` whose trial coast is stopped by the cap
on the steps of the ephemeris returns false and leaves the manœuvres, the
segments and the memory as they were. -/
theorem failure_leaves_plan_unchanged_witness :
    ReplaceLast collaborators 10 capped_one_burn burn_4000
      = .returns (capped_one_burn_later, false) ∧
    capped_one_burn_later.manoeuvres_ = capped_one_burn.manoeuvres_ ∧
    capped_one_burn_later.segments_ = capped_one_burn.segments_ ∧
    capped_one_burn_later.trajectories = capped_one_burn.trajectories :=
  have h := failure_leaves_plan_unchanged collaborators 10 capped_one_burn burn_4000
    capped_one_burn_later (Or.inr (by decide))
  ⟨by decide, h.1, h.2.1, h.2.2.2.2.2.2.2.1⟩

/-- C4 on the instance: `Append` of the burn at time 10 to the fresh plan adds
two segments. -/
theorem Append_true_effect_witness :
    Append collaborators 10 fresh_plan burn_10 = .returns (one_burn, true) ∧
    one_burn.number_of_segments = fresh_plan.number_of_segments + 2 :=
  ⟨by decide, by
    obtain ⟨_, _, _, _, _, _, _, _, _, _, _, _, _, _, _, h, _⟩ :=
      Append_true_effect collaborators 10 fresh_plan burn_10 one_burn (by decide)
    exact h⟩

/-- Claim C5, as stated, fails.  The plan `capped_one_burn` is produced by the
constructor and one `Append`; its ephemeris, of step 1, has been integrated up
to time 2600, and a call of `FlowWithAdaptiveStep` prolongs it by at most 1000
steps.  `ReplaceLast` with a burn at time 4000 returns false, because its
trial coast is cut at time 3600; `RemoveLast` then `Append` of the same burn
returns true, because the coast of `RemoveLast` has prolonged the ephemeris to
time 3600 and the trial coast is now cut at 4600 only.  With a burn at time
3000 both return true, and leave 1 and 0 anomalous segments. -/
theorem ReplaceLast_is_not_RemoveLast_Append :
    Reachable collaborators capped_one_burn ∧
    ReplaceLast collaborators 10 capped_one_burn burn_4000
      = .returns (capped_one_burn_later, false) ∧
    RemoveLast collaborators 10 capped_one_burn = .returns capped_removed ∧
    Append collaborators 10 capped_removed burn_4000 = .returns (capped_appended_4000, true) ∧
    ReplaceLast collaborators 10 capped_one_burn burn_3000
      = .returns (capped_replaced_3000, true) ∧
    Append collaborators 10 capped_removed burn_3000 = .returns (capped_appended_3000, true) ∧
    capped_replaced_3000.anomalous_segments_ = 1 ∧
    capped_appended_3000.anomalous_segments_ = 0 :=
  ⟨@Reachable.Append collaborators 10 capped_plan capped_one_burn burn_1500 true
      (@Reachable.new collaborators 10 memory 0 0 4500 1000 ephemeris (parameters 10000)
        capped_plan (by decide))
      (by decide),
   by decide, by decide, by decide, by decide, by decide, rfl, rfl⟩

/-- C5 as amended, on the instance: with the burn at time 3000 both ways return
true and leave the same manœuvres and the same number of segments. -/
theorem ReplaceLast_and_RemoveLast_Append_witness :
    Reachable collaborators capped_one_burn ∧
    ReplaceLast collaborators 10 capped_one_burn burn_3000
      = .returns (capped_replaced_3000, true) ∧
    RemoveLast collaborators 10 capped_one_burn = .returns capped_removed ∧
    Append collaborators 10 capped_removed burn_3000 = .returns (capped_appended_3000, true) ∧
    manoeuvre_values capped_replaced_3000 = manoeuvre_values capped_appended_3000 ∧
    capped_replaced_3000.number_of_segments = capped_appended_3000.number_of_segments :=
  have hp : Reachable collaborators capped_one_burn :=
    @Reachable.Append collaborators 10 capped_plan capped_one_burn burn_1500 true
      (@Reachable.new collaborators 10 memory 0 0 4500 1000 ephemeris (parameters 10000)
        capped_plan (by decide))
      (by decide)
  ⟨hp, by decide, by decide, by decide,
   (ReplaceLast_and_RemoveLast_Append collaborators collaborators_initial_mass capped_one_burn hp
      10 10 10 burn_3000 capped_replaced_3000 true capped_removed capped_appended_3000 true
      (by decide) (by decide) (by decide)).2.2.2.2.2 rfl rfl⟩

/-- C6 on the instance: `RemoveLast` on the plan with one burn leaves no
manœuvre, one segment and no anomalous segment. -/
theorem RemoveLast_effect_witness :
    RemoveLast collaborators 10 one_burn = .returns one_burn_removed ∧
    one_burn_removed.manoeuvres_ = one_burn.manoeuvres_.dropLast ∧
    one_burn_removed.segments_ = one_burn.segments_.dropLast.dropLast :=
  have h := RemoveLast_effect collaborators 10 one_burn one_burn_removed (by decide) (by decide)
    (by decide)
  ⟨by decide, h.2.1, h.2.2.1⟩

/-- Claim C7 fails on the code.  The plan fresh from the constructor, whose last
coast starts at time 0: `SetFinalTime(0)` does not return true, it dies on the
fatal check of `FlowWithAdaptiveStep`, whatever the fuel. -/
theorem SetFinalTime_at_start_aborts :
    Reachable collaborators fresh_plan ∧ fresh_plan.start_of_last_coast = 0 ∧
    fresh_plan.anomalous_segments_ = 0 ∧
    ∀ fuel, SetFinalTime collaborators fuel fresh_plan 0 = .aborts :=
  ⟨@Reachable.new collaborators 10 memory 0 0 50 1000 ephemeris (parameters 100) fresh_plan
      (by decide),
   rfl, rfl, fun fuel => by cases fuel <;> rfl⟩

/-- C8 on the instance: with 12 steps the first burn of the plan with two burns
cannot be recomputed, `SetAdaptiveStepParameters` returns false and the plan
keeps its 100 steps. -/
theorem SetAdaptiveStepParameters_effect_witness :
    SetAdaptiveStepParameters collaborators 10 two_burns (parameters 12)
      = .returns (two_burns_restored, false) ∧
    ∃ p2, RecomputeSegments collaborators 10
        { two_burns with adaptive_step_parameters_ := parameters 12 } = .returns (p2, false) ∧
      two_burns_restored.adaptive_step_parameters = two_burns.adaptive_step_parameters :=
  ⟨by decide, by
    obtain ⟨p2, h2, _, _, h⟩ := SetAdaptiveStepParameters_effect collaborators 10 two_burns
      (parameters 12) two_burns_restored false (by decide)
    exact ⟨p2, h2, (h rfl).1⟩⟩

/-- C9 on the instance: the two burns of the plan with two burns are in order. -/
theorem manoeuvre_times_ordered_witness :
    Reachable collaborators two_burns ∧
    ∀ i a b, two_burns.manoeuvres_[i]? = some a → two_burns.manoeuvres_[i + 1]? = some b →
      a.final_time ≤ b.initial_time :=
  have h : Reachable collaborators two_burns :=
    @Reachable.Append collaborators 10 one_burn two_burns burn_20 true
      (@Reachable.Append collaborators 10 fresh_plan one_burn burn_10 true
        (@Reachable.new collaborators 10 memory 0 0 50 1000 ephemeris (parameters 100)
          fresh_plan (by decide))
        (by decide))
      (by decide)
  ⟨h, (manoeuvre_times_ordered collaborators collaborators_times two_burns h).2.1⟩

/-- Claim C10, as stated, fails.  `RecomputeSegments` on the plan with two burns,
with 12 steps: the coast to time 10 reaches it, the first burn, which needs 15
steps, does not reach its final time, and one manœuvre is still to be
processed.  The count of anomalous segments ends at 4, which is not of the
form `1 + 2 j`. -/
theorem RecomputeSegments_after_failed_burn :
    RecomputeSegments collaborators 10
      { two_burns with adaptive_step_parameters_ := parameters 12 }
      = .returns (two_burns_recomputed, false) ∧
    two_burns_recomputed.anomalous_segments_ = 4 ∧
    ¬ ∃ j : Int, two_burns_recomputed.anomalous_segments_ = 1 + 2 * j :=
  ⟨by decide, rfl, by
    rintro ⟨j, hj⟩
    have h4 : two_burns_recomputed.anomalous_segments_ = 4 := rfl
    omega⟩

/-- C10 as amended, on the instance: the plan with two burns has no anomalous
segment. -/
theorem anomalous_segments_valid_witness :
    Reachable collaborators two_burns ∧
    0 ≤ two_burns.anomalous_segments_ ∧ two_burns.anomalous_segments_ ≤ 2 ∧
    two_burns.anomalous_segments_ ≤ two_burns.number_of_segments :=
  have h : Reachable collaborators two_burns :=
    @Reachable.Append collaborators 10 one_burn two_burns burn_20 true
      (@Reachable.Append collaborators 10 fresh_plan one_burn burn_10 true
        (@Reachable.new collaborators 10 memory 0 0 50 1000 ephemeris (parameters 100)
          fresh_plan (by decide))
        (by decide))
      (by decide)
  have k := anomalous_segments_valid collaborators two_burns h
  ⟨h, k.1, k.2.1, k.2.2.1⟩

end Example
end Principia

namespace Principia

/-! ## The target and the value of `FlowWithAdaptiveStep`, and the steps of `Prolong` -/

/-- Claim C12.  When `FlowWithAdaptiveStep` returns, with `L` the time of the last
state before the call, `Δ` the fixed step and `T` the time of the last point of
the trajectory: the ephemeris has been prolonged to
`t_final = min(t, max(L + max_ephemeris_steps Δ, T + Δ))`, the trajectory has
received the states that the adaptive integrator publishes on its way to
`t_final`, the value is true if and only if the integrator ends with `Done` and
`t` is at most `max(L + max_ephemeris_steps Δ, T + Δ)`, and the value is false
when `t` is beyond that bound. -/
theorem FlowWithAdaptiveStep_target_and_value (I : Collaborators) (fuel : Nat)
    (e e1 : Ephemeris) (F F1 : Forest) (trajectory : Nat) (a : Option NavigationManoeuvre)
    (t : Instant) (parameters : AdaptiveStepParameters) (max_ephemeris_steps : Int) (r : Bool)
    (h : FlowWithAdaptiveStep I fuel e F trajectory a t parameters max_ephemeris_steps
      = .returns (e1, F1, r)) :
    ∃ d trajectory_last, F.deref trajectory = some d ∧ d.last = some trajectory_last ∧
      Prolong I fuel e
        (min t (max (e.last_state_time + max_ephemeris_steps * e.step_)
          (trajectory_last.time + e.step_))) = .returns e1 ∧
      Forest.AppendAll F trajectory
        (I.adaptive_Solve e1 parameters a trajectory_last
          (min t (max (e.last_state_time + max_ephemeris_steps * e.step_)
            (trajectory_last.time + e.step_)))).1 = .returns F1 ∧
      (r = true ↔
        (I.adaptive_Solve e1 parameters a trajectory_last
          (min t (max (e.last_state_time + max_ephemeris_steps * e.step_)
            (trajectory_last.time + e.step_)))).2 = TerminationCondition.Done ∧
        t ≤ max (e.last_state_time + max_ephemeris_steps * e.step_)
          (trajectory_last.time + e.step_)) ∧
      (max (e.last_state_time + max_ephemeris_steps * e.step_)
          (trajectory_last.time + e.step_) < t → r = false) := by
  obtain ⟨d, trajectory_last, hd, hl, hp, _, hF, hr⟩ := FlowWithAdaptiveStep_returns h
  refine ⟨d, trajectory_last, hd, hl, ?_, ?_, ?_, ?_⟩
  · rw [min_comm]; exact hp
  · rw [min_comm]; exact hF
  · rw [hr, min_comm t]
    simp only [decide_eq_true_eq, min_eq_right_iff]
  · intro hlt
    rw [hr]
    simp only [decide_eq_false_iff_not, not_and, min_eq_right_iff, not_le]
    exact fun _ => hlt

/-- Claim C13, as the code has it.  In a call `Prolong(t)` with
`t <= last_state_.time`: when `t_max()` is already at `t` or beyond, the loop is
not entered, `Solve` is not called and the ephemeris is returned as it was; when
`t_max()` is before `t`, `Solve` is called, the first time with
`t_final = last_state_.time + Δ`. -/
theorem Prolong_steps_iff_behind (I : Collaborators) (fuel : Nat) (e : Ephemeris) (t : Instant)
    (h : t ≤ e.last_state_time) :
    (t ≤ e.t_max → ProlongSolveCalls I fuel e t = [] ∧ Prolong I fuel e t = .returns e) ∧
    (e.t_max < t → 0 < fuel →
      (ProlongSolveCalls I fuel e t).head? = some (e.last_state_time + e.step_)) := by
  constructor
  · intro ht
    have hn : ¬ e.t_max < t := not_lt.mpr ht
    unfold ProlongSolveCalls Prolong
    cases fuel with
    | zero => simp [ProlongLoopSolveCalls, ProlongLoop, hn]
    | succ n => simp [ProlongLoopSolveCalls, ProlongLoop, hn]
  · intro ht hf
    unfold ProlongSolveCalls
    cases fuel with
    | zero => exact absurd hf (lt_irrefl 0)
    | succ n => simp [ProlongLoopSolveCalls, ht, h]

end Principia

namespace Principia

/-! ## Loops over lists -/

theorem Outcome.bind_congr {α β : Type} {x : Outcome α} {f g : α → Outcome β}
    (h : ∀ a, x = .returns a → f a = g a) : x.bind f = x.bind g := by
  cases x with
  | returns a => exact h a rfl
  | aborts => rfl
  | diverges => rfl

theorem Outcome.foldlM_append {α β : Type} (f : β → α → Outcome β) (l l' : List α) (b : β) :
    (l ++ l').foldlM f b = (l.foldlM f b).bind (fun b' => l'.foldlM f b') := by
  induction l generalizing b with
  | nil => simp
  | cons x rest ih =>
    simp only [List.cons_append, List.foldlM_cons, Outcome.bind_def]
    cases f b x with
    | returns a => simp [ih]
    | aborts => rfl
    | diverges => rfl

theorem Outcome.foldlM_flatMap {α β γ : Type} (f : β → γ → Outcome β) (g : α → List γ)
    (l : List α) (b : β) :
    (l.flatMap g).foldlM f b = l.foldlM (fun b a => (g a).foldlM f b) b := by
  induction l generalizing b with
  | nil => simp
  | cons x rest ih =>
    simp only [List.flatMap_cons, Outcome.foldlM_append, List.foldlM_cons, Outcome.bind_def]
    exact Outcome.bind_congr (fun a _ => ih a)

/-- Two loop bodies that agree on the states that satisfy an invariant of the
second give the same loop from such a state. -/
theorem Outcome.foldlM_congr {α β : Type} (Inv : β → Prop) (f g : β → α → Outcome β)
    (l : List α) (hfg : ∀ x ∈ l, ∀ b, Inv b → f b x = g b x)
    (hinv : ∀ x ∈ l, ∀ b b', Inv b → g b x = .returns b' → Inv b') (b : β) (hb : Inv b) :
    l.foldlM f b = l.foldlM g b := by
  induction l generalizing b with
  | nil => simp
  | cons x rest ih =>
    simp only [List.foldlM_cons, Outcome.bind_def]
    rw [hfg x (List.mem_cons_self _ _) b hb]
    apply Outcome.bind_congr
    intro a ha
    exact ih (fun y hy => hfg y (List.mem_cons_of_mem _ hy))
      (fun y hy => hinv y (List.mem_cons_of_mem _ hy)) a
      (hinv x (List.mem_cons_self _ _) b a hb ha)

/-- An invariant of the body of a loop is an invariant of the loop. -/
theorem Outcome.foldlM_invariant {α β : Type} (Inv : β → Prop) (f : β → α → Outcome β)
    (l : List α) (hinv : ∀ x ∈ l, ∀ b b', Inv b → f b x = .returns b' → Inv b')
    (b b' : β) (hb : Inv b) (h : l.foldlM f b = .returns b') : Inv b' := by
  induction l generalizing b with
  | nil => simp at h; cases h; exact hb
  | cons x rest ih =>
    simp only [List.foldlM_cons, Outcome.bind_def, Outcome.bind_eq_returns] at h
    obtain ⟨a, ha, h⟩ := h
    exact ih (fun y hy => hinv y (List.mem_cons_of_mem _ hy)) a
      (hinv x (List.mem_cons_self _ _) b a hb ha) h

namespace physics

variable {K : Type}

/-! ## The acceleration kernel -/

theorem PairStep_length [Field K] {Sqrt : K → K} {io1 io2 : Bool} {body1 : MassiveBody K}
    {b1 : Nat} {bodies2 : List (MassiveBody K)} {b2_begin : Nat} {positions acc acc' : List (Vector K)}
    {b2 : Nat} (h : PairStep Sqrt io1 io2 body1 b1 bodies2 b2_begin positions acc b2 = .returns acc') :
    acc'.length = acc.length := by
  unfold PairStep at h
  simp only [Outcome.bind_def, Outcome.bind_eq_returns] at h
  obtain ⟨_, _, _, _, _, _, _, _, _, _, _, _, h⟩ := h
  cases h
  simp

/-- The body of the loop subtracts `μ2 X` from the acceleration of the first
body and adds `μ1 X` to that of the second, for one vector `X`, which is
`Δq Sqrt(Δq²) / (Δq² Δq²)` when neither body is taken as oblate. -/
theorem PairStep_value [Field K] (Sqrt : K → K) (io1 io2 : Bool) (body1 body2 : MassiveBody K)
    (b1 : Nat) (bodies2 : List (MassiveBody K)) (b2_begin : Nat)
    (positions acc : List (Vector K)) (b2 : Nat) (a1 a2 q1 q2 : Vector K)
    (ha1 : acc[b1]? = some a1) (ha2 : acc[b2]? = some a2)
    (hbody2 : bodies2[b2 - b2_begin]? = some body2)
    (hq1 : positions[b1]? = some q1) (hq2 : positions[b2]? = some q2)
    (ho1 : io1 = true → body1.is_oblate = true) (ho2 : io2 = true → body2.is_oblate = true) :
    ∃ X : Vector K,
      PairStep Sqrt io1 io2 body1 b1 bodies2 b2_begin positions acc b2 =
        .returns ((acc.set b1 (a1 - body2.gravitational_parameter • X)).set b2
          (a2 + body1.gravitational_parameter • X)) ∧
      (io1 = false → io2 = false →
        X = (Sqrt (InnerProduct (q1 - q2) (q1 - q2)) /
          (InnerProduct (q1 - q2) (q1 - q2) * InnerProduct (q1 - q2) (q1 - q2))) • (q1 - q2)) := by
  unfold PairStep
  simp only [ha1, ha2, hbody2, hq1, hq2, Outcome.ofOption, Outcome.bind_def, Outcome.returns_bind]
  cases io1 <;> cases io2
  · refine ⟨_, ?_, fun _ _ => rfl⟩
    simp [mul_smul]
  · have h2 := ho2 rfl
    unfold MassiveBody.is_oblate at h2
    obtain ⟨o2, h2⟩ := Option.isSome_iff_exists.mp h2
    refine ⟨(Sqrt (InnerProduct (q1 - q2) (q1 - q2)) /
          (InnerProduct (q1 - q2) (q1 - q2) * InnerProduct (q1 - q2) (q1 - q2))) • (q1 - q2) +
        Order2ZonalEffect o2 (q1 - q2) (1 / InnerProduct (q1 - q2) (q1 - q2))
          (Sqrt (InnerProduct (q1 - q2) (q1 - q2)) /
          (InnerProduct (q1 - q2) (q1 - q2) * InnerProduct (q1 - q2) (q1 - q2))), ?_,
        fun _ h => by cases h⟩
    simp [MassiveBody.as_oblate, h2, Outcome.ofOption, ApplyEffect, mul_smul, smul_add, sub_sub,
      add_assoc]
  · have h1 := ho1 rfl
    unfold MassiveBody.is_oblate at h1
    obtain ⟨o1, h1⟩ := Option.isSome_iff_exists.mp h1
    refine ⟨(Sqrt (InnerProduct (q1 - q2) (q1 - q2)) /
          (InnerProduct (q1 - q2) (q1 - q2) * InnerProduct (q1 - q2) (q1 - q2))) • (q1 - q2) +
        Order2ZonalEffect o1 (q1 - q2) (1 / InnerProduct (q1 - q2) (q1 - q2))
          (Sqrt (InnerProduct (q1 - q2) (q1 - q2)) /
          (InnerProduct (q1 - q2) (q1 - q2) * InnerProduct (q1 - q2) (q1 - q2))), ?_,
        fun h _ => by cases h⟩
    simp [MassiveBody.as_oblate, h1, Outcome.ofOption, ApplyEffect, mul_smul, smul_add, sub_sub,
      add_assoc]
  · have h1 := ho1 rfl
    have h2 := ho2 rfl
    unfold MassiveBody.is_oblate at h1 h2
    obtain ⟨o1, h1⟩ := Option.isSome_iff_exists.mp h1
    obtain ⟨o2, h2⟩ := Option.isSome_iff_exists.mp h2
    refine ⟨(Sqrt (InnerProduct (q1 - q2) (q1 - q2)) /
          (InnerProduct (q1 - q2) (q1 - q2) * InnerProduct (q1 - q2) (q1 - q2))) • (q1 - q2) +
        Order2ZonalEffect o1 (q1 - q2) (1 / InnerProduct (q1 - q2) (q1 - q2))
          (Sqrt (InnerProduct (q1 - q2) (q1 - q2)) /
          (InnerProduct (q1 - q2) (q1 - q2) * InnerProduct (q1 - q2) (q1 - q2))) +
        Order2ZonalEffect o2 (q1 - q2) (1 / InnerProduct (q1 - q2) (q1 - q2))
          (Sqrt (InnerProduct (q1 - q2) (q1 - q2)) /
          (InnerProduct (q1 - q2) (q1 - q2) * InnerProduct (q1 - q2) (q1 - q2))), ?_,
        fun h _ => by cases h⟩
    simp [MassiveBody.as_oblate, h1, h2, Outcome.ofOption, ApplyEffect, mul_smul, smul_add,
      sub_sub, add_assoc]

end physics

end Principia

namespace Principia

namespace physics

variable {K : Type}

theorem VisitPair_length [Field K] {Sqrt : K → K} {e : Ephemeris K}
    {positions acc acc' : List (Vector K)} {pair : Nat × Nat}
    (h : e.VisitPair Sqrt positions acc pair = .returns acc') : acc'.length = acc.length := by
  unfold Ephemeris.VisitPair at h
  simp only [Outcome.bind_def, Outcome.bind_eq_returns] at h
  obtain ⟨_, _, h⟩ := h
  exact PairStep_length h

theorem foldlM_VisitPair_length [Field K] {Sqrt : K → K} {e : Ephemeris K}
    {positions acc acc' : List (Vector K)} (l : List (Nat × Nat))
    (h : l.foldlM (e.VisitPair Sqrt positions) acc = .returns acc') :
    acc'.length = acc.length :=
  Outcome.foldlM_invariant (fun a => a.length = acc.length) _ l
    (fun _ _ _ _ hb h => (VisitPair_length h).trans hb) acc acc' rfl h

/-- One call of `ComputeGravitationalAccelerationByMassiveBodyOnMassiveBodies`
by the kernel is the loop over its pairs. -/
theorem pass_eq_visits [Field K] (Sqrt : K → K) (e : Ephemeris K) (io1 io2 : Bool)
    (body1 : MassiveBody K) (b1 : Nat) (bodies2 : List (MassiveBody K)) (b2_begin b2_end : Nat)
    (positions acc : List (Vector K)) (hb1 : b1 < acc.length)
    (hbody : e.bodies_[b1]? = some body1)
    (hio1 : io1 = decide (b1 < e.number_of_oblate_bodies_))
    (h2 : ∀ b2 ∈ LoopRange b1 b2_begin b2_end,
      bodies2[b2 - b2_begin]? = e.bodies_[b2]? ∧
      io2 = decide (b2 < e.number_of_oblate_bodies_)) :
    ComputeGravitationalAccelerationByMassiveBodyOnMassiveBodies Sqrt io1 io2 body1 b1 bodies2
        b2_begin b2_end positions acc =
      ((LoopRange b1 b2_begin b2_end).map (fun b2 => (b1, b2))).foldlM
        (e.VisitPair Sqrt positions) acc := by
  unfold ComputeGravitationalAccelerationByMassiveBodyOnMassiveBodies
  rw [List.getElem?_eq_getElem hb1]
  simp only [Outcome.ofOption, Outcome.bind_def, Outcome.returns_bind]
  rw [List.foldlM_map]
  apply Outcome.foldlM_congr (fun _ => True) _ _ _ _ (fun _ _ _ _ _ _ => trivial) _ trivial
  intro b2 hb2 acc' _
  obtain ⟨hA, hB⟩ := h2 b2 hb2
  unfold Ephemeris.VisitPair
  simp only [hbody, Outcome.ofOption, Outcome.bind_def, Outcome.returns_bind]
  subst hio1 hB
  unfold PairStep
  simp only [hA, Nat.sub_zero]

theorem mem_LoopRange {b1 b2_begin b2_end b2 : Nat} :
    b2 ∈ LoopRange b1 b2_begin b2_end ↔ b1 < b2 ∧ b2_begin ≤ b2 ∧ b2 < b2_end := by
  unfold LoopRange
  rw [List.mem_range'_1]
  omega

/-- The kernel is the loop over the pairs that it visits, from accelerations
set to zero. -/
theorem kernel_eq_visits [Field K] (Sqrt : K → K) (e : Ephemeris K) (hc : e.KernelConsistent)
    (t : Instant) (positions accelerations : List (Vector K))
    (hlen : e.bodies_.length ≤ accelerations.length) :
    e.ComputeMassiveBodiesGravitationalAccelerations Sqrt t positions accelerations =
      e.VisitedPairs.foldlM (e.VisitPair Sqrt positions)
        (List.replicate accelerations.length 0) := by
  obtain ⟨hb, hno, hns, _, _⟩ := hc
  have hN : e.bodies_.length = e.number_of_oblate_bodies_ + e.number_of_spherical_bodies_ := by
    rw [hb, List.length_append, hno, hns]
  unfold Ephemeris.ComputeMassiveBodiesGravitationalAccelerations Ephemeris.VisitedPairs
  simp only [Outcome.bind_def]
  rw [Outcome.foldlM_append]
  simp only [Outcome.foldlM_flatMap]
  have first : ∀ acc : List (Vector K), acc.length = accelerations.length →
      ∀ b1 ∈ List.range e.number_of_oblate_bodies_,
      ((Outcome.ofOption e.oblate_bodies_[b1]?).bind fun body1 =>
        (ComputeGravitationalAccelerationByMassiveBodyOnMassiveBodies Sqrt true true body1 b1
          e.oblate_bodies_ 0 e.number_of_oblate_bodies_ positions acc).bind fun acc1 =>
        ComputeGravitationalAccelerationByMassiveBodyOnMassiveBodies Sqrt true false body1 b1
          e.spherical_bodies_ e.number_of_oblate_bodies_
          (e.number_of_oblate_bodies_ + e.number_of_spherical_bodies_) positions acc1) =
      ((LoopRange b1 0 e.number_of_oblate_bodies_).map (fun b2 => (b1, b2)) ++
        (LoopRange b1 e.number_of_oblate_bodies_
          (e.number_of_oblate_bodies_ + e.number_of_spherical_bodies_)).map
            (fun b2 => (b1, b2))).foldlM (e.VisitPair Sqrt positions) acc := by
    intro acc hacc b1 hb1
    have hb1 : b1 < e.number_of_oblate_bodies_ := List.mem_range.mp hb1
    have hb1o : b1 < e.oblate_bodies_.length := hno ▸ hb1
    have hbody : e.bodies_[b1]? = some e.oblate_bodies_[b1] := by
      rw [hb, List.getElem?_append_left hb1o, List.getElem?_eq_getElem hb1o]
    rw [List.getElem?_eq_getElem hb1o, Outcome.foldlM_append]
    simp only [Outcome.ofOption, Outcome.returns_bind]
    rw [pass_eq_visits Sqrt e true true _ b1 _ 0 _ positions acc (by omega) hbody (by simp [hb1])
      (fun b2 h2 => by
        have := mem_LoopRange.mp h2
        refine ⟨?_, by simp [this.2.2]⟩
        rw [hb, List.getElem?_append_left (by omega), Nat.sub_zero])]
    apply Outcome.bind_congr
    intro acc1 h1
    have hl := foldlM_VisitPair_length _ h1
    exact pass_eq_visits Sqrt e true false _ b1 _ _ _ positions acc1 (by omega) hbody
      (by simp [hb1])
      (fun b2 h2 => by
        have := mem_LoopRange.mp h2
        refine ⟨?_, by simp; omega⟩
        rw [hb, List.getElem?_append_right (by omega), hno])
  have second : ∀ acc : List (Vector K), acc.length = accelerations.length →
      ∀ b1 ∈ List.range' e.number_of_oblate_bodies_ e.number_of_spherical_bodies_,
      ((Outcome.ofOption e.spherical_bodies_[b1 - e.number_of_oblate_bodies_]?).bind fun body1 =>
        ComputeGravitationalAccelerationByMassiveBodyOnMassiveBodies Sqrt false false body1 b1
          e.spherical_bodies_ e.number_of_oblate_bodies_
          (e.number_of_oblate_bodies_ + e.number_of_spherical_bodies_) positions acc) =
      ((LoopRange b1 e.number_of_oblate_bodies_
          (e.number_of_oblate_bodies_ + e.number_of_spherical_bodies_)).map
            (fun b2 => (b1, b2))).foldlM (e.VisitPair Sqrt positions) acc := by
    intro acc hacc b1 hb1
    have hb1 := List.mem_range'_1.mp hb1
    have hb1s : b1 - e.number_of_oblate_bodies_ < e.spherical_bodies_.length := by omega
    have hbody : e.bodies_[b1]? = some e.spherical_bodies_[b1 - e.number_of_oblate_bodies_] := by
      rw [hb, List.getElem?_append_right (by omega), ← hno, List.getElem?_eq_getElem hb1s]
    rw [List.getElem?_eq_getElem hb1s]
    simp only [Outcome.ofOption, Outcome.returns_bind]
    exact pass_eq_visits Sqrt e false false _ b1 _ _ _ positions acc (by omega) hbody
      (by simp; omega)
      (fun b2 h2 => by
        have := mem_LoopRange.mp h2
        refine ⟨?_, by simp; omega⟩
        rw [hb, List.getElem?_append_right (by omega), hno])
  have inv : ∀ (l : List Nat) (f : Nat → List (Nat × Nat)) (x : Nat), x ∈ l →
      ∀ (b b' : List (Vector K)), b.length = accelerations.length →
      (f x).foldlM (e.VisitPair Sqrt positions) b = .returns b' →
      b'.length = accelerations.length :=
    fun _ _ _ _ _ _ hb h => (foldlM_VisitPair_length _ h).trans hb
  rw [Outcome.foldlM_congr (fun acc => acc.length = accelerations.length) _ _ _
    (fun b1 hb1 acc hacc => first acc hacc b1 hb1) (inv _ _) _ (by simp)]
  apply Outcome.bind_congr
  intro acc1 h1
  have hl : acc1.length = accelerations.length :=
    Outcome.foldlM_invariant (fun acc => acc.length = accelerations.length) _ _ (inv _ _) _ _
      (by simp) h1
  exact Outcome.foldlM_congr (fun acc => acc.length = accelerations.length) _ _ _
    (fun b1 hb1 acc hacc => second acc hacc b1 hb1) (inv _ _) _ hl

end physics

end Principia

namespace Principia

namespace physics

variable {K : Type}

theorem mem_VisitedPairs (e : Ephemeris K) (b1 b2 : Nat) :
    (b1, b2) ∈ e.VisitedPairs ↔
      b1 < b2 ∧ b2 < e.number_of_oblate_bodies_ + e.number_of_spherical_bodies_ := by
  unfold Ephemeris.VisitedPairs
  simp only [List.mem_append, List.mem_flatMap, List.mem_map, mem_LoopRange, List.mem_range,
    List.mem_range'_1, Prod.mk.injEq]
  constructor
  · rintro (⟨a, ha, ⟨b, hb, rfl, rfl⟩ | ⟨b, hb, rfl, rfl⟩⟩ | ⟨a, ha, b, hb, rfl, rfl⟩) <;> omega
  · intro h
    by_cases h1 : b1 < e.number_of_oblate_bodies_
    · by_cases h2 : b2 < e.number_of_oblate_bodies_
      · exact Or.inl ⟨b1, h1, Or.inl ⟨b2, by omega, rfl, rfl⟩⟩
      · exact Or.inl ⟨b1, h1, Or.inr ⟨b2, by omega, rfl, rfl⟩⟩
    · exact Or.inr ⟨b1, by omega, b2, by omega, rfl, rfl⟩

theorem nodup_map_pair (b1 : Nat) (l : List Nat) (h : l.Nodup) :
    (l.map (fun b2 => (b1, b2))).Nodup :=
  h.map (fun _ _ h => (Prod.mk.injEq _ _ _ _ ▸ h).2)

theorem nodup_LoopRange (b1 b2_begin b2_end : Nat) : (LoopRange b1 b2_begin b2_end).Nodup :=
  List.nodup_range' _ _

theorem nodup_VisitedPairs (e : Ephemeris K) : e.VisitedPairs.Nodup := by
  unfold Ephemeris.VisitedPairs
  rw [List.nodup_append]
  refine ⟨?_, ?_, ?_⟩
  · rw [List.nodup_flatMap]
    constructor
    · intro b1 _
      rw [List.nodup_append]
      refine ⟨nodup_map_pair _ _ (nodup_LoopRange _ _ _),
        nodup_map_pair _ _ (nodup_LoopRange _ _ _), ?_⟩
      intro p hp hq
      simp only [List.mem_map, mem_LoopRange] at hp hq
      obtain ⟨x, hx, rfl⟩ := hp
      obtain ⟨y, hy, h⟩ := hq
      simp only [Prod.mk.injEq, true_and] at h
      omega
    · apply List.Nodup.pairwise_of_forall_ne (List.nodup_range _)
      intro a _ b _ hab p hp hq
      simp only [List.mem_append, List.mem_map] at hp hq
      rcases hp with ⟨x, _, rfl⟩ | ⟨x, _, rfl⟩ <;> rcases hq with ⟨y, _, h⟩ | ⟨y, _, h⟩ <;>
        exact hab (Prod.mk.injEq _ _ _ _ ▸ h).1.symm
  · rw [List.nodup_flatMap]
    constructor
    · intro b1 _
      exact nodup_map_pair _ _ (nodup_LoopRange _ _ _)
    · apply List.Nodup.pairwise_of_forall_ne (List.nodup_range' _ _)
      intro a _ b _ hab p hp hq
      simp only [List.mem_map] at hp hq
      obtain ⟨x, _, rfl⟩ := hp
      obtain ⟨y, _, h⟩ := hq
      exact hab (Prod.mk.injEq _ _ _ _ ▸ h).1.symm
  · intro p hp hq
    simp only [List.mem_flatMap, List.mem_append, List.mem_map, List.mem_range,
      List.mem_range'_1] at hp hq
    obtain ⟨a, ha, hp⟩ := hp
    obtain ⟨b, hb, y, _, rfl⟩ := hq
    rcases hp with ⟨x, _, h⟩ | ⟨x, _, h⟩ <;>
      · have := (Prod.mk.injEq _ _ _ _ ▸ h).1
        omega

end physics

end Principia

namespace Principia

namespace physics

variable {K : Type}

/-! ## Newton's third law in the kernel -/

theorem weighted_sum_set [Field K] (bodies : List (MassiveBody K)) :
    ∀ (acc : List (Vector K)) (i : Nat) (v a : Vector K) (body : MassiveBody K),
    bodies[i]? = some body → acc[i]? = some a →
    (((bodies.zip (acc.set i v)).map (fun p => p.1.gravitational_parameter • p.2)).sum : Vector K) =
      ((bodies.zip acc).map (fun p => p.1.gravitational_parameter • p.2)).sum +
        body.gravitational_parameter • (v - a) := by
  induction bodies with
  | nil => intro acc i v a body hb; simp at hb
  | cons b rest ih =>
    intro acc i v a body hb ha
    cases acc with
    | nil => simp at ha
    | cons x xs =>
      cases i with
      | zero =>
        simp only [List.getElem?_cons_zero, Option.some.injEq] at hb ha
        subst hb ha
        simp only [List.set_cons_zero, List.zip_cons_cons, List.map_cons, List.sum_cons, smul_sub]
        abel
      | succ n =>
        simp only [List.getElem?_cons_succ] at hb ha
        simp only [List.set_cons_succ, List.zip_cons_cons, List.map_cons, List.sum_cons,
          ih xs n v a body hb ha]
        abel

/-- Each visit of a pair leaves the weighted sum of the accelerations as it is:
it subtracts `μ2 X` from the acceleration of the first body and adds `μ1 X` to that
of the second. -/
theorem VisitPair_exchange [Field K] (Sqrt : K → K) (e : Ephemeris K)
    (hc : e.KernelConsistent) (positions acc : List (Vector K))
    (hpos : positions.length = e.bodies_.length) (hacc : acc.length = e.bodies_.length)
    (pair : Nat × Nat) (hp : pair ∈ e.VisitedPairs) :
    ∃ (X a1 a2 : Vector K) (body1 body2 : MassiveBody K),
      e.bodies_[pair.1]? = some body1 ∧ e.bodies_[pair.2]? = some body2 ∧
      acc[pair.1]? = some a1 ∧ acc[pair.2]? = some a2 ∧
      e.VisitPair Sqrt positions acc pair =
        .returns ((acc.set pair.1 (a1 - body2.gravitational_parameter • X)).set pair.2
          (a2 + body1.gravitational_parameter • X)) := by
  obtain ⟨b1, b2⟩ := pair
  have hm := (mem_VisitedPairs e b1 b2).mp hp
  obtain ⟨hb, hno, hns, hobl, _⟩ := hc
  have hN : e.bodies_.length = e.number_of_oblate_bodies_ + e.number_of_spherical_bodies_ := by
    rw [hb, List.length_append, hno, hns]
  have h1 : b1 < e.bodies_.length := by omega
  have h2 : b2 < e.bodies_.length := by omega
  have oblate_of_lt : ∀ b, b < e.number_of_oblate_bodies_ → ∀ body, e.bodies_[b]? = some body →
      body.is_oblate = true := by
    intro b hlt body hbody
    rw [hb, List.getElem?_append_left (by omega)] at hbody
    exact hobl body (List.mem_iff_getElem?.mpr ⟨b, hbody⟩)
  obtain ⟨X, hX, _⟩ := PairStep_value Sqrt (decide (b1 < e.number_of_oblate_bodies_))
    (decide (b2 < e.number_of_oblate_bodies_)) e.bodies_[b1] e.bodies_[b2] b1 e.bodies_ 0
    positions acc b2 acc[b1] acc[b2] positions[b1] positions[b2]
    (List.getElem?_eq_getElem _) (List.getElem?_eq_getElem _)
    (by rw [Nat.sub_zero]; exact List.getElem?_eq_getElem _)
    (List.getElem?_eq_getElem _) (List.getElem?_eq_getElem _)
    (fun h => oblate_of_lt b1 (of_decide_eq_true h) _ (List.getElem?_eq_getElem _))
    (fun h => oblate_of_lt b2 (of_decide_eq_true h) _ (List.getElem?_eq_getElem _))
  refine ⟨X, acc[b1], acc[b2], e.bodies_[b1], e.bodies_[b2], List.getElem?_eq_getElem _,
    List.getElem?_eq_getElem _, List.getElem?_eq_getElem _, List.getElem?_eq_getElem _, ?_⟩
  unfold Ephemeris.VisitPair
  simp only [List.getElem?_eq_getElem h1, Outcome.ofOption, Outcome.bind_def,
    Outcome.returns_bind]
  exact hX

theorem VisitPair_weighted_sum [Field K] (Sqrt : K → K) (e : Ephemeris K)
    (hc : e.KernelConsistent) (positions acc : List (Vector K))
    (hpos : positions.length = e.bodies_.length) (hacc : acc.length = e.bodies_.length)
    (pair : Nat × Nat) (hp : pair ∈ e.VisitedPairs) :
    ∃ acc', e.VisitPair Sqrt positions acc pair = .returns acc' ∧
      acc'.length = e.bodies_.length ∧ e.WeightedSum acc' = e.WeightedSum acc := by
  obtain ⟨X, a1, a2, body1, body2, hb1, hb2, ha1, ha2, h⟩ :=
    VisitPair_exchange Sqrt e hc positions acc hpos hacc pair hp
  refine ⟨_, h, by simp [hacc], ?_⟩
  have hne : pair.1 ≠ pair.2 := by
    have := (mem_VisitedPairs e pair.1 pair.2).mp hp
    omega
  have ha2' : (acc.set pair.1 (a1 - body2.gravitational_parameter • X))[pair.2]? = some a2 := by
    rw [List.getElem?_set, if_neg hne, ha2]
  unfold Ephemeris.WeightedSum
  rw [weighted_sum_set e.bodies_ _ pair.2 _ a2 body2 hb2 ha2',
    weighted_sum_set e.bodies_ acc pair.1 _ a1 body1 hb1 ha1]
  simp only [sub_sub_cancel_left, add_sub_cancel_left, smul_neg, smul_smul]
  rw [mul_comm body2.gravitational_parameter body1.gravitational_parameter]
  abel

theorem weighted_sum_replicate [Field K] (e : Ephemeris K) (n : Nat) :
    e.WeightedSum (List.replicate n (0 : Vector K)) = 0 := by
  unfold Ephemeris.WeightedSum
  apply List.sum_eq_zero
  intro x hx
  simp only [List.mem_map] at hx
  obtain ⟨p, hp, rfl⟩ := hx
  have := (List.of_mem_zip hp).2
  rw [List.eq_of_mem_replicate this]
  exact smul_zero _

/-- The loop over pairs that are visited returns and leaves the weighted sum of
the accelerations as it is. -/
theorem foldlM_VisitPair_weighted_sum [Field K] (Sqrt : K → K) (e : Ephemeris K)
    (hc : e.KernelConsistent) (positions : List (Vector K))
    (hpos : positions.length = e.bodies_.length) (l : List (Nat × Nat))
    (hl : ∀ pair ∈ l, pair ∈ e.VisitedPairs) :
    ∀ acc : List (Vector K), acc.length = e.bodies_.length →
    ∃ acc', l.foldlM (e.VisitPair Sqrt positions) acc = .returns acc' ∧
      acc'.length = e.bodies_.length ∧ e.WeightedSum acc' = e.WeightedSum acc := by
  induction l with
  | nil => intro acc hacc; exact ⟨acc, by simp, hacc, rfl⟩
  | cons pair rest ih =>
    intro acc hacc
    obtain ⟨acc1, h1, hlen1, hw1⟩ := VisitPair_weighted_sum Sqrt e hc positions acc hpos hacc
      pair (hl pair (List.mem_cons_self _ _))
    obtain ⟨acc2, h2, hlen2, hw2⟩ := ih (fun p hp => hl p (List.mem_cons_of_mem _ hp)) acc1 hlen1
    refine ⟨acc2, ?_, hlen2, hw2.trans hw1⟩
    simp only [List.foldlM_cons, Outcome.bind_def, h1, Outcome.returns_bind, h2]

end physics

end Principia

namespace Principia

namespace physics

variable {K : Type}

/-! ## The kernel on bodies that are not oblate -/

theorem getD_set_set {α : Type} (l : List α) (b1 b2 i : Nat) (x y d : α)
    (h1 : b1 < l.length) (h2 : b2 < l.length) :
    ((l.set b1 x).set b2 y).getD i d =
      if i = b2 then y else if i = b1 then x else l.getD i d := by
  simp only [List.getD_eq_getElem?_getD, List.getElem?_set, List.length_set]
  by_cases hb2 : b2 = i
  · subst hb2; simp [h2]
  · by_cases hb1 : b1 = i
    · subst hb1; simp [hb2, h1, Ne.symm hb2]
    · simp [hb1, hb2, Ne.symm hb1, Ne.symm hb2]

theorem gravitational_parameter_at_eq [Zero K] {e : Ephemeris K} {i : Nat} {body : MassiveBody K}
    (h : e.bodies_[i]? = some body) :
    e.gravitational_parameter_at i = body.gravitational_parameter := by
  unfold Ephemeris.gravitational_parameter_at
  rw [h]

/-- The visit of a pair when no body is oblate. -/
theorem VisitPair_spherical [Field K] (Sqrt : K → K) (e : Ephemeris K)
    (hc : e.KernelConsistent) (h0 : e.number_of_oblate_bodies_ = 0)
    (positions acc : List (Vector K))
    (hpos : positions.length = e.bodies_.length) (hacc : acc.length = e.bodies_.length)
    (pair : Nat × Nat) (hp : pair ∈ e.VisitedPairs) :
    ∃ acc', e.VisitPair Sqrt positions acc pair = .returns acc' ∧
      acc'.length = e.bodies_.length ∧
      ∀ i, acc'.getD i 0 =
        acc.getD i 0 + Ephemeris.SphericalContribution Sqrt e positions pair.1 pair.2 i := by
  obtain ⟨b1, b2⟩ := pair
  have hm := (mem_VisitedPairs e b1 b2).mp hp
  obtain ⟨hb, hno, hns, _, _⟩ := hc
  have hN : e.bodies_.length = e.number_of_oblate_bodies_ + e.number_of_spherical_bodies_ := by
    rw [hb, List.length_append, hno, hns]
  have h1 : b1 < e.bodies_.length := by omega
  have h2 : b2 < e.bodies_.length := by omega
  obtain ⟨X, hX, hXv⟩ := PairStep_value Sqrt (decide (b1 < e.number_of_oblate_bodies_))
    (decide (b2 < e.number_of_oblate_bodies_)) e.bodies_[b1] e.bodies_[b2] b1 e.bodies_ 0
    positions acc b2 acc[b1] acc[b2] positions[b1] positions[b2]
    (List.getElem?_eq_getElem _) (List.getElem?_eq_getElem _)
    (by rw [Nat.sub_zero]; exact List.getElem?_eq_getElem _)
    (List.getElem?_eq_getElem _) (List.getElem?_eq_getElem _)
    (fun h => absurd (of_decide_eq_true h) (by omega))
    (fun h => absurd (of_decide_eq_true h) (by omega))
  have hXv := hXv (decide_eq_false (by omega)) (decide_eq_false (by omega))
  refine ⟨(acc.set b1 (acc[b1] - e.bodies_[b2].gravitational_parameter • X)).set b2
    (acc[b2] + e.bodies_[b1].gravitational_parameter • X), ?_, ?_, ?_⟩
  · unfold Ephemeris.VisitPair
    simp only [List.getElem?_eq_getElem h1, Outcome.ofOption, Outcome.bind_def,
      Outcome.returns_bind]
    exact hX
  · simp [hacc]
  · intro i
    have hq1 : positions.getD b1 0 = positions[b1] := by
      rw [List.getD_eq_getElem?_getD, List.getElem?_eq_getElem (by omega)]; rfl
    have hq2 : positions.getD b2 0 = positions[b2] := by
      rw [List.getD_eq_getElem?_getD, List.getElem?_eq_getElem (by omega)]; rfl
    have hμ1 := gravitational_parameter_at_eq (List.getElem?_eq_getElem h1)
    have hμ2 := gravitational_parameter_at_eq (List.getElem?_eq_getElem h2)
    rw [getD_set_set _ _ _ _ _ _ _ (by omega) (by omega)]
    unfold Ephemeris.SphericalContribution
    simp only [hq1, hq2, hμ1, hμ2, hXv]
    have hne : b2 ≠ b1 := by omega
    by_cases hi2 : i = b2
    · subst hi2
      have ha : acc.getD i 0 = acc[i] := by
        rw [List.getD_eq_getElem?_getD, List.getElem?_eq_getElem (by omega)]; rfl
      rw [ha]
      simp [hne, smul_smul]
    · by_cases hi1 : i = b1
      · subst hi1
        have ha : acc.getD i 0 = acc[i] := by
          rw [List.getD_eq_getElem?_getD, List.getElem?_eq_getElem (by omega)]; rfl
        rw [ha]
        simp [hi2, smul_smul, sub_eq_add_neg]
      · simp [hi1, hi2]

/-- The loop over pairs that are visited, when no body is oblate. -/
theorem foldlM_VisitPair_spherical [Field K] (Sqrt : K → K) (e : Ephemeris K)
    (hc : e.KernelConsistent) (h0 : e.number_of_oblate_bodies_ = 0)
    (positions : List (Vector K)) (hpos : positions.length = e.bodies_.length)
    (l : List (Nat × Nat)) (hl : ∀ pair ∈ l, pair ∈ e.VisitedPairs) :
    ∀ acc : List (Vector K), acc.length = e.bodies_.length →
    ∃ acc', l.foldlM (e.VisitPair Sqrt positions) acc = .returns acc' ∧
      acc'.length = e.bodies_.length ∧
      ∀ i, acc'.getD i 0 = acc.getD i 0 +
        (l.map (fun pair => Ephemeris.SphericalContribution Sqrt e positions pair.1 pair.2 i)).sum := by
  induction l with
  | nil => intro acc hacc; exact ⟨acc, by simp, hacc, by simp⟩
  | cons pair rest ih =>
    intro acc hacc
    obtain ⟨acc1, h1, hlen1, hv1⟩ := VisitPair_spherical Sqrt e hc h0 positions acc hpos hacc
      pair (hl pair (List.mem_cons_self _ _))
    obtain ⟨acc2, h2, hlen2, hv2⟩ := ih (fun p hp => hl p (List.mem_cons_of_mem _ hp)) acc1 hlen1
    refine ⟨acc2, ?_, hlen2, ?_⟩
    · simp only [List.foldlM_cons, Outcome.bind_def, h1, Outcome.returns_bind, h2]
    · intro i
      rw [hv2 i, hv1 i, List.map_cons, List.sum_cons, add_assoc]

end physics

end Principia

namespace Principia

namespace physics

variable {K : Type}

theorem InnerProduct_self_eq_zero [LinearOrderedField K] {v : Vector K}
    (h : InnerProduct v v = 0) : v = 0 := by
  obtain ⟨x, y, z⟩ := v
  unfold InnerProduct at h
  simp only at h
  have hx := mul_self_nonneg x
  have hy := mul_self_nonneg y
  have hz := mul_self_nonneg z
  have h1 : x = 0 := mul_self_eq_zero.mp (by linarith)
  have h2 : y = 0 := mul_self_eq_zero.mp (by linarith)
  have h3 : z = 0 := mul_self_eq_zero.mp (by linarith)
  subst h1 h2 h3
  rfl

theorem InnerProduct_sub_comm [Field K] (v w : Vector K) :
    InnerProduct (v - w) (v - w) = InnerProduct (w - v) (w - v) := by
  obtain ⟨x, y, z⟩ := v
  obtain ⟨a, b, c⟩ := w
  simp only [InnerProduct, Prod.mk_sub_mk]
  ring

theorem inverse_cube [Field K] (μ n s : K) (h : n * n = s) (hs : s ≠ 0) :
    μ * (n / (s * s)) = μ / n ^ 3 := by
  have hn : n ≠ 0 := by
    rintro rfl
    simp at h
    exact hs h.symm
  subst h
  field_simp
  ring

/-- With exact square roots and distinct positions, the contributions of the
visited pairs to the acceleration at an index add up to Newton's law. -/
theorem sum_SphericalContribution [LinearOrderedField K] (Sqrt : K → K) (e : Ephemeris K)
    (positions : List (Vector K)) (i : Nat)
    (hi : i < e.number_of_oblate_bodies_ + e.number_of_spherical_bodies_)
    (hdistinct : ∀ a b, a < e.number_of_oblate_bodies_ + e.number_of_spherical_bodies_ →
      b < e.number_of_oblate_bodies_ + e.number_of_spherical_bodies_ → a ≠ b →
      positions.getD a 0 ≠ positions.getD b 0)
    (hexact : ∀ a b, a < e.number_of_oblate_bodies_ + e.number_of_spherical_bodies_ →
      b < e.number_of_oblate_bodies_ + e.number_of_spherical_bodies_ → a ≠ b →
      Norm Sqrt (positions.getD a 0 - positions.getD b 0) *
        Norm Sqrt (positions.getD a 0 - positions.getD b 0) =
      InnerProduct (positions.getD a 0 - positions.getD b 0)
        (positions.getD a 0 - positions.getD b 0)) :
    (e.VisitedPairs.map
      (fun pair => Ephemeris.SphericalContribution Sqrt e positions pair.1 pair.2 i)).sum =
    ∑ j ∈ (Finset.range
        (e.number_of_oblate_bodies_ + e.number_of_spherical_bodies_)).erase i,
      Ephemeris.NewtonianAcceleration Sqrt e positions j i := by
  have hset : e.VisitedPairs.toFinset =
      (Finset.range (e.number_of_oblate_bodies_ + e.number_of_spherical_bodies_) ×ˢ
        Finset.range (e.number_of_oblate_bodies_ + e.number_of_spherical_bodies_)).filter
        (fun p => p.1 < p.2) := by
    ext ⟨a, b⟩
    simp only [List.mem_toFinset, mem_VisitedPairs, Finset.mem_filter, Finset.mem_product,
      Finset.mem_range]
    omega
  rw [← List.sum_toFinset _ (nodup_VisitedPairs e), hset, Finset.sum_filter, Finset.sum_product]
  -- The term for the index |j|, from the pair |(j, i)| or from the pair |(i, j)|.
  have key : ∀ a ∈ Finset.range (e.number_of_oblate_bodies_ + e.number_of_spherical_bodies_),
      (∑ b ∈ Finset.range (e.number_of_oblate_bodies_ + e.number_of_spherical_bodies_),
        if a < b then Ephemeris.SphericalContribution Sqrt e positions a b i else 0) =
      (if a < i then Ephemeris.SphericalContribution Sqrt e positions a i i else 0) +
      (if i = a then
        ∑ b ∈ Finset.range (e.number_of_oblate_bodies_ + e.number_of_spherical_bodies_),
          if i < b then Ephemeris.SphericalContribution Sqrt e positions i b i else 0
       else 0) := by
    intro a _
    have pointwise : ∀ b, (if a < b then Ephemeris.SphericalContribution Sqrt e positions a b i
        else 0) =
        (if i = b then (if a < i then Ephemeris.SphericalContribution Sqrt e positions a i i
          else 0) else 0) +
        (if i = a then (if i < b then Ephemeris.SphericalContribution Sqrt e positions i b i
          else 0) else 0) := by
      intro b
      by_cases hab : a < b
      · by_cases hib : i = b
        · subst hib
          have : i ≠ a := by omega
          simp [hab, this]
        · by_cases hia : i = a
          · subst hia
            simp [hab, hib]
          · simp [hab, hib, hia, Ephemeris.SphericalContribution]
      · by_cases hib : i = b
        · subst hib
          by_cases hia : i = a
          · subst hia; simp
          · simp [hab, hia]
        · by_cases hia : i = a
          · subst hia; simp [hab, hib]
          · simp [hab, hib, hia]
    rw [Finset.sum_congr rfl (fun b _ => pointwise b), Finset.sum_add_distrib,
      Finset.sum_ite_eq, if_pos (Finset.mem_range.mpr hi)]
    congr 1
    by_cases hia : i = a
    · simp [hia]
    · simp [hia]
  rw [Finset.sum_congr rfl key, Finset.sum_add_distrib, Finset.sum_ite_eq,
    if_pos (Finset.mem_range.mpr hi), ← Finset.sum_add_distrib]
  rw [← Finset.sum_erase (a := i) _ (by simp)]
  apply Finset.sum_congr rfl
  intro j hj
  rw [Finset.mem_erase, Finset.mem_range] at hj
  obtain ⟨hji, hj⟩ := hj
  unfold Ephemeris.SphericalContribution Ephemeris.NewtonianAcceleration
  rcases Nat.lt_or_gt_of_ne hji with hlt | hgt
  · have hne : positions.getD j 0 - positions.getD i 0 ≠ 0 :=
      sub_ne_zero.mpr (hdistinct j i hj hi hji)
    have hs : InnerProduct (positions.getD j 0 - positions.getD i 0)
        (positions.getD j 0 - positions.getD i 0) ≠ 0 :=
      fun h => hne (InnerProduct_self_eq_zero h)
    have hx := hexact j i hj hi hji
    unfold Norm at hx ⊢
    simp only [hlt, if_true, if_neg (Nat.lt_asymm hlt), add_zero, if_neg (Ne.symm hji),
      if_neg (Nat.ne_of_gt hlt)]
    rw [inverse_cube _ _ _ hx hs]
  · have hne : positions.getD j 0 - positions.getD i 0 ≠ 0 :=
      sub_ne_zero.mpr (hdistinct j i hj hi hji)
    have hs : InnerProduct (positions.getD j 0 - positions.getD i 0)
        (positions.getD j 0 - positions.getD i 0) ≠ 0 :=
      fun h => hne (InnerProduct_self_eq_zero h)
    have hx := hexact j i hj hi hji
    unfold Norm at hx ⊢
    simp only [hgt, if_true, if_neg (Nat.lt_asymm hgt), zero_add, if_neg hji.symm,
      InnerProduct_sub_comm (positions.getD i 0) (positions.getD j 0)]
    rw [inverse_cube _ _ _ hx hs, ← smul_neg, neg_sub]

end physics

end Principia

namespace Principia

namespace physics

variable {K : Type}

/-! ## The constructor of the ephemeris -/

theorem emplace_absent {V : Type} (map : List (Nat × V)) (key : Nat) (value : V)
    (h : map.any (fun kv => kv.1 = key) = false) : emplace map key value = map ++ [(key, value)] := by
  unfold emplace
  simp [h]

theorem any_key_eq_false {V : Type} {map : List (Nat × V)} {key : Nat} :
    map.any (fun kv => decide (kv.1 = key)) = false ↔ ∀ kv ∈ map, kv.1 ≠ key := by
  simp [List.any_eq_false]

/-- A call through the pointer to the trajectory that was inserted last. -/
theorem call_last (e : Ephemeris K) (map : List (Nat × ContinuousTrajectory K)) (key : Nat)
    (made : ContinuousTrajectory K) (c : ContinuousTrajectoryCall K)
    (hmap : e.bodies_to_trajectories_ = map ++ [(key, made)]) (h : ∀ kv ∈ map, kv.1 ≠ key) :
    e.call key c = .returns { e with bodies_to_trajectories_ :=
      map ++ [(key, { made with calls := made.calls ++ [c] })] } := by
  unfold Ephemeris.call
  rw [hmap]
  have h1 : (map ++ [(key, made)]).any (fun kv => decide (kv.1 = key)) = true := by simp
  rw [if_pos h1]
  congr 2
  rw [List.map_append]
  congr 1
  · conv_rhs => rw [← List.map_id map]
    apply List.map_congr_left
    intro kv hkv
    simp [h kv hkv]
  · simp

/-- The loop of the constructor, in closed form: the bodies still to come have
addresses that differ from one another and from the keys already in the maps. -/
theorem ConstructorLoop_returns (initial_time : Instant) (bodies : List (MassiveBody K)) :
    ∀ (i : Nat) (initial_state : List (DegreesOfFreedom K)) (e : Ephemeris K),
    bodies.length = initial_state.length →
    (bodies.map (fun b => b.address)).Nodup →
    (∀ b ∈ bodies, ∀ kv ∈ e.bodies_to_trajectories_, kv.1 ≠ b.address) →
    (∀ b ∈ bodies, ∀ kv ∈ e.unowned_bodies_indices_, kv.1 ≠ b.address) →
    Ephemeris.ConstructorLoop initial_time i bodies initial_state e = .returns
      { e with
        unowned_bodies_ := e.unowned_bodies_ ++ bodies
        unowned_bodies_indices_ := e.unowned_bodies_indices_ ++
          (bodies.enumFrom i).map (fun p => (p.2.address, p.1))
        bodies_to_trajectories_ := e.bodies_to_trajectories_ ++
          (bodies.zip initial_state).map (fun p =>
            (p.1.address, { step_ := e.parameters_.step_, tolerance_ := e.fitting_tolerance_,
                            calls := [.Append initial_time p.2] }))
        oblate_bodies_ := (bodies.filter (fun b => b.is_oblate)).reverse ++ e.oblate_bodies_
        spherical_bodies_ := e.spherical_bodies_ ++ bodies.filter (fun b => !b.is_oblate)
        bodies_ := (bodies.filter (fun b => b.is_oblate)).reverse ++ e.bodies_ ++
          bodies.filter (fun b => !b.is_oblate)
        trajectories_ :=
          ((bodies.filter (fun b => b.is_oblate)).reverse.map (fun b => b.address)) ++
          e.trajectories_ ++ (bodies.filter (fun b => !b.is_oblate)).map (fun b => b.address)
        last_state_ :=
          { time := e.last_state_.time
            positions :=
              (((bodies.zip initial_state).filter (fun p => p.1.is_oblate)).reverse.map
                (fun p => p.2.position)) ++ e.last_state_.positions ++
              ((bodies.zip initial_state).filter (fun p => !p.1.is_oblate)).map
                (fun p => p.2.position)
            velocities :=
              (((bodies.zip initial_state).filter (fun p => p.1.is_oblate)).reverse.map
                (fun p => p.2.velocity)) ++ e.last_state_.velocities ++
              ((bodies.zip initial_state).filter (fun p => !p.1.is_oblate)).map
                (fun p => p.2.velocity) }
        number_of_oblate_bodies_ :=
          e.number_of_oblate_bodies_ + (bodies.filter (fun b => b.is_oblate)).length
        number_of_spherical_bodies_ :=
          e.number_of_spherical_bodies_ + (bodies.filter (fun b => !b.is_oblate)).length } := by
  induction bodies with
  | nil =>
    intro i initial_state e _ _ _ _
    unfold Ephemeris.ConstructorLoop
    simp
  | cons body rest ih =>
    intro i initial_state e hlen hnodup hmap hidx
    cases initial_state with
    | nil => simp at hlen
    | cons degrees_of_freedom initial_state =>
      simp only [List.length_cons, add_left_inj] at hlen
      simp only [List.map_cons, List.nodup_cons, List.mem_map, not_exists, not_and] at hnodup
      obtain ⟨hfresh, hnodup⟩ := hnodup
      have hm : e.bodies_to_trajectories_.any (fun kv => decide (kv.1 = body.address)) = false :=
        any_key_eq_false.mpr (hmap body (List.mem_cons_self _ _))
      have hi : e.unowned_bodies_indices_.any (fun kv => decide (kv.1 = body.address)) = false :=
        any_key_eq_false.mpr (hidx body (List.mem_cons_self _ _))
      unfold Ephemeris.ConstructorLoop
      simp only [Outcome.bind_def, CHECK, hm, if_true, Outcome.returns_bind, emplace_absent _ _ _ hm,
        emplace_absent _ _ _ hi]
      rw [call_last _ e.bodies_to_trajectories_ body.address _ _ rfl
        (hmap body (List.mem_cons_self _ _))]
      simp only [Outcome.returns_bind]
      by_cases hob : body.is_oblate = true
      · simp only [hob, if_true]
        rw [ih (i + 1) initial_state _ hlen hnodup
          (by
            intro b hb kv hkv
            simp only [List.mem_append, List.mem_singleton] at hkv
            rcases hkv with hkv | rfl
            · exact hmap b (List.mem_cons_of_mem _ hb) kv hkv
            · exact fun h => hfresh b hb h.symm)
          (by
            intro b hb kv hkv
            simp only [List.mem_append, List.mem_singleton] at hkv
            rcases hkv with hkv | rfl
            · exact hidx b (List.mem_cons_of_mem _ hb) kv hkv
            · exact fun h => hfresh b hb h.symm)]
        simp [List.filter_cons, hob, List.enumFrom_cons, Nat.add_assoc, Nat.add_comm 1]
      · simp only [hob, if_false, Bool.false_eq_true]
        rw [ih (i + 1) initial_state _ hlen hnodup
          (by
            intro b hb kv hkv
            simp only [List.mem_append, List.mem_singleton] at hkv
            rcases hkv with hkv | rfl
            · exact hmap b (List.mem_cons_of_mem _ hb) kv hkv
            · exact fun h => hfresh b hb h.symm)
          (by
            intro b hb kv hkv
            simp only [List.mem_append, List.mem_singleton] at hkv
            rcases hkv with hkv | rfl
            · exact hidx b (List.mem_cons_of_mem _ hb) kv hkv
            · exact fun h => hfresh b hb h.symm)]
        simp [List.filter_cons, hob, List.enumFrom_cons, Nat.add_assoc, Nat.add_comm 1]

end physics

end Principia

namespace Principia

namespace physics

variable {K : Type}

/-- Looking a key up in a map made from a list whose keys are all different. -/
theorem FindOrDie_map_of_nodup {α V : Type} (key : α → Nat) (val : α → V) (l : List α)
    (hnodup : (l.map key).Nodup) (x : α) (hx : x ∈ l) :
    FindOrDie (l.map (fun a => (key a, val a))) (key x) = .returns (val x) := by
  unfold FindOrDie
  induction l with
  | nil => cases hx
  | cons a rest ih =>
    simp only [List.map_cons, List.nodup_cons, List.mem_map, not_exists, not_and] at hnodup
    rcases List.mem_cons.mp hx with rfl | hx
    · simp [List.find?, Outcome.ofOption]
    · have hne : key a ≠ key x := fun h => hnodup.1 x hx h.symm
      simp only [List.map_cons, List.find?, hne, decide_False]
      exact ih hnodup.2 hx

/-- The constructor, in closed form. -/
theorem new_eq (bodies : List (MassiveBody K)) (initial_state : List (DegreesOfFreedom K))
    (initial_time : Instant) (fitting_tolerance : K) (parameters : FixedStepParameters)
    (hne : bodies ≠ []) (hlen : bodies.length = initial_state.length)
    (hdistinct : (bodies.map (fun b => b.address)).Nodup) :
    Ephemeris.new bodies initial_state initial_time fitting_tolerance parameters = .returns
      { bodies_ := (bodies.filter (fun b => b.is_oblate)).reverse ++
          bodies.filter (fun b => !b.is_oblate)
        unowned_bodies_ := bodies
        unowned_bodies_indices_ := bodies.enum.map (fun p => (p.2.address, p.1))
        oblate_bodies_ := (bodies.filter (fun b => b.is_oblate)).reverse
        spherical_bodies_ := bodies.filter (fun b => !b.is_oblate)
        bodies_to_trajectories_ := (bodies.zip initial_state).map (fun p =>
          (p.1.address, { step_ := parameters.step_, tolerance_ := fitting_tolerance,
                          calls := [.Append initial_time p.2] }))
        trajectories_ :=
          ((bodies.filter (fun b => b.is_oblate)).reverse ++
            bodies.filter (fun b => !b.is_oblate)).map (fun b => b.address)
        fitting_tolerance_ := fitting_tolerance
        parameters_ := parameters
        last_state_ :=
          { time := initial_time
            positions :=
              (((bodies.zip initial_state).filter (fun p => p.1.is_oblate)).reverse ++
                (bodies.zip initial_state).filter (fun p => !p.1.is_oblate)).map
                (fun p => p.2.position)
            velocities :=
              (((bodies.zip initial_state).filter (fun p => p.1.is_oblate)).reverse ++
                (bodies.zip initial_state).filter (fun p => !p.1.is_oblate)).map
                (fun p => p.2.velocity) }
        intermediate_states_ := []
        number_of_oblate_bodies_ := (bodies.filter (fun b => b.is_oblate)).length
        number_of_spherical_bodies_ := (bodies.filter (fun b => !b.is_oblate)).length } := by
  unfold Ephemeris.new
  have h1 : bodies.isEmpty = false := by
    cases bodies with
    | nil => exact absurd rfl hne
    | cons _ _ => rfl
  simp only [CHECK, h1, hlen, if_true, Outcome.bind_def, Outcome.returns_bind]
  rw [ConstructorLoop_returns initial_time bodies 0 initial_state _ hlen hdistinct
    (by intro _ _ kv hkv; cases hkv) (by intro _ _ kv hkv; cases hkv)]
  simp [List.enum]

/-- The constructor leaves the members that the kernel reads consistent. -/
theorem new_consistent {bodies : List (MassiveBody K)} {initial_state : List (DegreesOfFreedom K)}
    {initial_time : Instant} {fitting_tolerance : K} {parameters : FixedStepParameters}
    {e : Ephemeris K}
    (hne : bodies ≠ []) (hlen : bodies.length = initial_state.length)
    (hdistinct : (bodies.map (fun b => b.address)).Nodup)
    (h : Ephemeris.new bodies initial_state initial_time fitting_tolerance parameters
      = .returns e) : e.KernelConsistent := by
  rw [new_eq bodies initial_state initial_time fitting_tolerance parameters hne hlen hdistinct] at h
  cases h
  refine ⟨rfl, by simp, rfl, ?_, ?_⟩
  · intro body hb
    simp only [List.mem_reverse, List.mem_filter] at hb
    exact hb.2
  · intro body hb
    simp only [List.mem_filter, Bool.not_eq_true'] at hb
    exact hb.2

end physics

end Principia

namespace Principia

namespace physics

variable {K : Type}

theorem map_fst_filter {α β : Type} (q : α → Bool) (z : List (α × β)) :
    (z.filter (fun p => q p.1)).map Prod.fst = (z.map Prod.fst).filter q := by
  induction z with
  | nil => rfl
  | cons p rest ih =>
    by_cases h : q p.1 = true
    · simp [List.filter_cons, h, ih]
    · simp [List.filter_cons, h, ih]

/-- Claim C18.  The constructor of the ephemeris, on a list of bodies that is not
empty, with as many degrees of freedom and with addresses that differ, returns
an ephemeris in which: `bodies_` holds the bodies given, the oblate ones at the
indices below `number_of_oblate_bodies_` and the others from there on; at every
index `k` the pointer `trajectories_[k]` points to the trajectory of
`bodies_[k]`, which has received the initial degrees of freedom of that body, and
`last_state_.positions[k]`, `last_state_.velocities[k]` are the position and the
velocity of these; `oblate_bodies_` and `spherical_bodies_` are the two parts of
`bodies_`; and `serialization_index_for_body`, `body_for_serialization_index`
are inverse of each other and follow the order of the list given. -/
theorem oblate_first_storage (bodies : List (MassiveBody K))
    (initial_state : List (DegreesOfFreedom K)) (initial_time : Instant)
    (fitting_tolerance : K) (parameters : FixedStepParameters)
    (hne : bodies ≠ []) (hlen : bodies.length = initial_state.length)
    (hdistinct : (bodies.map (fun b => b.address)).Nodup) :
    ∃ e, Ephemeris.new bodies initial_state initial_time fitting_tolerance parameters
        = .returns e ∧
      e.bodies_.Perm bodies ∧
      e.number_of_oblate_bodies_ + e.number_of_spherical_bodies_ = e.bodies_.length ∧
      (∀ (k : Nat) (body : MassiveBody K), e.bodies_[k]? = some body →
        (body.is_oblate = true ↔ k < e.number_of_oblate_bodies_)) ∧
      (∀ (k : Nat) (body : MassiveBody K), e.bodies_[k]? = some body →
        e.trajectories_[k]? = some body.address ∧
        ∃ (i : Nat) (degrees_of_freedom : DegreesOfFreedom K), bodies[i]? = some body ∧
          initial_state[i]? = some degrees_of_freedom ∧
          e.last_state_.positions[k]? = some degrees_of_freedom.position ∧
          e.last_state_.velocities[k]? = some degrees_of_freedom.velocity ∧
          e.trajectory body = .returns
            { step_ := parameters.step_, tolerance_ := fitting_tolerance,
              calls := [.Append initial_time degrees_of_freedom] }) ∧
      e.trajectories_.length = e.bodies_.length ∧
      e.last_state_.positions.length = e.bodies_.length ∧
      e.last_state_.velocities.length = e.bodies_.length ∧
      e.oblate_bodies_.length = e.number_of_oblate_bodies_ ∧
      e.spherical_bodies_.length = e.number_of_spherical_bodies_ ∧
      (∀ k : Nat, k < e.number_of_oblate_bodies_ → e.oblate_bodies_[k]? = e.bodies_[k]?) ∧
      (∀ k : Nat, e.number_of_oblate_bodies_ ≤ k →
        e.spherical_bodies_[k - e.number_of_oblate_bodies_]? = e.bodies_[k]?) ∧
      (∀ i : Nat, e.body_for_serialization_index i = Outcome.ofOption bodies[i]?) ∧
      (∀ i body, e.body_for_serialization_index i = .returns body →
        e.serialization_index_for_body body = .returns i) ∧
      (∀ body, body ∈ e.bodies_ → ∃ i, e.serialization_index_for_body body = .returns i ∧
        e.body_for_serialization_index i = .returns body) := by
  refine ⟨_, new_eq bodies initial_state initial_time fitting_tolerance parameters hne hlen
    hdistinct, ?_⟩
  have hperm : ((bodies.filter (fun b => b.is_oblate)).reverse ++
      bodies.filter (fun b => !b.is_oblate)).Perm bodies :=
    ((List.reverse_perm _).append_right _).trans (List.filter_append_perm _ _)
  have hzfst : (bodies.zip initial_state).map Prod.fst = bodies :=
    List.map_fst_zip _ _ (le_of_eq hlen)
  have hinternal : (((bodies.zip initial_state).filter (fun p => p.1.is_oblate)).reverse ++
      (bodies.zip initial_state).filter (fun p => !p.1.is_oblate)).map Prod.fst =
      (bodies.filter (fun b => b.is_oblate)).reverse ++ bodies.filter (fun b => !b.is_oblate) := by
    rw [List.map_append, List.map_reverse,
      map_fst_filter (fun b : MassiveBody K => b.is_oblate) (bodies.zip initial_state),
      map_fst_filter (fun b : MassiveBody K => !b.is_oblate) (bodies.zip initial_state), hzfst]
  have hindex : ∀ i body, bodies[i]? = some body →
      FindOrDie (bodies.enum.map (fun p => (p.2.address, p.1))) body.address = .returns i := by
    intro i body hb
    have hmem : (i, body) ∈ bodies.enum := by
      rw [List.mem_iff_getElem?]
      refine ⟨i, ?_⟩
      rw [List.getElem?_enum, hb]
      rfl
    exact FindOrDie_map_of_nodup (fun p : Nat × MassiveBody K => p.2.address) (fun p => p.1)
      bodies.enum (by
        have : bodies.enum.map (fun p => p.2.address) =
            (bodies.enum.map Prod.snd).map (fun b => b.address) := by
          rw [List.map_map]; rfl
        rw [this, List.enum_map_snd]
        exact hdistinct) (i, body) hmem
  refine ⟨hperm, ?_, ?_, ?_, ?_, ?_, ?_, ?_, rfl, ?_, ?_, ?_, ?_, ?_⟩
  · simp
  · intro k body hk
    simp only at hk
    by_cases hlt : k < ((bodies.filter (fun b => b.is_oblate)).reverse).length
    · rw [List.getElem?_append_left hlt] at hk
      have hm := List.mem_iff_getElem?.mpr ⟨k, hk⟩
      simp only [List.mem_reverse, List.mem_filter] at hm
      simp only [List.length_reverse] at hlt
      exact ⟨fun _ => hlt, fun _ => hm.2⟩
    · rw [List.getElem?_append_right (not_lt.mp hlt)] at hk
      have hm := List.mem_iff_getElem?.mpr ⟨_, hk⟩
      simp only [List.mem_filter, Bool.not_eq_true'] at hm
      simp only [List.length_reverse] at hlt
      exact ⟨fun h => (by rw [hm.2] at h; cases h), fun h => absurd h hlt⟩
  · intro k body hk
    simp only at hk
    constructor
    · simp only [List.getElem?_map, hk, Option.map_some']
    · rw [← hinternal, List.getElem?_map, Option.map_eq_some'] at hk
      obtain ⟨p, hp, rfl⟩ := hk
      have hmem : p ∈ bodies.zip initial_state := by
        have := List.mem_iff_getElem?.mpr ⟨k, hp⟩
        simp only [List.mem_append, List.mem_reverse, List.mem_filter] at this
        rcases this with h | h <;> exact h.1
      obtain ⟨i, hi⟩ := List.mem_iff_getElem?.mp hmem
      have hi' := List.getElem?_zip_eq_some.mp hi
      refine ⟨i, p.2, hi'.1, hi'.2, ?_, ?_, ?_⟩
      · simp only [List.getElem?_map, hp, Option.map_some']
      · simp only [List.getElem?_map, hp, Option.map_some']
      · exact FindOrDie_map_of_nodup (fun p : MassiveBody K × DegreesOfFreedom K => p.1.address)
          (fun p => ({ step_ := parameters.step_, tolerance_ := fitting_tolerance,
                       calls := [.Append initial_time p.2] } : ContinuousTrajectory K))
          (bodies.zip initial_state) (by
            have : (bodies.zip initial_state).map (fun p => p.1.address) =
                ((bodies.zip initial_state).map Prod.fst).map (fun b => b.address) := by
              rw [List.map_map]; rfl
            rw [this, hzfst]
            exact hdistinct) p hmem
  · simp
  · simp only [List.length_map]
    rw [← hinternal, List.length_map]
  · simp only [List.length_map]
    rw [← hinternal, List.length_map]
  · simp
  · intro k hk
    simp only [List.length_reverse] at hk ⊢
    rw [List.getElem?_append_left (by simpa using hk)]
  · intro k hk
    simp only at hk ⊢
    rw [List.getElem?_append_right (by simpa using hk), List.length_reverse]
  · intro i
    rfl
  · intro i body hb
    have hb' : bodies[i]? = some body := Outcome.ofOption_eq_returns.mp hb
    exact hindex i body hb'
  · intro body hb
    have hmem : body ∈ bodies := hperm.mem_iff.mp hb
    obtain ⟨i, hi⟩ := List.mem_iff_getElem?.mp hmem
    exact ⟨i, hindex i body hi, Outcome.ofOption_eq_returns.mpr hi⟩

end physics

end Principia

namespace Principia

namespace physics

variable {K : Type}

/-! ## Rewinding the ephemeris to a checkpoint -/

/-- On checkpoints in increasing order of time, `std::lower_bound` returns the
number of checkpoints before `t`. -/
theorem lower_bound_sorted (states : List (SystemState K)) (t : Instant)
    (hsorted : states.Pairwise (fun a b => a.time < b.time)) :
    lower_bound states t = .returns (states.findIdx (fun left => !decide (left.time < t))) ∧
    states.take (states.findIdx (fun left => !decide (left.time < t))) =
      states.filter (fun c => decide (c.time < t)) := by
  induction states with
  | nil => simp [lower_bound]
  | cons a rest ih =>
    rw [List.pairwise_cons] at hsorted
    obtain ⟨ih1, ih2⟩ := ih hsorted.2
    by_cases ha : a.time < t
    · constructor
      · unfold lower_bound at ih1 ⊢
        simp only [List.dropWhile_cons, ha, decide_True, if_true, List.findIdx_cons,
          Bool.not_true, cond_false] at ih1 ⊢
        split at ih1
        · rename_i h
          rw [if_pos h]
        · cases ih1
      · simp only [List.findIdx_cons, ha, decide_True, Bool.not_true, cond_false,
          List.take_succ_cons, List.filter_cons, if_true, ih2]
    · have hall : ∀ c ∈ rest, ¬ c.time < t := fun c hc =>
        not_lt.mpr (le_trans (not_lt.mp ha) (le_of_lt (hsorted.1 c hc)))
      constructor
      · unfold lower_bound
        simp only [List.dropWhile_cons, ha, decide_False, List.findIdx_cons, Bool.not_false,
          cond_true, List.all_cons, Bool.true_and, Bool.false_eq_true, if_false]
        rw [if_pos]
        simp only [List.all_eq_true, Bool.not_eq_true', decide_eq_false_iff_not]
        exact hall
      · simp only [List.findIdx_cons, ha, decide_False, Bool.not_false, cond_true, List.take_zero,
          List.filter_cons, Bool.false_eq_true, if_false]
        symm
        rw [List.filter_eq_nil_iff]
        intro c hc
        simpa using hall c hc

/-- The checkpoint that `std::lower_bound` finds is the earliest of those at `t`
or later. -/
theorem lower_bound_earliest (states : List (SystemState K)) (t : Instant)
    (hsorted : states.Pairwise (fun a b => a.time < b.time)) (c : SystemState K)
    (hc : c ∈ states) (ht : t ≤ c.time)
    (hmin : ∀ c' ∈ states, t ≤ c'.time → c.time ≤ c'.time) :
    states[states.findIdx (fun left => !decide (left.time < t))]? = some c := by
  induction states with
  | nil => cases hc
  | cons a rest ih =>
    rw [List.pairwise_cons] at hsorted
    by_cases ha : a.time < t
    · have hne : c ≠ a := fun h => absurd ha (not_lt.mpr (h ▸ ht))
      have hc' : c ∈ rest := by
        rcases List.mem_cons.mp hc with h | h
        · exact absurd h hne
        · exact h
      simp only [List.findIdx_cons, ha, decide_True, Bool.not_true, cond_false,
        List.getElem?_cons_succ]
      exact ih hsorted.2 hc' (fun c' h' => hmin c' (List.mem_cons_of_mem _ h'))
    · simp only [List.findIdx_cons, ha, decide_False, Bool.not_false, cond_true,
        List.getElem?_cons_zero, Option.some.injEq]
      rcases List.mem_cons.mp hc with h | h
      · exact h.symm
      · have h1 := hsorted.1 c h
        have h2 := hmin a (List.mem_cons_self _ _) (not_lt.mp ha)
        exact absurd h1 (not_lt.mpr h2)

theorem findIdx_eq_length_of_all {α : Type} (p : α → Bool) (l : List α)
    (h : ∀ x ∈ l, p x = false) : l.findIdx p = l.length := by
  induction l with
  | nil => rfl
  | cons a rest ih =>
    simp only [List.findIdx_cons, h a (List.mem_cons_self _ _), cond_false, List.length_cons,
      ih (fun x hx => h x (List.mem_cons_of_mem _ hx))]

theorem find?_map_keys {V : Type} (f : Nat × V → Nat × V) (hf : ∀ kv, (f kv).1 = kv.1)
    (map : List (Nat × V)) (key : Nat) :
    (map.map f).find? (fun kv => decide (kv.1 = key)) =
      (map.find? (fun kv => decide (kv.1 = key))).map f := by
  rw [List.find?_map]
  congr 2
  funext kv
  simp [Function.comp, hf]

/-- What a call through a pointer to a trajectory does to the map of the
trajectories. -/
theorem FindOrDie_call {e e' : Ephemeris K} {key : Nat} {c : ContinuousTrajectoryCall K}
    (h : e.call key c = .returns e') :
    (∃ ct, FindOrDie e.bodies_to_trajectories_ key = .returns ct ∧
      FindOrDie e'.bodies_to_trajectories_ key =
        .returns { ct with calls := ct.calls ++ [c] }) ∧
    (∀ key', key' ≠ key →
      FindOrDie e'.bodies_to_trajectories_ key' = FindOrDie e.bodies_to_trajectories_ key') ∧
    e' = { e with bodies_to_trajectories_ := e'.bodies_to_trajectories_ } := by
  unfold Ephemeris.call at h
  split at h
  · rename_i hany
    cases h
    have hfind : ∀ key', (List.map (fun kv : Nat × ContinuousTrajectory K =>
          if kv.1 = key then (kv.1, { kv.2 with calls := kv.2.calls ++ [c] }) else kv)
          e.bodies_to_trajectories_).find? (fun kv => decide (kv.1 = key')) =
        (e.bodies_to_trajectories_.find? (fun kv => decide (kv.1 = key'))).map
          (fun kv => if kv.1 = key then (kv.1, { kv.2 with calls := kv.2.calls ++ [c] })
            else kv) :=
      fun key' => find?_map_keys _ (fun kv => by split <;> rfl) _ key'
    refine ⟨?_, ?_, rfl⟩
    · simp only [List.any_eq_true, decide_eq_true_eq] at hany
      obtain ⟨x, hx, hxk⟩ := hany
      cases hf : e.bodies_to_trajectories_.find? (fun kv => decide (kv.1 = key)) with
      | none =>
        rw [List.find?_eq_none] at hf
        exact absurd (by simpa using hxk) (hf x hx)
      | some kv =>
        have hkv : kv.1 = key := by simpa using List.find?_some hf
        refine ⟨kv.2, ?_, ?_⟩
        · unfold FindOrDie
          rw [hf]
          rfl
        · unfold FindOrDie
          simp only
          rw [hfind key, hf]
          simp [Outcome.ofOption, hkv]
    · intro key' hne
      unfold FindOrDie
      simp only
      rw [hfind key']
      cases hf : e.bodies_to_trajectories_.find? (fun kv => decide (kv.1 = key')) with
      | none => rfl
      | some kv =>
        have hkv : kv.1 = key' := by simpa using List.find?_some hf
        have : kv.1 ≠ key := fun h => hne (hkv.symm.trans h)
        simp [this]
  · cases h

end physics

end Principia

namespace Principia

namespace physics

variable {K : Type}

theorem call_returns_of_FindOrDie {e : Ephemeris K} {key : Nat} {ct : ContinuousTrajectory K}
    (c : ContinuousTrajectoryCall K) (h : FindOrDie e.bodies_to_trajectories_ key = .returns ct) :
    ∃ e', e.call key c = .returns e' := by
  unfold FindOrDie at h
  rw [Outcome.ofOption_eq_returns, Option.map_eq_some'] at h
  obtain ⟨kv, hkv, _⟩ := h
  have h1 := List.mem_of_find?_eq_some hkv
  have h2 := List.find?_some hkv
  unfold Ephemeris.call
  rw [if_pos (List.any_eq_true.mpr ⟨kv, h1, h2⟩)]
  exact ⟨_, rfl⟩

/-- What the loops over `trajectories_` do to the trajectories, when the
pointers that they go through differ from one another. -/
theorem CallAll_effect (call_at : Nat → Outcome (ContinuousTrajectoryCall K)) (l : List Nat) :
    ∀ (index : Nat) (e e' : Ephemeris K), l.Nodup →
    Ephemeris.CallAll call_at index l e = .returns e' →
    e' = { e with bodies_to_trajectories_ := e'.bodies_to_trajectories_ } ∧
    (∀ (j : Nat) (key : Nat), l[j]? = some key →
      ∃ ct c, FindOrDie e.bodies_to_trajectories_ key = .returns ct ∧
        call_at (index + j) = .returns c ∧
        FindOrDie e'.bodies_to_trajectories_ key =
          .returns { ct with calls := ct.calls ++ [c] }) ∧
    (∀ key, key ∉ l →
      FindOrDie e'.bodies_to_trajectories_ key = FindOrDie e.bodies_to_trajectories_ key) := by
  induction l with
  | nil =>
    intro index e e' _ h
    unfold Ephemeris.CallAll at h
    cases h
    exact ⟨rfl, fun j key hj => by simp at hj, fun _ _ => rfl⟩
  | cons trajectory rest ih =>
    intro index e e' hnodup h
    rw [List.nodup_cons] at hnodup
    unfold Ephemeris.CallAll at h
    simp only [Outcome.bind_def, Outcome.bind_eq_returns] at h
    obtain ⟨c, hc, e1, he1, h⟩ := h
    obtain ⟨⟨ct, hct, hct1⟩, hother, hframe⟩ := FindOrDie_call he1
    obtain ⟨hframe', hin, hout⟩ := ih (index + 1) e1 e' hnodup.2 h
    refine ⟨?_, ?_, ?_⟩
    · rw [hframe', hframe]
    · intro j key hj
      cases j with
      | zero =>
        simp only [List.getElem?_cons_zero, Option.some.injEq] at hj
        subst hj
        exact ⟨ct, c, hct, hc, by rw [hout _ hnodup.1, hct1]⟩
      | succ n =>
        simp only [List.getElem?_cons_succ] at hj
        have hmem : key ∈ rest := List.mem_iff_getElem?.mpr ⟨n, hj⟩
        have hne : key ≠ trajectory := fun h => hnodup.1 (h ▸ hmem)
        obtain ⟨ct', c', h1, h2, h3⟩ := hin n key hj
        refine ⟨ct', c', ?_, ?_, h3⟩
        · rw [← hother key hne]; exact h1
        · rw [← h2]; congr 1; omega
    · intro key hkey
      rw [List.mem_cons, not_or] at hkey
      rw [hout key hkey.2, hother key hkey.1]

/-- The loops over `trajectories_` return when the pointers point to
trajectories and the calls are defined. -/
theorem CallAll_returns (call_at : Nat → Outcome (ContinuousTrajectoryCall K)) (l : List Nat) :
    ∀ (index : Nat) (e : Ephemeris K),
    (∀ key ∈ l, ∃ ct, FindOrDie e.bodies_to_trajectories_ key = .returns ct) →
    (∀ j, j < l.length → ∃ c, call_at (index + j) = .returns c) →
    ∃ e', Ephemeris.CallAll call_at index l e = .returns e' := by
  induction l with
  | nil => intro index e _ _; exact ⟨e, rfl⟩
  | cons trajectory rest ih =>
    intro index e hkeys hcalls
    obtain ⟨c, hc⟩ := hcalls 0 (by simp)
    obtain ⟨ct, hct⟩ := hkeys trajectory (List.mem_cons_self _ _)
    obtain ⟨e1, he1⟩ := call_returns_of_FindOrDie c hct
    obtain ⟨⟨_, _, hct1⟩, hother, _⟩ := FindOrDie_call he1
    obtain ⟨e', he'⟩ := ih (index + 1) e1
      (by
        intro key hkey
        by_cases hk : key = trajectory
        · subst hk; exact ⟨_, hct1⟩
        · obtain ⟨ct', h'⟩ := hkeys key (List.mem_cons_of_mem _ hkey)
          exact ⟨ct', by rw [hother key hk]; exact h'⟩)
      (by
        intro j hj
        obtain ⟨c', h'⟩ := hcalls (j + 1) (by simp; omega)
        exact ⟨c', by rw [← h']; congr 1; omega⟩)
    refine ⟨e', ?_⟩
    unfold Ephemeris.CallAll
    simp only [Nat.add_zero] at hc
    simp only [Outcome.bind_def, hc, Outcome.returns_bind, he1, he']

/-- Claim C14.  On checkpoints in increasing order of time and pointers to
trajectories that differ from one another, `ForgetAfter(t)`: returns the
ephemeris as it is when every checkpoint is before `t`; otherwise, with `c` the
earliest checkpoint at `t` or later, when it returns, `last_state_` is `c`, the
checkpoints left are those that were before `t`, each trajectory has received
`ForgetAfter(c.time, ...)` with the position and the velocity that `c` has at the
index of the pointer to the trajectory, and nothing else has changed; and it
does return when the pointers point to trajectories and `c` has a position and a
velocity for each. -/
theorem ForgetAfter_effect (e : Ephemeris K) (t : Instant)
    (hsorted : e.intermediate_states_.Pairwise (fun a b => a.time < b.time))
    (hpointers : e.trajectories_.Nodup) :
    ((∀ c ∈ e.intermediate_states_, c.time < t) → e.ForgetAfter t = .returns e) ∧
    (∀ c ∈ e.intermediate_states_, t ≤ c.time →
      (∀ c' ∈ e.intermediate_states_, t ≤ c'.time → c.time ≤ c'.time) →
      (∀ e', e.ForgetAfter t = .returns e' →
        e'.last_state_ = c ∧
        e'.intermediate_states_ =
          e.intermediate_states_.filter (fun c' => decide (c'.time < t)) ∧
        (∀ (k : Nat) (trajectory : Nat), e.trajectories_[k]? = some trajectory →
          ∃ ct degrees_of_freedom,
            FindOrDie e.bodies_to_trajectories_ trajectory = .returns ct ∧
            c.degrees_of_freedom k = .returns degrees_of_freedom ∧
            FindOrDie e'.bodies_to_trajectories_ trajectory =
              .returns { ct with calls := ct.calls ++ [.ForgetAfter c.time degrees_of_freedom] }) ∧
        e' = { e with
          last_state_ := e'.last_state_
          intermediate_states_ := e'.intermediate_states_
          bodies_to_trajectories_ := e'.bodies_to_trajectories_ }) ∧
      ((∀ trajectory ∈ e.trajectories_,
          ∃ ct, FindOrDie e.bodies_to_trajectories_ trajectory = .returns ct) →
        e.trajectories_.length ≤ c.positions.length →
        e.trajectories_.length ≤ c.velocities.length →
        ∃ e', e.ForgetAfter t = .returns e')) := by
  obtain ⟨hlb, htake⟩ := lower_bound_sorted e.intermediate_states_ t hsorted
  constructor
  · intro hall
    unfold Ephemeris.ForgetAfter
    rw [hlb]
    simp only [Outcome.bind_def, Outcome.returns_bind]
    rw [if_pos (findIdx_eq_length_of_all _ _ (fun c hc => by simpa using hall c hc))]
  · intro c hc ht hmin
    have hat := lower_bound_earliest e.intermediate_states_ t hsorted c hc ht hmin
    have hlt : e.intermediate_states_.findIdx (fun left => !decide (left.time < t)) ≠
        e.intermediate_states_.length := by
      intro h
      rw [h, List.getElem?_eq_none (le_refl _)] at hat
      cases hat
    constructor
    · intro e' h
      unfold Ephemeris.ForgetAfter at h
      rw [hlb] at h
      simp only [Outcome.bind_def, Outcome.returns_bind, if_neg hlt, hat, Outcome.ofOption,
        CHECK, ht, if_true, Outcome.bind_eq_returns] at h
      obtain ⟨e1, he1, h⟩ := h
      cases h
      obtain ⟨hframe, hin, _⟩ := CallAll_effect _ _ 0 e e1 hpointers he1
      refine ⟨rfl, ?_, ?_, ?_⟩
      · simp only
        rw [hframe]
        exact htake
      · intro k trajectory hk
        obtain ⟨ct, call, h1, h2, h3⟩ := hin k trajectory hk
        simp only [Nat.zero_add, Outcome.bind_def, Outcome.bind_eq_returns] at h2
        obtain ⟨degrees_of_freedom, hd, h2⟩ := h2
        cases h2
        exact ⟨ct, degrees_of_freedom, h1, hd, h3⟩
      · simp only
        rw [hframe]
    · intro hkeys hp hv
      obtain ⟨e1, he1⟩ := CallAll_returns
        (fun index => (c.degrees_of_freedom index).bind (fun degrees_of_freedom =>
          Outcome.returns (ContinuousTrajectoryCall.ForgetAfter c.time degrees_of_freedom)))
        e.trajectories_ 0 e hkeys
        (by
          intro j hj
          have h1 : j < c.positions.length := by omega
          have h2 : j < c.velocities.length := by omega
          refine ⟨.ForgetAfter c.time ⟨c.positions[j], c.velocities[j]⟩, ?_⟩
          unfold SystemState.degrees_of_freedom
          simp [List.getElem?_eq_getElem h1, List.getElem?_eq_getElem h2, Outcome.ofOption])
      refine ⟨{ e1 with
        last_state_ := c
        intermediate_states_ := e1.intermediate_states_.take
          (e.intermediate_states_.findIdx (fun left => !decide (left.time < t))) }, ?_⟩
      unfold Ephemeris.ForgetAfter
      rw [hlb]
      simp only [Outcome.bind_def, Outcome.returns_bind, if_neg hlt, hat, Outcome.ofOption,
        CHECK, ht, if_true]
      rw [show (Ephemeris.CallAll (fun index => (c.degrees_of_freedom index).bind
          (fun degrees_of_freedom =>
            Outcome.returns (ContinuousTrajectoryCall.ForgetAfter c.time degrees_of_freedom)))
          0 e.trajectories_ e) = .returns e1 from he1]
      rfl

end physics

end Principia

namespace Principia

namespace physics

variable {K : Type}

/-! ## The claims about the kernel -/

/-- Claim C15.  For an ephemeris whose members fit together as the constructor
leaves them, the kernel is the loop over the list `VisitedPairs` of the pairs of
its three passes, from accelerations set to zero; in that list no pair occurs
twice, and `(b1, b2)` occurs if and only if `b1 < b2` and `b2` is below the
number of bodies.  Hence, when no body is oblate, the positions differ from one
another and `Sqrt` is exact on the squares of their distances, the kernel returns
at every index `i` the sum over `j ≠ i` of `μ_j (q_j - q_i) / ‖q_j - q_i‖³`. -/
theorem kernel_visits_each_pair_once [LinearOrderedField K] (Sqrt : K → K) (e : Ephemeris K)
    (hc : e.KernelConsistent) (t : Instant) (positions accelerations : List (Vector K))
    (hpos : positions.length = e.bodies_.length)
    (hacc : accelerations.length = e.bodies_.length) :
    e.ComputeMassiveBodiesGravitationalAccelerations Sqrt t positions accelerations =
      e.VisitedPairs.foldlM (e.VisitPair Sqrt positions)
        (List.replicate accelerations.length 0) ∧
    e.VisitedPairs.Nodup ∧
    (∀ b1 b2, (b1, b2) ∈ e.VisitedPairs ↔ b1 < b2 ∧ b2 < e.bodies_.length) ∧
    (e.number_of_oblate_bodies_ = 0 →
      (∀ a b, a < e.bodies_.length → b < e.bodies_.length → a ≠ b →
        positions.getD a 0 ≠ positions.getD b 0) →
      (∀ a b, a < e.bodies_.length → b < e.bodies_.length → a ≠ b →
        Norm Sqrt (positions.getD a 0 - positions.getD b 0) *
          Norm Sqrt (positions.getD a 0 - positions.getD b 0) =
        InnerProduct (positions.getD a 0 - positions.getD b 0)
          (positions.getD a 0 - positions.getD b 0)) →
      ∃ acc, e.ComputeMassiveBodiesGravitationalAccelerations Sqrt t positions accelerations
          = .returns acc ∧
        acc.length = e.bodies_.length ∧
        ∀ i, i < e.bodies_.length →
          acc[i]? = some (∑ j ∈ (Finset.range e.bodies_.length).erase i,
            Ephemeris.NewtonianAcceleration Sqrt e positions j i)) := by
  have hN : e.bodies_.length = e.number_of_oblate_bodies_ + e.number_of_spherical_bodies_ := by
    obtain ⟨hb, hno, hns, _, _⟩ := hc
    rw [hb, List.length_append, hno, hns]
  have htie := kernel_eq_visits Sqrt e hc t positions accelerations (le_of_eq hacc.symm)
  refine ⟨htie, nodup_VisitedPairs e, ?_, ?_⟩
  · intro b1 b2
    rw [mem_VisitedPairs, hN]
  · intro h0 hdistinct hexact
    obtain ⟨acc, hfold, hlen, hval⟩ := foldlM_VisitPair_spherical Sqrt e hc h0 positions hpos
      e.VisitedPairs (fun _ h => h) (List.replicate accelerations.length 0) (by simp [hacc])
    refine ⟨acc, htie.trans hfold, hlen, ?_⟩
    intro i hi
    have hsum := sum_SphericalContribution Sqrt e positions i (hN ▸ hi)
      (by rw [← hN]; exact hdistinct) (by rw [← hN]; exact hexact)
    have hv := hval i
    rw [hsum, ← hN] at hv
    have hzero : (List.replicate accelerations.length (0 : Vector K)).getD i 0 = 0 := by
      rw [List.getD_eq_getElem?_getD, List.getElem?_replicate]
      split <;> rfl
    rw [hzero, zero_add, List.getD_eq_getElem?_getD,
      List.getElem?_eq_getElem (by omega : i < acc.length)] at hv
    rw [List.getElem?_eq_getElem (by omega : i < acc.length)]
    exact congrArg some hv

/-- Claim C16.  For an ephemeris whose members fit together as the constructor
leaves them, with as many positions and accelerations as bodies: the kernel
returns accelerations whose sum weighted by the gravitational parameters of the
bodies is zero, because the visit of each pair subtracts `μ2 X` from the
acceleration of the first body and adds `μ1 X` to that of the second, for one
vector `X` that takes in the Newtonian term and the terms of `Order2ZonalEffect`. -/
theorem kernel_third_law [Field K] (Sqrt : K → K) (e : Ephemeris K)
    (hc : e.KernelConsistent) (t : Instant) (positions accelerations : List (Vector K))
    (hpos : positions.length = e.bodies_.length)
    (hacc : accelerations.length = e.bodies_.length)
    (_hdistinct : ∀ a b, a < e.bodies_.length → b < e.bodies_.length → a ≠ b →
      positions.getD a 0 ≠ positions.getD b 0) :
    (∃ acc, e.ComputeMassiveBodiesGravitationalAccelerations Sqrt t positions accelerations
        = .returns acc ∧
      acc.length = e.bodies_.length ∧ e.WeightedSum acc = 0) ∧
    (∀ acc : List (Vector K), acc.length = e.bodies_.length →
      ∀ pair ∈ e.VisitedPairs,
      ∃ (X a1 a2 : Vector K) (body1 body2 : MassiveBody K),
        e.bodies_[pair.1]? = some body1 ∧ e.bodies_[pair.2]? = some body2 ∧
        acc[pair.1]? = some a1 ∧ acc[pair.2]? = some a2 ∧
        e.VisitPair Sqrt positions acc pair =
          .returns ((acc.set pair.1 (a1 - body2.gravitational_parameter • X)).set pair.2
            (a2 + body1.gravitational_parameter • X))) := by
  constructor
  · obtain ⟨acc, hfold, hlen, hw⟩ := foldlM_VisitPair_weighted_sum Sqrt e hc positions hpos
      e.VisitedPairs (fun _ h => h) (List.replicate accelerations.length 0) (by simp [hacc])
    refine ⟨acc, ?_, hlen, by rw [hw, weighted_sum_replicate]⟩
    rw [kernel_eq_visits Sqrt e hc t positions accelerations (le_of_eq hacc.symm)]
    exact hfold
  · intro acc hlen pair hp
    exact VisitPair_exchange Sqrt e hc positions acc hpos hlen pair hp

/-- Claim C17.  For an oblate body with axis `j` and coefficient `J = j2_over_μ`,
a vector `r` that is not zero and `n` its norm, `Order2ZonalEffect` called with
`1 / n²` and `1 / n³` returns `-(J / n⁵) (3 j (r·j) + r (3 - 15 (r·j)² / n²) / 2)`. -/
theorem Order2ZonalEffect_formula [LinearOrderedField K] (body : OblateBody K) (r : Vector K)
    (n : K) (_hn : n * n = InnerProduct r r) (_hr : r ≠ 0) :
    Order2ZonalEffect body r (1 / n ^ 2) (1 / n ^ 3) =
      (-(body.j2_over_μ / n ^ 5)) •
        ((3 * InnerProduct r body.axis) • body.axis +
          ((3 - 15 * InnerProduct r body.axis ^ 2 / n ^ 2) / 2) • r) := by
  obtain ⟨x, y, z⟩ := r
  obtain ⟨J, a, b, c⟩ := body
  simp only [Order2ZonalEffect, InnerProduct]
  ext
  · simp
    norm_num
    ring
  · simp
    norm_num
    ring
  · simp
    norm_num
    ring

end physics

end Principia

namespace Principia

namespace Example

/-! ## The claims about the ephemeris on the small instance -/

/-- C12 on the instance: a flow towards time 5000 from time 0, with at most 1000
steps of the ephemeris, prolongs the ephemeris to time 1000 only and returns
false, although the integrator ends with `Done`. -/
theorem FlowWithAdaptiveStep_target_and_value_witness :
    FlowWithAdaptiveStep collaborators 10 ephemeris memory 0 none 5000 (parameters 10000) 1000
      = .returns (ephemeris_at_1000, memory_at_1000, false) ∧
    ∃ d trajectory_last, memory.deref 0 = some d ∧ d.last = some trajectory_last ∧
      Prolong collaborators 10 ephemeris
        (min 5000 (max (ephemeris.last_state_time + 1000 * ephemeris.step_)
          (trajectory_last.time + ephemeris.step_))) = .returns ephemeris_at_1000 :=
  ⟨by decide,
   let ⟨d, l, h1, h2, h3, _⟩ := FlowWithAdaptiveStep_target_and_value collaborators 10 ephemeris
     ephemeris_at_1000 memory memory_at_1000 0 none 5000 (parameters 10000) 1000 false
     (by decide)
   ⟨d, l, h1, h2, h3⟩⟩

/-- Claim C13 fails on the instance: `Prolong(5)` on an ephemeris integrated and
covered up to time 10 returns without any call of `Solve`. -/
theorem Prolong_without_Solve :
    (5 : Instant) ≤ ephemeris_at_10.last_state_time ∧
    ProlongSolveCalls collaborators 10 ephemeris_at_10 5 = [] ∧
    Prolong collaborators 10 ephemeris_at_10 5 = .returns ephemeris_at_10 := by
  decide

/-- C13 as the code has it, on the instance: `Prolong(7)` on an ephemeris
integrated up to time 10 but covered up to time 4 only calls `Solve` with
`t_final = 11`. -/
theorem Prolong_steps_iff_behind_witness :
    (7 : Instant) ≤ ephemeris_behind.last_state_time ∧ ephemeris_behind.t_max < 7 ∧
    (ProlongSolveCalls collaborators 10 ephemeris_behind 7).head? =
      some (ephemeris_behind.last_state_time + ephemeris_behind.step_) :=
  ⟨by decide, by decide,
   (Prolong_steps_iff_behind collaborators 10 ephemeris_behind 7 (by decide)).2 (by decide)
     (by decide)⟩

end Example

namespace physics

namespace Example

/-! ## The claims about the bodies on the small system -/

theorem new_system :
    Ephemeris.new [sun, earth, moon] [at_rest 0, at_rest 1, at_rest 3] 0 1 ⟨0, 10⟩
      = .returns system := by
  decide

theorem new_spherical_system :
    Ephemeris.new [sun, moon, mars] [at_rest 0, at_rest 1, at_rest 3] 0 1 ⟨0, 10⟩
      = .returns spherical_system := by
  decide

theorem system_consistent : system.KernelConsistent :=
  new_consistent (by decide) (by decide) (by decide) new_system

theorem spherical_system_consistent : spherical_system.KernelConsistent :=
  new_consistent (by decide) (by decide) (by decide) new_spherical_system

/-- C14 on the system: `ForgetAfter(150)` with checkpoints at the times 100 and
200 rewinds to the checkpoint at time 200 and leaves the checkpoint at time
100. -/
theorem ForgetAfter_effect_witness :
    system_with_checkpoints.intermediate_states_.Pairwise (fun a b => a.time < b.time) ∧
    system_with_checkpoints.trajectories_.Nodup ∧
    system_with_checkpoints.ForgetAfter 150 = .returns system_rewound ∧
    system_rewound.last_state_ = state_at 200 200 201 202 ∧
    system_rewound.intermediate_states_ =
      system_with_checkpoints.intermediate_states_.filter (fun c => decide (c.time < 150)) :=
  have h : system_with_checkpoints.ForgetAfter 150 = .returns system_rewound := by decide
  have r := ((ForgetAfter_effect system_with_checkpoints 150 (by decide) (by decide)).2
    (state_at 200 200 201 202) (by decide) (by decide) (by decide)).1 system_rewound h
  ⟨by decide, by decide, h, r.1, r.2.1⟩

/-- C15 on the system without oblate body: the kernel returns Newton's law at
every index. -/
theorem kernel_visits_each_pair_once_witness :
    spherical_system.KernelConsistent ∧
    ∃ acc, spherical_system.ComputeMassiveBodiesGravitationalAccelerations exact_sqrt 0
        spherical_system.last_state_.positions [0, 0, 0] = .returns acc ∧
      acc.length = spherical_system.bodies_.length ∧
      ∀ i, i < spherical_system.bodies_.length →
        acc[i]? = some (∑ j ∈ (Finset.range spherical_system.bodies_.length).erase i,
          Ephemeris.NewtonianAcceleration exact_sqrt spherical_system
            spherical_system.last_state_.positions j i) :=
  ⟨spherical_system_consistent,
   (kernel_visits_each_pair_once exact_sqrt spherical_system spherical_system_consistent 0
      spherical_system.last_state_.positions [0, 0, 0] rfl rfl).2.2.2 rfl
      (by
        intro a b ha hb
        have ha : a < 3 := ha
        have hb : b < 3 := hb
        interval_cases a <;> interval_cases b <;> decide)
      (by
        intro a b ha hb
        have ha : a < 3 := ha
        have hb : b < 3 := hb
        interval_cases a <;> interval_cases b <;>
          simp [Norm, InnerProduct, exact_sqrt, spherical_system] <;> norm_num)⟩

/-- C16 on the system with the oblate earth: the accelerations that the kernel
returns have a weighted sum of zero. -/
theorem kernel_third_law_witness :
    system.KernelConsistent ∧
    ∃ acc, system.ComputeMassiveBodiesGravitationalAccelerations exact_sqrt 0
        system.last_state_.positions [0, 0, 0] = .returns acc ∧
      acc.length = system.bodies_.length ∧ system.WeightedSum acc = 0 :=
  ⟨system_consistent,
   (kernel_third_law exact_sqrt system system_consistent 0 system.last_state_.positions
      [0, 0, 0] rfl rfl
      (by
        intro a b ha hb
        have ha : a < 3 := ha
        have hb : b < 3 := hb
        interval_cases a <;> interval_cases b <;> decide)).1⟩

/-- C17 on the vector `(3, 4, 0)`, of norm 5, for an axis along z. -/
theorem Order2ZonalEffect_formula_witness :
    (5 : ℚ) * 5 = InnerProduct displacement displacement ∧ displacement ≠ 0 ∧
    Order2ZonalEffect oblate_earth displacement (1 / 5 ^ 2) (1 / 5 ^ 3) =
      (-(oblate_earth.j2_over_μ / 5 ^ 5)) •
        ((3 * InnerProduct displacement oblate_earth.axis) • oblate_earth.axis +
          ((3 - 15 * InnerProduct displacement oblate_earth.axis ^ 2 / 5 ^ 2) / 2) •
            displacement) :=
  ⟨by norm_num [InnerProduct, displacement], by decide,
   Order2ZonalEffect_formula oblate_earth displacement 5
     (by norm_num [InnerProduct, displacement]) (by decide)⟩

/-- C18 on the system: the constructor returns on the sun, the earth and the
moon, and `bodies_` holds these three bodies. -/
theorem oblate_first_storage_witness :
    [sun, earth, moon] ≠ [] ∧
    [sun, earth, moon].length = [at_rest 0, at_rest 1, at_rest 3].length ∧
    ([sun, earth, moon].map (fun b => b.address)).Nodup ∧
    ∃ e, Ephemeris.new [sun, earth, moon] [at_rest 0, at_rest 1, at_rest 3] 0 1 ⟨0, 10⟩
        = .returns e ∧
      e.bodies_.Perm [sun, earth, moon] ∧
      e.number_of_oblate_bodies_ + e.number_of_spherical_bodies_ = e.bodies_.length :=
  ⟨by decide, by decide, by decide,
   let ⟨e, h1, h2, h3, _⟩ := oblate_first_storage [sun, earth, moon]
     [at_rest 0, at_rest 1, at_rest 3] 0 1 ⟨0, 10⟩ (by decide) (by decide) (by decide)
   ⟨e, h1, h2, h3⟩⟩

/-- Claim C19 fails on two records, the spherical sun before the oblate earth:
`ReadFromPreBourbakiMessages` returns an ephemeris in which the trajectory of the
sun has received the point at time 10 of the history of the earth and that of
the earth the point of the history of the sun, and in which the slots of
`last_state_` at the indices of the earth and of the sun in `bodies_` hold the
last positions of the sun and of the earth. -/
theorem ReadFromPreBourbakiMessages_crosses_histories :
    Ephemeris.ReadFromPreBourbakiMessages collaborators 5 celestials 1 ⟨0, 10⟩
      = .returns celestials_read ∧
    celestials_read.trajectory sun = .returns
      { step_ := 10, tolerance_ := 1, calls := [.Append 0 (at_rest 1), .Append 10 (at_rest 6)] } ∧
    celestials_read.trajectory earth = .returns
      { step_ := 10, tolerance_ := 1, calls := [.Append 0 (at_rest 5), .Append 10 (at_rest 2)] } ∧
    celestials_read.bodies_ = [earth, sun] ∧
    celestials_read.last_state_.positions = [(2, 0, 0), (6, 0, 0)] := by
  decide

end Example

end physics

end Principia

namespace Principia

/-! ## Reading the memory after it has been written -/

theorem Forest.deref_store_ne {F : Forest} {k p : Nat} (d : DiscreteTrajectory) (h : k ≠ p) :
    Forest.deref (Forest.store F p d) k = F.deref k := by
  induction F with
  | nil => rfl
  | cons e rest ih =>
    unfold Forest.store Forest.deref at ih ⊢
    simp only [List.map_cons, List.find?_cons]
    by_cases he : e.1 = p
    · have h1 : ¬ e.1 = k := fun hk => h (hk.symm.trans he)
      simp only [if_pos he, decide_eq_false h.symm, decide_eq_false h1]
      exact ih
    · simp only [if_neg he]
      by_cases hk : e.1 = k
      · simp only [decide_eq_true hk]
      · simp only [decide_eq_false hk]
        exact ih

theorem Forest.deref_store_of_some {F : Forest} {p : Nat} {d0 : DiscreteTrajectory}
    (d : DiscreteTrajectory) (h : F.deref p = some d0) :
    Forest.deref (Forest.store F p d) p = some d := by
  induction F with
  | nil => simp [Forest.deref] at h
  | cons e rest ih =>
    unfold Forest.store Forest.deref at ih ⊢
    unfold Forest.deref at h
    simp only [List.map_cons, List.find?_cons] at h ⊢
    by_cases he : e.1 = p
    · simp only [if_pos he, decide_True, Option.map_some']
    · simp only [if_neg he, decide_eq_false he] at h ⊢
      exact ih h

theorem Forest.deref_filter {F : Forest} {k : Nat} (P : Nat × DiscreteTrajectory → Bool)
    (h : ∀ d, F.deref k = some d → P (k, d) = true) :
    Forest.deref (F.filter P) k = F.deref k := by
  induction F with
  | nil => rfl
  | cons e rest ih =>
    by_cases hk : e.1 = k
    · have hd : Forest.deref (e :: rest) k = some e.2 := by
        simp [Forest.deref, List.find?_cons, hk]
      have hP : P e = true := by
        have := h e.2 hd
        rw [← hk] at this
        exact this
      rw [List.filter_cons_of_pos hP, hd]
      simp [Forest.deref, List.find?_cons, hk]
    · have hd : Forest.deref (e :: rest) k = Forest.deref rest k := by
        simp [Forest.deref, List.find?_cons, hk]
      rw [hd]
      rw [hd] at h
      by_cases hP : P e = true
      · rw [List.filter_cons_of_pos hP]
        have : Forest.deref (e :: List.filter P rest) k = Forest.deref (List.filter P rest) k := by
          simp [Forest.deref, List.find?_cons, hk]
        rw [this]
        exact ih h
      · rw [List.filter_cons_of_neg hP]
        exact ih h

/-! ## Timelines in increasing time -/

theorem Increasing.le_last {t : List Sample} (h : Increasing t) {l : Sample}
    (hl : t.getLast? = some l) : ∀ a ∈ t, a.time ≤ l.time := by
  intro a ha
  have ht := FlightPlan.eq_dropLast_append_of_getLast? hl
  rw [ht] at ha h
  unfold Increasing at h
  rw [List.pairwise_append] at h
  rcases List.mem_append.mp ha with h1 | h1
  · exact le_of_lt (h.2.2 a h1 l (by simp))
  · simp only [List.mem_singleton] at h1
    rw [h1]

theorem Increasing.append {t : List Sample} (h : Increasing t) {s : Sample}
    (hs : ∀ l, t.getLast? = some l → l.time < s.time) : Increasing (t ++ [s]) := by
  unfold Increasing
  rw [List.pairwise_append]
  refine ⟨h, List.pairwise_singleton _ _, ?_⟩
  intro a ha b hb
  simp only [List.mem_singleton] at hb
  subst hb
  cases hl : t.getLast? with
  | none =>
    rw [List.getLast?_eq_none_iff] at hl
    subst hl
    cases ha
  | some l => exact lt_of_le_of_lt (h.le_last hl a ha) (hs l hl)

theorem Increasing.filter {t : List Sample} (h : Increasing t) (P : Sample → Bool) :
    Increasing (t.filter P) :=
  List.Pairwise.filter P h

theorem Increasing.eq_of_time {t : List Sample} (h : Increasing t) {a b : Sample}
    (ha : a ∈ t) (hb : b ∈ t) (hab : a.time = b.time) : a = b := by
  induction t with
  | nil => cases ha
  | cons x rest ih =>
    unfold Increasing at h
    rw [List.pairwise_cons] at h
    rcases List.mem_cons.mp ha with h1 | h1 <;> rcases List.mem_cons.mp hb with h2 | h2
    · rw [h1, h2]
    · subst h1
      exact absurd hab (ne_of_lt (h.1 b h2))
    · subst h2
      exact absurd hab.symm (ne_of_lt (h.1 a h1))
    · exact ih h.2 h1 h2

theorem Increasing.nil : Increasing [] := List.Pairwise.nil

end Principia

namespace Principia

/-! ## What the operations on trajectories leave untouched -/

theorem Forest.Untouched.of_ne {F G : Forest} {p : Nat}
    (h : ∀ k, k ≠ p → G.deref k = F.deref k) : F.Untouched G p :=
  fun k hk _ => h k hk

theorem Forest.Append_deref {F F1 : Forest} {p : Nat} {s : Sample}
    (h : F.Append p s = .returns F1) :
    (∀ k, k ≠ p → F1.deref k = F.deref k) ∧
    ∃ d, F.deref p = some d ∧
      F1.deref p = some { d with timeline := d.timeline ++ [s] } ∧
      ∀ l, d.last = some l → l.time < s.time := by
  unfold Forest.Append at h
  split at h
  · cases h
  · rename_i d hd
    split at h
    · rename_i hl
      cases h
      refine ⟨fun k hk => Forest.deref_store_ne _ hk, d, hd, Forest.deref_store_of_some _ hd, ?_⟩
      intro l hl2
      rw [hl] at hl2
      cases hl2
    · rename_i l hl
      split at h
      · rename_i hlt
        cases h
        refine ⟨fun k hk => Forest.deref_store_ne _ hk, d, hd,
          Forest.deref_store_of_some _ hd, ?_⟩
        intro l2 hl2
        rw [hl] at hl2
        cases hl2
        exact hlt
      · cases h

theorem DiscreteTrajectory.last_of_getLast? {d : DiscreteTrajectory} {l : Sample}
    (h : d.timeline.getLast? = some l) : d.last = some l := by
  unfold DiscreteTrajectory.last
  rw [h]

theorem Forest.AppendAll_deref {p : Nat} (l : List Sample) {F F1 : Forest}
    (h : F.AppendAll p l = .returns F1) :
    (∀ k, k ≠ p → F1.deref k = F.deref k) ∧
    ∀ d, F.deref p = some d → ∃ d1, F1.deref p = some d1 ∧ d1.ancestry = d.ancestry ∧
      (Increasing d.timeline → Increasing d1.timeline) := by
  induction l generalizing F with
  | nil =>
    simp only [Forest.AppendAll, Outcome.returns.injEq] at h
    subst h
    exact ⟨fun _ _ => rfl, fun d hd => ⟨d, hd, rfl, id⟩⟩
  | cons s rest ih =>
    simp only [Forest.AppendAll] at h
    split at h
    · rename_i F2 hF2
      obtain ⟨hne, d0, hd0, hd1, hlast⟩ := Forest.Append_deref hF2
      obtain ⟨hne2, hself⟩ := ih h
      refine ⟨fun k hk => (hne2 k hk).trans (hne k hk), ?_⟩
      intro d hd
      rw [hd0] at hd
      cases hd
      obtain ⟨d1, h1, h2, h3⟩ := hself _ hd1
      refine ⟨d1, h1, h2, fun hinc => h3 ?_⟩
      exact Increasing.append hinc
        (fun l hl => hlast l (DiscreteTrajectory.last_of_getLast? hl))
    · cases h
    · cases h

theorem Forest.ForgetAfter_untouched {F F1 : Forest} {p : Nat} {t : Instant}
    (h : F.ForgetAfter p t = .returns F1) : F.Untouched F1 p := by
  unfold Forest.ForgetAfter at h
  split at h
  · cases h
  · rename_i d hd
    cases h
    intro k hk hanc
    rw [Forest.deref_store_ne _ hk]
    apply Forest.deref_filter
    intro d1 hd1
    simp only [Bool.not_eq_true', List.any_eq_false, decide_eq_true_eq, not_and]
    intro a ha h1
    exact absurd h1 (hanc d1 hd1 a ha)

theorem Forest.ForgetAfter_self {F F1 : Forest} {p : Nat} {t : Instant}
    (h : F.ForgetAfter p t = .returns F1) {d : DiscreteTrajectory} (hd : F.deref p = some d)
    (hanc : ∀ a ∈ d.ancestry, a.1 ≠ p) :
    F1.deref p = some { d with timeline := d.timeline.filter (fun s => s.time ≤ t) } := by
  unfold Forest.ForgetAfter at h
  rw [hd] at h
  simp only [Outcome.returns.injEq] at h
  subst h
  apply @Forest.deref_store_of_some _ _ d
  rw [Forest.deref_filter, hd]
  intro d1 hd1
  rw [hd] at hd1
  cases hd1
  simp only [Bool.not_eq_true', List.any_eq_false, decide_eq_true_eq, not_and]
  intro a ha h1
  exact absurd h1 (hanc a ha)

theorem Forest.DeleteFork_untouched {F F1 : Forest} {c : Nat}
    (h : F.DeleteFork c = .returns F1) : F.Untouched F1 c := by
  unfold Forest.DeleteFork at h
  split at h
  · cases h
  · split at h
    · cases h
    · cases h
      intro k hk hanc
      apply Forest.deref_filter
      intro d1 hd1
      simp only [Bool.not_eq_true', Bool.or_eq_false_iff, decide_eq_false_iff_not]
      refine ⟨hk, ?_⟩
      rw [← Bool.not_eq_true, List.contains_iff_exists_mem_beq]
      rintro ⟨b, hb, h1⟩
      obtain ⟨a, ha, h2⟩ := List.mem_map.mp hb
      have h3 : c = b := by simpa using h1
      exact hanc d1 hd1 a ha (h2.trans h3.symm)

theorem Forest.append_untouched (F : Forest) (k : Nat) (n : DiscreteTrajectory) :
    F.Untouched (F ++ [(k, n)]) k :=
  Forest.Untouched.of_ne (fun _ hj => Forest.deref_append_old n hj)

theorem Forest.unified_congr {F G : Forest} {d : DiscreteTrajectory}
    (h : ∀ a ∈ d.ancestry, G.deref a.1 = F.deref a.1) : G.unified d = F.unified d := by
  unfold Forest.unified
  congr 1
  have h2 : ∀ a ∈ d.ancestry.reverse, G.deref a.1 = F.deref a.1 :=
    fun a ha => h a (List.mem_reverse.mp ha)
  generalize d.ancestry.reverse = l at h2
  induction l with
  | nil => rfl
  | cons x rest ih =>
    simp only [List.flatMap_cons]
    rw [h2 x (List.mem_cons_self _ _), ih (fun a ha => h2 a (List.mem_cons_of_mem _ ha))]

end Principia

namespace Principia

/-! ## Chains of forks -/

theorem Forest.Chained.tail {F : Forest} {m root : Nat} {r : DiscreteTrajectory} {t0 : Instant}
    {b a : Nat} {rest : List Nat} (h : F.Chained m root r t0 (b :: a :: rest)) :
    F.Chained m root r t0 (a :: rest) := by
  simp only [Forest.Chained] at h
  exact h.2.2

theorem Forest.Chained.bounds {F : Forest} {m root : Nat} {r : DiscreteTrajectory}
    {t0 : Instant} {xs : List Nat} {x : Nat} (h : F.Chained m root r t0 (x :: xs)) :
    m ≤ x ∧ ∀ k ∈ xs, m ≤ k ∧ k < x := by
  induction xs generalizing x with
  | nil =>
    simp only [Forest.Chained] at h
    exact ⟨h.1, fun k hk => by cases hk⟩
  | cons a rest ih =>
    have h1 := ih h.tail
    simp only [Forest.Chained] at h
    refine ⟨le_trans h1.1 (le_of_lt h.1), ?_⟩
    intro k hk
    rcases List.mem_cons.mp hk with hk | hk
    · rw [hk]
      exact ⟨h1.1, h.1⟩
    · exact ⟨(h1.2 k hk).1, lt_trans (h1.2 k hk).2 h.1⟩

theorem Forest.Chained.head {F : Forest} {m root : Nat} {r : DiscreteTrajectory}
    {t0 : Instant} {xs : List Nat} {x : Nat} (h : F.Chained m root r t0 (x :: xs)) :
    ∃ d, F.deref x = some d ∧ Increasing d.timeline ∧ d.is_root = false := by
  cases xs with
  | nil =>
    simp only [Forest.Chained] at h
    obtain ⟨_, d, s, hd, hanc, _, _, hinc⟩ := h
    exact ⟨d, hd, hinc, by simp [DiscreteTrajectory.is_root, hanc]⟩
  | cons a rest =>
    simp only [Forest.Chained] at h
    obtain ⟨_, ⟨da, db, s, _, hd, hanc, _, hinc⟩, _⟩ := h
    exact ⟨db, hd, hinc, by simp [DiscreteTrajectory.is_root, hanc]⟩

theorem Forest.Chained.ancestry {F : Forest} {m root : Nat} {r : DiscreteTrajectory}
    {t0 : Instant} (hroot : root < m) (hclosed : F.Closed m) (hr : F.deref root = some r)
    {xs : List Nat} {x : Nat} (h : F.Chained m root r t0 (x :: xs))
    {d : DiscreteTrajectory} (hd : F.deref x = some d) :
    ∀ a ∈ d.ancestry, a.1 ∈ xs ∨ a.1 < m := by
  induction xs generalizing x d with
  | nil =>
    simp only [Forest.Chained] at h
    obtain ⟨_, d1, s, hd1, hanc, _, _, _⟩ := h
    rw [hd] at hd1
    cases hd1
    intro a ha
    rw [hanc] at ha
    rcases List.mem_cons.mp ha with ha | ha
    · rw [ha]
      exact Or.inr hroot
    · exact Or.inr (hclosed root r hroot hr a ha)
  | cons y rest ih =>
    have h1 := h.tail
    simp only [Forest.Chained] at h
    obtain ⟨_, ⟨da, db, s, hda, hdb, hanc, _, _⟩, _⟩ := h
    rw [hd] at hdb
    cases hdb
    intro a ha
    rw [hanc] at ha
    rcases List.mem_cons.mp ha with ha | ha
    · rw [ha]
      exact Or.inl (List.mem_cons_self _ _)
    · rcases ih h1 hda a ha with h2 | h2
      · exact Or.inl (List.mem_cons_of_mem _ h2)
      · exact Or.inr h2

theorem Forest.Chained.ancestry_mem {F : Forest} {m root : Nat} {r : DiscreteTrajectory}
    {t0 : Instant} (hroot : root < m) (hclosed : F.Closed m) (hr : F.deref root = some r)
    {chain : List Nat} (h : F.Chained m root r t0 chain) :
    ∀ k ∈ chain, ∀ d, F.deref k = some d → ∀ a ∈ d.ancestry, (a.1 ∈ chain ∧ a.1 < k) ∨ a.1 < m := by
  induction chain with
  | nil => intro k hk; cases hk
  | cons x xs ih =>
    intro k hk d hd a ha
    rcases List.mem_cons.mp hk with hk | hk
    · subst hk
      rcases Forest.Chained.ancestry hroot hclosed hr h hd a ha with h1 | h1
      · exact Or.inl ⟨List.mem_cons_of_mem _ h1, (h.bounds.2 _ h1).2⟩
      · exact Or.inr h1
    · cases xs with
      | nil => cases hk
      | cons y rest =>
        rcases ih h.tail k hk d hd a ha with h1 | h1
        · exact Or.inl ⟨List.mem_cons_of_mem _ h1.1, h1.2⟩
        · exact Or.inr h1

theorem Forest.Chained.congr {F G : Forest} {m root : Nat} {r : DiscreteTrajectory}
    {t0 : Instant} {chain : List Nat} (h : F.Chained m root r t0 chain)
    (hG : ∀ k ∈ chain, G.deref k = F.deref k) : G.Chained m root r t0 chain := by
  induction chain with
  | nil => exact h
  | cons x xs ih =>
    cases xs with
    | nil =>
      simp only [Forest.Chained] at h ⊢
      rw [hG x (List.mem_cons_self _ _)]
      exact h
    | cons y rest =>
      have h1 := ih h.tail (fun k hk => hG k (List.mem_cons_of_mem _ hk))
      simp only [Forest.Chained] at h ⊢
      rw [hG x (List.mem_cons_self _ _),
        hG y (List.mem_cons_of_mem _ (List.mem_cons_self _ _))]
      exact ⟨h.1, h.2.1, h1⟩

theorem Forest.Chained.head_update {F G : Forest} {m root : Nat} {r : DiscreteTrajectory}
    {t0 : Instant} {x : Nat} {xs : List Nat} (h : F.Chained m root r t0 (x :: xs))
    {d d1 : DiscreteTrajectory} (hd : F.deref x = some d) (hd1 : G.deref x = some d1)
    (hanc : d1.ancestry = d.ancestry) (hinc : Increasing d1.timeline)
    (hG : ∀ k ∈ xs, G.deref k = F.deref k) : G.Chained m root r t0 (x :: xs) := by
  cases xs with
  | nil =>
    simp only [Forest.Chained] at h ⊢
    obtain ⟨hm, d2, s, hd2, h2, h3, h4, _⟩ := h
    rw [hd] at hd2
    cases hd2
    exact ⟨hm, d1, s, hd1, hanc.trans h2, h3, h4, hinc⟩
  | cons y rest =>
    have h1 := h.tail.congr hG
    simp only [Forest.Chained] at h ⊢
    obtain ⟨hlt, ⟨da, db, s, hda, hdb, h2, h3, _⟩, _⟩ := h
    rw [hd] at hdb
    cases hdb
    refine ⟨hlt, ⟨da, d1, s, ?_, hd1, hanc.trans h2, h3, hinc⟩, h1⟩
    rw [hG y (List.mem_cons_self _ _)]
    exact hda

/-! ## The invariant of the memory under the operations on trajectories -/

theorem Forest.Invariant.below {F G : Forest} {m root : Nat} {r : DiscreteTrajectory}
    {t0 : Instant} {chain : List Nat} (h : F.Invariant m root r t0 chain)
    (hG : ∀ k, k < m → G.deref k = F.deref k) (hc : G.Chained m root r t0 chain) :
    G.Invariant m root r t0 chain where
  root_lt := h.root_lt
  root_deref := (hG root h.root_lt).trans h.root_deref
  closed := fun k d hk hd => h.closed k d hk ((hG k hk).symm.trans hd)
  sample := by
    rw [Forest.unified_congr
      (fun a ha => hG a.1 (h.closed root r h.root_lt h.root_deref a ha))]
    exact h.sample
  chained := hc

theorem Forest.Invariant.untouched_below {F G : Forest} {m root : Nat}
    {r : DiscreteTrajectory} {t0 : Instant} {chain : List Nat}
    (h : F.Invariant m root r t0 chain) {p : Nat} (hp : m ≤ p) (hu : F.Untouched G p) :
    ∀ k, k < m → G.deref k = F.deref k := by
  intro k hk
  apply hu k (Nat.ne_of_lt (lt_of_lt_of_le hk hp))
  intro d hd a ha
  exact Nat.ne_of_lt (lt_of_lt_of_le (h.closed k d hk hd a ha) hp)

theorem Forest.Invariant.untouched_chain {F G : Forest} {m root : Nat}
    {r : DiscreteTrajectory} {t0 : Instant} {chain : List Nat}
    (h : F.Invariant m root r t0 chain) {p : Nat} (hp : m ≤ p) (hnot : p ∉ chain)
    (hu : F.Untouched G p) : ∀ k ∈ chain, G.deref k = F.deref k := by
  intro k hk
  apply hu k (fun hkp => hnot (hkp ▸ hk))
  intro d hd a ha
  rcases Forest.Chained.ancestry_mem h.root_lt h.closed h.root_deref h.chained k hk d hd a ha
    with h1 | h1
  · exact fun hap => hnot (hap ▸ h1.1)
  · exact Nat.ne_of_lt (lt_of_lt_of_le h1 hp)

/-- An operation on a trajectory that is not a segment, nor older than the
segments, keeps the invariant. -/
theorem Forest.Invariant.other {F G : Forest} {m root : Nat} {r : DiscreteTrajectory}
    {t0 : Instant} {chain : List Nat} (h : F.Invariant m root r t0 chain) {p : Nat}
    (hp : m ≤ p) (hnot : p ∉ chain) (hu : F.Untouched G p) : G.Invariant m root r t0 chain :=
  h.below (h.untouched_below hp hu) (h.chained.congr (h.untouched_chain hp hnot hu))

theorem Forest.Invariant.rest {F : Forest} {m root : Nat} {r : DiscreteTrajectory}
    {t0 : Instant} {b a : Nat} {rest : List Nat} (h : F.Invariant m root r t0 (b :: a :: rest)) :
    F.Invariant m root r t0 (a :: rest) :=
  ⟨h.root_lt, h.root_deref, h.closed, h.sample, h.chained.tail⟩

theorem Forest.Invariant.not_mem_tail {F : Forest} {m root : Nat} {r : DiscreteTrajectory}
    {t0 : Instant} {x : Nat} {xs : List Nat} (h : F.Invariant m root r t0 (x :: xs)) :
    x ∉ xs :=
  fun hx => Nat.lt_irrefl x (h.chained.bounds.2 x hx).2

/-- An operation on the last segment that keeps its ancestry, and its samples
in increasing time, keeps the invariant. -/
theorem Forest.Invariant.update_head {F G : Forest} {m root : Nat} {r : DiscreteTrajectory}
    {t0 : Instant} {x : Nat} {xs : List Nat} (h : F.Invariant m root r t0 (x :: xs))
    (hu : F.Untouched G x) {d d1 : DiscreteTrajectory} (hd : F.deref x = some d)
    (hd1 : G.deref x = some d1) (hanc : d1.ancestry = d.ancestry)
    (hinc : Increasing d1.timeline) : G.Invariant m root r t0 (x :: xs) := by
  refine h.below (h.untouched_below h.chained.bounds.1 hu) ?_
  refine h.chained.head_update hd hd1 hanc hinc ?_
  cases xs with
  | nil => intro k hk; cases hk
  | cons y rest =>
    exact h.rest.untouched_chain h.chained.bounds.1 h.not_mem_tail hu

theorem Forest.Invariant.below_fresh {F : Forest} {m root : Nat} {r : DiscreteTrajectory}
    {t0 : Instant} {chain : List Nat} (h : F.Invariant m root r t0 chain) :
    m ≤ F.fresh ∧ ∀ k ∈ chain, k < F.fresh := by
  have h2 : ∀ k ∈ chain, k < F.fresh := by
    intro k hk
    have hc := h.chained
    clear h
    induction chain with
    | nil => cases hk
    | cons x xs ih =>
      rcases List.mem_cons.mp hk with hk | hk
      · subst hk
        obtain ⟨d, hd, _⟩ := hc.head
        exact (F.lt_fresh (Forest.mem_of_deref hd)).1
      · cases xs with
        | nil => cases hk
        | cons y rest => exact ih hk hc.tail
  refine ⟨?_, h2⟩
  cases chain with
  | nil => exact absurd h.chained (by simp [Forest.Chained])
  | cons x xs =>
    exact le_trans h.chained.bounds.1 (le_of_lt (h2 x (List.mem_cons_self _ _)))

end Principia

namespace Principia

/-! ## The invariant of the memory under flows, forks and deletions -/

theorem Forest.Invariant.head_ancestry_ne {F : Forest} {m root : Nat} {r : DiscreteTrajectory}
    {t0 : Instant} {x : Nat} {xs : List Nat} (h : F.Invariant m root r t0 (x :: xs))
    {d : DiscreteTrajectory} (hd : F.deref x = some d) : ∀ a ∈ d.ancestry, a.1 ≠ x := by
  intro a ha
  rcases Forest.Chained.ancestry h.root_lt h.closed h.root_deref h.chained hd a ha with h1 | h1
  · exact Nat.ne_of_lt (h.chained.bounds.2 _ h1).2
  · exact Nat.ne_of_lt (lt_of_lt_of_le h1 h.chained.bounds.1)

theorem Forest.Invariant.AppendAll_head {F G : Forest} {m root : Nat} {r : DiscreteTrajectory}
    {t0 : Instant} {x : Nat} {xs : List Nat} (h : F.Invariant m root r t0 (x :: xs))
    {l : List Sample} (hG : F.AppendAll x l = .returns G) :
    G.Invariant m root r t0 (x :: xs) := by
  obtain ⟨hne, hself⟩ := Forest.AppendAll_deref l hG
  obtain ⟨d, hd, hinc, _⟩ := h.chained.head
  obtain ⟨d1, hd1, hanc, hinc1⟩ := hself d hd
  exact h.update_head (Forest.Untouched.of_ne hne) hd hd1 hanc (hinc1 hinc)

theorem Forest.Invariant.AppendAll_other {F G : Forest} {m root : Nat}
    {r : DiscreteTrajectory} {t0 : Instant} {chain : List Nat}
    (h : F.Invariant m root r t0 chain) {p : Nat} (hp : m ≤ p) (hnot : p ∉ chain)
    {l : List Sample} (hG : F.AppendAll p l = .returns G) : G.Invariant m root r t0 chain :=
  h.other hp hnot (Forest.Untouched.of_ne (Forest.AppendAll_deref l hG).1)

theorem Forest.Invariant.Flow_head {I : Collaborators} {fuel : Nat} {e e1 : Ephemeris}
    {F G : Forest} {m root : Nat} {r : DiscreteTrajectory} {t0 : Instant} {x : Nat}
    {xs : List Nat} (h : F.Invariant m root r t0 (x :: xs))
    {a : Option NavigationManoeuvre} {t : Instant} {parameters : AdaptiveStepParameters}
    {max_ephemeris_steps : Int} {reached : Bool}
    (hG : FlowWithAdaptiveStep I fuel e F x a t parameters max_ephemeris_steps
      = .returns (e1, G, reached)) : G.Invariant m root r t0 (x :: xs) := by
  obtain ⟨_, _, _, _, _, _, happ, _⟩ := FlowWithAdaptiveStep_returns hG
  exact h.AppendAll_head happ

theorem Forest.Invariant.Flow_other {I : Collaborators} {fuel : Nat} {e e1 : Ephemeris}
    {F G : Forest} {m root : Nat} {r : DiscreteTrajectory} {t0 : Instant}
    {chain : List Nat} (h : F.Invariant m root r t0 chain) {p : Nat} (hp : m ≤ p)
    (hnot : p ∉ chain)
    {a : Option NavigationManoeuvre} {t : Instant} {parameters : AdaptiveStepParameters}
    {max_ephemeris_steps : Int} {reached : Bool}
    (hG : FlowWithAdaptiveStep I fuel e F p a t parameters max_ephemeris_steps
      = .returns (e1, G, reached)) : G.Invariant m root r t0 chain := by
  obtain ⟨_, _, _, _, _, _, happ, _⟩ := FlowWithAdaptiveStep_returns hG
  exact h.AppendAll_other hp hnot happ

theorem Forest.Invariant.ForgetAfter_head {F G : Forest} {m root : Nat}
    {r : DiscreteTrajectory} {t0 : Instant} {x : Nat} {xs : List Nat}
    (h : F.Invariant m root r t0 (x :: xs)) {t : Instant}
    (hG : F.ForgetAfter x t = .returns G) : G.Invariant m root r t0 (x :: xs) := by
  obtain ⟨d, hd, hinc, _⟩ := h.chained.head
  exact h.update_head (Forest.ForgetAfter_untouched hG) hd
    (Forest.ForgetAfter_self hG hd (h.head_ancestry_ne hd)) rfl (hinc.filter _)

theorem Forest.Invariant.DeleteFork_other {F G : Forest} {m root : Nat}
    {r : DiscreteTrajectory} {t0 : Instant} {chain : List Nat}
    (h : F.Invariant m root r t0 chain) {p : Nat} (hp : m ≤ p) (hnot : p ∉ chain)
    (hG : F.DeleteFork p = .returns G) : G.Invariant m root r t0 chain :=
  h.other hp hnot (Forest.DeleteFork_untouched hG)

theorem Forest.Invariant.DeleteFork_head {F G : Forest} {m root : Nat}
    {r : DiscreteTrajectory} {t0 : Instant} {b a : Nat} {rest : List Nat}
    (h : F.Invariant m root r t0 (b :: a :: rest))
    (hG : F.DeleteFork b = .returns G) : G.Invariant m root r t0 (a :: rest) :=
  h.rest.DeleteFork_other h.chained.bounds.1 h.not_mem_tail hG

theorem Forest.Invariant.append_fresh {F : Forest} {m root : Nat} {r : DiscreteTrajectory}
    {t0 : Instant} {chain : List Nat} (h : F.Invariant m root r t0 chain)
    (n : DiscreteTrajectory) : Forest.Invariant (F ++ [(F.fresh, n)]) m root r t0 chain :=
  h.other h.below_fresh.1 (fun hk => Nat.lt_irrefl _ (h.below_fresh.2 _ hk))
    (Forest.append_untouched F F.fresh n)

theorem Forest.Invariant.NewForkAtLast {F G : Forest} {m root : Nat} {r : DiscreteTrajectory}
    {t0 : Instant} {x : Nat} {xs : List Nat} (h : F.Invariant m root r t0 (x :: xs))
    {fork : Nat} (hG : F.NewForkAtLast x = .returns (G, fork)) :
    G.Invariant m root r t0 (fork :: x :: xs) := by
  obtain ⟨d, s, hd, hl, rfl, rfl⟩ := Forest.NewForkAtLast_returns hG
  have h1 := h.append_fresh { ancestry := (x, s) :: d.ancestry, timeline := [] }
  refine ⟨h1.root_lt, h1.root_deref, h1.closed, h1.sample, ?_⟩
  simp only [Forest.Chained]
  refine ⟨h.below_fresh.2 x (List.mem_cons_self _ _),
    ⟨d, { ancestry := (x, s) :: d.ancestry, timeline := [] }, s, ?_, ?_, rfl, hl,
      Increasing.nil⟩, h1.chained⟩
  · exact Forest.deref_append_of_some _ hd
  · exact Forest.deref_append_new _ F.key_ne_fresh

/-- Forking a trajectory at the time of its last point forks it at its last
point, when its samples come in increasing time. -/
theorem Forest.NewForkWithoutCopy_at_last {F G : Forest} {p k : Nat} {d : DiscreteTrajectory}
    {l : Sample} (hd : F.deref p = some d) (hinc : Increasing d.timeline)
    (hl : d.last = some l) (h : F.NewForkWithoutCopy p l.time = .returns (G, k)) :
    k = F.fresh ∧ G = F ++ [(F.fresh, { ancestry := (p, l) :: d.ancestry, timeline := [] })] := by
  unfold Forest.NewForkWithoutCopy at h
  rw [hd] at h
  simp only at h
  cases hf : d.timeline.find? (fun s => decide (s.time = l.time)) with
  | some s =>
    rw [hf] at h
    simp only [Outcome.returns.injEq, Prod.mk.injEq] at h
    have hs := List.mem_of_find?_eq_some hf
    have ht := List.find?_some hf
    simp only [decide_eq_true_eq] at ht
    have hne : d.timeline ≠ [] := List.ne_nil_of_mem hs
    unfold DiscreteTrajectory.last at hl
    cases hg : d.timeline.getLast? with
    | none => exact absurd (List.getLast?_eq_none_iff.mp hg) hne
    | some g =>
      rw [hg] at hl
      simp only [Option.some.injEq] at hl
      subst hl
      rw [← hinc.eq_of_time hs (List.mem_of_getLast?_eq_some hg) ht]
      exact ⟨h.2.symm, h.1.symm⟩
  | none =>
    rw [hf] at h
    unfold DiscreteTrajectory.last at hl
    cases hg : d.timeline.getLast? with
    | none =>
      rw [hg] at hl
      simp only at hl
      rw [hl] at h
      simp only [if_true, Outcome.returns.injEq, Prod.mk.injEq] at h
      exact ⟨h.2.symm, h.1.symm⟩
    | some g =>
      rw [hg] at hl
      simp only [Option.some.injEq] at hl
      subst hl
      have := List.find?_eq_none.mp hf g (List.mem_of_getLast?_eq_some hg)
      simp at this

/-- The fork that `CoastIfReachesManœuvreInitialTime` makes next to the
segment `c` could stand for `c` in the chain of segments. -/
theorem Forest.Invariant.trial {F G : Forest} {m root : Nat} {r : DiscreteTrajectory}
    {t0 : Instant} {c : Nat} {rest : List Nat} (h : F.Invariant m root r t0 (c :: rest))
    {dc : DiscreteTrajectory} {parent : Nat} {fork : Sample} (hc : F.deref c = some dc)
    (hparent : dc.parent = some parent) (hfork : dc.Fork = some fork) {trial : Nat}
    (hG : F.NewForkWithoutCopy parent fork.time = .returns (G, trial)) :
    trial = F.fresh ∧ (∃ n, G = F ++ [(F.fresh, n)]) ∧
    G.Invariant m root r t0 (trial :: rest) := by
  cases rest with
  | nil =>
    have hch := h.chained
    simp only [Forest.Chained] at hch
    obtain ⟨hm, d, s, hd, hanc, hs, _, _⟩ := hch
    rw [hc] at hd
    cases hd
    simp only [DiscreteTrajectory.parent, hanc, List.head?_cons, Option.map_some',
      Option.some.injEq] at hparent
    simp only [DiscreteTrajectory.Fork, hanc, List.head?_cons, Option.map_some',
      Option.some.injEq] at hfork
    subst hparent hfork
    obtain ⟨d1, s1, hd1, hs1, hmem, rfl, rfl⟩ := Forest.NewForkWithoutCopy_returns hG
    rw [h.root_deref] at hd1
    cases hd1
    have h1 := h.append_fresh { ancestry := (root, s1) :: r.ancestry, timeline := [] }
    refine ⟨rfl, ⟨_, rfl⟩, h1.root_lt, h1.root_deref, h1.closed, h1.sample, ?_⟩
    simp only [Forest.Chained]
    exact ⟨h.below_fresh.1, _, s1, Forest.deref_append_new _ F.key_ne_fresh, rfl, hs1.trans hs,
      hmem, Increasing.nil⟩
  | cons a rest =>
    have hch := h.chained
    simp only [Forest.Chained] at hch
    obtain ⟨_, ⟨da, db, s, hda, hdb, hanc, hlast, _⟩, _⟩ := hch
    rw [hc] at hdb
    cases hdb
    simp only [DiscreteTrajectory.parent, hanc, List.head?_cons, Option.map_some',
      Option.some.injEq] at hparent
    simp only [DiscreteTrajectory.Fork, hanc, List.head?_cons, Option.map_some',
      Option.some.injEq] at hfork
    subst hparent hfork
    obtain ⟨dh, hdh, hinc, _⟩ := h.rest.chained.head
    rw [hda] at hdh
    cases hdh
    obtain ⟨rfl, rfl⟩ := Forest.NewForkWithoutCopy_at_last hda hinc hlast hG
    have h1 := h.rest.append_fresh { ancestry := (a, s) :: da.ancestry, timeline := [] }
    refine ⟨rfl, ⟨_, rfl⟩, h1.root_lt, h1.root_deref, h1.closed, h1.sample, ?_⟩
    simp only [Forest.Chained]
    exact ⟨h.rest.below_fresh.2 _ (List.mem_cons_self _ _),
      ⟨da, _, s, Forest.deref_append_of_some _ hda,
        Forest.deref_append_new _ F.key_ne_fresh, rfl, hlast, Increasing.nil⟩, h1.chained⟩

end Principia

namespace Principia
namespace FlightPlan

/-! ## The invariant of the memory under the private methods of the flight plan -/

theorem reverse_of_getLast? {α : Type} {l : List α} {a : α} (h : l.getLast? = some a) :
    l.reverse = a :: l.dropLast.reverse := by
  conv_lhs => rw [eq_dropLast_append_of_getLast? h]
  simp

theorem CoastLastSegment_invariant {I : Collaborators} {fuel : Nat} {p q : FlightPlan}
    {t : Instant} {m root : Nat} {r : DiscreteTrajectory} (hp : p.Invariant m root r)
    (h : CoastLastSegment I fuel p t = .returns q) : q.Invariant m root r := by
  obtain ⟨_, _, h1 | ⟨_, back, e, F, reached, hb, hflow, rfl⟩⟩ := CoastLastSegment_returns h
  · rw [h1.2]
    exact hp
  · unfold FlightPlan.Invariant at hp ⊢
    rw [reverse_of_getLast? hb] at hp
    simp only
    rw [reverse_of_getLast? hb]
    exact hp.Flow_head hflow

theorem BurnLastSegment_invariant {I : Collaborators} {fuel : Nat} {p q : FlightPlan}
    {man : NavigationManoeuvre} {m root : Nat} {r : DiscreteTrajectory}
    (hp : p.Invariant m root r)
    (h : BurnLastSegment I fuel p man = .returns q) : q.Invariant m root r := by
  obtain ⟨_, _, h1 | h1 | ⟨_, _, back, e, F, reached, hb, hflow, rfl⟩⟩ :=
    BurnLastSegment_returns h
  · rw [h1.2]
    exact hp
  · rw [h1.2.2]
    exact hp
  · unfold FlightPlan.Invariant at hp ⊢
    rw [reverse_of_getLast? hb] at hp
    simp only
    rw [reverse_of_getLast? hb]
    exact hp.Flow_head hflow

theorem AddSegment_invariant {p q : FlightPlan} {m root : Nat} {r : DiscreteTrajectory}
    (hp : p.Invariant m root r) (h : AddSegment p = .returns q) : q.Invariant m root r := by
  obtain ⟨hs, _, ⟨back, F, fork, hb, hnew, hF, hseg⟩, _⟩ := AddSegment_returns h
  unfold FlightPlan.Invariant at hp ⊢
  rw [reverse_of_getLast? hb] at hp
  rw [hF, hseg, hs.1, List.reverse_append, reverse_of_getLast? hb]
  exact hp.NewForkAtLast hnew

theorem ResetLastSegment_invariant {p q : FlightPlan} {m root : Nat} {r : DiscreteTrajectory}
    (hp : p.Invariant m root r) (h : ResetLastSegment p = .returns q) :
    q.Invariant m root r := by
  obtain ⟨hs, _, hseg, ⟨back, d, fork, hb, _, _, hforget⟩, _⟩ := ResetLastSegment_returns h
  unfold FlightPlan.Invariant at hp ⊢
  rw [reverse_of_getLast? hb] at hp
  rw [hseg, hs.1, reverse_of_getLast? hb]
  exact hp.ForgetAfter_head hforget

theorem PopLastSegment_invariant {p q : FlightPlan} {m root : Nat} {r : DiscreteTrajectory}
    (hp : p.Invariant m root r) (hlen : 2 ≤ p.segments_.length)
    (h : PopLastSegment p = .returns q) : q.Invariant m root r := by
  obtain ⟨hs, _, hseg, ⟨back, d, hb, _, _, hdel⟩, _⟩ := PopLastSegment_returns h
  unfold FlightPlan.Invariant at hp ⊢
  rw [reverse_of_getLast? hb] at hp
  rw [hseg, hs.1]
  cases hrest : p.segments_.dropLast.reverse with
  | nil =>
    have := congrArg List.length hrest
    simp at this
    omega
  | cons a rest =>
    rw [hrest] at hp
    exact hp.DeleteFork_head hdel

/-- Popping the last segment keeps the invariant of a chain that the segment
is not part of. -/
theorem PopLastSegment_other {p q : FlightPlan} {m root : Nat} {r : DiscreteTrajectory}
    {t0 : Instant} (hp : p.Invariant m root r) {chain : List Nat}
    (hc : p.trajectories.Invariant m root r t0 chain)
    (hnot : ∀ back, p.segments_.getLast? = some back → back ∉ chain)
    (h : PopLastSegment p = .returns q) : q.trajectories.Invariant m root r t0 chain := by
  obtain ⟨_, _, _, ⟨back, d, hb, _, _, hdel⟩, _⟩ := PopLastSegment_returns h
  unfold FlightPlan.Invariant at hp
  rw [reverse_of_getLast? hb] at hp
  exact hc.DeleteFork_other hp.chained.bounds.1 (hnot back hb) hdel

theorem CoastIfReachesManoeuvreInitialTime_invariant {I : Collaborators} {fuel : Nat}
    {p q : FlightPlan} {coast : Nat} {man : NavigationManoeuvre} {o : Option Nat}
    {m root : Nat} {r : DiscreteTrajectory} (hp : p.Invariant m root r) {rest : List Nat}
    (hc : p.trajectories.Invariant m root r p.initial_time_ (coast :: rest))
    (h : CoastIfReachesManoeuvreInitialTime I fuel p coast man = .returns (q, o)) :
    q.Invariant m root r ∧
    ∀ trial, o = some trial →
      q.trajectories.Invariant m root r q.initial_time_ (trial :: rest) ∧
      ∀ k ∈ q.segments_, k < trial := by
  obtain ⟨c, parent, fork, F, trial, e, F1, reached, hcd, hparent, hfork, hnew, hflow, hq⟩ :=
    CoastIfReachesManoeuvreInitialTime_returns h
  unfold FlightPlan.Invariant at hp ⊢
  obtain ⟨rfl, ⟨n, rfl⟩, htrial⟩ := hc.trial hcd hparent hfork hnew
  have hseg := hp.append_fresh n
  have hfresh := hp.below_fresh
  have hnot : p.trajectories.fresh ∉ p.segments_.reverse :=
    fun hk => Nat.lt_irrefl _ (hfresh.2 _ hk)
  have hseg1 := hseg.Flow_other hfresh.1 hnot hflow
  have htrial1 := htrial.Flow_head hflow
  rcases hq with ⟨_, rfl, rfl⟩ | ⟨_, rfl, F2, hdel, rfl⟩
  · refine ⟨hseg1, ?_⟩
    intro t ht
    cases ht
    exact ⟨htrial1, fun k hk => hfresh.2 k (List.mem_reverse.mpr hk)⟩
  · refine ⟨hseg1.DeleteFork_other hfresh.1 hnot hdel, ?_⟩
    intro t ht
    cases ht

theorem ReplaceLastSegment_invariant {p q : FlightPlan} {m root : Nat}
    {r : DiscreteTrajectory} (hp : p.Invariant m root r) {trial : Nat}
    (ht : p.trajectories.Invariant m root r p.initial_time_
      (trial :: p.segments_.dropLast.reverse))
    (hlt : ∀ k ∈ p.segments_, k < trial)
    (h : ReplaceLastSegment p trial = .returns q) : q.Invariant m root r := by
  obtain ⟨hs, _, hseg, _, _, p1, s, back, b, _, _, hpop, hF, _, hb, _⟩ :=
    ReplaceLastSegment_returns h
  have hnot : ∀ back, p.segments_.getLast? = some back →
      back ∉ trial :: p.segments_.dropLast.reverse := by
    intro k hk hmem
    unfold FlightPlan.Invariant at hp
    rw [reverse_of_getLast? hk] at hp
    rcases List.mem_cons.mp hmem with h1 | h1
    · exact Nat.lt_irrefl _ (h1 ▸ hlt k (List.mem_of_getLast?_eq_some hk))
    · exact hp.not_mem_tail h1
  have := PopLastSegment_other hp ht hnot hpop
  unfold FlightPlan.Invariant
  rw [hF, hseg, hs.1, List.reverse_append]
  exact this

theorem AppendNavigationManoeuvre_invariant {I : Collaborators} {fuel : Nat}
    {p q : FlightPlan} {man : NavigationManoeuvre} {m root : Nat} {r : DiscreteTrajectory}
    (hp : p.Invariant m root r)
    (h : AppendNavigationManoeuvre I fuel p man = .returns q) : q.Invariant m root r := by
  obtain ⟨back, last, p2, p3, p4, _, _, _, h2, h3, h4, h5⟩ :=
    AppendNavigationManoeuvre_returns h
  have hp1 : FlightPlan.Invariant m root r
      { p with manoeuvres_ := p.manoeuvres_ ++ [man.set_coasting_trajectory back] } := hp
  exact CoastLastSegment_invariant
    (AddSegment_invariant (BurnLastSegment_invariant (AddSegment_invariant hp1 h2) h3) h4) h5

end FlightPlan
end Principia

namespace Principia
namespace FlightPlan

/-! ## The invariant of the memory under the public methods of the flight plan -/

theorem getLast?_of_reverse {α : Type} {l : List α} {a : α} {rest : List α}
    (h : l.reverse = a :: rest) : l.getLast? = some a ∧ l.dropLast.reverse = rest := by
  have h1 : l = rest.reverse ++ [a] := by
    have := congrArg List.reverse h
    simpa using this
  subst h1
  simp

theorem PopLastSegment_reverse {p q : FlightPlan} {a : Nat} {rest : List Nat}
    (hR : p.segments_.reverse = a :: rest) (h : PopLastSegment p = .returns q) :
    q.segments_.reverse = rest ∧ q.initial_time_ = p.initial_time_ := by
  obtain ⟨hs, _, hseg, _, _⟩ := PopLastSegment_returns h
  rw [hseg]
  exact ⟨(getLast?_of_reverse hR).2, hs.1⟩

theorem penultimate_coast_returns {p : FlightPlan} {c : Nat}
    (h : p.penultimate_coast = .returns c) :
    ∃ l b rest, p.segments_.reverse = l :: b :: c :: rest := by
  unfold penultimate_coast at h
  split at h
  · cases h
  · rename_i hlen
    rw [Outcome.ofOption_eq_returns] at h
    have h2 : p.segments_.reverse[2]? = some c := by
      rw [List.getElem?_reverse (by omega), ← h]
      rfl
    cases hR : p.segments_.reverse with
    | nil => rw [hR] at h2; cases h2
    | cons l R1 =>
      cases R1 with
      | nil => rw [hR] at h2; cases h2
      | cons b R2 =>
        cases R2 with
        | nil => rw [hR] at h2; cases h2
        | cons c1 rest =>
          rw [hR] at h2
          simp only [List.getElem?_cons_succ, List.getElem?_cons_zero, Option.some.injEq] at h2
          subst h2
          exact ⟨l, b, rest, rfl⟩

theorem Append_invariant {I : Collaborators} {fuel : Nat} {p q : FlightPlan} {burn : Burn}
    {ok : Bool} {m root : Nat} {r : DiscreteTrajectory} (hp : p.Invariant m root r)
    (h : Append I fuel p burn = .returns (q, ok)) : q.Invariant m root r := by
  rcases Append_returns h with ⟨_, rfl, _⟩ | ⟨_, _, coast, p1, o, hb, hcoast, h1⟩
  · exact hp
  · have hc : p.trajectories.Invariant m root r p.initial_time_
        (coast :: p.segments_.dropLast.reverse) := by
      have := hp
      unfold FlightPlan.Invariant at this
      rw [reverse_of_getLast? hb] at this
      exact this
    obtain ⟨hp1, htrial⟩ := CoastIfReachesManoeuvreInitialTime_invariant hp hc hcoast
    obtain ⟨hs, hseg, _⟩ := CoastIfReachesManoeuvreInitialTime_plan hcoast
    rcases h1 with ⟨_, rfl, _⟩ | ⟨segment, p2, rfl, hrep, happ, _⟩
    · exact hp1
    · obtain ⟨ht, hlt⟩ := htrial segment rfl
      rw [← hseg] at ht
      exact AppendNavigationManoeuvre_invariant
        (ReplaceLastSegment_invariant hp1 ht hlt hrep) happ

theorem ReplaceLast_invariant {I : Collaborators} {fuel : Nat} {p q : FlightPlan}
    {burn : Burn} {ok : Bool} {m root : Nat} {r : DiscreteTrajectory}
    (hp : p.Invariant m root r)
    (h : ReplaceLast I fuel p burn = .returns (q, ok)) : q.Invariant m root r := by
  obtain ⟨back, start, _, _, h1⟩ := ReplaceLast_returns h
  rcases h1 with ⟨_, rfl, _⟩ | ⟨_, _, coast, p1, o, hpen, hcoast, h1⟩
  · exact hp
  · obtain ⟨l, b, rest, hR⟩ := penultimate_coast_returns hpen
    have hchain := hp
    unfold FlightPlan.Invariant at hchain
    rw [hR] at hchain
    obtain ⟨hp1, htrial⟩ :=
      CoastIfReachesManoeuvreInitialTime_invariant hp hchain.rest.rest hcoast
    obtain ⟨hs, hseg, _⟩ := CoastIfReachesManoeuvreInitialTime_plan hcoast
    rcases h1 with ⟨_, rfl, _⟩ | ⟨segment, p3, p4, p5, rfl, hpop1, hpop2, hrep, happ, _⟩
    · exact hp1
    · obtain ⟨ht, hlt⟩ := htrial segment rfl
      have hR1 : p1.segments_.reverse = l :: b :: coast :: rest := by rw [hseg]; exact hR
      have hchain1 := hp1
      unfold FlightPlan.Invariant at hchain1
      rw [hR1] at hchain1
      have hp2 : FlightPlan.Invariant m root r
          { p1 with manoeuvres_ := p1.manoeuvres_.dropLast } := hp1
      have hlen1 : 2 ≤ p1.segments_.length := by
        have := congrArg List.length hR1
        simp at this
        omega
      -- the first pop
      obtain ⟨hR3, ht3⟩ :=
        @PopLastSegment_reverse { p1 with manoeuvres_ := p1.manoeuvres_.dropLast } _ _ _ hR1 hpop1
      have hp3 := PopLastSegment_invariant hp2 hlen1 hpop1
      have hnot1 : ∀ k, p1.segments_.getLast? = some k → k ∉ segment :: rest := by
        intro k hk hmem
        have hkl : k = l := by
          have := (getLast?_of_reverse hR1).1
          rw [hk] at this
          exact Option.some.inj this
        subst hkl
        rcases List.mem_cons.mp hmem with h2 | h2
        · exact Nat.lt_irrefl _ (h2 ▸ hlt k (List.mem_of_getLast?_eq_some hk))
        · exact hchain1.not_mem_tail
            (List.mem_cons_of_mem _ (List.mem_cons_of_mem _ h2))
      have ht3c := PopLastSegment_other hp2 ht hnot1 hpop1
      -- the second pop
      have hchain3 := hp3
      unfold FlightPlan.Invariant at hchain3
      rw [hR3] at hchain3
      have hlen3 : 2 ≤ p3.segments_.length := by
        have := congrArg List.length hR3
        simp at this
        omega
      obtain ⟨hR4, ht4⟩ := PopLastSegment_reverse hR3 hpop2
      have hp4 := PopLastSegment_invariant hp3 hlen3 hpop2
      have hsub3 : ∀ k ∈ p3.segments_, k ∈ p1.segments_ := by
        intro k hk
        have h1 : k ∈ p3.segments_.reverse := List.mem_reverse.mpr hk
        rw [hR3] at h1
        have h2 : k ∈ p1.segments_.reverse := by
          rw [hR1]
          exact List.mem_cons_of_mem _ h1
        exact List.mem_reverse.mp h2
      have hnot3 : ∀ k, p3.segments_.getLast? = some k → k ∉ segment :: rest := by
        intro k hk hmem
        have hkb : k = b := by
          have := (getLast?_of_reverse hR3).1
          rw [hk] at this
          exact Option.some.inj this
        subst hkb
        rcases List.mem_cons.mp hmem with h2 | h2
        · exact Nat.lt_irrefl _
            (h2 ▸ hlt k (hsub3 k (List.mem_of_getLast?_eq_some hk)))
        · exact hchain3.not_mem_tail (List.mem_cons_of_mem _ h2)
      have ht4c := PopLastSegment_other hp3 ht3c hnot3 hpop2
      -- the replacement of the penultimate coast
      have hsub4 : ∀ k ∈ p4.segments_, k ∈ p3.segments_ := by
        intro k hk
        have h1 : k ∈ p4.segments_.reverse := List.mem_reverse.mpr hk
        rw [hR4] at h1
        have h2 : k ∈ p3.segments_.reverse := by
          rw [hR3]
          exact List.mem_cons_of_mem _ h1
        exact List.mem_reverse.mp h2
      have ht5 : p4.trajectories.Invariant m root r p4.initial_time_
          (segment :: p4.segments_.dropLast.reverse) := by
        rw [(getLast?_of_reverse hR4).2, ht4, ht3]
        exact ht4c
      exact AppendNavigationManoeuvre_invariant
        (ReplaceLastSegment_invariant hp4 ht5
          (fun k hk => hlt k (hsub3 k (hsub4 k hk))) hrep) happ

theorem RemoveLast_invariant {I : Collaborators} {fuel : Nat} {p q : FlightPlan}
    {m root : Nat} {r : DiscreteTrajectory} (hp : p.Invariant m root r)
    (hlen : 3 ≤ p.segments_.length)
    (h : RemoveLast I fuel p = .returns q) : q.Invariant m root r := by
  obtain ⟨_, p2, p3, p4, hpop1, hpop2, hreset, hcoast⟩ := RemoveLast_returns h
  have hp1 : FlightPlan.Invariant m root r
      { p with manoeuvres_ := p.manoeuvres_.dropLast } := hp
  have hp2 := PopLastSegment_invariant hp1 (by simpa using by omega) hpop1
  have hlen2 : 2 ≤ p2.segments_.length := by
    rw [(PopLastSegment_returns hpop1).2.2.1]
    simp only [List.length_dropLast]
    omega
  exact CoastLastSegment_invariant
    (ResetLastSegment_invariant (PopLastSegment_invariant hp2 hlen2 hpop2) hreset) hcoast

theorem SetFinalTime_invariant {I : Collaborators} {fuel : Nat} {p q : FlightPlan}
    {t : Instant} {ok : Bool} {m root : Nat} {r : DiscreteTrajectory}
    (hp : p.Invariant m root r)
    (h : SetFinalTime I fuel p t = .returns (q, ok)) : q.Invariant m root r := by
  rcases SetFinalTime_returns h with ⟨_, rfl, _⟩ | ⟨_, _, p2, hreset, hcoast⟩
  · exact hp
  · have hp1 : FlightPlan.Invariant m root r { p with final_time_ := t } := hp
    exact CoastLastSegment_invariant (ResetLastSegment_invariant hp1 hreset) hcoast

theorem PopAllButFirst_invariant (n : Nat) {p q : FlightPlan} {m root : Nat}
    {r : DiscreteTrajectory} (hp : p.Invariant m root r)
    (h : PopAllButFirst n p = .returns q) : q.Invariant m root r := by
  induction n generalizing p with
  | zero =>
    unfold PopAllButFirst at h
    split at h
    · cases h
    · cases h
      exact hp
  | succ n ih =>
    unfold PopAllButFirst at h
    split at h
    · rename_i hlen
      obtain ⟨p1, hpop, hrest⟩ := Outcome.bind_eq_returns.mp h
      exact ih (PopLastSegment_invariant hp (by omega) hpop) hrest
    · cases h
      exact hp

theorem RecomputeLoop_invariant {I : Collaborators} {fuel : Nat}
    (ms : List NavigationManoeuvre) {done : List NavigationManoeuvre} {p q : FlightPlan}
    {m root : Nat} {r : DiscreteTrajectory} (hp : p.Invariant m root r)
    (h : RecomputeLoop I fuel ms done p = .returns q) : q.Invariant m root r := by
  induction ms generalizing done p with
  | nil =>
    simp only [RecomputeLoop, Outcome.returns.injEq] at h
    rw [← h]
    exact hp
  | cons man rest ih =>
    obtain ⟨p1, back, p3, p4, p5, h1, _, h3, h4, h5, h6⟩ := RecomputeLoop_cons_returns h
    have hp1 := CoastLastSegment_invariant hp h1
    have hp2 : FlightPlan.Invariant m root r
        { p1 with manoeuvres_ := done ++ man.set_coasting_trajectory back :: rest } := hp1
    exact ih (AddSegment_invariant (BurnLastSegment_invariant (AddSegment_invariant hp2 h3) h4)
      h5) h6

theorem RecomputeSegments_invariant {I : Collaborators} {fuel : Nat} {p q : FlightPlan}
    {ok : Bool} {m root : Nat} {r : DiscreteTrajectory} (hp : p.Invariant m root r)
    (h : RecomputeSegments I fuel p = .returns (q, ok)) : q.Invariant m root r := by
  obtain ⟨p1, p2, p3, h1, h2, h3, h4, _⟩ := RecomputeSegments_returns h
  exact CoastLastSegment_invariant
    (RecomputeLoop_invariant _
      (ResetLastSegment_invariant (PopAllButFirst_invariant _ hp h1) h2) h3) h4

theorem SetAdaptiveStepParameters_invariant {I : Collaborators} {fuel : Nat}
    {p q : FlightPlan} {parameters : AdaptiveStepParameters} {ok : Bool} {m root : Nat}
    {r : DiscreteTrajectory} (hp : p.Invariant m root r)
    (h : SetAdaptiveStepParameters I fuel p parameters = .returns (q, ok)) :
    q.Invariant m root r := by
  obtain ⟨p2, ok2, h1, h2⟩ := SetAdaptiveStepParameters_returns h
  have hp1 : FlightPlan.Invariant m root r
      { p with adaptive_step_parameters_ := parameters } := hp
  have hp2 := RecomputeSegments_invariant hp1 h1
  rcases h2 with ⟨_, rfl, _⟩ | ⟨_, _, h3⟩
  · exact hp2
  · have hp3 : FlightPlan.Invariant m root r
        { p2 with adaptive_step_parameters_ := p.adaptive_step_parameters_ } := hp2
    exact RecomputeSegments_invariant hp3 h3

end FlightPlan
end Principia

namespace Principia
namespace FlightPlan

/-! ## The invariant of the memory on every reachable flight plan -/

/-- The point of the root at which the constructor forks the first segment:
a point of the root, whose time is the requested initial time when the root
has a point at that time and its points come in increasing time. -/
theorem new_at {I : Collaborators} {fuel : Nat} {F : Forest} {root : Nat}
    {initial_time final_time : Instant} {initial_mass : Mass} {ephemeris : Ephemeris}
    {parameters : AdaptiveStepParameters} {q : FlightPlan}
    (h : FlightPlan.new I fuel F root initial_time final_time initial_mass ephemeris parameters
      = .returns q) :
    ∃ (r : DiscreteTrajectory) (at_it : Sample) (F1 : Forest) (fork : Nat),
      F.deref root = some r ∧ at_it ∈ F.unified r ∧
      ((∃ s ∈ F.unified r, s.time = initial_time) → Increasing (F.unified r) →
        at_it.time = initial_time) ∧
      F.NewForkWithoutCopy root at_it.time = .returns (F1, fork) ∧
      CoastLastSegment I fuel
        { initial_time_ := at_it.time
          final_time_ := final_time
          initial_mass_ := initial_mass
          adaptive_step_parameters_ := parameters
          manoeuvres_ := []
          segments_ := [fork]
          anomalous_segments_ := 0
          ephemeris_ := ephemeris
          trajectories := F1 }
        final_time = .returns q := by
  unfold FlightPlan.new at h
  simp only [Outcome.bind_def, Outcome.bind_eq_returns, Outcome.ofOption_eq_returns,
    CHECK_eq_returns] at h
  obtain ⟨_, hle, r, hr, s0, hs0, s1, hs1, ⟨F1, fork⟩, hnew, h⟩ := h
  refine ⟨r, s1, F1, fork, hr, ?_, ?_, hnew, h⟩
  · split at hs1
    · split at hs1
      · cases hs1
      · rw [Outcome.ofOption_eq_returns] at hs1
        exact List.mem_iff_getElem?.mpr ⟨_, hs1⟩
    · cases hs1
      exact List.mem_iff_getElem?.mpr ⟨_, hs0⟩
  · rintro ⟨s, hs, hst⟩ hinc
    split at hs1
    · rename_i hne
      exfalso
      obtain ⟨hlt, heq⟩ := List.getElem?_eq_some_iff.mp hs0
      have hp0 : initial_time ≤ s0.time := by
        have := @List.findIdx_getElem Sample (fun s : Sample => decide (initial_time ≤ s.time))
          (F.unified r) hlt
        rw [heq] at this
        exact of_decide_eq_true this
      have hlt0 : initial_time < s0.time := lt_of_le_of_ne hp0 (fun h1 => hne h1.symm)
      obtain ⟨j, hj, hjs⟩ := List.getElem_of_mem hs
      have hij : List.findIdx (fun s : Sample => decide (initial_time ≤ s.time)) (F.unified r)
          ≤ j := by
        by_contra hcon
        have := @List.not_of_lt_findIdx Sample
          (fun s : Sample => decide (initial_time ≤ s.time)) (F.unified r) j (not_le.mp hcon)
        rw [hjs] at this
        simp [hst] at this
      rcases Nat.lt_or_eq_of_le hij with h1 | h1
      · have := List.pairwise_iff_getElem.mp hinc _ j hlt hj h1
        rw [heq, hjs, hst] at this
        exact lt_irrefl _ (lt_trans hlt0 this)
      · have h2 : s0 = s := by
          rw [← heq, ← hjs]
          congr 1
        rw [h2, hst] at hlt0
        exact lt_irrefl _ hlt0
    · rename_i heq
      simp only [ne_eq, not_not] at heq
      cases hs1
      exact heq

theorem new_invariant {I : Collaborators} {fuel : Nat} {F : Forest} {root : Nat}
    {initial_time final_time : Instant} {initial_mass : Mass} {ephemeris : Ephemeris}
    {parameters : AdaptiveStepParameters} {q : FlightPlan}
    (h : FlightPlan.new I fuel F root initial_time final_time initial_mass ephemeris parameters
      = .returns q) :
    ∃ m r, q.Invariant m root r := by
  obtain ⟨r, at_it, F1, fork, hr, hmem, _, hnew, hcoast⟩ := new_at h
  obtain ⟨d, s, hd, hs, hpoint, rfl, rfl⟩ := Forest.NewForkWithoutCopy_returns hnew
  rw [hr] at hd
  cases hd
  refine ⟨F.fresh, r, CoastLastSegment_invariant ?_ hcoast⟩
  have hroot : root < F.fresh := (F.lt_fresh (Forest.mem_of_deref hr)).1
  have hold : ∀ k, k < F.fresh →
      Forest.deref (F ++ [(F.fresh, { ancestry := (root, s) :: r.ancestry, timeline := [] })]) k
        = F.deref k :=
    fun k hk => Forest.deref_append_old _ (Nat.ne_of_lt hk)
  have hclosed : F.Closed F.fresh :=
    fun k d _ hd a ha => (F.lt_fresh (Forest.mem_of_deref hd)).2 a ha
  refine ⟨hroot, (hold root hroot).trans hr, ?_, ?_, ?_⟩
  · intro k d hk hd
    rw [hold k hk] at hd
    exact hclosed k d hk hd
  · rw [Forest.unified_congr (fun a ha => hold a.1 (hclosed root r hroot hr a ha))]
    exact ⟨at_it, hmem, rfl⟩
  · simp only [List.reverse_cons, List.reverse_nil, List.nil_append, Forest.Chained]
    exact ⟨le_refl _, _, s, Forest.deref_append_new _ F.key_ne_fresh, rfl, hs, hpoint,
      Increasing.nil⟩

theorem ReachableFrom.reachable {I : Collaborators} {root : Nat} {p : FlightPlan}
    (hp : ReachableFrom I root p) : Reachable I p := by
  induction hp with
  | new h => exact Reachable.new h
  | Append _ h ih => exact Reachable.Append ih h
  | ReplaceLast _ h ih => exact Reachable.ReplaceLast ih h
  | RemoveLast _ h ih => exact Reachable.RemoveLast ih h
  | SetFinalTime _ h ih => exact Reachable.SetFinalTime ih h
  | SetAdaptiveStepParameters _ h ih => exact Reachable.SetAdaptiveStepParameters ih h

theorem Reachable.from_root {I : Collaborators} {p : FlightPlan} (hp : Reachable I p) :
    ∃ root, ReachableFrom I root p := by
  induction hp with
  | new h => exact ⟨_, ReachableFrom.new h⟩
  | Append _ h ih => exact ⟨_, ReachableFrom.Append ih.choose_spec h⟩
  | ReplaceLast _ h ih => exact ⟨_, ReachableFrom.ReplaceLast ih.choose_spec h⟩
  | RemoveLast _ h ih => exact ⟨_, ReachableFrom.RemoveLast ih.choose_spec h⟩
  | SetFinalTime _ h ih => exact ⟨_, ReachableFrom.SetFinalTime ih.choose_spec h⟩
  | SetAdaptiveStepParameters _ h ih =>
    exact ⟨_, ReachableFrom.SetAdaptiveStepParameters ih.choose_spec h⟩

/-- Every flight plan that the public interface can produce on the trajectory
at `root` has its segments chained from that trajectory. -/
theorem ReachableFrom.invariant {I : Collaborators} {root : Nat} {p : FlightPlan}
    (hp : ReachableFrom I root p) : ∃ m r, p.Invariant m root r := by
  induction hp with
  | new h => exact new_invariant h
  | Append _ h ih =>
    obtain ⟨m, r, hi⟩ := ih
    exact ⟨m, r, Append_invariant hi h⟩
  | ReplaceLast _ h ih =>
    obtain ⟨m, r, hi⟩ := ih
    exact ⟨m, r, ReplaceLast_invariant hi h⟩
  | @RemoveLast _ p _ hp h ih =>
    obtain ⟨m, r, hi⟩ := ih
    obtain ⟨hne, _⟩ := RemoveLast_returns h
    have hc := (Reachable_counts hp.reachable).1
    have : 1 ≤ p.manoeuvres_.length := by
      cases hm : p.manoeuvres_ with
      | nil => exact absurd hm hne
      | cons x xs => simp
    exact ⟨m, r, RemoveLast_invariant hi (by omega) h⟩
  | SetFinalTime _ h ih =>
    obtain ⟨m, r, hi⟩ := ih
    exact ⟨m, r, SetFinalTime_invariant hi h⟩
  | SetAdaptiveStepParameters _ h ih =>
    obtain ⟨m, r, hi⟩ := ih
    exact ⟨m, r, SetAdaptiveStepParameters_invariant hi h⟩

/-! ## What the chain says of the first segment and of consecutive segments -/

theorem Forest.Chained.last {F : Forest} {m root : Nat} {r : DiscreteTrajectory}
    {t0 : Instant} {chain : List Nat} (h : F.Chained m root r t0 chain) :
    ∃ k d s, chain.getLast? = some k ∧ F.deref k = some d ∧
      d.ancestry = (root, s) :: r.ancestry ∧ s.time = t0 ∧
      (s ∈ r.timeline ∨ r.Fork = some s) := by
  induction chain with
  | nil => exact absurd h (by simp [Forest.Chained])
  | cons x xs ih =>
    cases xs with
    | nil =>
      simp only [Forest.Chained] at h
      obtain ⟨_, d, s, hd, h1, h2, h3, _⟩ := h
      exact ⟨x, d, s, rfl, hd, h1, h2, h3⟩
    | cons y rest =>
      obtain ⟨k, d, s, hk, h1⟩ := ih h.tail
      exact ⟨k, d, s, by rw [List.getLast?_cons_cons]; exact hk, h1⟩

theorem Forest.Chained.link {F : Forest} {m root : Nat} {r : DiscreteTrajectory}
    {t0 : Instant} (pre : List Nat) {b a : Nat} {post : List Nat}
    (h : F.Chained m root r t0 (pre ++ b :: a :: post)) :
    ∃ da db s, F.deref a = some da ∧ F.deref b = some db ∧
      db.ancestry = (a, s) :: da.ancestry ∧ da.last = some s := by
  induction pre with
  | nil =>
    simp only [List.nil_append, Forest.Chained] at h
    obtain ⟨_, ⟨da, db, s, h1, h2, h3, h4, _⟩, _⟩ := h
    exact ⟨da, db, s, h1, h2, h3, h4⟩
  | cons x xs ih =>
    cases xs with
    | nil => exact ih (Forest.Chained.tail h)
    | cons y rest => exact ih (Forest.Chained.tail h)

end FlightPlan
end Principia

namespace Principia

open FlightPlan

/-! ## Boundary continuity -/

theorem reverse_of_consecutive {α : Type} {l : List α} {i : Nat} {a b : α}
    (ha : l[i]? = some a) (hb : l[i + 1]? = some b) :
    ∃ pre post, l.reverse = pre ++ b :: a :: post := by
  obtain ⟨hi, hia⟩ := List.getElem?_eq_some_iff.mp ha
  obtain ⟨hj, hjb⟩ := List.getElem?_eq_some_iff.mp hb
  refine ⟨(l.drop (i + 2)).reverse, (l.take i).reverse, ?_⟩
  have h1 : l = l.take i ++ a :: b :: l.drop (i + 2) := by
    conv_lhs => rw [← List.take_append_drop i l]
    rw [List.drop_eq_getElem_cons hi, List.drop_eq_getElem_cons hj, hia, hjb]
  conv_lhs => rw [h1]
  simp

/-- Claim C11 (boundary continuity).  In every flight plan that the public
operations can produce on the trajectory at `root`, segment 0 is a fork of that
trajectory at a point of it whose time is `initial_time()`, and, for every `i`,
segment `i + 1` is a fork of segment `i` whose fork point is the last point of
segment `i`: the first point of segment `i + 1` is the last point of segment
`i`, in time and in degrees of freedom. -/
theorem boundary_continuity (I : Collaborators) (root : Nat) (p : FlightPlan)
    (hp : ReachableFrom I root p) :
    (∃ first d r s, p.segments_[0]? = some first ∧ p.trajectories.deref first = some d ∧
      p.trajectories.deref root = some r ∧ d.parent = some root ∧ d.Fork = some s ∧
      s.time = p.initial_time ∧ (s ∈ r.timeline ∨ r.Fork = some s)) ∧
    ∀ (i a b : Nat), p.segments_[i]? = some a → p.segments_[i + 1]? = some b →
      ∃ da db s, p.trajectories.deref a = some da ∧ p.trajectories.deref b = some db ∧
        db.parent = some a ∧ db.Fork = some s ∧ da.last = some s ∧
        (∀ l, da.timeline.getLast? = some l → s.time = l.time ∧
          s.degrees_of_freedom = l.degrees_of_freedom) := by
  obtain ⟨m, r, hi⟩ := hp.invariant
  unfold FlightPlan.Invariant at hi
  constructor
  · obtain ⟨k, d, s, hk, hd, hanc, hs, hpoint⟩ := Forest.Chained.last hi.chained
    rw [List.getLast?_reverse, List.head?_eq_getElem?] at hk
    refine ⟨k, d, r, s, hk, hd, hi.root_deref, ?_, ?_, hs, hpoint⟩
    · simp [DiscreteTrajectory.parent, hanc]
    · simp [DiscreteTrajectory.Fork, hanc]
  · intro i a b ha hb
    obtain ⟨pre, post, hR⟩ := reverse_of_consecutive ha hb
    have hc := hi.chained
    rw [hR] at hc
    obtain ⟨da, db, s, hda, hdb, hanc, hlast⟩ := Forest.Chained.link pre hc
    refine ⟨da, db, s, hda, hdb, ?_, ?_, hlast, ?_⟩
    · simp [DiscreteTrajectory.parent, hanc]
    · simp [DiscreteTrajectory.Fork, hanc]
    · intro l hl
      rw [DiscreteTrajectory.last_of_getLast? hl] at hlast
      cases hlast
      exact ⟨rfl, rfl⟩

namespace Example

/-- C11 on the instance: the three segments of the plan with one burn. -/
theorem boundary_continuity_witness :
    ReachableFrom collaborators 0 one_burn ∧
    (∃ first d r s, one_burn.segments_[0]? = some first ∧
      one_burn.trajectories.deref first = some d ∧
      one_burn.trajectories.deref 0 = some r ∧ d.parent = some 0 ∧ d.Fork = some s ∧
      s.time = one_burn.initial_time ∧ (s ∈ r.timeline ∨ r.Fork = some s)) ∧
    ∀ (i a b : Nat), one_burn.segments_[i]? = some a → one_burn.segments_[i + 1]? = some b →
      ∃ da db s, one_burn.trajectories.deref a = some da ∧
        one_burn.trajectories.deref b = some db ∧
        db.parent = some a ∧ db.Fork = some s ∧ da.last = some s ∧
        (∀ l, da.timeline.getLast? = some l → s.time = l.time ∧
          s.degrees_of_freedom = l.degrees_of_freedom) :=
  have h : ReachableFrom collaborators 0 one_burn :=
    @ReachableFrom.Append collaborators 0 10 fresh_plan one_burn burn_10 true
      (@ReachableFrom.new collaborators 0 10 memory 0 50 1000 ephemeris (parameters 100)
        fresh_plan (by decide))
      (by decide)
  ⟨h, boundary_continuity collaborators 0 one_burn h⟩

end Example

end Principia

namespace Principia

open FlightPlan

/-! ## The round trip of the flight plan through a message -/

theorem AdaptiveStepParameters.new_checked {integrator : Nat} {max_steps : Int}
    {length_integration_tolerance : Length} {speed_integration_tolerance : Speed}
    {q : AdaptiveStepParameters}
    (h : AdaptiveStepParameters.new integrator max_steps length_integration_tolerance
      speed_integration_tolerance = .returns q) :
    q = { integrator_ := integrator
          max_steps_ := max_steps
          length_integration_tolerance_ := length_integration_tolerance
          speed_integration_tolerance_ := speed_integration_tolerance } ∧
    0 < max_steps ∧ 0 < length_integration_tolerance ∧ 0 < speed_integration_tolerance := by
  unfold AdaptiveStepParameters.new at h
  simp only [Outcome.bind_def, Outcome.bind_eq_returns, CHECK_eq_returns] at h
  obtain ⟨_, h1, _, h2, _, h3, h4⟩ := h
  cases h4
  exact ⟨rfl, h1, h2, h3⟩

/-- The parameters read from the record of parameters are those parameters. -/
theorem AdaptiveStepParameters.read_written {p q : AdaptiveStepParameters}
    (h : AdaptiveStepParameters.ReadFromMessage p.WriteToMessage = .returns q) : q = p :=
  (AdaptiveStepParameters.new_checked h).1

/-- The record of a manœuvre does not depend on its coasting trajectory. -/
theorem FlightPlan.map_WriteToMessage_manoeuvre_values (p : FlightPlan) :
    (manoeuvre_values p).map NavigationManoeuvre.WriteToMessage =
      p.manoeuvres_.map NavigationManoeuvre.WriteToMessage := by
  unfold manoeuvre_values
  rw [List.map_map]
  rfl

/-- The record of the manœuvre read from a record is that record. -/
theorem NavigationManoeuvre.map_WriteToMessage_ReadFromMessage
    (records : List serialization.Manoeuvre) (e : Ephemeris) :
    (records.map (fun record => NavigationManoeuvre.ReadFromMessage record e)).map
      NavigationManoeuvre.WriteToMessage = records := by
  rw [List.map_map]
  exact List.map_id _

/-- Reading what `WriteToMessage` has written goes through the constructor,
`Prolong` and `RecomputeSegments`. -/
theorem FlightPlan.ReadFromMessage_written {I : Collaborators} {fuel : Nat}
    {x : FlightPlan} {F : Forest} {root : Nat} {ephemeris : Ephemeris} {o : Option FlightPlan}
    (h : ReadFromMessage I fuel x.WriteToMessage F root ephemeris = .returns o) :
    ∃ p0 e y,
      FlightPlan.new I fuel F root x.initial_time_ x.final_time_ x.initial_mass_ ephemeris
        x.adaptive_step_parameters_ = .returns p0 ∧
      RecomputeSegments I fuel
        { p0 with
          manoeuvres_ := p0.manoeuvres_ ++ x.WriteToMessage.manoeuvre.map
            (fun record => NavigationManoeuvre.ReadFromMessage record ephemeris)
          ephemeris_ := e } = .returns (y, true) ∧
      o = some y := by
  unfold ReadFromMessage at h
  have hpre : is_pre_bunyakovsky x.WriteToMessage = false := rfl
  simp only [hpre, Bool.false_eq_true, if_false, Outcome.bind_def, Outcome.bind_eq_returns,
    Outcome.ofOption_eq_returns, CHECK_eq_returns] at h
  obtain ⟨params, ⟨record, hrecord, hparams⟩, p0, hnew, e, _, ⟨y, ok⟩, hrec, _, hok, hy⟩ := h
  have hrecord2 : record = x.adaptive_step_parameters_.WriteToMessage :=
    (Option.some.inj hrecord).symm
  subst hrecord2
  have := AdaptiveStepParameters.read_written hparams
  subst this
  simp only at hok
  subst hok
  cases hy
  exact ⟨p0, e, y, hnew, hrec, rfl⟩

/-- Claim C20 (round trip of the flight plan).  For every flight plan `x`
that the public operations can produce on the trajectory at `root`, whose
points come in increasing time, `WriteToMessage` writes the initial mass, the
initial time, the final time, the adaptive step parameters and the records of
the manœuvres in order, and no segment; and reading that message with the same
root, in the memory of `x`, and any state of the ephemeris, does not take the
path for messages older than Буняковский and, when it yields a plan `y`,
`WriteToMessage` writes for `y` what it wrote for `x`. -/
theorem FlightPlan_round_trip (I : Collaborators) (fuel : Nat) (root : Nat)
    (x y : FlightPlan) (ephemeris : Ephemeris) (hx : ReachableFrom I root x)
    (hinc : ∀ r, x.trajectories.deref root = some r → Increasing (x.trajectories.unified r))
    (hread : ReadFromMessage I fuel x.WriteToMessage x.trajectories root ephemeris
      = .returns (some y)) :
    x.WriteToMessage.initial_mass = x.initial_mass_ ∧
    x.WriteToMessage.initial_time = x.initial_time ∧
    x.WriteToMessage.final_time = x.final_time ∧
    x.WriteToMessage.adaptive_step_parameters =
      some x.adaptive_step_parameters.WriteToMessage ∧
    x.WriteToMessage.manoeuvre = x.manoeuvres_.map NavigationManoeuvre.WriteToMessage ∧
    x.WriteToMessage.segment = [] ∧
    is_pre_bunyakovsky x.WriteToMessage = false ∧
    y.WriteToMessage = x.WriteToMessage := by
  refine ⟨rfl, rfl, rfl, rfl, rfl, rfl, rfl, ?_⟩
  obtain ⟨p0, e, y1, hnew, hrec, hy⟩ := FlightPlan.ReadFromMessage_written hread
  cases hy
  obtain ⟨m, r, hi⟩ := hx.invariant
  obtain ⟨r1, at_it, F1, fork, hr1, _, htime, _, hcoast⟩ := new_at hnew
  have hr : x.trajectories.deref root = some r := hi.root_deref
  rw [hr] at hr1
  cases hr1
  have ht : at_it.time = x.initial_time_ := htime hi.sample (hinc r hr)
  obtain ⟨hs, _, _⟩ := CoastLastSegment_returns hcoast
  obtain ⟨h1, h2, h3, h4, h5⟩ := hs
  simp only at h1 h2 h3 h4 h5
  obtain ⟨hv, _, g1, g2, g3, g4, _⟩ := RecomputeSegments_plan hrec
  simp only at g1 g2 g3 g4
  have hm : y.manoeuvres_.map NavigationManoeuvre.WriteToMessage =
      x.manoeuvres_.map NavigationManoeuvre.WriteToMessage := by
    rw [← FlightPlan.map_WriteToMessage_manoeuvre_values y, hv,
      FlightPlan.map_WriteToMessage_manoeuvre_values]
    simp only [h5, List.nil_append]
    exact NavigationManoeuvre.map_WriteToMessage_ReadFromMessage _ _
  unfold WriteToMessage
  rw [hm, g1, g2, g3, g4, h1, h2, h3, h4, ht]

namespace Example

/-- C20 on the instance: the plan with one burn, written and read. -/
theorem FlightPlan_round_trip_witness :
    ReachableFrom collaborators 0 one_burn ∧
    (∀ r, one_burn.trajectories.deref 0 = some r →
      Increasing (one_burn.trajectories.unified r)) ∧
    ReadFromMessage collaborators 10 one_burn.WriteToMessage one_burn.trajectories 0
      one_burn.ephemeris_ = .returns (some one_burn_read) ∧
    one_burn.WriteToMessage.initial_mass = one_burn.initial_mass_ ∧
    one_burn.WriteToMessage.initial_time = one_burn.initial_time ∧
    one_burn.WriteToMessage.final_time = one_burn.final_time ∧
    one_burn.WriteToMessage.adaptive_step_parameters =
      some one_burn.adaptive_step_parameters.WriteToMessage ∧
    one_burn.WriteToMessage.manoeuvre =
      one_burn.manoeuvres_.map NavigationManoeuvre.WriteToMessage ∧
    one_burn.WriteToMessage.segment = [] ∧
    is_pre_bunyakovsky one_burn.WriteToMessage = false ∧
    one_burn_read.WriteToMessage = one_burn.WriteToMessage :=
  have h : ReachableFrom collaborators 0 one_burn :=
    @ReachableFrom.Append collaborators 0 10 fresh_plan one_burn burn_10 true
      (@ReachableFrom.new collaborators 0 10 memory 0 50 1000 ephemeris (parameters 100)
        fresh_plan (by decide))
      (by decide)
  have hinc : ∀ r, one_burn.trajectories.deref 0 = some r →
      Increasing (one_burn.trajectories.unified r) := by
    intro r hr
    have h0 : one_burn.trajectories.deref 0 = some ⟨[], [⟨0, ⟨0, 1⟩⟩]⟩ := by decide
    rw [h0] at hr
    cases hr
    decide
  have hread : ReadFromMessage collaborators 10 one_burn.WriteToMessage one_burn.trajectories 0
      one_burn.ephemeris_ = .returns (some one_burn_read) := by decide
  ⟨h, hinc, hread,
    FlightPlan_round_trip collaborators 10 0 one_burn one_burn_read one_burn.ephemeris_ h hinc
      hread⟩

end Example

end Principia

namespace Principia

/-! ## The target of the flows -/

theorem ProlongLoop_covers {I : Collaborators} (fuel : Nat) {e e1 : Ephemeris}
    {t problem_t_final : Instant} (h : ProlongLoop I fuel e t problem_t_final = .returns e1) :
    t ≤ e1.t_max := by
  induction fuel generalizing e problem_t_final with
  | zero =>
    unfold ProlongLoop at h
    split at h
    · cases h
    · rename_i hlt
      cases h
      exact not_lt.mp hlt
  | succ n ih =>
    unfold ProlongLoop at h
    split at h
    · exact ih h
    · rename_i hlt
      cases h
      exact not_lt.mp hlt

/-- The method `Prolong(t)` only returns once `t_max() ≥ t`. -/
theorem Prolong_covers {I : Collaborators} {fuel : Nat} {e e1 : Ephemeris} {t : Instant}
    (h : Prolong I fuel e t = .returns e1) : t ≤ e1.t_max :=
  ProlongLoop_covers fuel h

/-- The flow with an adaptive step, once `Prolong` has returned. -/
theorem FlowWithAdaptiveStep_of_Prolong {I : Collaborators} {fuel : Nat} {e e1 : Ephemeris}
    {F : Forest} {trajectory : Nat} {a : Option NavigationManoeuvre} {t : Instant}
    {parameters : AdaptiveStepParameters} {max_ephemeris_steps : Int} {trajectory_last : Sample}
    (hlast : (F.deref trajectory).bind DiscreteTrajectory.last = some trajectory_last)
    (hprolong : Prolong I fuel e
      (min (max (e.last_state_time + max_ephemeris_steps * e.step_)
        (trajectory_last.time + e.step_)) t) = .returns e1) :
    FlowWithAdaptiveStep I fuel e F trajectory a t parameters max_ephemeris_steps =
      if min (max (e.last_state_time + max_ephemeris_steps * e.step_)
          (trajectory_last.time + e.step_)) t - trajectory_last.time > 0 then
        match Forest.AppendAll F trajectory
          (I.adaptive_Solve e1 parameters a trajectory_last
            (min (max (e.last_state_time + max_ephemeris_steps * e.step_)
              (trajectory_last.time + e.step_)) t)).1 with
        | .aborts => .aborts
        | .diverges => .diverges
        | .returns F1 =>
          .returns (e1, F1,
            decide ((I.adaptive_Solve e1 parameters a trajectory_last
              (min (max (e.last_state_time + max_ephemeris_steps * e.step_)
                (trajectory_last.time + e.step_)) t)).2 = TerminationCondition.Done ∧
              min (max (e.last_state_time + max_ephemeris_steps * e.step_)
                (trajectory_last.time + e.step_)) t = t))
      else .aborts := by
  unfold FlowWithAdaptiveStep
  rw [hlast]
  simp only [hprolong]

/-- The flow with an adaptive step does not return when `Prolong` does not. -/
theorem FlowWithAdaptiveStep_of_not_Prolong {I : Collaborators} {fuel : Nat} {e : Ephemeris}
    {F : Forest} {trajectory : Nat} {a : Option NavigationManoeuvre} {t : Instant}
    {parameters : AdaptiveStepParameters} {max_ephemeris_steps : Int} {trajectory_last : Sample}
    (hlast : (F.deref trajectory).bind DiscreteTrajectory.last = some trajectory_last)
    (hprolong : ∀ e1, Prolong I fuel e
      (min (max (e.last_state_time + max_ephemeris_steps * e.step_)
        (trajectory_last.time + e.step_)) t) ≠ .returns e1)
    (r : Ephemeris × Forest × Bool) :
    FlowWithAdaptiveStep I fuel e F trajectory a t parameters max_ephemeris_steps ≠
      .returns r := by
  unfold FlowWithAdaptiveStep
  rw [hlast]
  simp only
  split
  · simp
  · simp
  · rename_i e1 he1
    exact absurd he1 (hprolong e1)

/-- The precondition of the adaptive flow with exact sums.  With a positive step
of the ephemeris, whatever `max_ephemeris_steps` and the state of the
ephemeris, the time step `t_final - trajectory->last().time()` that
`FlowWithAdaptiveStep` checks is positive if and only if `t` is after the last
point of the trajectory, and then it is at most `t - trajectory->last().time()`;
when `t` is not after the last point the call does not return, and when it is,
and `Prolong` returns, the call passes the check and goes on with the
integrator.  The sums of the code are those of doubles, which are treated
further down. -/
theorem first_time_step_positive_iff (I : Collaborators) (fuel : Nat) (e : Ephemeris)
    (F : Forest) (trajectory : Nat) (a : Option NavigationManoeuvre) (t : Instant)
    (parameters : AdaptiveStepParameters) (max_ephemeris_steps : Int)
    (trajectory_last : Sample) (hstep : 0 < e.step_)
    (hlast : (F.deref trajectory).bind DiscreteTrajectory.last = some trajectory_last) :
    (0 < min (max (e.last_state_time + max_ephemeris_steps * e.step_)
        (trajectory_last.time + e.step_)) t - trajectory_last.time ↔
      trajectory_last.time < t) ∧
    (0 < min (max (e.last_state_time + max_ephemeris_steps * e.step_)
        (trajectory_last.time + e.step_)) t - trajectory_last.time →
      min (max (e.last_state_time + max_ephemeris_steps * e.step_)
        (trajectory_last.time + e.step_)) t - trajectory_last.time ≤
        t - trajectory_last.time) ∧
    (t ≤ trajectory_last.time → ∀ r,
      FlowWithAdaptiveStep I fuel e F trajectory a t parameters max_ephemeris_steps ≠
        .returns r) ∧
    (trajectory_last.time < t → ∀ e1,
      Prolong I fuel e
        (min (max (e.last_state_time + max_ephemeris_steps * e.step_)
          (trajectory_last.time + e.step_)) t) = .returns e1 →
      FlowWithAdaptiveStep I fuel e F trajectory a t parameters max_ephemeris_steps =
        match Forest.AppendAll F trajectory
          (I.adaptive_Solve e1 parameters a trajectory_last
            (min (max (e.last_state_time + max_ephemeris_steps * e.step_)
              (trajectory_last.time + e.step_)) t)).1 with
        | .aborts => .aborts
        | .diverges => .diverges
        | .returns F1 =>
          .returns (e1, F1,
            decide ((I.adaptive_Solve e1 parameters a trajectory_last
              (min (max (e.last_state_time + max_ephemeris_steps * e.step_)
                (trajectory_last.time + e.step_)) t)).2 = TerminationCondition.Done ∧
              min (max (e.last_state_time + max_ephemeris_steps * e.step_)
                (trajectory_last.time + e.step_)) t = t))) := by
  have hmax : trajectory_last.time <
      max (e.last_state_time + max_ephemeris_steps * e.step_)
        (trajectory_last.time + e.step_) :=
    lt_of_lt_of_le (lt_add_of_pos_right _ hstep) (le_max_right _ _)
  have hiff : 0 < min (max (e.last_state_time + max_ephemeris_steps * e.step_)
        (trajectory_last.time + e.step_)) t - trajectory_last.time ↔
      trajectory_last.time < t := by
    rw [sub_pos, lt_min_iff]
    exact ⟨fun h => h.2, fun h => ⟨hmax, h⟩⟩
  refine ⟨hiff, fun _ => sub_le_sub_right (min_le_right _ _) _, ?_, ?_⟩
  · intro ht r hr
    obtain ⟨e1, F1, b⟩ := r
    obtain ⟨d, last, hd, hl, _, hpos, _⟩ := FlowWithAdaptiveStep_returns hr
    have h2 : (F.deref trajectory).bind DiscreteTrajectory.last = some last := by
      rw [hd]
      exact hl
    rw [hlast] at h2
    cases h2
    exact absurd (hiff.mp hpos) (not_lt.mpr ht)
  · intro ht e1 hprolong
    rw [FlowWithAdaptiveStep_of_Prolong hlast hprolong, if_pos (hiff.mpr ht)]

/-- Claim C24 (the flows never target uncovered time).  In
`FlowWithAdaptiveStep`, when `Prolong(t_final)` returns, which is when the call
goes on to the adaptive integrator, the ephemeris that the integrator works on
has `t_max() ≥ t_final`, and `t_final ≤ t`; when `Prolong` does not return the
call does not either.  In `FlowWithFixedStep`, whose integrator has the target
`t`, the ephemeris that the integrator works on has `t_max() ≥ t`, whether
`Prolong(t)` was called (the ephemeris was empty, or `t > t_max()`) or not. -/
theorem flows_target_covered_time (I : Collaborators) (J : FixedStepCollaborators)
    (fuel : Nat) (e : Ephemeris) (F : Forest) (t : Instant) :
    (∀ (trajectory : Nat) (a : Option NavigationManoeuvre) (parameters : AdaptiveStepParameters)
      (max_ephemeris_steps : Int) (trajectory_last : Sample),
      (F.deref trajectory).bind DiscreteTrajectory.last = some trajectory_last →
      (∀ e1, Prolong I fuel e
          (min (max (e.last_state_time + max_ephemeris_steps * e.step_)
            (trajectory_last.time + e.step_)) t) = .returns e1 →
        min (max (e.last_state_time + max_ephemeris_steps * e.step_)
          (trajectory_last.time + e.step_)) t ≤ e1.t_max ∧
        min (max (e.last_state_time + max_ephemeris_steps * e.step_)
          (trajectory_last.time + e.step_)) t ≤ t ∧
        FlowWithAdaptiveStep I fuel e F trajectory a t parameters max_ephemeris_steps =
          if min (max (e.last_state_time + max_ephemeris_steps * e.step_)
              (trajectory_last.time + e.step_)) t - trajectory_last.time > 0 then
            match Forest.AppendAll F trajectory
              (I.adaptive_Solve e1 parameters a trajectory_last
                (min (max (e.last_state_time + max_ephemeris_steps * e.step_)
                  (trajectory_last.time + e.step_)) t)).1 with
            | .aborts => .aborts
            | .diverges => .diverges
            | .returns F1 =>
              .returns (e1, F1,
                decide ((I.adaptive_Solve e1 parameters a trajectory_last
                  (min (max (e.last_state_time + max_ephemeris_steps * e.step_)
                    (trajectory_last.time + e.step_)) t)).2 = TerminationCondition.Done ∧
                  min (max (e.last_state_time + max_ephemeris_steps * e.step_)
                    (trajectory_last.time + e.step_)) t = t))
          else .aborts) ∧
      ((∀ e1, Prolong I fuel e
          (min (max (e.last_state_time + max_ephemeris_steps * e.step_)
            (trajectory_last.time + e.step_)) t) ≠ .returns e1) →
        ∀ r, FlowWithAdaptiveStep I fuel e F trajectory a t parameters max_ephemeris_steps ≠
          .returns r)) ∧
    (∀ (trajectories : List Nat) (intrinsic_accelerations : List (Option NavigationManoeuvre))
      (parameters : physics.FixedStepParameters),
      (∀ e1, (if J.empty e || decide (t > e.t_max) then Prolong I fuel e t else .returns e)
          = .returns e1 →
        t ≤ e1.t_max ∧
        FlowWithFixedStep I J fuel e F trajectories intrinsic_accelerations t parameters =
          (InitialStateLoop F trajectories { time := 0, positions := [], velocities := [] }).bind
            (fun initial_state =>
              ((J.Solve e1 parameters.integrator_ intrinsic_accelerations initial_state t
                  parameters.step_).foldlM
                (fun F state => AppendMasslessBodiesState state 0 trajectories F) F).bind
                (fun F1 => .returns (e1, F1)))) ∧
      ((∀ e1, (if J.empty e || decide (t > e.t_max) then Prolong I fuel e t else .returns e)
          ≠ .returns e1) →
        ∀ r, FlowWithFixedStep I J fuel e F trajectories intrinsic_accelerations t parameters ≠
          .returns r)) := by
  constructor
  · intro trajectory a parameters max_ephemeris_steps trajectory_last hlast
    refine ⟨fun e1 hprolong => ⟨Prolong_covers hprolong, min_le_right _ _,
      FlowWithAdaptiveStep_of_Prolong hlast hprolong⟩, fun hnot r =>
      FlowWithAdaptiveStep_of_not_Prolong hlast hnot r⟩
  · intro trajectories intrinsic_accelerations parameters
    constructor
    · intro e1 hguard
      constructor
      · split at hguard
        · exact Prolong_covers hguard
        · rename_i hcond
          cases hguard
          simp only [Bool.or_eq_true, decide_eq_true_eq, not_or, not_lt] at hcond
          exact hcond.2
      · unfold FlowWithFixedStep
        simp only [Outcome.bind_def, hguard]
        rfl
    · intro hnot r hr
      unfold FlowWithFixedStep at hr
      simp only [Outcome.bind_def, Outcome.bind_eq_returns] at hr
      obtain ⟨e1, he1, _⟩ := hr
      exact hnot e1 he1

end Principia

namespace Principia
namespace Example

open FlightPlan

/-! ## The flows on the small instance -/

/-- The precondition with exact sums on the instance: a flow of the trajectory
of `memory`, whose last point is at time 0, towards time 5. -/
theorem first_time_step_positive_iff_witness :
    0 < ephemeris.step_ ∧
    (memory.deref 0).bind DiscreteTrajectory.last = some ⟨0, ⟨0, 1⟩⟩ ∧
    ((0 : Int) < min (max (ephemeris.last_state_time + 1000 * ephemeris.step_)
        ((0 : Instant) + ephemeris.step_)) 5 - 0 ↔ (0 : Instant) < 5) ∧
    ∀ r, FlowWithAdaptiveStep collaborators 10 ephemeris memory 0 none 0 (parameters 100) 1000
      ≠ .returns r :=
  have h := first_time_step_positive_iff collaborators 10 ephemeris memory 0 none 5
    (parameters 100) 1000 ⟨0, ⟨0, 1⟩⟩ (by decide) (by decide)
  have h0 := first_time_step_positive_iff collaborators 10 ephemeris memory 0 none 0
    (parameters 100) 1000 ⟨0, ⟨0, 1⟩⟩ (by decide) (by decide)
  ⟨by decide, by decide, h.1, h0.2.2.1 (le_refl _)⟩

/-- C24 on the instance: the flows of the trajectory of `memory` towards time
5 work on an ephemeris that has been prolonged to time 5. -/
theorem flows_target_covered_time_witness :
    (memory.deref 0).bind DiscreteTrajectory.last = some ⟨0, ⟨0, 1⟩⟩ ∧
    Prolong collaborators 10 ephemeris 5 = .returns ⟨1, 5, 5, 1⟩ ∧
    (5 : Instant) ≤ (⟨1, 5, 5, 1⟩ : Ephemeris).t_max ∧
    FlowWithAdaptiveStep collaborators 10 ephemeris memory 0 none 5 (parameters 100) 1000 =
      .returns (⟨1, 5, 5, 1⟩, [(0, ⟨[], [⟨0, ⟨0, 1⟩⟩, ⟨5, ⟨5, 1⟩⟩]⟩)], true) ∧
    FlowWithFixedStep collaborators fixed_step_collaborators 10 ephemeris memory [0] [none] 5
      ⟨0, 1⟩ = .returns (⟨1, 5, 5, 1⟩, [(0, ⟨[], [⟨0, ⟨0, 1⟩⟩, ⟨5, ⟨5, 1⟩⟩]⟩)]) :=
  have h := flows_target_covered_time collaborators fixed_step_collaborators 10 ephemeris
    memory 5
  have ha := (h.1 0 none (parameters 100) 1000 ⟨0, ⟨0, 1⟩⟩ (by decide)).1 ⟨1, 5, 5, 1⟩
    (by decide)
  have hf := (h.2 [0] [none] ⟨0, 1⟩).1 ⟨1, 5, 5, 1⟩ (by decide)
  ⟨by decide, by decide, hf.1, ha.2.2.trans (by decide), hf.2.trans (by decide)⟩

/-! ## A burn that fails, and the next `Append` -/

/-- Claim C26 fails on the code.  The plan `failed_burn` is what the
constructor and one call of `Append`, which returns true, produce: the burn
does not reach its final time, so that `anomalous_segments_` is 2.  On the next
`Append`, of a burn at time 20, the trial coast reaches the manœuvre; the fork
it returns, at the address 5, has the parent and the fork time of the last
segment, but popping the last segment leaves `anomalous_segments_` at 1, and
`ReplaceLastSegment` dies on `CHECK_EQ(0, anomalous_segments_)`: `Append` does
not return. -/
theorem Append_aborts_after_failed_burn :
    Reachable collaborators failed_burn ∧
    failed_burn.anomalous_segments_ = 2 ∧
    failed_burn.last_coast = .returns 4 ∧
    CoastIfReachesManoeuvreInitialTime collaborators 10 failed_burn 4
        (collaborators.MakeNavigationManoeuvre burn_20 (tail_mass failed_burn))
      = .returns (failed_burn_trial, some 5) ∧
    ((failed_burn_trial.trajectories.deref 5).map (fun s => (s.parent, s.Fork.map Sample.time)) =
      (failed_burn_trial.trajectories.deref 4).map (fun b => (b.parent, b.Fork.map Sample.time))) ∧
    (PopLastSegment failed_burn_trial).bind (fun popped => .returns popped.anomalous_segments_)
      = .returns 1 ∧
    ReplaceLastSegment failed_burn_trial 5 = .aborts ∧
    Append collaborators 10 failed_burn burn_20 = .aborts :=
  ⟨@Reachable.Append collaborators 10 fresh_plan failed_burn burn_hard true
      (@Reachable.new collaborators 10 memory 0 0 50 1000 ephemeris (parameters 100) fresh_plan
        (by decide))
      (by decide),
    rfl, by decide, by decide, by decide, by decide, by decide, by decide⟩

end Example
end Principia

namespace Principia

namespace physics

variable {K : Type}

/-! ## The checkpoints under `AppendMassiveBodiesState` and `ForgetAfter` -/

/-- The loops over `trajectories_` change the continuous trajectories only. -/
theorem CallAll_frame (call_at : Nat → Outcome (ContinuousTrajectoryCall K)) (l : List Nat) :
    ∀ (index : Nat) (e e' : Ephemeris K),
    Ephemeris.CallAll call_at index l e = .returns e' →
    e' = { e with bodies_to_trajectories_ := e'.bodies_to_trajectories_ } := by
  induction l with
  | nil =>
    intro index e e' h
    unfold Ephemeris.CallAll at h
    cases h
    rfl
  | cons trajectory rest ih =>
    intro index e e' h
    unfold Ephemeris.CallAll at h
    simp only [Outcome.bind_def, Outcome.bind_eq_returns] at h
    obtain ⟨c, _, e1, he1, h⟩ := h
    obtain ⟨_, _, hframe⟩ := FindOrDie_call he1
    rw [ih (index + 1) e1 e' h, hframe]

/-- What a returning call of `ForgetAfter` leaves: the ephemeris as it was when
no checkpoint is at or after `t`, and otherwise the first such checkpoint as
last state and the checkpoints before it. -/
theorem ForgetAfter_returns {e e1 : Ephemeris K} {t : Instant}
    (h : e.ForgetAfter t = .returns e1) :
    ∃ it, lower_bound e.intermediate_states_ t = .returns it ∧
      ((it = e.intermediate_states_.length ∧ e1 = e) ∨
       (∃ at_it, e.intermediate_states_[it]? = some at_it ∧ t ≤ at_it.time ∧
          e1.last_state_ = at_it ∧
          e1.intermediate_states_ = e.intermediate_states_.take it)) := by
  unfold Ephemeris.ForgetAfter at h
  simp only [Outcome.bind_def, Outcome.bind_eq_returns] at h
  obtain ⟨it, hit, h⟩ := h
  refine ⟨it, hit, ?_⟩
  split at h
  · rename_i heq
    cases h
    exact Or.inl ⟨heq, rfl⟩
  · simp only [Outcome.bind_eq_returns, Outcome.ofOption_eq_returns, CHECK_eq_returns] at h
    obtain ⟨at_it, hat, _, hle, e2, he2, h⟩ := h
    cases h
    refine Or.inr ⟨at_it, hat, hle, rfl, ?_⟩
    simp only
    rw [CallAll_frame _ _ _ _ _ he2]

theorem lower_bound_returns {states : List (SystemState K)} {t : Instant} {it : Nat}
    (h : lower_bound states t = .returns it) :
    it = states.findIdx (fun left => !decide (left.time < t)) := by
  unfold lower_bound at h
  split at h
  · cases h
    rfl
  · cases h

/-- The checkpoints before the position that `lower_bound` gives are before `t`. -/
theorem lower_bound_take {states : List (SystemState K)} {t : Instant} {it : Nat}
    (h : lower_bound states t = .returns it) : ∀ c ∈ states.take it, c.time < t := by
  rw [lower_bound_returns h]
  intro c hc
  obtain ⟨j, hj, hjc⟩ := List.getElem_of_mem hc
  rw [List.length_take] at hj
  have h1 : j < states.findIdx (fun left => !decide (left.time < t)) := by omega
  have h2 := @List.not_of_lt_findIdx _ (fun left : SystemState K => !decide (left.time < t))
    states j h1
  rw [List.getElem_take] at hjc
  rw [hjc] at h2
  simpa using h2

/-- Claim C29 (`ForgetAfter` is idempotent).  Calling `ForgetAfter(t)` twice
does what calling it once does, on the whole of the ephemeris: when the first
call returns, no checkpoint at or after `t` remains and the second call
returns without touching anything. -/
theorem ForgetAfter_idempotent (e : Ephemeris K) (t : Instant)
    (hsorted : e.intermediate_states_.Pairwise (fun a b => a.time < b.time)) :
    (e.ForgetAfter t).bind (fun e1 => e1.ForgetAfter t) = e.ForgetAfter t ∧
    ∀ e1, e.ForgetAfter t = .returns e1 →
      (∀ c ∈ e1.intermediate_states_, c.time < t) ∧
      e1.ForgetAfter t = .returns e1 := by
  have key : ∀ e1, e.ForgetAfter t = .returns e1 →
      (∀ c ∈ e1.intermediate_states_, c.time < t) ∧
      e1.ForgetAfter t = .returns e1 := by
    intro e1 h
    have hall : ∀ c ∈ e1.intermediate_states_, c.time < t := by
      obtain ⟨it, hit, h1 | ⟨at_it, _, _, _, htake⟩⟩ := ForgetAfter_returns h
      · rw [h1.2]
        intro c hc
        have := lower_bound_take hit c
        rw [h1.1, List.take_length] at this
        exact this hc
      · rw [htake]
        exact lower_bound_take hit
    have hsorted1 : e1.intermediate_states_.Pairwise (fun a b => a.time < b.time) := by
      obtain ⟨it, hit, h1 | ⟨at_it, _, _, _, htake⟩⟩ := ForgetAfter_returns h
      · rw [h1.2]
        exact hsorted
      · rw [htake]
        exact hsorted.sublist (List.take_sublist _ _)
    refine ⟨hall, ?_⟩
    unfold Ephemeris.ForgetAfter
    rw [(lower_bound_sorted e1.intermediate_states_ t hsorted1).1]
    simp only [Outcome.bind_def, Outcome.returns_bind]
    rw [if_pos (findIdx_eq_length_of_all _ _ (fun c hc => by simpa using hall c hc))]
  refine ⟨?_, key⟩
  cases h : e.ForgetAfter t with
  | returns e1 =>
    rw [h] at key
    exact (key e1 rfl).2
  | aborts => rfl
  | diverges => rfl

end physics

end Principia

namespace Principia

namespace physics

variable {K : Type}

/-- What a returning call of `AppendMassiveBodiesState` leaves: the state as
last state, and either the checkpoints as they were, or one more checkpoint,
the state, whose time is the `t_max()` of the first trajectory and is more
than 180 days after the last checkpoint. -/
theorem AppendMassiveBodiesState_returns {C : Collaborators K} {e e1 : Ephemeris K}
    {state : SystemState K} (h : e.AppendMassiveBodiesState C state = .returns e1) :
    e1.last_state_ = state ∧
    (e1.intermediate_states_ = e.intermediate_states_ ∨
     (e1.intermediate_states_ = e.intermediate_states_ ++ [state] ∧
      (∀ back, e.intermediate_states_.getLast? = some back →
        state.time - back.time > kMaxTimeBetweenIntermediateStates) ∧
      ∃ front trajectory, e1.trajectories_.head? = some front ∧
        FindOrDie e1.bodies_to_trajectories_ front = .returns trajectory ∧
        C.t_max trajectory = (state.time : WithBot Instant))) := by
  unfold Ephemeris.AppendMassiveBodiesState at h
  simp only [Outcome.bind_def, Outcome.bind_eq_returns, Outcome.ofOption_eq_returns,
    CHECK_eq_returns] at h
  obtain ⟨e2, he2, _, _, front, hfront, trajectory, htrajectory, h⟩ := h
  have hframe := CallAll_frame _ _ _ _ _ he2
  have hl : e2.last_state_ = state := by rw [hframe]
  have hi : e2.intermediate_states_ = e.intermediate_states_ := by rw [hframe]
  split at h
  · rename_i ht
    simp only [Outcome.bind_eq_returns, CHECK_eq_returns] at h
    obtain ⟨_, _, h⟩ := h
    split at h
    · rename_i hexceeds
      cases h
      refine ⟨hl, Or.inr ⟨by simp only [hi], ?_, front, trajectory, hfront, htrajectory, ht⟩⟩
      intro back hback
      rw [hi, hback] at hexceeds
      simpa using hexceeds
    · cases h
      exact ⟨hl, Or.inl hi⟩
  · cases h
    exact ⟨hl, Or.inl hi⟩

theorem kMaxTimeBetweenIntermediateStates_pos : 0 < kMaxTimeBetweenIntermediateStates := by
  decide

/-- In a list of checkpoints that are more than 180 days apart, every
checkpoint is at or before the last one. -/
theorem le_getLast_of_apart {states : List (SystemState K)}
    (h : states.Pairwise (fun a b => b.time - a.time > kMaxTimeBetweenIntermediateStates))
    {back : SystemState K} (hback : states.getLast? = some back) :
    ∀ c ∈ states, c.time ≤ back.time := by
  intro c hc
  have hs : states = states.dropLast ++ [back] := (List.dropLast_append_getLast? back hback).symm
  rw [hs] at hc h
  rw [List.pairwise_append] at h
  rcases List.mem_append.mp hc with h1 | h1
  · have := h.2.2 c h1 back (by simp)
    have hpos := kMaxTimeBetweenIntermediateStates_pos
    have h2 : (0 : Int) < back.time - c.time := lt_trans hpos this
    exact le_of_lt (sub_pos.mp h2)
  · simp only [List.mem_singleton] at h1
    rw [h1]

theorem sorted_of_apart {states : List (SystemState K)}
    (h : states.Pairwise (fun a b => b.time - a.time > kMaxTimeBetweenIntermediateStates)) :
    states.Pairwise (fun a b => a.time < b.time) :=
  h.imp (fun hab => sub_pos.mp (lt_trans kMaxTimeBetweenIntermediateStates_pos hab))

/-- The invariant of the checkpoints along a sequence of calls. -/
theorem RunCalls_checkpoints (C : Collaborators K) (calls : List (CheckpointCall K)) :
    ∀ (e e' : Ephemeris K),
    e.intermediate_states_.Pairwise
      (fun a b => b.time - a.time > kMaxTimeBetweenIntermediateStates) →
    (∀ c ∈ e.intermediate_states_, c.time ≤ e.last_state_.time) →
    (∀ c ∈ e.intermediate_states_, ∀ τ ∈ AppendedTimes calls, c.time < τ) →
    (AppendedTimes calls).Pairwise (fun a b => a < b) →
    e.RunCalls C calls = .returns e' →
    e'.intermediate_states_.Pairwise
      (fun a b => b.time - a.time > kMaxTimeBetweenIntermediateStates) ∧
    (∀ c ∈ e'.intermediate_states_, c.time ≤ e'.last_state_.time) := by
  induction calls with
  | nil =>
    intro e e' hgap hle _ _ h
    simp only [Ephemeris.RunCalls, Outcome.returns.injEq] at h
    subst h
    exact ⟨hgap, hle⟩
  | cons call rest ih =>
    intro e e' hgap hle hfuture htimes h
    cases call with
    | AppendMassiveBodiesState state =>
      simp only [Ephemeris.RunCalls, Outcome.bind_def, Outcome.bind_eq_returns] at h
      obtain ⟨e1, he1, h⟩ := h
      simp only [AppendedTimes, List.pairwise_cons] at htimes
      have hold : ∀ c ∈ e.intermediate_states_, c.time < state.time :=
        fun c hc => hfuture c hc state.time (by simp [AppendedTimes])
      obtain ⟨hl, hi | ⟨hi, hexceeds, _⟩⟩ := AppendMassiveBodiesState_returns he1
      · refine ih e1 e' (by rw [hi]; exact hgap) ?_ ?_ htimes.2 h
        · rw [hi, hl]
          exact fun c hc => le_of_lt (hold c hc)
        · rw [hi]
          exact fun c hc τ hτ => hfuture c hc τ (by simp [AppendedTimes, hτ])
      · refine ih e1 e' ?_ ?_ ?_ htimes.2 h
        · rw [hi, List.pairwise_append]
          refine ⟨hgap, List.pairwise_singleton _ _, ?_⟩
          intro c hc s hs
          simp only [List.mem_singleton] at hs
          subst hs
          cases hback : e.intermediate_states_.getLast? with
          | none =>
            rw [List.getLast?_eq_none_iff] at hback
            rw [hback] at hc
            cases hc
          | some back =>
            have h1 := le_getLast_of_apart hgap hback c hc
            have h2 := hexceeds back hback
            exact lt_of_lt_of_le h2 (sub_le_sub_left h1 _)
        · rw [hi, hl]
          intro c hc
          rcases List.mem_append.mp hc with h1 | h1
          · exact le_of_lt (hold c h1)
          · simp only [List.mem_singleton] at h1
            rw [h1]
        · rw [hi]
          intro c hc τ hτ
          rcases List.mem_append.mp hc with h1 | h1
          · exact hfuture c h1 τ (by simp [AppendedTimes, hτ])
          · simp only [List.mem_singleton] at h1
            rw [h1]
            exact htimes.1 τ hτ
    | ForgetAfter t =>
      simp only [Ephemeris.RunCalls, Outcome.bind_def, Outcome.bind_eq_returns] at h
      obtain ⟨e1, he1, h⟩ := h
      simp only [AppendedTimes] at htimes hfuture
      obtain ⟨it, hit, h1 | ⟨at_it, hat, _, hl, htake⟩⟩ := ForgetAfter_returns he1
      · rw [h1.2] at h
        exact ih e e' hgap hle hfuture htimes h
      · have hsub : ∀ c ∈ e1.intermediate_states_, c ∈ e.intermediate_states_ := by
          rw [htake]
          exact fun c hc => List.mem_of_mem_take hc
        refine ih e1 e' ?_ ?_ (fun c hc => hfuture c (hsub c hc)) htimes h
        · rw [htake]
          exact hgap.sublist (List.take_sublist _ _)
        · rw [htake, hl]
          intro c hc
          have h1 := lower_bound_take hit c hc
          have h2 : ¬ at_it.time < t := by
            rw [lower_bound_returns hit] at hat
            obtain ⟨hlt, heq⟩ := List.getElem?_eq_some_iff.mp hat
            have := @List.findIdx_getElem _ (fun left : SystemState K => !decide (left.time < t))
              e.intermediate_states_ hlt
            rw [heq] at this
            simpa using this
          exact le_of_lt (lt_of_lt_of_le h1 (not_lt.mp h2))

/-- Claim C25 (invariant of the list of checkpoints).  From an ephemeris without
checkpoint, after any sequence of returning calls of `AppendMassiveBodiesState`
and `ForgetAfter` in which the times of the states appended are strictly
increasing: the checkpoints are in strictly increasing time, any two of them
are more than 180 days apart, each is at or before `last_state_`, and
`std::lower_bound` in `ForgetAfter(t)` is defined and gives either the end or a
checkpoint at or after `t`, so that `CHECK_LE(t, it->time)` holds.  A call of
`AppendMassiveBodiesState` records a checkpoint, the state it is given, only
when the time of that state is the `t_max()` of the first trajectory and, if
there is a checkpoint, more than 180 days after the last one. -/
theorem checkpoint_list_invariant (C : Collaborators K) (calls : List (CheckpointCall K))
    (e e' : Ephemeris K) (hempty : e.intermediate_states_ = [])
    (htimes : (AppendedTimes calls).Pairwise (fun a b => a < b))
    (hrun : e.RunCalls C calls = .returns e') :
    e'.intermediate_states_.Pairwise (fun a b => a.time < b.time) ∧
    e'.intermediate_states_.Pairwise
      (fun a b => b.time - a.time > kMaxTimeBetweenIntermediateStates) ∧
    (∀ c ∈ e'.intermediate_states_, c.time ≤ e'.last_state_.time) ∧
    (∀ t, ∃ it, lower_bound e'.intermediate_states_ t = .returns it ∧
      (it = e'.intermediate_states_.length ∨
        ∃ at_it, e'.intermediate_states_[it]? = some at_it ∧ t ≤ at_it.time)) ∧
    (∀ (e0 e1 : Ephemeris K) (state : SystemState K),
      e0.AppendMassiveBodiesState C state = .returns e1 →
      e1.intermediate_states_ = e0.intermediate_states_ ∨
      (e1.intermediate_states_ = e0.intermediate_states_ ++ [state] ∧
        (∀ back, e0.intermediate_states_.getLast? = some back →
          state.time - back.time > kMaxTimeBetweenIntermediateStates) ∧
        ∃ front trajectory, e1.trajectories_.head? = some front ∧
          FindOrDie e1.bodies_to_trajectories_ front = .returns trajectory ∧
          C.t_max trajectory = (state.time : WithBot Instant))) := by
  obtain ⟨hgap, hle⟩ := RunCalls_checkpoints C calls e e'
    (by rw [hempty]; exact List.Pairwise.nil)
    (by rw [hempty]; intro c hc; cases hc)
    (by rw [hempty]; intro c hc; cases hc) htimes hrun
  have hsorted := sorted_of_apart hgap
  refine ⟨hsorted, hgap, hle, ?_, fun e0 e1 state h => (AppendMassiveBodiesState_returns h).2⟩
  intro t
  obtain ⟨hlb, _⟩ := lower_bound_sorted e'.intermediate_states_ t hsorted
  refine ⟨_, hlb, ?_⟩
  by_cases hlen : e'.intermediate_states_.findIdx (fun left => !decide (left.time < t)) =
      e'.intermediate_states_.length
  · exact Or.inl hlen
  · have hlt : e'.intermediate_states_.findIdx (fun left => !decide (left.time < t)) <
        e'.intermediate_states_.length :=
      lt_of_le_of_ne (List.findIdx_le_length _) hlen
    refine Or.inr ⟨_, List.getElem?_eq_getElem hlt, ?_⟩
    have := @List.findIdx_getElem _ (fun left : SystemState K => !decide (left.time < t))
      e'.intermediate_states_ hlt
    simpa using this

end physics

end Principia

namespace Principia

namespace physics

variable {K : Type}

/-! ## The apsides -/

theorem DiscreteTrajectory.Append_pushes [LinearOrderedField K]
    {trajectory appended : DiscreteTrajectory K} {time : K} {dof : DegreesOfFreedom K}
    (h : trajectory.Append time dof = .returns appended) :
    appended = trajectory ++ [(time, dof)] := by
  unfold DiscreteTrajectory.Append at h
  cases hl : trajectory.getLast? with
  | none => rw [hl] at h; simpa using h.symm
  | some last =>
    rw [hl] at h
    by_cases hlt : last.1 < time
    · simpa [hlt] using h.symm
    · simp [hlt] at h

theorem DiscreteTrajectory.Append_of_lt [LinearOrderedField K]
    (trajectory : DiscreteTrajectory K) (time : K) (dof : DegreesOfFreedom K)
    (h : ∀ x ∈ trajectory, x.1 < time) :
    trajectory.Append time dof = .returns (trajectory ++ [(time, dof)]) := by
  unfold DiscreteTrajectory.Append
  cases hl : trajectory.getLast? with
  | none => rfl
  | some last =>
    have hmem : last ∈ trajectory := List.mem_of_mem_getLast? hl
    simp [h last hmem]

theorem ApsidesStep_first [LinearOrderedField K] (A : ApsidesCollaborators K)
    (body_trajectory : ContinuousTrajectory K) (it : K × DegreesOfFreedom K)
    (apoapsides periapsides : DiscreteTrajectory K)
    (appended : List (Bool × K × DegreesOfFreedom K)) :
    ApsidesStep A body_trajectory
      { previous_time := none, previous_degrees_of_freedom := none,
        previous_squared_distance := none, previous_squared_distance_derivative := none,
        apoapsides := apoapsides, periapsides := periapsides, appended := appended } it =
      .returns (ApsidesState.after A body_trajectory it apoapsides periapsides appended) := by
  simp [ApsidesStep, ApsidesState.after]

theorem ApsidesStep_after [LinearOrderedField K] (A : ApsidesCollaborators K)
    (body_trajectory : ContinuousTrajectory K) (p it : K × DegreesOfFreedom K)
    (apoapsides periapsides : DiscreteTrajectory K)
    (appended : List (Bool × K × DegreesOfFreedom K)) :
    ApsidesStep A body_trajectory
      (ApsidesState.after A body_trajectory p apoapsides periapsides appended) it =
      if Sign (SquaredDistanceDerivative A body_trajectory it) ≠
          Sign (SquaredDistanceDerivative A body_trajectory p) then
        if SquaredDistanceDerivative A body_trajectory it < 0 then
          (apoapsides.Append (Apsis A body_trajectory (p, it)).2.1
            (Apsis A body_trajectory (p, it)).2.2).bind (fun apoapsides1 =>
              .returns (ApsidesState.after A body_trajectory it apoapsides1 periapsides
                (appended ++ [Apsis A body_trajectory (p, it)])))
        else
          (periapsides.Append (Apsis A body_trajectory (p, it)).2.1
            (Apsis A body_trajectory (p, it)).2.2).bind (fun periapsides1 =>
              .returns (ApsidesState.after A body_trajectory it apoapsides periapsides1
                (appended ++ [Apsis A body_trajectory (p, it)])))
      else
        .returns (ApsidesState.after A body_trajectory it apoapsides periapsides appended) := by
  by_cases hs : Sign (SquaredDistanceDerivative A body_trajectory it) =
      Sign (SquaredDistanceDerivative A body_trajectory p)
  · simp [ApsidesStep, ApsidesState.after, hs]
  · by_cases hn : SquaredDistanceDerivative A body_trajectory it < 0
    · have hneg : Sign.Negative (Sign (SquaredDistanceDerivative A body_trajectory it)) = true := by
        simp [Sign.Negative, Sign, hn]
      simp only [ApsidesStep, ApsidesState.after, Outcome.ofOption, bne_iff_ne, ne_eq, hs,
        not_false_eq_true, if_true, hneg, hn, Outcome.bind_def, Outcome.pure_def,
        Outcome.returns_bind, Apsis, decide_True]
      generalize DiscreteTrajectory.Append apoapsides _ _ = r
      cases r <;> rfl
    · have hneg : Sign.Negative (Sign (SquaredDistanceDerivative A body_trajectory it)) = false := by
        simp [Sign.Negative, Sign, hn]
      simp only [ApsidesStep, ApsidesState.after, Outcome.ofOption, bne_iff_ne, ne_eq, hs,
        not_false_eq_true, if_true, hneg, hn, Outcome.bind_def, Outcome.pure_def,
        Outcome.returns_bind, Apsis, decide_False, if_false, Bool.false_eq_true]
      generalize DiscreteTrajectory.Append periapsides _ _ = r
      cases r <;> rfl

theorem SignChanges_cons_cons [LinearOrderedField K] (A : ApsidesCollaborators K)
    (body_trajectory : ContinuousTrajectory K) (p s : K × DegreesOfFreedom K)
    (rest : DiscreteTrajectory K) :
    SignChanges A body_trajectory (p :: s :: rest) =
      if Sign (SquaredDistanceDerivative A body_trajectory s) ≠
          Sign (SquaredDistanceDerivative A body_trajectory p) then
        (p, s) :: SignChanges A body_trajectory (s :: rest)
      else SignChanges A body_trajectory (s :: rest) := by
  by_cases hs : Sign (SquaredDistanceDerivative A body_trajectory s) =
      Sign (SquaredDistanceDerivative A body_trajectory p)
  · simp [SignChanges, hs]
  · simp [SignChanges, hs]

theorem SignChanges_singleton [LinearOrderedField K] (A : ApsidesCollaborators K)
    (body_trajectory : ContinuousTrajectory K) (p : K × DegreesOfFreedom K) :
    SignChanges A body_trajectory [p] = [] := by
  simp [SignChanges]

end physics

end Principia

namespace Principia

namespace physics

variable {K : Type}

/-- What the loop of `ComputeApsides` has done when it returns from a state in
which a point has been seen: it has called `Append` once for each later pair of
adjacent points at which the sign changes, in the order of the pairs, on the
output that the sign at the later point designates. -/
theorem ApsidesLoop_returns [LinearOrderedField K] (A : ApsidesCollaborators K)
    (body_trajectory : ContinuousTrajectory K) :
    ∀ (rest : DiscreteTrajectory K) (p : K × DegreesOfFreedom K)
      (apoapsides periapsides : DiscreteTrajectory K)
      (appended : List (Bool × K × DegreesOfFreedom K)) (s : ApsidesState K),
      rest.foldlM (ApsidesStep A body_trajectory)
        (ApsidesState.after A body_trajectory p apoapsides periapsides appended) = .returns s →
      s.appended = appended ++
        (SignChanges A body_trajectory (p :: rest)).map (Apsis A body_trajectory) ∧
      s.apoapsides = apoapsides ++
        (((SignChanges A body_trajectory (p :: rest)).map (Apsis A body_trajectory)).filter
          (fun c => c.1)).map (fun c => c.2) ∧
      s.periapsides = periapsides ++
        (((SignChanges A body_trajectory (p :: rest)).map (Apsis A body_trajectory)).filter
          (fun c => !c.1)).map (fun c => c.2) := by
  intro rest
  induction rest with
  | nil =>
    intro p apo peri app s h
    simp only [List.foldlM_nil, Outcome.pure_def, Outcome.returns.injEq] at h
    subst h
    simp [SignChanges_singleton, ApsidesState.after]
  | cons x rest ih =>
    intro p apo peri app s h
    simp only [List.foldlM_cons, Outcome.bind_def] at h
    rw [ApsidesStep_after, SignChanges_cons_cons] at *
    by_cases hs : Sign (SquaredDistanceDerivative A body_trajectory x) =
        Sign (SquaredDistanceDerivative A body_trajectory p)
    · simp only [ne_eq, hs, not_true_eq_false, if_false, Outcome.returns_bind] at h ⊢
      exact ih x apo peri app s h
    · simp only [ne_eq, hs, not_false_eq_true, if_true] at h ⊢
      by_cases hn : SquaredDistanceDerivative A body_trajectory x < 0
      · simp only [hn, if_true, Outcome.bind_eq_returns] at h
        obtain ⟨s1, ⟨apo1, happ, hs1⟩, h⟩ := h
        cases hs1
        have := DiscreteTrajectory.Append_pushes happ
        subst this
        obtain ⟨h1, h2, h3⟩ := ih x _ peri _ s h
        have hk : (Apsis A body_trajectory (p, x)).1 = true := by simp [Apsis, hn]
        refine ⟨?_, ?_, ?_⟩
        · rw [h1]; simp
        · rw [h2]; simp [hk]
        · rw [h3]; simp [hk]
      · simp only [hn, if_false, Outcome.bind_eq_returns] at h
        obtain ⟨s1, ⟨peri1, happ, hs1⟩, h⟩ := h
        cases hs1
        have := DiscreteTrajectory.Append_pushes happ
        subst this
        obtain ⟨h1, h2, h3⟩ := ih x apo _ _ s h
        have hk : (Apsis A body_trajectory (p, x)).1 = false := by simp [Apsis, hn]
        refine ⟨?_, ?_, ?_⟩
        · rw [h1]; simp
        · rw [h2]; simp [hk]
        · rw [h3]; simp [hk]

/-- What `ComputeApsides` has done when it returns. -/
theorem ComputeApsides_returns [LinearOrderedField K] (A : ApsidesCollaborators K)
    (e : Ephemeris K) (body : MassiveBody K) (body_trajectory : ContinuousTrajectory K)
    (range apoapsides periapsides : DiscreteTrajectory K)
    (result : DiscreteTrajectory K × DiscreteTrajectory K × List (Bool × K × DegreesOfFreedom K))
    (hbody : e.trajectory body = .returns body_trajectory)
    (h : e.ComputeApsides A body range apoapsides periapsides = .returns result) :
    result.2.2 = (SignChanges A body_trajectory range).map (Apsis A body_trajectory) ∧
    result.1 = apoapsides ++ (result.2.2.filter (fun c => c.1)).map (fun c => c.2) ∧
    result.2.1 = periapsides ++ (result.2.2.filter (fun c => !c.1)).map (fun c => c.2) := by
  unfold Ephemeris.ComputeApsides at h
  rw [hbody] at h
  simp only [Outcome.bind_def, Outcome.returns_bind, Outcome.bind_eq_returns] at h
  obtain ⟨s, hloop, h⟩ := h
  cases h
  cases range with
  | nil =>
    simp only [List.foldlM_nil, Outcome.pure_def, Outcome.returns.injEq] at hloop
    subst hloop
    simp [SignChanges]
  | cons p rest =>
    simp only [List.foldlM_cons, Outcome.bind_def] at hloop
    rw [ApsidesStep_first] at hloop
    simp only [Outcome.returns_bind] at hloop
    obtain ⟨h1, h2, h3⟩ := ApsidesLoop_returns A body_trajectory rest p _ _ _ s hloop
    simp only [List.nil_append] at h1
    refine ⟨h1, ?_, ?_⟩
    · show s.apoapsides = _
      rw [h2, h1]
    · show s.periapsides = _
      rw [h3, h1]

/-- The signs alternate along the pairs of adjacent points at which the sign
changes. -/
theorem SignChanges_chain [LinearOrderedField K] (A : ApsidesCollaborators K)
    (body_trajectory : ContinuousTrajectory K) :
    ∀ (rest : DiscreteTrajectory K) (p : K × DegreesOfFreedom K),
      List.Chain (fun a b => a ≠ b) (Sign (SquaredDistanceDerivative A body_trajectory p))
        (((SignChanges A body_trajectory (p :: rest)).map (Apsis A body_trajectory)).map
          (fun c => c.1)) := by
  intro rest
  induction rest with
  | nil => intro p; simp [SignChanges_singleton]
  | cons x rest ih =>
    intro p
    rw [SignChanges_cons_cons]
    by_cases hs : Sign (SquaredDistanceDerivative A body_trajectory x) =
        Sign (SquaredDistanceDerivative A body_trajectory p)
    · simp only [ne_eq, hs, not_true_eq_false, if_false]
      rw [← hs]
      exact ih x
    · simp only [ne_eq, hs, not_false_eq_true, if_true, List.map_cons]
      refine List.Chain.cons ?_ (ih x)
      exact fun h => hs h.symm

theorem SignChanges_alternate [LinearOrderedField K] (A : ApsidesCollaborators K)
    (body_trajectory : ContinuousTrajectory K) (range : DiscreteTrajectory K) :
    List.Chain' (fun a b => a ≠ b)
      (((SignChanges A body_trajectory range).map (Apsis A body_trajectory)).map
        (fun c => c.1)) := by
  cases range with
  | nil => simp [SignChanges]
  | cons p rest =>
    have h := SignChanges_chain A body_trajectory rest p
    have h2 : List.Chain' (fun a b => a ≠ b)
        (Sign (SquaredDistanceDerivative A body_trajectory p) ::
          (((SignChanges A body_trajectory (p :: rest)).map (Apsis A body_trajectory)).map
            (fun c => c.1))) := h
    exact h2.tail

end physics

end Principia

namespace Principia

namespace physics

variable {K : Type}

theorem Sign_ne_iff [LinearOrderedField K] (a b : K) :
    Sign a ≠ Sign b ↔ (a < 0 ∧ ¬ b < 0) ∨ (¬ a < 0 ∧ b < 0) := by
  unfold Sign
  by_cases ha : a < 0 <;> by_cases hb : b < 0 <;> simp [ha, hb]

theorem ValidExtrema_foldl [LinearOrderedField K] (previous_time time : K) :
    ∀ (extrema : List K) (r : K × Int),
      extrema.foldl
        (fun r extremum =>
          if extremum ≥ previous_time ∧ extremum ≤ time then (extremum, r.2 + 1) else r) r =
      (((extrema.filter (fun x => decide (previous_time ≤ x ∧ x ≤ time))).getLast?).getD r.1,
        r.2 + ((extrema.filter (fun x => decide (previous_time ≤ x ∧ x ≤ time))).length : Int)) := by
  intro extrema
  induction extrema with
  | nil => intro r; simp
  | cons x rest ih =>
    intro r
    rw [List.foldl_cons, ih]
    by_cases hx : previous_time ≤ x ∧ x ≤ time
    · have hx' : x ≥ previous_time ∧ x ≤ time := hx
      rw [if_pos hx', List.filter_cons_of_pos (by simpa using hx)]
      simp only [List.length_cons, Nat.cast_add, Nat.cast_one]
      refine Prod.ext ?_ (by simp; ring)
      simp only [List.getLast?_cons, Option.getD_some]
    · have hx' : ¬ (x ≥ previous_time ∧ x ≤ time) := hx
      rw [if_neg hx', List.filter_cons_of_neg (by simpa using hx)]

/-- The count `valid_extrema` is the number of the extrema that are in the
interval, and `apsis_time` is then the last of them, if any. -/
theorem ValidExtrema_eq [LinearOrderedField K] (previous_time time : K) (extrema : List K) :
    ValidExtrema previous_time time extrema =
      (((extrema.filter (fun x => decide (previous_time ≤ x ∧ x ≤ time))).getLast?).getD 0,
        ((extrema.filter (fun x => decide (previous_time ≤ x ∧ x ≤ time))).length : Int)) := by
  unfold ValidExtrema
  rw [ValidExtrema_foldl]
  simp

theorem ValidExtrema_mem [LinearOrderedField K] (previous_time time : K) (extrema : List K)
    (h : (ValidExtrema previous_time time extrema).2 = 1) :
    (ValidExtrema previous_time time extrema).1 ∈ extrema ∧
    previous_time ≤ (ValidExtrema previous_time time extrema).1 ∧
    (ValidExtrema previous_time time extrema).1 ≤ time := by
  rw [ValidExtrema_eq] at h ⊢
  simp only at h ⊢
  cases hl : (extrema.filter (fun x => decide (previous_time ≤ x ∧ x ≤ time))).getLast? with
  | none =>
    rw [List.getLast?_eq_none_iff] at hl
    rw [hl] at h
    simp at h
  | some x =>
    have hmem := List.mem_of_mem_getLast? hl
    rw [List.mem_filter] at hmem
    simpa using hmem

theorem Barycentre_eq [LinearOrderedField K] (previous_time time d_prev d : K)
    (hsign : Sign d ≠ Sign d_prev) :
    d_prev - d ≠ 0 ∧
    Barycentre (time, previous_time) (d_prev, -d) =
      previous_time + (time - previous_time) * d_prev / (d_prev - d) := by
  have hne : d_prev - d ≠ 0 := by
    rcases (Sign_ne_iff d d_prev).mp hsign with ⟨h1, h2⟩ | ⟨h1, h2⟩
    · have : 0 < d_prev - d := by linarith [not_lt.mp h2]
      exact ne_of_gt this
    · have : d_prev - d < 0 := by linarith [not_lt.mp h1]
      exact ne_of_lt this
  refine ⟨hne, ?_⟩
  unfold Barycentre
  have hne' : d_prev + -d ≠ 0 := by simpa [sub_eq_add_neg] using hne
  simp only
  field_simp
  ring

theorem Barycentre_mem [LinearOrderedField K] (previous_time time d_prev d : K)
    (hle : previous_time ≤ time) (hsign : Sign d ≠ Sign d_prev) :
    previous_time ≤ Barycentre (time, previous_time) (d_prev, -d) ∧
    Barycentre (time, previous_time) (d_prev, -d) ≤ time := by
  obtain ⟨hne, heq⟩ := Barycentre_eq previous_time time d_prev d hsign
  rw [heq]
  have h01 : 0 ≤ d_prev / (d_prev - d) ∧ d_prev / (d_prev - d) ≤ 1 := by
    rcases (Sign_ne_iff d d_prev).mp hsign with ⟨h1, h2⟩ | ⟨h1, h2⟩
    · have hpos : 0 < d_prev - d := by linarith [not_lt.mp h2]
      refine ⟨div_nonneg (not_lt.mp h2) hpos.le, ?_⟩
      rw [div_le_one hpos]; linarith
    · have hneg : d_prev - d < 0 := by linarith [not_lt.mp h1]
      refine ⟨div_nonneg_of_nonpos h2.le hneg.le, ?_⟩
      rw [div_le_one_of_neg hneg]; linarith [not_lt.mp h1]
  have hmul : (time - previous_time) * d_prev / (d_prev - d) =
      (time - previous_time) * (d_prev / (d_prev - d)) := by ring
  rw [hmul]
  have h0 : 0 ≤ time - previous_time := by linarith
  constructor
  · nlinarith [mul_nonneg h0 h01.1]
  · nlinarith [mul_le_mul_of_nonneg_left h01.2 h0]

/-- The time of an apsis is between the times of the two points. -/
theorem ApsisTime_mem [LinearOrderedField K] (A : ApsidesCollaborators K)
    (previous_time time q_prev q d_prev d : K)
    (hle : previous_time ≤ time) (hsign : Sign d ≠ Sign d_prev) :
    previous_time ≤ ApsisTime A previous_time time q_prev q d_prev d ∧
    ApsisTime A previous_time time q_prev q d_prev d ≤ time := by
  unfold ApsisTime
  simp only
  split
  · exact Barycentre_mem previous_time time d_prev d hle hsign
  · rename_i h
    have h1 := ValidExtrema_mem previous_time time _ (not_not.mp h)
    exact h1.2

end physics

end Principia

namespace Principia

namespace physics

variable {K : Type}

theorem Apsis_time_mem [LinearOrderedField K] (A : ApsidesCollaborators K)
    (body_trajectory : ContinuousTrajectory K) (p x : K × DegreesOfFreedom K)
    (hle : p.1 ≤ x.1)
    (hsign : Sign (SquaredDistanceDerivative A body_trajectory x) ≠
      Sign (SquaredDistanceDerivative A body_trajectory p)) :
    p.1 ≤ (Apsis A body_trajectory (p, x)).2.1 ∧ (Apsis A body_trajectory (p, x)).2.1 ≤ x.1 :=
  ApsisTime_mem A p.1 x.1 _ _ _ _ hle hsign

/-- On points whose times increase, the loop of `ComputeApsides` returns, and it
keeps the times of each output increasing, when the apsides of the kind that
comes next are all before the last point seen. -/
theorem ApsidesLoop_increasing [LinearOrderedField K] (A : ApsidesCollaborators K)
    (body_trajectory : ContinuousTrajectory K) :
    ∀ (rest : DiscreteTrajectory K) (p : K × DegreesOfFreedom K)
      (apoapsides periapsides : DiscreteTrajectory K)
      (appended : List (Bool × K × DegreesOfFreedom K)),
      (p :: rest).Pairwise (fun a b => a.1 < b.1) →
      apoapsides.Pairwise (fun a b => a.1 < b.1) →
      periapsides.Pairwise (fun a b => a.1 < b.1) →
      (∀ a ∈ apoapsides, a.1 ≤ p.1) →
      (∀ a ∈ periapsides, a.1 ≤ p.1) →
      (SquaredDistanceDerivative A body_trajectory p < 0 → ∀ a ∈ periapsides, a.1 < p.1) →
      (¬ SquaredDistanceDerivative A body_trajectory p < 0 → ∀ a ∈ apoapsides, a.1 < p.1) →
      ∃ s, rest.foldlM (ApsidesStep A body_trajectory)
          (ApsidesState.after A body_trajectory p apoapsides periapsides appended) = .returns s ∧
        s.apoapsides.Pairwise (fun a b => a.1 < b.1) ∧
        s.periapsides.Pairwise (fun a b => a.1 < b.1) := by
  intro rest
  induction rest with
  | nil =>
    intro p apo peri app _ hapo hperi _ _ _ _
    exact ⟨_, rfl, hapo, hperi⟩
  | cons x rest ih =>
    intro p apo peri app hsorted hapo hperi hale hple hneg hpos
    have hpx : p.1 < x.1 := (List.pairwise_cons.mp hsorted).1 x (List.mem_cons_self _ _)
    have hrest : (x :: rest).Pairwise (fun a b => a.1 < b.1) := (List.pairwise_cons.mp hsorted).2
    simp only [List.foldlM_cons, Outcome.bind_def]
    rw [ApsidesStep_after]
    by_cases hs : Sign (SquaredDistanceDerivative A body_trajectory x) =
        Sign (SquaredDistanceDerivative A body_trajectory p)
    · simp only [ne_eq, hs, not_true_eq_false, if_false, Outcome.returns_bind]
      have hiff : SquaredDistanceDerivative A body_trajectory x < 0 ↔
          SquaredDistanceDerivative A body_trajectory p < 0 := by
        unfold Sign at hs
        simpa using hs
      exact ih x apo peri app hrest hapo hperi
        (fun a ha => (hale a ha).trans hpx.le) (fun a ha => (hple a ha).trans hpx.le)
        (fun hx a ha => (hneg (hiff.mp hx) a ha).trans hpx)
        (fun hx a ha => (hpos (fun h => hx (hiff.mpr h)) a ha).trans hpx)
    · obtain ⟨hlo, hhi⟩ := Apsis_time_mem A body_trajectory p x hpx.le hs
      simp only [ne_eq, hs, not_false_eq_true, if_true]
      by_cases hn : SquaredDistanceDerivative A body_trajectory x < 0
      · have hp : ¬ SquaredDistanceDerivative A body_trajectory p < 0 := by
          rcases (Sign_ne_iff _ _).mp hs with ⟨_, h2⟩ | ⟨h1, _⟩
          · exact h2
          · exact absurd hn h1
        simp only [hn, if_true]
        rw [DiscreteTrajectory.Append_of_lt apo _ _
          (fun a ha => lt_of_lt_of_le (hpos hp a ha) hlo)]
        simp only [Outcome.returns_bind]
        refine ih x _ peri _ hrest ?_ hperi ?_ (fun a ha => (hple a ha).trans hpx.le)
          (fun _ a ha => lt_of_le_of_lt (hple a ha) hpx) (fun hx => absurd hn hx)
        · rw [List.pairwise_append]
          refine ⟨hapo, List.pairwise_singleton _ _, ?_⟩
          intro a ha b hb
          rw [List.mem_singleton] at hb
          subst hb
          exact lt_of_lt_of_le (hpos hp a ha) hlo
        · intro a ha
          rw [List.mem_append, List.mem_singleton] at ha
          rcases ha with ha | ha
          · exact (hale a ha).trans hpx.le
          · subst ha; exact hhi
      · have hp : SquaredDistanceDerivative A body_trajectory p < 0 := by
          rcases (Sign_ne_iff _ _).mp hs with ⟨h1, _⟩ | ⟨_, h2⟩
          · exact absurd h1 hn
          · exact h2
        simp only [hn, if_false]
        rw [DiscreteTrajectory.Append_of_lt peri _ _
          (fun a ha => lt_of_lt_of_le (hneg hp a ha) hlo)]
        simp only [Outcome.returns_bind]
        refine ih x apo _ _ hrest hapo ?_ (fun a ha => (hale a ha).trans hpx.le) ?_
          (fun hx => absurd hx hn) (fun _ a ha => lt_of_le_of_lt (hale a ha) hpx)
        · rw [List.pairwise_append]
          refine ⟨hperi, List.pairwise_singleton _ _, ?_⟩
          intro a ha b hb
          rw [List.mem_singleton] at hb
          subst hb
          exact lt_of_lt_of_le (hneg hp a ha) hlo
        · intro a ha
          rw [List.mem_append, List.mem_singleton] at ha
          rcases ha with ha | ha
          · exact (hple a ha).trans hpx.le
          · subst ha; exact hhi

/-- On points whose times increase and with empty outputs, `ComputeApsides`
returns, with the times of each output increasing. -/
theorem ComputeApsides_increasing [LinearOrderedField K] (A : ApsidesCollaborators K)
    (e : Ephemeris K) (body : MassiveBody K) (body_trajectory : ContinuousTrajectory K)
    (range : DiscreteTrajectory K)
    (hbody : e.trajectory body = .returns body_trajectory)
    (hsorted : range.Pairwise (fun a b => a.1 < b.1)) :
    ∃ result, e.ComputeApsides A body range [] [] = .returns result ∧
      result.1.Pairwise (fun a b => a.1 < b.1) ∧
      result.2.1.Pairwise (fun a b => a.1 < b.1) := by
  unfold Ephemeris.ComputeApsides
  rw [hbody]
  simp only [Outcome.bind_def, Outcome.returns_bind]
  cases range with
  | nil => exact ⟨_, rfl, List.Pairwise.nil, List.Pairwise.nil⟩
  | cons p rest =>
    simp only [List.foldlM_cons, Outcome.bind_def]
    rw [ApsidesStep_first]
    simp only [Outcome.returns_bind]
    obtain ⟨s, hs, h1, h2⟩ := ApsidesLoop_increasing A body_trajectory rest p [] [] [] hsorted
      List.Pairwise.nil List.Pairwise.nil (by simp) (by simp) (by simp) (by simp)
    rw [hs]
    exact ⟨_, rfl, h1, h2⟩

/-- Every call of `Append` that `ComputeApsides` makes is for a pair of
adjacent points at which the sign changes. -/
theorem SignChanges_mem [LinearOrderedField K] (A : ApsidesCollaborators K)
    (body_trajectory : ContinuousTrajectory K) (range : DiscreteTrajectory K)
    (pair : (K × DegreesOfFreedom K) × (K × DegreesOfFreedom K))
    (h : pair ∈ SignChanges A body_trajectory range) :
    pair ∈ range.zip range.tail ∧
    Sign (SquaredDistanceDerivative A body_trajectory pair.2) ≠
      Sign (SquaredDistanceDerivative A body_trajectory pair.1) := by
  unfold SignChanges at h
  rw [List.mem_filter] at h
  exact ⟨h.1, by simpa using h.2⟩

theorem zip_tail_lt {α : Type} (R : α → α → Prop) :
    ∀ (l : List α), l.Pairwise R → ∀ pair ∈ l.zip l.tail, R pair.1 pair.2 := by
  intro l
  induction l with
  | nil => intro _ pair h; simp at h
  | cons a rest ih =>
    intro hs pair h
    cases rest with
    | nil => simp at h
    | cons b rest =>
      simp only [List.tail_cons, List.zip_cons_cons, List.mem_cons] at h
      rcases h with h | h
      · subst h
        exact (List.pairwise_cons.mp hs).1 b (List.mem_cons_self _ _)
      · exact ih (List.pairwise_cons.mp hs).2 pair (by simpa using h)

end physics

end Principia

namespace Principia

namespace physics

variable {K : Type}

/-- Claim C21. The apsides that `ComputeApsides` emits alternate: on points whose
times increase, as the points of a discrete trajectory do, and with empty
outputs, the call returns, and in the list of its calls of `Append`, taken in
the order in which they were made, no two consecutive calls are on the same
output trajectory; the same holds of every call of `ComputeApsides` that
returns, whatever the points and the outputs. -/
theorem apsides_alternate [LinearOrderedField K] (A : ApsidesCollaborators K)
    (e : Ephemeris K) (body : MassiveBody K) (body_trajectory : ContinuousTrajectory K)
    (range : DiscreteTrajectory K)
    (hbody : e.trajectory body = .returns body_trajectory)
    (hsorted : range.Pairwise (fun a b => a.1 < b.1)) :
    (∃ result, e.ComputeApsides A body range [] [] = .returns result ∧
      List.Chain' (fun a b => a ≠ b) (result.2.2.map (fun c => c.1))) ∧
    (∀ (points apoapsides periapsides : DiscreteTrajectory K) result,
      e.ComputeApsides A body points apoapsides periapsides = .returns result →
      List.Chain' (fun a b => a ≠ b) (result.2.2.map (fun c => c.1)) ∧
      result.1 = apoapsides ++ (result.2.2.filter (fun c => c.1)).map (fun c => c.2) ∧
      result.2.1 = periapsides ++ (result.2.2.filter (fun c => !c.1)).map (fun c => c.2)) := by
  have general : ∀ (points apoapsides periapsides : DiscreteTrajectory K) result,
      e.ComputeApsides A body points apoapsides periapsides = .returns result →
      List.Chain' (fun a b => a ≠ b) (result.2.2.map (fun c => c.1)) ∧
      result.1 = apoapsides ++ (result.2.2.filter (fun c => c.1)).map (fun c => c.2) ∧
      result.2.1 = periapsides ++ (result.2.2.filter (fun c => !c.1)).map (fun c => c.2) := by
    intro points apo peri result h
    obtain ⟨h1, h2, h3⟩ := ComputeApsides_returns A e body body_trajectory points apo peri
      result hbody h
    refine ⟨?_, h2, h3⟩
    rw [h1]
    exact SignChanges_alternate A body_trajectory points
  obtain ⟨result, h, _, _⟩ := ComputeApsides_increasing A e body body_trajectory range hbody
    hsorted
  exact ⟨⟨result, h, (general range [] [] result h).1⟩, general⟩

/-- Claim C22. On points whose times increase and with empty outputs,
`ComputeApsides` returns, and it has called `Append` once for each pair of
adjacent points at which the signs of the derivative of the squared distance
differ, in the order of the pairs, and for nothing else: on `apoapsides` when
the derivative at the later point is negative, on `periapsides` otherwise.  The
derivative is twice the inner product of the relative displacement and the
relative velocity, and the sign is negative below zero only.  Every call of
`ComputeApsides` that returns has made these calls of `Append`. -/
theorem apsis_detection_and_classification [LinearOrderedField K]
    (A : ApsidesCollaborators K) (e : Ephemeris K) (body : MassiveBody K)
    (body_trajectory : ContinuousTrajectory K) (range : DiscreteTrajectory K)
    (hbody : e.trajectory body = .returns body_trajectory)
    (hsorted : range.Pairwise (fun a b => a.1 < b.1)) :
    (∃ result, e.ComputeApsides A body range [] [] = .returns result ∧
      result.2.2 = ((range.zip range.tail).filter (fun pair =>
        Sign (SquaredDistanceDerivative A body_trajectory pair.2) !=
          Sign (SquaredDistanceDerivative A body_trajectory pair.1))).map
        (Apsis A body_trajectory) ∧
      result.1 = (result.2.2.filter (fun c => c.1)).map (fun c => c.2) ∧
      result.2.1 = (result.2.2.filter (fun c => !c.1)).map (fun c => c.2)) ∧
    (∀ (points apoapsides periapsides : DiscreteTrajectory K) result,
      e.ComputeApsides A body points apoapsides periapsides = .returns result →
      result.2.2 = ((points.zip points.tail).filter (fun pair =>
        Sign (SquaredDistanceDerivative A body_trajectory pair.2) !=
          Sign (SquaredDistanceDerivative A body_trajectory pair.1))).map
        (Apsis A body_trajectory) ∧
      result.1 = apoapsides ++ (result.2.2.filter (fun c => c.1)).map (fun c => c.2) ∧
      result.2.1 = periapsides ++ (result.2.2.filter (fun c => !c.1)).map (fun c => c.2)) ∧
    (∀ pair, ((Apsis A body_trajectory pair).1 = true ↔
      SquaredDistanceDerivative A body_trajectory pair.2 < 0)) ∧
    (∀ it : K × DegreesOfFreedom K, SquaredDistanceDerivative A body_trajectory it =
      2 * InnerProduct
        (it.2.position - (A.EvaluateDegreesOfFreedom body_trajectory it.1).position)
        (it.2.velocity - (A.EvaluateDegreesOfFreedom body_trajectory it.1).velocity)) ∧
    (∀ x : K, (Sign x = true ↔ x < 0)) ∧ Sign (0 : K) = false := by
  have general := fun (points apo peri : DiscreteTrajectory K) result h =>
    ComputeApsides_returns A e body body_trajectory points apo peri result hbody h
  obtain ⟨result, h, _, _⟩ := ComputeApsides_increasing A e body body_trajectory range hbody
    hsorted
  refine ⟨⟨result, h, ?_⟩, general, ?_, fun _ => rfl, ?_, ?_⟩
  · simpa using general range [] [] result h
  · intro pair; simp [Apsis]
  · intro x; simp [Sign]
  · simp [Sign]

/-- Claim C23. For two points at the times `t_prev < t` at which the derivatives
`d_prev` and `d` of the squared distance have different signs, the time of the
apsis that `ComputeApsides` uses is in the interval from `t_prev` to `t`.  The
count `valid_extrema` is the number of the extrema found that are in that
interval; when it is not one, the time is `Barycentre({t, t_prev}, {d_prev,
-d})`, which is `t_prev + (t - t_prev) * d_prev / (d_prev - d)`, where the
denominator is not zero, and where the linear interpolant of the derivative
vanishes.  Every call of `Append` of a call of `ComputeApsides` that returns is
at such a time for two adjacent points. -/
theorem apsis_time_in_bracket [LinearOrderedField K] (A : ApsidesCollaborators K)
    (t_prev t q_prev q d_prev d : K) (hlt : t_prev < t) (hsign : Sign d ≠ Sign d_prev) :
    t_prev ≤ ApsisTime A t_prev t q_prev q d_prev d ∧
    ApsisTime A t_prev t q_prev q d_prev d ≤ t ∧
    (ValidExtrema t_prev t (A.FindExtrema (t_prev, t) (q_prev, q) (d_prev, d))).2 =
      (((A.FindExtrema (t_prev, t) (q_prev, q) (d_prev, d)).filter
        (fun x => decide (t_prev ≤ x ∧ x ≤ t))).length : Int) ∧
    ((ValidExtrema t_prev t (A.FindExtrema (t_prev, t) (q_prev, q) (d_prev, d))).2 ≠ 1 →
      ApsisTime A t_prev t q_prev q d_prev d = Barycentre (t, t_prev) (d_prev, -d)) ∧
    d_prev - d ≠ 0 ∧
    Barycentre (t, t_prev) (d_prev, -d) = t_prev + (t - t_prev) * d_prev / (d_prev - d) ∧
    d_prev + (d - d_prev) * ((Barycentre (t, t_prev) (d_prev, -d) - t_prev) / (t - t_prev)) = 0 ∧
    (∀ (e : Ephemeris K) (body : MassiveBody K) (body_trajectory : ContinuousTrajectory K)
      (range apoapsides periapsides : DiscreteTrajectory K) result,
      e.trajectory body = .returns body_trajectory →
      range.Pairwise (fun a b => a.1 < b.1) →
      e.ComputeApsides A body range apoapsides periapsides = .returns result →
      ∀ call ∈ result.2.2, ∃ pair ∈ range.zip range.tail,
        Sign (SquaredDistanceDerivative A body_trajectory pair.2) ≠
          Sign (SquaredDistanceDerivative A body_trajectory pair.1) ∧
        call.2.1 = ApsisTime A pair.1.1 pair.2.1
          (SquaredDistance A body_trajectory pair.1) (SquaredDistance A body_trajectory pair.2)
          (SquaredDistanceDerivative A body_trajectory pair.1)
          (SquaredDistanceDerivative A body_trajectory pair.2) ∧
        pair.1.1 ≤ call.2.1 ∧ call.2.1 ≤ pair.2.1) := by
  obtain ⟨hne, heq⟩ := Barycentre_eq t_prev t d_prev d hsign
  obtain ⟨hlo, hhi⟩ := ApsisTime_mem A t_prev t q_prev q d_prev d hlt.le hsign
  refine ⟨hlo, hhi, ?_, ?_, hne, heq, ?_, ?_⟩
  · rw [ValidExtrema_eq]
  · intro h
    unfold ApsisTime
    simp only
    rw [if_pos h]
  · rw [heq]
    have ht : t - t_prev ≠ 0 := sub_ne_zero.mpr (ne_of_gt hlt)
    field_simp
    ring
  · intro e body body_trajectory range apo peri result hbody hsorted h call hcall
    obtain ⟨h1, _, _⟩ := ComputeApsides_returns A e body body_trajectory range apo peri
      result hbody h
    rw [h1, List.mem_map] at hcall
    obtain ⟨pair, hpair, rfl⟩ := hcall
    obtain ⟨hzip, hs⟩ := SignChanges_mem A body_trajectory range pair hpair
    have hle := zip_tail_lt (fun a b : K × DegreesOfFreedom K => a.1 < b.1) range hsorted
      pair hzip
    refine ⟨pair, hzip, hs, rfl, ?_⟩
    exact ApsisTime_mem A pair.1.1 pair.2.1 _ _ _ _ (le_of_lt hle) hs

namespace Example

/-- The kinds of the apsides of the example, in the order of emission: a
periapsis, an apoapsis and a periapsis. -/
theorem probe_apsides_kinds :
    (SignChanges apsides_collaborators (trajectory_from 0) probe_range).map
      (fun pair => (Apsis apsides_collaborators (trajectory_from 0) pair).1) =
      [false, true, false] := by
  norm_num [SignChanges, probe_range, Apsis, Sign, SquaredDistanceDerivative,
    apsides_collaborators, at_rest, InnerProduct]

/-- The times of the apsides of the example: the first two by the linear
interpolation, the third as the one extremum found. -/
theorem probe_apsides_times :
    (SignChanges apsides_collaborators (trajectory_from 0) probe_range).map
      (fun pair => (Apsis apsides_collaborators (trajectory_from 0) pair).2.1) =
      [2 / 3, 12 / 5, 7 / 2] := by
  norm_num [SignChanges, probe_range, Apsis, Sign, SquaredDistanceDerivative,
    apsides_collaborators, at_rest, InnerProduct, ApsisTime, ValidExtrema, Barycentre,
    SquaredDistance]

theorem apsides_alternate_witness :
    spherical_system.trajectory sun = .returns (trajectory_from 0) ∧
    probe_range.Pairwise (fun a b => a.1 < b.1) ∧
    ((∃ result, spherical_system.ComputeApsides apsides_collaborators sun probe_range [] [] =
        .returns result ∧
      List.Chain' (fun a b => a ≠ b) (result.2.2.map (fun c => c.1))) ∧
    (∀ (points apoapsides periapsides : DiscreteTrajectory ℚ) result,
      spherical_system.ComputeApsides apsides_collaborators sun points apoapsides periapsides =
        .returns result →
      List.Chain' (fun a b => a ≠ b) (result.2.2.map (fun c => c.1)) ∧
      result.1 = apoapsides ++ (result.2.2.filter (fun c => c.1)).map (fun c => c.2) ∧
      result.2.1 = periapsides ++ (result.2.2.filter (fun c => !c.1)).map (fun c => c.2))) :=
  ⟨by decide, by norm_num [probe_range],
    apsides_alternate apsides_collaborators spherical_system sun (trajectory_from 0) probe_range
      (by decide) (by norm_num [probe_range])⟩

theorem apsis_detection_and_classification_witness :
    spherical_system.trajectory sun = .returns (trajectory_from 0) ∧
    probe_range.Pairwise (fun a b => a.1 < b.1) ∧
    ∃ result, spherical_system.ComputeApsides apsides_collaborators sun probe_range [] [] =
        .returns result ∧
      result.2.2 = ((probe_range.zip probe_range.tail).filter (fun pair =>
        Sign (SquaredDistanceDerivative apsides_collaborators (trajectory_from 0) pair.2) !=
          Sign (SquaredDistanceDerivative apsides_collaborators (trajectory_from 0) pair.1))).map
        (Apsis apsides_collaborators (trajectory_from 0)) ∧
      result.1 = (result.2.2.filter (fun c => c.1)).map (fun c => c.2) ∧
      result.2.1 = (result.2.2.filter (fun c => !c.1)).map (fun c => c.2) :=
  ⟨by decide, by norm_num [probe_range],
    (apsis_detection_and_classification apsides_collaborators spherical_system sun
      (trajectory_from 0) probe_range (by decide) (by norm_num [probe_range])).1⟩

theorem apsis_time_in_bracket_witness :
    (0 : ℚ) < 1 ∧ Sign (2 : ℚ) ≠ Sign (-4 : ℚ) ∧
    (0 : ℚ) ≤ ApsisTime apsides_collaborators 0 1 4 1 (-4) 2 ∧
    ApsisTime apsides_collaborators 0 1 4 1 (-4) 2 ≤ 1 ∧
    Barycentre ((1 : ℚ), (0 : ℚ)) (-4, -2) = 0 + (1 - 0) * (-4) / (-4 - 2) :=
  have h := apsis_time_in_bracket apsides_collaborators 0 1 4 1 (-4) 2 (by norm_num)
    (by simp [Sign])
  ⟨by norm_num, by simp [Sign], h.1, h.2.1, h.2.2.2.2.2.1⟩

end Example

end physics

end Principia

namespace Principia

namespace physics

variable {K : Type}

/-! ## The effect of a pair of bodies -/

theorem InnerProduct_neg_neg [Field K] (v : Vector K) :
    InnerProduct (-v) (-v) = InnerProduct v v := by
  obtain ⟨x, y, z⟩ := v
  simp only [InnerProduct, Prod.neg_mk]
  ring

/-- The function `Order2ZonalEffect` is odd in `r`. -/
theorem Order2ZonalEffect_neg [Field K] (body : OblateBody K) (r : Vector K) (s c : K) :
    Order2ZonalEffect body (-r) s c = -Order2ZonalEffect body r s c := by
  obtain ⟨x, y, z⟩ := r
  obtain ⟨J, a, b, d⟩ := body
  simp only [Order2ZonalEffect, InnerProduct]
  ext
  · simp
    ring
  · simp
    ring
  · simp
    ring

theorem ZonalEffect_neg [Field K] (Sqrt : K → K) (body : MassiveBody K) (Δq : Vector K) :
    ZonalEffect Sqrt body (-Δq) = -ZonalEffect Sqrt body Δq := by
  unfold ZonalEffect
  cases body.oblateness with
  | none => simp
  | some oblate => simp only [InnerProduct_neg_neg, Order2ZonalEffect_neg]

/-- The effect of a pair is odd in the displacement. -/
theorem PairEffect_neg [Field K] (Sqrt : K → K) (body1 body2 : MassiveBody K) (Δq : Vector K) :
    PairEffect Sqrt body1 body2 (-Δq) = -PairEffect Sqrt body1 body2 Δq := by
  unfold PairEffect
  rw [ZonalEffect_neg, ZonalEffect_neg, InnerProduct_neg_neg, smul_neg]
  abel

/-- The effect of a pair does not depend on the order of the two bodies. -/
theorem PairEffect_comm [Field K] (Sqrt : K → K) (body1 body2 : MassiveBody K) (Δq : Vector K) :
    PairEffect Sqrt body1 body2 Δq = PairEffect Sqrt body2 body1 Δq := by
  unfold PairEffect
  abel

/-- The body of the loop, when the template parameters tell which bodies are
oblate. -/
theorem PairStep_effect [Field K] (Sqrt : K → K) (io1 io2 : Bool) (body1 body2 : MassiveBody K)
    (b1 : Nat) (bodies2 : List (MassiveBody K)) (b2_begin : Nat)
    (positions acc : List (Vector K)) (b2 : Nat) (a1 a2 q1 q2 : Vector K)
    (ha1 : acc[b1]? = some a1) (ha2 : acc[b2]? = some a2)
    (hbody2 : bodies2[b2 - b2_begin]? = some body2)
    (hq1 : positions[b1]? = some q1) (hq2 : positions[b2]? = some q2)
    (ho1 : io1 = body1.is_oblate) (ho2 : io2 = body2.is_oblate) :
    PairStep Sqrt io1 io2 body1 b1 bodies2 b2_begin positions acc b2 =
      .returns ((acc.set b1 (a1 - body2.gravitational_parameter •
          PairEffect Sqrt body1 body2 (q1 - q2))).set b2
        (a2 + body1.gravitational_parameter • PairEffect Sqrt body1 body2 (q1 - q2))) := by
  unfold PairStep
  simp only [ha1, ha2, hbody2, hq1, hq2, Outcome.ofOption, Outcome.bind_def, Outcome.returns_bind]
  subst ho1 ho2
  unfold PairEffect ZonalEffect MassiveBody.is_oblate MassiveBody.as_oblate
  cases h1 : body1.oblateness <;> cases h2 : body2.oblateness <;>
    simp [Outcome.ofOption, ApplyEffect, mul_smul, smul_add, sub_sub, add_assoc]

end physics

end Principia

namespace Principia

namespace physics

variable {K : Type}

/-! ## The kernel on all the bodies, body by body -/

theorem is_oblate_at {e : Ephemeris K} (hc : e.KernelConsistent) {b : Nat} {body : MassiveBody K}
    (h : e.bodies_[b]? = some body) :
    decide (b < e.number_of_oblate_bodies_) = body.is_oblate := by
  obtain ⟨hb, hno, _, ho, hs⟩ := hc
  rw [hb] at h
  by_cases hlt : b < e.number_of_oblate_bodies_
  · rw [List.getElem?_append_left (by omega)] at h
    rw [ho body (List.mem_iff_getElem?.mpr ⟨b, h⟩)]
    simp [hlt]
  · rw [List.getElem?_append_right (by omega)] at h
    rw [hs body (List.mem_iff_getElem?.mpr ⟨_, h⟩)]
    simp [hlt]

theorem Contribution_of_ne [Field K] (Sqrt : K → K) (e : Ephemeris K)
    (positions : List (Vector K)) (b1 b2 i : Nat) (h1 : i ≠ b1) (h2 : i ≠ b2) :
    Ephemeris.Contribution Sqrt e positions b1 b2 i = 0 := by
  unfold Ephemeris.Contribution
  cases e.bodies_[b1]? <;> cases e.bodies_[b2]? <;> simp [h1, h2]

/-- The visit of a pair adds the contribution of the pair. -/
theorem VisitPair_contribution [Field K] (Sqrt : K → K) (e : Ephemeris K)
    (hc : e.KernelConsistent) (positions acc : List (Vector K))
    (hpos : positions.length = e.bodies_.length) (hacc : acc.length = e.bodies_.length)
    (pair : Nat × Nat) (hp : pair ∈ e.VisitedPairs) :
    ∃ acc', e.VisitPair Sqrt positions acc pair = .returns acc' ∧
      acc'.length = e.bodies_.length ∧
      ∀ i, acc'.getD i 0 =
        acc.getD i 0 + Ephemeris.Contribution Sqrt e positions pair.1 pair.2 i := by
  obtain ⟨b1, b2⟩ := pair
  have hm := (mem_VisitedPairs e b1 b2).mp hp
  have hN : e.bodies_.length = e.number_of_oblate_bodies_ + e.number_of_spherical_bodies_ := by
    obtain ⟨hb, hno, hns, _, _⟩ := hc
    rw [hb, List.length_append, hno, hns]
  have h1 : b1 < e.bodies_.length := by omega
  have h2 : b2 < e.bodies_.length := by omega
  have hX := PairStep_effect Sqrt (decide (b1 < e.number_of_oblate_bodies_))
    (decide (b2 < e.number_of_oblate_bodies_)) e.bodies_[b1] e.bodies_[b2] b1 e.bodies_ 0
    positions acc b2 acc[b1] acc[b2] positions[b1] positions[b2]
    (List.getElem?_eq_getElem _) (List.getElem?_eq_getElem _)
    (by rw [Nat.sub_zero]; exact List.getElem?_eq_getElem _)
    (List.getElem?_eq_getElem _) (List.getElem?_eq_getElem _)
    (is_oblate_at hc (List.getElem?_eq_getElem h1))
    (is_oblate_at hc (List.getElem?_eq_getElem h2))
  refine ⟨(acc.set b1 (acc[b1] - e.bodies_[b2].gravitational_parameter •
      PairEffect Sqrt e.bodies_[b1] e.bodies_[b2] (positions[b1] - positions[b2]))).set b2
    (acc[b2] + e.bodies_[b1].gravitational_parameter •
      PairEffect Sqrt e.bodies_[b1] e.bodies_[b2] (positions[b1] - positions[b2])), ?_, ?_, ?_⟩
  · unfold Ephemeris.VisitPair
    simp only [List.getElem?_eq_getElem h1, Outcome.ofOption, Outcome.bind_def,
      Outcome.returns_bind]
    exact hX
  · simp [hacc]
  · intro i
    have hq1 : positions.getD b1 0 = positions[b1] := by
      rw [List.getD_eq_getElem?_getD, List.getElem?_eq_getElem (by omega)]; rfl
    have hq2 : positions.getD b2 0 = positions[b2] := by
      rw [List.getD_eq_getElem?_getD, List.getElem?_eq_getElem (by omega)]; rfl
    rw [getD_set_set _ _ _ _ _ _ _ (by omega) (by omega)]
    unfold Ephemeris.Contribution
    simp only [List.getElem?_eq_getElem h1, List.getElem?_eq_getElem h2, hq1, hq2]
    have hne : b2 ≠ b1 := by omega
    by_cases hi2 : i = b2
    · subst hi2
      have ha : acc.getD i 0 = acc[i] := by
        rw [List.getD_eq_getElem?_getD, List.getElem?_eq_getElem (by omega)]; rfl
      rw [ha]
      simp [hne]
    · by_cases hi1 : i = b1
      · subst hi1
        have ha : acc.getD i 0 = acc[i] := by
          rw [List.getD_eq_getElem?_getD, List.getElem?_eq_getElem (by omega)]; rfl
        rw [ha]
        simp [hi2, sub_eq_add_neg]
      · simp [hi1, hi2]

/-- The loop over pairs that are visited adds their contributions. -/
theorem foldlM_VisitPair_contribution [Field K] (Sqrt : K → K) (e : Ephemeris K)
    (hc : e.KernelConsistent)
    (positions : List (Vector K)) (hpos : positions.length = e.bodies_.length)
    (l : List (Nat × Nat)) (hl : ∀ pair ∈ l, pair ∈ e.VisitedPairs) :
    ∀ acc : List (Vector K), acc.length = e.bodies_.length →
    ∃ acc', l.foldlM (e.VisitPair Sqrt positions) acc = .returns acc' ∧
      acc'.length = e.bodies_.length ∧
      ∀ i, acc'.getD i 0 = acc.getD i 0 +
        (l.map (fun pair => Ephemeris.Contribution Sqrt e positions pair.1 pair.2 i)).sum := by
  induction l with
  | nil => intro acc hacc; exact ⟨acc, by simp, hacc, by simp⟩
  | cons pair rest ih =>
    intro acc hacc
    obtain ⟨acc1, h1, hlen1, hv1⟩ := VisitPair_contribution Sqrt e hc positions acc hpos hacc
      pair (hl pair (List.mem_cons_self _ _))
    obtain ⟨acc2, h2, hlen2, hv2⟩ := ih (fun p hp => hl p (List.mem_cons_of_mem _ hp)) acc1 hlen1
    refine ⟨acc2, ?_, hlen2, ?_⟩
    · simp only [List.foldlM_cons, Outcome.bind_def, h1, Outcome.returns_bind, h2]
    · intro i
      rw [hv2 i, hv1 i, List.map_cons, List.sum_cons, add_assoc]

/-- The contributions of the visited pairs to the acceleration at an index add
up to the accelerations by the other bodies. -/
theorem sum_Contribution [Field K] (Sqrt : K → K) (e : Ephemeris K)
    (positions : List (Vector K)) (i : Nat)
    (hN : e.bodies_.length = e.number_of_oblate_bodies_ + e.number_of_spherical_bodies_)
    (hi : i < e.number_of_oblate_bodies_ + e.number_of_spherical_bodies_) :
    (e.VisitedPairs.map
      (fun pair => Ephemeris.Contribution Sqrt e positions pair.1 pair.2 i)).sum =
    ∑ j ∈ (Finset.range
        (e.number_of_oblate_bodies_ + e.number_of_spherical_bodies_)).erase i,
      Ephemeris.AccelerationBy Sqrt e positions j i := by
  have hset : e.VisitedPairs.toFinset =
      (Finset.range (e.number_of_oblate_bodies_ + e.number_of_spherical_bodies_) ×ˢ
        Finset.range (e.number_of_oblate_bodies_ + e.number_of_spherical_bodies_)).filter
        (fun p => p.1 < p.2) := by
    ext ⟨a, b⟩
    simp only [List.mem_toFinset, mem_VisitedPairs, Finset.mem_filter, Finset.mem_product,
      Finset.mem_range]
    omega
  rw [← List.sum_toFinset _ (nodup_VisitedPairs e), hset, Finset.sum_filter, Finset.sum_product]
  -- The term for the index |j|, from the pair |(j, i)| or from the pair |(i, j)|.
  have key : ∀ a ∈ Finset.range (e.number_of_oblate_bodies_ + e.number_of_spherical_bodies_),
      (∑ b ∈ Finset.range (e.number_of_oblate_bodies_ + e.number_of_spherical_bodies_),
        if a < b then Ephemeris.Contribution Sqrt e positions a b i else 0) =
      (if a < i then Ephemeris.Contribution Sqrt e positions a i i else 0) +
      (if i = a then
        ∑ b ∈ Finset.range (e.number_of_oblate_bodies_ + e.number_of_spherical_bodies_),
          if i < b then Ephemeris.Contribution Sqrt e positions i b i else 0
       else 0) := by
    intro a _
    have pointwise : ∀ b, (if a < b then Ephemeris.Contribution Sqrt e positions a b i
        else 0) =
        (if i = b then (if a < i then Ephemeris.Contribution Sqrt e positions a i i
          else 0) else 0) +
        (if i = a then (if i < b then Ephemeris.Contribution Sqrt e positions i b i
          else 0) else 0) := by
      intro b
      by_cases hab : a < b
      · by_cases hib : i = b
        · subst hib
          have : i ≠ a := by omega
          simp [hab, this]
        · by_cases hia : i = a
          · subst hia
            simp [hab, hib]
          · simp [hab, hib, hia, Contribution_of_ne Sqrt e positions a b i hia hib]
      · by_cases hib : i = b
        · subst hib
          by_cases hia : i = a
          · subst hia; simp
          · simp [hab, hia]
        · by_cases hia : i = a
          · subst hia; simp [hab, hib]
          · simp [hab, hib, hia]
    rw [Finset.sum_congr rfl (fun b _ => pointwise b), Finset.sum_add_distrib,
      Finset.sum_ite_eq, if_pos (Finset.mem_range.mpr hi)]
    congr 1
    by_cases hia : i = a
    · simp [hia]
    · simp [hia]
  rw [Finset.sum_congr rfl key, Finset.sum_add_distrib, Finset.sum_ite_eq,
    if_pos (Finset.mem_range.mpr hi), ← Finset.sum_add_distrib]
  rw [← Finset.sum_erase (a := i) _ (by simp)]
  apply Finset.sum_congr rfl
  intro j hj
  rw [Finset.mem_erase, Finset.mem_range] at hj
  obtain ⟨hji, hj⟩ := hj
  have hib : i < e.bodies_.length := by omega
  have hjb : j < e.bodies_.length := by omega
  unfold Ephemeris.Contribution Ephemeris.AccelerationBy
  simp only [List.getElem?_eq_getElem hib, List.getElem?_eq_getElem hjb]
  rcases Nat.lt_or_gt_of_ne hji with hlt | hgt
  · simp only [hlt, if_true, if_neg (Nat.lt_asymm hlt), add_zero, if_neg (Ne.symm hji),
      if_neg (Nat.ne_of_gt hlt)]
    rw [PairEffect_comm, ← neg_sub (positions.getD i 0) (positions.getD j 0), PairEffect_neg,
      smul_neg]
  · simp only [if_neg (Nat.lt_asymm hgt), hgt, if_true, zero_add, if_neg (Nat.ne_of_lt hgt)]

/-- The full kernel returns, and its component for a body is the sum of the
accelerations by the other bodies. -/
theorem kernel_component [Field K] (Sqrt : K → K) (e : Ephemeris K) (hc : e.KernelConsistent)
    (t : Instant) (positions accelerations : List (Vector K))
    (hpos : positions.length = e.bodies_.length)
    (hacc : accelerations.length = e.bodies_.length) :
    ∃ full, e.ComputeMassiveBodiesGravitationalAccelerations Sqrt t positions accelerations =
        .returns full ∧
      full.length = e.bodies_.length ∧
      ∀ i, i < e.bodies_.length → full.getD i 0 =
        ∑ j ∈ (Finset.range e.bodies_.length).erase i,
          Ephemeris.AccelerationBy Sqrt e positions j i := by
  have hN : e.bodies_.length = e.number_of_oblate_bodies_ + e.number_of_spherical_bodies_ := by
    obtain ⟨hb, hno, hns, _, _⟩ := hc
    rw [hb, List.length_append, hno, hns]
  rw [kernel_eq_visits Sqrt e hc t positions accelerations (le_of_eq hacc.symm)]
  obtain ⟨full, h, hlen, hv⟩ := foldlM_VisitPair_contribution Sqrt e hc positions hpos
    e.VisitedPairs (fun _ h => h) (List.replicate accelerations.length 0) (by simp [hacc])
  refine ⟨full, h, hlen, ?_⟩
  intro i hi
  rw [hv i, sum_Contribution Sqrt e positions i hN (by omega), hN]
  have : (List.replicate accelerations.length (0 : Vector K)).getD i 0 = 0 := by
    rw [List.getD_eq_getElem?_getD, List.getElem?_replicate]
    split <;> rfl
  rw [this, zero_add]

end physics

end Principia

namespace Principia

namespace physics

variable {K : Type}

/-! ## The kernel on one body -/

/-- A loop of `ComputeGravitationalAccelerationByMassiveBodyOnMassiveBodies`
with `b1 = 0`, where the body at `b2` is the body at the index `σ b2` of
`bodies_` and is at the position of that index: it adds to the acceleration at 0
the accelerations by these bodies. -/
theorem foldlM_PairStep_first [Field K] (Sqrt : K → K) (e : Ephemeris K)
    (P : List (Vector K)) (i : Nat) (body : MassiveBody K) (io1 io2 : Bool)
    (bodies2 : List (MassiveBody K)) (b2_begin : Nat) (positions : List (Vector K))
    (σ : Nat → Nat) (hbody : e.bodies_[i]? = some body) (hio1 : io1 = body.is_oblate)
    (hq1 : positions[0]? = some (P.getD i 0)) :
    ∀ (l : List Nat),
      (∀ b2 ∈ l, 0 < b2 ∧ ∃ body2, bodies2[b2 - b2_begin]? = some body2 ∧
        e.bodies_[σ b2]? = some body2 ∧ positions[b2]? = some (P.getD (σ b2) 0) ∧
        io2 = body2.is_oblate) →
      ∀ acc : List (Vector K), (∀ b2 ∈ l, b2 < acc.length) → 0 < acc.length →
      ∃ acc', l.foldlM (PairStep Sqrt io1 io2 body 0 bodies2 b2_begin positions) acc =
          .returns acc' ∧
        acc'.length = acc.length ∧
        acc'.getD 0 0 = acc.getD 0 0 +
          (l.map (fun b2 => Ephemeris.AccelerationBy Sqrt e P (σ b2) i)).sum := by
  intro l
  induction l with
  | nil => intro _ acc _ _; exact ⟨acc, rfl, rfl, by simp⟩
  | cons b2 rest ih =>
    intro hl acc hacc h0
    obtain ⟨hpos, body2, hb2, hσ, hq2, hio2⟩ := hl b2 (List.mem_cons_self _ _)
    have hlt : b2 < acc.length := hacc b2 (List.mem_cons_self _ _)
    have hstep := PairStep_effect Sqrt io1 io2 body body2 0 bodies2 b2_begin positions acc b2
      acc[0] acc[b2] (P.getD i 0) (P.getD (σ b2) 0) (List.getElem?_eq_getElem _)
      (List.getElem?_eq_getElem _) hb2 hq1 hq2 hio1 hio2
    obtain ⟨acc', h, hlen, hv⟩ := ih (fun b hb => hl b (List.mem_cons_of_mem _ hb))
      ((acc.set 0 (acc[0] - body2.gravitational_parameter •
          PairEffect Sqrt body body2 (P.getD i 0 - P.getD (σ b2) 0))).set b2
        (acc[b2] + body.gravitational_parameter •
          PairEffect Sqrt body body2 (P.getD i 0 - P.getD (σ b2) 0)))
      (fun b hb => by simpa using hacc b (List.mem_cons_of_mem _ hb)) (by simpa using h0)
    refine ⟨acc', ?_, ?_, ?_⟩
    · simp only [List.foldlM_cons, Outcome.bind_def, hstep, Outcome.returns_bind, h]
    · simpa using hlen
    · rw [hv, getD_set_set _ _ _ _ _ _ _ h0 hlt]
      have hne : (0 : Nat) ≠ b2 := by omega
      have ha : acc.getD 0 0 = acc[0] := by
        rw [List.getD_eq_getElem?_getD, List.getElem?_eq_getElem h0]; rfl
      simp only [if_neg hne, if_true, List.map_cons, List.sum_cons, ha]
      unfold Ephemeris.AccelerationBy
      simp only [hbody, hσ]
      rw [sub_eq_add_neg, add_assoc]

/-- One call of `ComputeGravitationalAccelerationByMassiveBodyOnMassiveBodies`
by `ComputeGravitationalAccelerationOnMassiveBody` is its loop from `b2_begin`. -/
theorem pass_first [Field K] (Sqrt : K → K) (io1 io2 : Bool) (body : MassiveBody K)
    (bodies2 : List (MassiveBody K)) (b2_begin b2_end : Nat)
    (positions acc : List (Vector K)) (h0 : 0 < acc.length) (hb : 1 ≤ b2_begin) :
    ComputeGravitationalAccelerationByMassiveBodyOnMassiveBodies Sqrt io1 io2 body 0 bodies2
        b2_begin b2_end positions acc =
      (List.range' b2_begin (b2_end - b2_begin)).foldlM
        (PairStep Sqrt io1 io2 body 0 bodies2 b2_begin positions) acc := by
  unfold ComputeGravitationalAccelerationByMassiveBodyOnMassiveBodies LoopRange
  rw [List.getElem?_eq_getElem h0]
  simp only [Outcome.ofOption, Outcome.bind_def, Outcome.returns_bind]
  have : max (0 + 1) b2_begin = b2_begin := by omega
  rw [this]

theorem map_range'_getD {α β : Type} (f : α → β) (js : List α) (d : α) (b : Nat) :
    (List.range' b js.length).map (fun b2 => f (js.getD (b2 - b) d)) = js.map f := by
  apply List.ext_getElem
  · simp
  · intro k h1 h2
    simp only [List.getElem_map, List.getElem_range'_1]
    simp only [List.length_map, List.length_range'] at h1
    have : b + k - b = k := by omega
    rw [this, List.getD_eq_getElem?_getD, List.getElem?_eq_getElem h1]
    rfl

end physics

end Principia

namespace Principia

namespace physics

variable {K : Type}

theorem EvaluatedPositions_length [Zero K]
    (EvaluatePosition : ContinuousTrajectory K → Instant → Vector K) (e : Ephemeris K)
    (t : Instant) : (e.EvaluatedPositions EvaluatePosition t).length = e.trajectories_.length := by
  simp [Ephemeris.EvaluatedPositions]

/-- The body of the loop over the other bodies, on an ephemeris that is well
formed. -/
theorem OtherBodiesStep_eq [Zero K]
    (EvaluatePosition : ContinuousTrajectory K → Instant → Vector K) (e : Ephemeris K)
    (t : Instant) (i : Nat) (body : MassiveBody K)
    (hc : e.KernelConsistent) (hnodup : (e.bodies_.map (fun b => b.address)).Nodup)
    (hlen : e.trajectories_.length = e.bodies_.length)
    (hfound : ∀ trajectory ∈ e.trajectories_,
      ∃ found, FindOrDie e.bodies_to_trajectories_ trajectory = .returns found)
    (hbody : e.bodies_[i]? = some body)
    (s : List (MassiveBody K) × List (MassiveBody K) × List (Vector K)) (b : Nat)
    (hb : b < e.bodies_.length) :
    OtherBodiesStep EvaluatePosition e body t s b =
      .returns (if b = i then
          (s.1, s.2.1, s.2.2.set 0 ((e.EvaluatedPositions EvaluatePosition t).getD b 0))
        else if b < e.number_of_oblate_bodies_ then
          (s.1 ++ [e.bodies_.getD b body], s.2.1,
            s.2.2 ++ [(e.EvaluatedPositions EvaluatePosition t).getD b 0])
        else
          (s.1, s.2.1 ++ [e.bodies_.getD b body],
            s.2.2 ++ [(e.EvaluatedPositions EvaluatePosition t).getD b 0])) := by
  have hi : i < e.bodies_.length := by
    by_contra h
    rw [List.getElem?_eq_none (by omega)] at hbody
    cases hbody
  have hbi : e.bodies_[i] = body := by
    rw [List.getElem?_eq_getElem hi] at hbody
    exact Option.some.inj hbody
  have hbt : b < e.trajectories_.length := by omega
  obtain ⟨found, hf⟩ := hfound e.trajectories_[b] (List.getElem_mem _)
  have hP : (e.EvaluatedPositions EvaluatePosition t).getD b 0 = EvaluatePosition found t := by
    unfold Ephemeris.EvaluatedPositions
    rw [List.getD_eq_getElem?_getD, List.getElem?_map, List.getElem?_eq_getElem hbt]
    simp [hf]
  have hB : e.bodies_.getD b body = e.bodies_[b] := by
    rw [List.getD_eq_getElem?_getD, List.getElem?_eq_getElem hb]; rfl
  have haddr : e.bodies_[b].address = body.address ↔ b = i := by
    constructor
    · intro h
      have hb1 : b < (e.bodies_.map (fun b => b.address)).length := by simpa using hb
      have hi1 : i < (e.bodies_.map (fun b => b.address)).length := by simpa using hi
      have h1 : (e.bodies_.map (fun b => b.address))[b] =
          (e.bodies_.map (fun b => b.address))[i] := by
        simp only [List.getElem_map, hbi, h]
      exact (hnodup.getElem_inj_iff).mp h1
    · intro h
      subst h
      rw [hbi]
  have hobl := is_oblate_at hc (List.getElem?_eq_getElem hb)
  unfold OtherBodiesStep
  simp only [List.getElem?_eq_getElem hb, List.getElem?_eq_getElem hbt, Outcome.ofOption,
    Outcome.bind_def, Outcome.returns_bind, hf, haddr, hP, hB]
  by_cases h1 : b = i
  · simp [h1]
  · by_cases h2 : b < e.number_of_oblate_bodies_
    · have : e.bodies_[b].is_oblate = true := by rw [← hobl]; simp [h2]
      simp [h1, h2, this, CHECK]
    · have : e.bodies_[b].is_oblate = false := by rw [← hobl]; simp [h2]
      simp [h1, h2, this, CHECK]

end physics

end Principia

namespace Principia

namespace physics

variable {K : Type}

/-- The loop over the other bodies: the other bodies in the order of `bodies_`,
the oblate ones and the others, and the position of the body followed by the
positions of the other bodies. -/
theorem OtherBodiesLoop_eq [Zero K]
    (EvaluatePosition : ContinuousTrajectory K → Instant → Vector K) (e : Ephemeris K)
    (t : Instant) (i : Nat) (body : MassiveBody K)
    (hc : e.KernelConsistent) (hnodup : (e.bodies_.map (fun b => b.address)).Nodup)
    (hlen : e.trajectories_.length = e.bodies_.length)
    (hfound : ∀ trajectory ∈ e.trajectories_,
      ∃ found, FindOrDie e.bodies_to_trajectories_ trajectory = .returns found)
    (hbody : e.bodies_[i]? = some body) :
    ∀ m, m ≤ e.bodies_.length →
      (List.range m).foldlM (OtherBodiesStep EvaluatePosition e body t) ([], [], [0]) =
        .returns
          (((List.range m).filter
              (fun b => decide (b ≠ i) && decide (b < e.number_of_oblate_bodies_))).map
              (fun b => e.bodies_.getD b body),
            ((List.range m).filter
              (fun b => decide (b ≠ i) && !decide (b < e.number_of_oblate_bodies_))).map
              (fun b => e.bodies_.getD b body),
            (if i < m then (e.EvaluatedPositions EvaluatePosition t).getD i 0 else 0) ::
              ((List.range m).filter (fun b => decide (b ≠ i))).map
                (fun b => (e.EvaluatedPositions EvaluatePosition t).getD b 0)) := by
  intro m
  induction m with
  | zero => intro _; simp
  | succ m ih =>
    intro hm
    rw [List.range_succ, Outcome.foldlM_append, ih (by omega)]
    simp only [Outcome.returns_bind, List.foldlM_cons, List.foldlM_nil, Outcome.bind_def]
    rw [OtherBodiesStep_eq EvaluatePosition e t i body hc hnodup hlen hfound hbody _ m
      (by omega)]
    simp only [Outcome.returns_bind, Outcome.pure_def, Outcome.returns.injEq,
      List.filter_append, List.map_append]
    by_cases h1 : m = i
    · subst h1
      simp
    · have hlt : (i < m + 1) = (i < m) := by
        apply propext
        omega
      by_cases h2 : m < e.number_of_oblate_bodies_
      · simp [h1, h2, hlt]
      · simp [h1, h2, hlt]

end physics

end Principia

namespace Principia

namespace physics

variable {K : Type}

/-- One call of `ComputeGravitationalAccelerationByMassiveBodyOnMassiveBodies`
by `ComputeGravitationalAccelerationOnMassiveBody`, on the bodies of the indices
`js` of `bodies_`, whose positions come after `front` in `positions`: it adds to
the acceleration at 0 the accelerations by these bodies. -/
theorem pass_first_sum [Field K] (Sqrt : K → K) (e : Ephemeris K)
    (P : List (Vector K)) (i : Nat) (body : MassiveBody K) (io1 io2 : Bool)
    (js : List Nat) (front back : List (Vector K)) (acc : List (Vector K))
    (hbody : e.bodies_[i]? = some body) (hio1 : io1 = body.is_oblate)
    (hfront : front[0]? = some (P.getD i 0))
    (hjs : ∀ j ∈ js, j < e.bodies_.length ∧ io2 = (e.bodies_.getD j body).is_oblate)
    (hacc : front.length + js.length ≤ acc.length) :
    ∃ acc', ComputeGravitationalAccelerationByMassiveBodyOnMassiveBodies Sqrt io1 io2 body 0
          (js.map (fun b => e.bodies_.getD b body)) front.length (front.length + js.length)
          (front ++ js.map (fun b => P.getD b 0) ++ back) acc = .returns acc' ∧
      acc'.length = acc.length ∧
      acc'.getD 0 0 = acc.getD 0 0 +
        (js.map (fun j => Ephemeris.AccelerationBy Sqrt e P j i)).sum := by
  have hf : 0 < front.length := by
    by_contra h
    rw [List.getElem?_eq_none (by omega)] at hfront
    cases hfront
  rw [pass_first Sqrt io1 io2 body _ _ _ _ acc (by omega) (by omega)]
  have hsub : front.length + js.length - front.length = js.length := by omega
  rw [hsub]
  obtain ⟨acc', h, hlen, hv⟩ := foldlM_PairStep_first Sqrt e P i body io1 io2
    (js.map (fun b => e.bodies_.getD b body)) front.length
    (front ++ js.map (fun b => P.getD b 0) ++ back)
    (fun b2 => js.getD (b2 - front.length) 0) hbody hio1
    (by rw [List.append_assoc, List.getElem?_append_left hf]; exact hfront)
    (List.range' front.length js.length)
    (by
      intro b2 hb2
      rw [List.mem_range'_1] at hb2
      have hk : b2 - front.length < js.length := by omega
      have hg : js.getD (b2 - front.length) 0 = js[b2 - front.length] := by
        rw [List.getD_eq_getElem?_getD, List.getElem?_eq_getElem hk]; rfl
      obtain ⟨hj, hio⟩ := hjs js[b2 - front.length] (List.getElem_mem _)
      refine ⟨by omega, e.bodies_.getD js[b2 - front.length] body, ?_, ?_, ?_, hio⟩
      · rw [List.getElem?_map, List.getElem?_eq_getElem hk]; rfl
      · simp only [hg]
        rw [List.getD_eq_getElem?_getD, List.getElem?_eq_getElem hj]; rfl
      · simp only [hg]
        rw [List.append_assoc, List.getElem?_append_right (by omega),
          List.getElem?_append_left (by simpa using hk), List.getElem?_map,
          List.getElem?_eq_getElem hk]
        rfl)
    acc
    (by
      intro b2 hb2
      rw [List.mem_range'_1] at hb2
      omega)
    (by omega)
  refine ⟨acc', h, hlen, ?_⟩
  rw [hv, map_range'_getD (fun j => Ephemeris.AccelerationBy Sqrt e P j i) js 0 front.length]

/-- The indices of the other bodies: those below the number of oblate bodies,
then the others. -/
theorem filter_ne_split (n_oblate n_spherical i : Nat) :
    (List.range (n_oblate + n_spherical)).filter (fun b => decide (b ≠ i)) =
      (List.range (n_oblate + n_spherical)).filter
        (fun b => decide (b ≠ i) && decide (b < n_oblate)) ++
      (List.range (n_oblate + n_spherical)).filter
        (fun b => decide (b ≠ i) && !decide (b < n_oblate)) := by
  rw [List.range_add]
  simp only [List.filter_append]
  have h1 : (List.range n_oblate).filter (fun b => decide (b ≠ i) && decide (b < n_oblate)) =
      (List.range n_oblate).filter (fun b => decide (b ≠ i)) := by
    apply List.filter_congr
    intro x hx
    rw [List.mem_range] at hx
    simp [hx]
  have h2 : (List.range n_oblate).filter (fun b => decide (b ≠ i) && !decide (b < n_oblate)) =
      [] := by
    rw [List.filter_eq_nil_iff]
    intro x hx
    rw [List.mem_range] at hx
    simp [hx]
  have h3 : ((List.range n_spherical).map (fun x => n_oblate + x)).filter
      (fun b => decide (b ≠ i) && decide (b < n_oblate)) = [] := by
    rw [List.filter_eq_nil_iff]
    intro x hx
    rw [List.mem_map] at hx
    obtain ⟨y, _, rfl⟩ := hx
    simp
  have h4 : ((List.range n_spherical).map (fun x => n_oblate + x)).filter
      (fun b => decide (b ≠ i) && !decide (b < n_oblate)) =
      ((List.range n_spherical).map (fun x => n_oblate + x)).filter
        (fun b => decide (b ≠ i)) := by
    apply List.filter_congr
    intro x hx
    rw [List.mem_map] at hx
    obtain ⟨y, _, rfl⟩ := hx
    simp
  rw [h1, h2, h3, h4]
  simp

theorem length_filter_ne (n i : Nat) (hi : i < n) :
    ((List.range n).filter (fun b => decide (b ≠ i))).length + 1 = n := by
  have h : (List.range n).filter (fun b => decide (b ≠ i)) = (List.range n).erase i := by
    rw [(List.nodup_range n).erase_eq_filter]
    apply List.filter_congr
    intro x _
    by_cases hx : x = i <;> simp [hx]
  rw [h, List.length_erase_of_mem (List.mem_range.mpr hi), List.length_range]
  omega

end physics

end Principia

namespace Principia

namespace physics

variable {K : Type}

/-- The two calls of
`ComputeGravitationalAccelerationByMassiveBodyOnMassiveBodies` that
`ComputeGravitationalAccelerationOnMassiveBody` makes leave at the index 0 the
sum of the accelerations by the other bodies. -/
theorem single_kernel_passes [Field K] (Sqrt : K → K) (e : Ephemeris K)
    (P : List (Vector K)) (i : Nat) (body : MassiveBody K) (io1 : Bool)
    (hc : e.KernelConsistent) (hbody : e.bodies_[i]? = some body)
    (hio1 : io1 = body.is_oblate) :
    ∃ acc', (ComputeGravitationalAccelerationByMassiveBodyOnMassiveBodies Sqrt io1 true body 0
          (((List.range e.bodies_.length).filter
            (fun b => decide (b ≠ i) && decide (b < e.number_of_oblate_bodies_))).map
            (fun b => e.bodies_.getD b body)) 1
          ((((List.range e.bodies_.length).filter
            (fun b => decide (b ≠ i) && decide (b < e.number_of_oblate_bodies_))).map
            (fun b => e.bodies_.getD b body)).length + 1)
          (P.getD i 0 ::
            ((List.range e.bodies_.length).filter (fun b => decide (b ≠ i))).map
              (fun b => P.getD b 0))
          (List.replicate e.bodies_.length 0)).bind (fun accelerations =>
        ComputeGravitationalAccelerationByMassiveBodyOnMassiveBodies Sqrt io1 false body 0
          (((List.range e.bodies_.length).filter
            (fun b => decide (b ≠ i) && !decide (b < e.number_of_oblate_bodies_))).map
            (fun b => e.bodies_.getD b body))
          ((((List.range e.bodies_.length).filter
            (fun b => decide (b ≠ i) && decide (b < e.number_of_oblate_bodies_))).map
            (fun b => e.bodies_.getD b body)).length + 1)
          e.bodies_.length
          (P.getD i 0 ::
            ((List.range e.bodies_.length).filter (fun b => decide (b ≠ i))).map
              (fun b => P.getD b 0))
          accelerations) = .returns acc' ∧
      acc'[0]? = some (∑ j ∈ (Finset.range e.bodies_.length).erase i,
        Ephemeris.AccelerationBy Sqrt e P j i) := by
  have hi : i < e.bodies_.length := by
    by_contra h
    rw [List.getElem?_eq_none (by omega)] at hbody
    cases hbody
  have hN : e.bodies_.length = e.number_of_oblate_bodies_ + e.number_of_spherical_bodies_ := by
    obtain ⟨hb, hno, hns, _, _⟩ := hc
    rw [hb, List.length_append, hno, hns]
  have hsplit := filter_ne_split e.number_of_oblate_bodies_ e.number_of_spherical_bodies_ i
  rw [← hN] at hsplit
  have hcount := length_filter_ne e.bodies_.length i hi
  generalize hO : (List.range e.bodies_.length).filter
    (fun b => decide (b ≠ i) && decide (b < e.number_of_oblate_bodies_)) = idxO at hsplit ⊢
  generalize hS : (List.range e.bodies_.length).filter
    (fun b => decide (b ≠ i) && !decide (b < e.number_of_oblate_bodies_)) = idxS at hsplit ⊢
  have hmemO : ∀ j ∈ idxO, j < e.bodies_.length ∧ true = (e.bodies_.getD j body).is_oblate := by
    intro j hj
    rw [← hO, List.mem_filter, List.mem_range] at hj
    obtain ⟨hjn, hj⟩ := hj
    simp only [Bool.and_eq_true, decide_eq_true_eq] at hj
    refine ⟨hjn, ?_⟩
    have hg : e.bodies_.getD j body = e.bodies_[j] := by
      rw [List.getD_eq_getElem?_getD, List.getElem?_eq_getElem hjn]; rfl
    rw [hg, ← is_oblate_at hc (List.getElem?_eq_getElem hjn)]
    simp [hj.2]
  have hmemS : ∀ j ∈ idxS, j < e.bodies_.length ∧ false = (e.bodies_.getD j body).is_oblate := by
    intro j hj
    rw [← hS, List.mem_filter, List.mem_range] at hj
    obtain ⟨hjn, hj⟩ := hj
    simp only [Bool.and_eq_true, decide_eq_true_eq, Bool.not_eq_true', decide_eq_false_iff_not]
      at hj
    refine ⟨hjn, ?_⟩
    have hg : e.bodies_.getD j body = e.bodies_[j] := by
      rw [List.getD_eq_getElem?_getD, List.getElem?_eq_getElem hjn]; rfl
    rw [hg, ← is_oblate_at hc (List.getElem?_eq_getElem hjn)]
    simp [hj.2]
  rw [hsplit] at hcount ⊢
  rw [List.length_append] at hcount
  simp only [List.length_map, List.map_append]
  -- The first call.
  obtain ⟨acc1, h1, hlen1, hv1⟩ := pass_first_sum Sqrt e P i body io1 true idxO [P.getD i 0]
    (idxS.map (fun b => P.getD b 0)) (List.replicate e.bodies_.length 0) hbody hio1 rfl hmemO
    (by simp; omega)
  -- The second call.
  obtain ⟨acc2, h2, hlen2, hv2⟩ := pass_first_sum Sqrt e P i body io1 false idxS
    (P.getD i 0 :: idxO.map (fun b => P.getD b 0)) [] acc1 hbody hio1
    (List.getElem?_cons_zero) hmemS
    (by simp [hlen1]; omega)
  simp only [List.length_singleton, List.singleton_append, List.append_assoc, List.cons_append,
    List.length_cons, List.length_map, List.append_nil, List.length_nil, List.nil_append,
    Nat.zero_add] at h1 h2
  have e1 : 1 + idxO.length = idxO.length + 1 := by omega
  have e2 : idxO.length + 1 + idxS.length = e.bodies_.length := by omega
  rw [e1] at h1
  rw [e2] at h2
  refine ⟨acc2, ?_, ?_⟩
  · rw [h1]
    exact h2
  · have hlen : 0 < acc2.length := by
      rw [hlen2, hlen1]
      simp
      omega
    have hg : acc2.getD 0 0 = acc2[0] := by
      rw [List.getD_eq_getElem?_getD, List.getElem?_eq_getElem hlen]; rfl
    rw [List.getElem?_eq_getElem hlen, ← hg, hv2, hv1]
    have hz : (List.replicate e.bodies_.length (0 : Vector K)).getD 0 0 = 0 := by
      rw [List.getD_eq_getElem?_getD, List.getElem?_replicate]
      split <;> rfl
    rw [hz, zero_add, ← List.sum_append, ← List.map_append, ← hsplit]
    have hnodup : ((List.range e.bodies_.length).filter (fun b => decide (b ≠ i))).Nodup :=
      (List.nodup_range _).filter _
    have hfin : ((List.range e.bodies_.length).filter (fun b => decide (b ≠ i))).toFinset =
        (Finset.range e.bodies_.length).erase i := by
      ext j
      simp only [List.toFinset_filter, decide_eq_true_eq, Finset.mem_filter, List.mem_toFinset,
        List.mem_range, Finset.mem_erase, Finset.mem_range]
      tauto
    rw [← List.sum_toFinset _ hnodup, hfin]

/-- The acceleration of one body is the sum of the accelerations by the other
bodies, at the positions that the trajectories give. -/
theorem single_kernel_component [Field K] (Sqrt : K → K)
    (EvaluatePosition : ContinuousTrajectory K → Instant → Vector K) (e : Ephemeris K)
    (t : Instant) (i : Nat) (body : MassiveBody K)
    (hc : e.KernelConsistent) (hnodup : (e.bodies_.map (fun b => b.address)).Nodup)
    (hlen : e.trajectories_.length = e.bodies_.length)
    (hfound : ∀ trajectory ∈ e.trajectories_,
      ∃ found, FindOrDie e.bodies_to_trajectories_ trajectory = .returns found)
    (hbody : e.bodies_[i]? = some body) :
    e.ComputeGravitationalAccelerationOnMassiveBody Sqrt EvaluatePosition body t =
      .returns (∑ j ∈ (Finset.range e.bodies_.length).erase i,
        Ephemeris.AccelerationBy Sqrt e (e.EvaluatedPositions EvaluatePosition t) j i) := by
  have hi : i < e.bodies_.length := by
    by_contra h
    rw [List.getElem?_eq_none (by omega)] at hbody
    cases hbody
  unfold Ephemeris.ComputeGravitationalAccelerationOnMassiveBody
  simp only [Outcome.bind_def]
  rw [OtherBodiesLoop_eq EvaluatePosition e t i body hc hnodup hlen hfound hbody _ le_rfl]
  simp only [Outcome.returns_bind, if_pos hi]
  cases hio : body.is_oblate with
  | true =>
    obtain ⟨acc', h, hv⟩ := single_kernel_passes Sqrt e
      (e.EvaluatedPositions EvaluatePosition t) i body true hc hbody hio.symm
    simp only [if_true]
    rw [h]
    simp only [Outcome.returns_bind, hv, Outcome.ofOption]
  | false =>
    obtain ⟨acc', h, hv⟩ := single_kernel_passes Sqrt e
      (e.EvaluatedPositions EvaluatePosition t) i body false hc hbody hio.symm
    simp only [Bool.false_eq_true, if_false]
    rw [h]
    simp only [Outcome.returns_bind, hv, Outcome.ofOption]

end physics

end Principia

namespace Principia

namespace physics

variable {K : Type}

/-- Claim C28. On an ephemeris whose members fit together, with bodies at
distinct addresses and a trajectory for each, and for a body of `bodies_`,
`ComputeGravitationalAccelerationOnMassiveBody` returns, the full kernel
`ComputeMassiveBodiesGravitationalAccelerations` returns on the positions that
the trajectories give at that time, and the component of the latter for the
body is the acceleration that the former returns, whatever the bodies that are
oblate, the positions and the square root; no division is by zero when the
positions are distinct.  The function `Order2ZonalEffect` is odd in `r`. -/
theorem single_body_kernel_agrees [Field K] (Sqrt : K → K)
    (EvaluatePosition : ContinuousTrajectory K → Instant → Vector K) (e : Ephemeris K)
    (t : Instant) (i : Nat) (body : MassiveBody K) (accelerations : List (Vector K))
    (hc : e.KernelConsistent) (hnodup : (e.bodies_.map (fun b => b.address)).Nodup)
    (hlen : e.trajectories_.length = e.bodies_.length)
    (hfound : ∀ trajectory ∈ e.trajectories_,
      ∃ found, FindOrDie e.bodies_to_trajectories_ trajectory = .returns found)
    (hbody : e.bodies_[i]? = some body)
    (hacc : accelerations.length = e.bodies_.length) :
    (∃ a full,
      e.ComputeGravitationalAccelerationOnMassiveBody Sqrt EvaluatePosition body t =
        .returns a ∧
      e.ComputeMassiveBodiesGravitationalAccelerations Sqrt t
        (e.EvaluatedPositions EvaluatePosition t) accelerations = .returns full ∧
      full[i]? = some a) ∧
    (∀ (oblate : OblateBody K) (r : Vector K) (one_over_r_squared one_over_r_cubed : K),
      Order2ZonalEffect oblate (-r) one_over_r_squared one_over_r_cubed =
        -Order2ZonalEffect oblate r one_over_r_squared one_over_r_cubed) := by
  have hi : i < e.bodies_.length := by
    by_contra h
    rw [List.getElem?_eq_none (by omega)] at hbody
    cases hbody
  have hsingle := single_kernel_component Sqrt EvaluatePosition e t i body hc hnodup hlen hfound
    hbody
  obtain ⟨full, hfull, hflen, hv⟩ := kernel_component Sqrt e hc t
    (e.EvaluatedPositions EvaluatePosition t) accelerations
    (by rw [EvaluatedPositions_length, hlen]) hacc
  refine ⟨⟨_, full, hsingle, hfull, ?_⟩, Order2ZonalEffect_neg⟩
  rw [← hv i hi, List.getD_eq_getElem?_getD, List.getElem?_eq_getElem (by omega)]
  rfl

namespace Example

/-- Claim C28 on the system with the oblate earth, for the earth. -/
theorem single_body_kernel_agrees_witness :
    system.KernelConsistent ∧
    (system.bodies_.map (fun b => b.address)).Nodup ∧
    system.bodies_[0]? = some earth ∧
    ∃ a full,
      system.ComputeGravitationalAccelerationOnMassiveBody exact_sqrt position_at_rest earth 0 =
        .returns a ∧
      system.ComputeMassiveBodiesGravitationalAccelerations exact_sqrt 0
        (system.EvaluatedPositions position_at_rest 0) [0, 0, 0] = .returns full ∧
      full[0]? = some a :=
  ⟨system_consistent, by decide, by decide,
    (single_body_kernel_agrees exact_sqrt position_at_rest system 0 0 earth [0, 0, 0]
      system_consistent (by decide) (by decide)
      (by
        intro trajectory h
        simp only [system, List.mem_cons, List.mem_singleton, List.not_mem_nil, or_false] at h
        rcases h with rfl | rfl | rfl <;> exact ⟨_, rfl⟩)
      (by decide) (by decide)).1⟩

/-- Claim C25 on the system: of the states appended at the times 100, 200,
20000000 and 40000000, with `ForgetAfter(150)` before the last, the
checkpoints are those at the times 100 and 40000000. -/
theorem checkpoint_list_invariant_witness :
    system.intermediate_states_ = [] ∧
    (AppendedTimes checkpoint_calls).Pairwise (fun a b => a < b) ∧
    system.RunCalls collaborators checkpoint_calls = .returns system_after_calls ∧
    system_after_calls.intermediate_states_.Pairwise (fun a b => a.time < b.time) ∧
    system_after_calls.intermediate_states_.Pairwise
      (fun a b => b.time - a.time > kMaxTimeBetweenIntermediateStates) ∧
    (∀ c ∈ system_after_calls.intermediate_states_,
      c.time ≤ system_after_calls.last_state_.time) :=
  have h := checkpoint_list_invariant collaborators checkpoint_calls system system_after_calls
    (by decide) (by decide) (by decide)
  ⟨by decide, by decide, by decide, h.1, h.2.1, h.2.2.1⟩

/-- Claim C29 on the system with checkpoints at the times 100 and 200:
`ForgetAfter(150)` a second time changes nothing. -/
theorem ForgetAfter_idempotent_witness :
    system_with_checkpoints.intermediate_states_.Pairwise (fun a b => a.time < b.time) ∧
    (system_with_checkpoints.ForgetAfter 150).bind (fun e1 => e1.ForgetAfter 150) =
      system_with_checkpoints.ForgetAfter 150 ∧
    system_with_checkpoints.ForgetAfter 150 = .returns system_rewound ∧
    system_rewound.ForgetAfter 150 = .returns system_rewound :=
  have h := ForgetAfter_idempotent system_with_checkpoints 150 (by decide)
  ⟨by decide, h.1, by decide, (h.2 system_rewound (by decide)).2⟩

end Example

end physics

end Principia

namespace Principia

namespace binary64

/-! ## The rounding of doubles -/

theorem exponent_spec : ∀ (fuel n : Nat), n < 2 ^ (53 + fuel) →
    n < 2 ^ (53 + exponent fuel n) ∧ (exponent fuel n = 0 ∨ 2 ^ (52 + exponent fuel n) ≤ n) := by
  intro fuel
  induction fuel with
  | zero =>
    intro n h
    exact ⟨by simpa [exponent] using h, Or.inl rfl⟩
  | succ fuel ih =>
    intro n h
    unfold exponent
    by_cases hn : n < 2 ^ 53
    · rw [if_pos hn]
      exact ⟨by simpa using hn, Or.inl rfl⟩
    · rw [if_neg hn]
      have hhalf : n / 2 < 2 ^ (53 + fuel) := by
        have : 2 ^ (53 + (fuel + 1)) = 2 * 2 ^ (53 + fuel) := by ring
        omega
      obtain ⟨h1, h2⟩ := ih (n / 2) hhalf
      have e1 : 2 ^ (53 + (exponent fuel (n / 2) + 1)) = 2 * 2 ^ (53 + exponent fuel (n / 2)) := by
        ring
      have e2 : 2 ^ (52 + (exponent fuel (n / 2) + 1)) = 2 * 2 ^ (52 + exponent fuel (n / 2)) := by
        ring
      refine ⟨by omega, Or.inr ?_⟩
      rcases h2 with h2 | h2
      · rw [h2]
        have : 2 ^ (52 + (0 + 1)) = 2 ^ 53 := by norm_num
        omega
      · omega

/-- The gap at `n` is `2 ^ k` with `n < 2 ^ (53 + k)`, and `2 ^ (52 + k) ≤ n`
unless `k = 0`. -/
theorem ulp_spec (n : Nat) :
    n < 2 ^ (53 + exponent n n) ∧ (exponent n n = 0 ∨ 2 ^ (52 + exponent n n) ≤ n) :=
  exponent_spec n n
    (lt_of_lt_of_le (Nat.lt_two_pow n) (Nat.pow_le_pow_right (by norm_num) (by omega)))

theorem ulp_pos (n : Nat) : 0 < ulp n :=
  Nat.pow_pos (by norm_num)

theorem ulp_of_lt {n : Nat} (h : n < 2 ^ 53) : ulp n = 1 := by
  cases n with
  | zero => rfl
  | succ m =>
    unfold ulp exponent
    rw [if_pos h]
    rfl

/-- A natural number below `2 ^ 53` is a double. -/
theorem roundNat_of_lt {n : Nat} (h : n < 2 ^ 53) : roundNat n = n := by
  unfold roundNat
  rw [ulp_of_lt h]
  simp [Nat.mod_one]

theorem ulp_le_self {n : Nat} (h : 0 < n) : ulp n ≤ n := by
  obtain ⟨_, h2⟩ := ulp_spec n
  unfold ulp
  rcases h2 with h2 | h2
  · rw [h2]; exact h
  · exact le_trans (Nat.pow_le_pow_right (by norm_num) (by omega)) h2

theorem le_roundNat_floor (n : Nat) : n / ulp n * ulp n ≤ roundNat n := by
  unfold roundNat
  split
  · exact le_refl _
  · exact Nat.mul_le_mul_right _ (Nat.le_succ _)

theorem roundNat_le_ceil (n : Nat) : roundNat n ≤ (n / ulp n + 1) * ulp n := by
  unfold roundNat
  split
  · exact Nat.mul_le_mul_right _ (Nat.le_succ _)
  · exact le_refl _

theorem roundNat_pos {n : Nat} (h : 0 < n) : 0 < roundNat n := by
  have h1 : 0 < n / ulp n := Nat.div_pos (ulp_le_self h) (ulp_pos n)
  exact lt_of_lt_of_le (Nat.mul_pos h1 (ulp_pos n)) (le_roundNat_floor n)

theorem roundNat_zero : roundNat 0 = 0 :=
  roundNat_of_lt (by norm_num)

/-- The double nearest to `n` is at most the next power of two. -/
theorem roundNat_le_pow (n : Nat) : roundNat n ≤ 2 ^ (53 + exponent n n) := by
  obtain ⟨h1, _⟩ := ulp_spec n
  refine le_trans (roundNat_le_ceil n) ?_
  have hq : n / ulp n < 2 ^ 53 := by
    rw [Nat.div_lt_iff_lt_mul (ulp_pos n)]
    unfold ulp
    rw [← pow_add]
    exact h1
  have : 2 ^ (53 + exponent n n) = 2 ^ 53 * ulp n := by
    unfold ulp
    rw [pow_add]
  rw [this]
  exact Nat.mul_le_mul_right _ hq

/-- The double nearest to `n` is at least the last power of two. -/
theorem pow_le_roundNat {n : Nat} (h : 2 ^ (52 + exponent n n) ≤ n) :
    2 ^ (52 + exponent n n) ≤ roundNat n := by
  refine le_trans ?_ (le_roundNat_floor n)
  have hq : 2 ^ 52 ≤ n / ulp n := by
    rw [Nat.le_div_iff_mul_le (ulp_pos n)]
    unfold ulp
    rw [← pow_add]
    exact h
  have : 2 ^ (52 + exponent n n) = 2 ^ 52 * ulp n := by
    unfold ulp
    rw [pow_add]
  rw [this]
  exact Nat.mul_le_mul_right _ hq

theorem exponent_mono {a b : Nat} (h : a ≤ b) : exponent a a ≤ exponent b b := by
  obtain ⟨_, ha⟩ := ulp_spec a
  obtain ⟨hb, _⟩ := ulp_spec b
  rcases ha with ha | ha
  · omega
  · have hlt : 2 ^ (52 + exponent a a) < 2 ^ (53 + exponent b b) :=
      lt_of_le_of_lt (le_trans ha h) hb
    have := (Nat.pow_lt_pow_iff_right (by norm_num : 1 < 2)).mp hlt
    omega

/-- Rounding to the nearest multiple of a gap keeps the order. -/
theorem round_to_gap_mono (u a b : Nat) (hu : 0 < u) (h : a ≤ b) :
    (if 2 * (a % u) < u ∨ (2 * (a % u) = u ∧ a / u % 2 = 0) then a / u * u
      else (a / u + 1) * u) ≤
    (if 2 * (b % u) < u ∨ (2 * (b % u) = u ∧ b / u % 2 = 0) then b / u * u
      else (b / u + 1) * u) := by
  have hq : a / u ≤ b / u := Nat.div_le_div_right h
  have ha := Nat.div_add_mod a u
  have hb := Nat.div_add_mod b u
  rcases Nat.lt_or_ge (a / u) (b / u) with hlt | hge
  · -- a lower multiple: the result for `a` is at most that multiple
    have h1 : (a / u + 1) * u ≤ b / u * u := Nat.mul_le_mul_right _ hlt
    have h2 : a / u * u ≤ (a / u + 1) * u := Nat.mul_le_mul_right _ (Nat.le_succ _)
    have h3 : b / u * u ≤ (b / u + 1) * u := Nat.mul_le_mul_right _ (Nat.le_succ _)
    split <;> split <;> omega
  · have heq : a / u = b / u := le_antisymm hq hge
    have hr : a % u ≤ b % u := by
      rw [heq] at ha
      have : u * (b / u) + a % u ≤ u * (b / u) + b % u := by omega
      omega
    have h2 : b / u * u ≤ (b / u + 1) * u := Nat.mul_le_mul_right _ (Nat.le_succ _)
    have hbu := Nat.mod_lt b hu
    rw [heq]
    split
    · split
      · exact le_refl _
      · exact h2
    · rename_i hup
      split
      · rename_i hdown
        exfalso
        apply hup
        rcases hdown with hdown | ⟨hdown, heven⟩
        · exact Or.inl (by omega)
        · rcases Nat.lt_or_ge (2 * (a % u)) u with h5 | h5
          · exact Or.inl h5
          · exact Or.inr ⟨by omega, heven⟩
      · exact le_refl _

/-- Rounding a natural number to the nearest double keeps the order. -/
theorem roundNat_mono {a b : Nat} (h : a ≤ b) : roundNat a ≤ roundNat b := by
  rcases Nat.lt_or_ge (exponent a a) (exponent b b) with hlt | hge
  · obtain ⟨_, hb⟩ := ulp_spec b
    have hb2 : 2 ^ (52 + exponent b b) ≤ b := by
      rcases hb with hb | hb
      · omega
      · exact hb
    calc roundNat a ≤ 2 ^ (53 + exponent a a) := roundNat_le_pow a
      _ ≤ 2 ^ (52 + exponent b b) := Nat.pow_le_pow_right (by norm_num) (by omega)
      _ ≤ roundNat b := pow_le_roundNat hb2
  · have heq : exponent a a = exponent b b := le_antisymm (exponent_mono h) hge
    have hu : ulp a = ulp b := by unfold ulp; rw [heq]
    unfold roundNat
    rw [hu]
    exact round_to_gap_mono (ulp b) a b (ulp_pos b) h

/-- A whole number below `2 ^ 53` in absolute value is a double. -/
theorem round_of_lt {x : Int} (h : x.natAbs < 2 ^ 53) : round x = x := by
  unfold round
  by_cases hx : 0 ≤ x
  · rw [if_pos hx, roundNat_of_lt (by omega)]
    omega
  · rw [if_neg hx, roundNat_of_lt (by omega)]
    omega

/-- Rounding keeps the sign: a result is positive when the exact result is. -/
theorem round_pos_iff (x : Int) : 0 < round x ↔ 0 < x := by
  unfold round
  by_cases hx : 0 ≤ x
  · rw [if_pos hx]
    constructor
    · intro h
      by_contra h0
      have : x = 0 := by omega
      subst this
      simp [roundNat_zero] at h
    · intro h
      have : 0 < roundNat x.toNat := roundNat_pos (by omega)
      omega
  · rw [if_neg hx]
    constructor
    · intro h
      have : 0 ≤ (roundNat (-x).toNat : Int) := Int.ofNat_nonneg _
      omega
    · intro h
      omega

/-- Rounding keeps the order. -/
theorem round_mono {x y : Int} (h : x ≤ y) : round x ≤ round y := by
  unfold round
  by_cases hx : 0 ≤ x
  · have hy : 0 ≤ y := le_trans hx h
    rw [if_pos hx, if_pos hy]
    exact Int.ofNat_le.mpr (roundNat_mono (by omega))
  · rw [if_neg hx]
    by_cases hy : 0 ≤ y
    · rw [if_pos hy]
      have h1 : 0 ≤ (roundNat (-x).toNat : Int) := Int.ofNat_nonneg _
      have h2 : 0 ≤ (roundNat y.toNat : Int) := Int.ofNat_nonneg _
      omega
    · rw [if_neg hy]
      have := Int.ofNat_le.mpr (@roundNat_mono (-y).toNat (-x).toNat (by omega))
      omega

end binary64

end Principia

namespace Principia

namespace binary64

/-! ## The check of `FlowWithAdaptiveStep` in the arithmetic of doubles -/

/-- The flow with an adaptive step in doubles, once `Prolong` has returned. -/
theorem flow_of_Prolong {I : Collaborators} {fuel : Nat} {e e1 : Ephemeris}
    {F : Forest} {trajectory : Nat} {a : Option NavigationManoeuvre} {t : Instant}
    {parameters : AdaptiveStepParameters} {max_ephemeris_steps : Int} {trajectory_last : Sample}
    (hlast : (F.deref trajectory).bind DiscreteTrajectory.last = some trajectory_last)
    (hprolong : Prolong I fuel e (t_final e trajectory_last.time t max_ephemeris_steps) =
      .returns e1) :
    FlowWithAdaptiveStep I fuel e F trajectory a t parameters max_ephemeris_steps =
      if sub (t_final e trajectory_last.time t max_ephemeris_steps) trajectory_last.time > 0 then
        match Forest.AppendAll F trajectory
          (I.adaptive_Solve e1 parameters a trajectory_last
            (t_final e trajectory_last.time t max_ephemeris_steps)).1 with
        | .aborts => .aborts
        | .diverges => .diverges
        | .returns F1 =>
          .returns (e1, F1,
            decide ((I.adaptive_Solve e1 parameters a trajectory_last
              (t_final e trajectory_last.time t max_ephemeris_steps)).2 =
                TerminationCondition.Done ∧
              t_final e trajectory_last.time t max_ephemeris_steps = t))
      else .aborts := by
  unfold FlowWithAdaptiveStep
  rw [hlast]
  simp only [hprolong]

/-- The flow with an adaptive step in doubles does not return when the check
fails. -/
theorem flow_of_not_pos {I : Collaborators} {fuel : Nat} {e : Ephemeris}
    {F : Forest} {trajectory : Nat} {a : Option NavigationManoeuvre} {t : Instant}
    {parameters : AdaptiveStepParameters} {max_ephemeris_steps : Int} {trajectory_last : Sample}
    (hlast : (F.deref trajectory).bind DiscreteTrajectory.last = some trajectory_last)
    (hcheck : ¬ 0 < sub (t_final e trajectory_last.time t max_ephemeris_steps)
      trajectory_last.time)
    (r : Ephemeris × Forest × Bool) :
    FlowWithAdaptiveStep I fuel e F trajectory a t parameters max_ephemeris_steps ≠
      .returns r := by
  unfold FlowWithAdaptiveStep
  rw [hlast]
  simp only
  split
  · simp
  · simp
  · rw [if_neg (by simpa using hcheck)]
    simp

theorem sub_pos_iff (x y : Int) : 0 < sub x y ↔ y < x := by
  unfold sub
  rw [round_pos_iff]
  omega

theorem t_final_gt_iff (e : Ephemeris) (T t : Instant) (max_ephemeris_steps : Int) :
    T < t_final e T t max_ephemeris_steps ↔
      T < t ∧ (T < add e.last_state_time (mul (round max_ephemeris_steps) e.step_) ∨
        T < add T e.step_) := by
  unfold t_final
  rw [lt_min_iff, lt_max_iff]
  tauto

end binary64

/-- Claim C27, corrected.  In the arithmetic of doubles, the time step
`t_final - trajectory->last().time()` that `FlowWithAdaptiveStep` checks is
positive if and only if `t` is after the time `T` of the last point of the
trajectory and one of the two sums of which `t_final` takes the `max`, `T +
step` and `last_state_.time + max_ephemeris_steps * step`, is after `T` once
rounded.  Then it is at most the double `t - T`, and `T < t_final ≤ t`.  With a
positive step the second condition holds whenever the sum `T + step` is exact,
as it is below `2 ^ 53` units, and the check then holds if and only if `t` is
after `T`.  When the check fails the call does not return; when it holds and
`Prolong` returns, the call goes on with the integrator. -/
theorem first_time_step_positive_in_doubles (I : Collaborators) (fuel : Nat) (e : Ephemeris)
    (F : Forest) (trajectory : Nat) (a : Option NavigationManoeuvre) (t : Instant)
    (parameters : AdaptiveStepParameters) (max_ephemeris_steps : Int)
    (trajectory_last : Sample)
    (hlast : (F.deref trajectory).bind DiscreteTrajectory.last = some trajectory_last) :
    (0 < binary64.sub (binary64.t_final e trajectory_last.time t max_ephemeris_steps)
        trajectory_last.time ↔
      trajectory_last.time < t ∧
        (trajectory_last.time < binary64.add e.last_state_time
            (binary64.mul (binary64.round max_ephemeris_steps) e.step_) ∨
          trajectory_last.time < binary64.add trajectory_last.time e.step_)) ∧
    (0 < binary64.sub (binary64.t_final e trajectory_last.time t max_ephemeris_steps)
        trajectory_last.time →
      binary64.sub (binary64.t_final e trajectory_last.time t max_ephemeris_steps)
          trajectory_last.time ≤ binary64.sub t trajectory_last.time ∧
        trajectory_last.time < binary64.t_final e trajectory_last.time t max_ephemeris_steps ∧
        binary64.t_final e trajectory_last.time t max_ephemeris_steps ≤ t) ∧
    (0 < e.step_ →
      binary64.add trajectory_last.time e.step_ = trajectory_last.time + e.step_ →
      (0 < binary64.sub (binary64.t_final e trajectory_last.time t max_ephemeris_steps)
          trajectory_last.time ↔ trajectory_last.time < t)) ∧
    ((trajectory_last.time + e.step_).natAbs < 2 ^ 53 →
      binary64.add trajectory_last.time e.step_ = trajectory_last.time + e.step_) ∧
    (¬ (trajectory_last.time < t ∧
        (trajectory_last.time < binary64.add e.last_state_time
            (binary64.mul (binary64.round max_ephemeris_steps) e.step_) ∨
          trajectory_last.time < binary64.add trajectory_last.time e.step_)) →
      ∀ r, binary64.FlowWithAdaptiveStep I fuel e F trajectory a t parameters
        max_ephemeris_steps ≠ .returns r) ∧
    (trajectory_last.time < t ∧
        (trajectory_last.time < binary64.add e.last_state_time
            (binary64.mul (binary64.round max_ephemeris_steps) e.step_) ∨
          trajectory_last.time < binary64.add trajectory_last.time e.step_) →
      ∀ e1, binary64.Prolong I fuel e
          (binary64.t_final e trajectory_last.time t max_ephemeris_steps) = .returns e1 →
        binary64.FlowWithAdaptiveStep I fuel e F trajectory a t parameters max_ephemeris_steps =
          match Forest.AppendAll F trajectory
            (I.adaptive_Solve e1 parameters a trajectory_last
              (binary64.t_final e trajectory_last.time t max_ephemeris_steps)).1 with
          | .aborts => .aborts
          | .diverges => .diverges
          | .returns F1 =>
            .returns (e1, F1,
              decide ((I.adaptive_Solve e1 parameters a trajectory_last
                (binary64.t_final e trajectory_last.time t max_ephemeris_steps)).2 =
                  TerminationCondition.Done ∧
                binary64.t_final e trajectory_last.time t max_ephemeris_steps = t))) := by
  have hiff : 0 < binary64.sub (binary64.t_final e trajectory_last.time t max_ephemeris_steps)
        trajectory_last.time ↔
      trajectory_last.time < t ∧
        (trajectory_last.time < binary64.add e.last_state_time
            (binary64.mul (binary64.round max_ephemeris_steps) e.step_) ∨
          trajectory_last.time < binary64.add trajectory_last.time e.step_) := by
    rw [binary64.sub_pos_iff, binary64.t_final_gt_iff]
  have hle : binary64.t_final e trajectory_last.time t max_ephemeris_steps ≤ t := by
    unfold binary64.t_final
    exact min_le_right _ _
  refine ⟨hiff, ?_, ?_, ?_, ?_, ?_⟩
  · intro h
    refine ⟨?_, (binary64.sub_pos_iff _ _).mp h, hle⟩
    unfold binary64.sub
    exact binary64.round_mono (sub_le_sub_right hle _)
  · intro hstep hexact
    rw [hiff, hexact]
    constructor
    · exact fun h => h.1
    · exact fun h => ⟨h, Or.inr (lt_add_of_pos_right _ hstep)⟩
  · intro hsmall
    unfold binary64.add
    exact binary64.round_of_lt hsmall
  · intro hnot r
    exact binary64.flow_of_not_pos hlast (fun h => hnot (hiff.mp h)) r
  · intro h e1 hprolong
    rw [binary64.flow_of_Prolong hlast hprolong, if_pos (hiff.mpr h)]

namespace Example

open FlightPlan

/-- Claim C27 as stated fails on the code, whose times are doubles.  The doubles
from `2 ^ 53` on are two units apart: with the last point of the trajectory at
`T = 2 ^ 53`, the step 1 and `t = T + 2`, all of them doubles, the sum `T + 1`
is rounded to `T`.  When the other sum, `last_state_.time + max_ephemeris_steps
* step`, is not after `T` either, `t_final` is `T`, `first_time_step` is zero
and the check kills the call although `t` is after `T`: so with the ephemeris
at the time 0 and 1000 steps, with the ephemeris at `T` and one step, and, two
thousand units apart, with the ephemeris at `2 ^ 63` and 1000 steps.  With
exact sums the same calls pass the check. -/
theorem first_time_step_zero_after_rounding :
    binary64.round far = far ∧ binary64.round (far + 2) = far + 2 ∧
    binary64.round 1 = 1 ∧ binary64.round 1000 = 1000 ∧
    ((memory_at far).deref 0).bind DiscreteTrajectory.last = some ⟨far, ⟨0, 1⟩⟩ ∧
    (0 : Time) < (ephemeris_at 1 0).step_ ∧ far < far + 2 ∧
    binary64.add far 1 = far ∧
    binary64.t_final (ephemeris_at 1 0) far (far + 2) 1000 = far ∧
    binary64.sub (binary64.t_final (ephemeris_at 1 0) far (far + 2) 1000) far = 0 ∧
    binary64.FlowWithAdaptiveStep collaborators 10 (ephemeris_at 1 0) (memory_at far) 0 none
      (far + 2) (parameters 100) 1000 = .aborts ∧
    binary64.FlowWithAdaptiveStep collaborators 10 (ephemeris_at 1 far) (memory_at far) 0 none
      (far + 2) (parameters 100) 1 = .aborts ∧
    binary64.round farther = farther ∧ binary64.round (farther + 2048) = farther + 2048 ∧
    binary64.add farther (binary64.mul (binary64.round 1000) 1) = farther ∧
    binary64.FlowWithAdaptiveStep collaborators 10 (ephemeris_at 1 farther) (memory_at farther)
      0 none (farther + 2048) (parameters 100) 1000 = .aborts ∧
    (0 : Int) < min (max ((ephemeris_at 1 0).last_state_time + 1000 * (ephemeris_at 1 0).step_)
      (far + (ephemeris_at 1 0).step_)) (far + 2) - far ∧
    (∃ r, FlowWithAdaptiveStep collaborators 10 (ephemeris_at 1 0) (memory_at far) 0 none
      (far + 2) (parameters 100) 1000 = .returns r) := by
  -- the inputs are doubles
  refine ⟨by decide, by decide, by decide, by decide, ?_⟩
  -- the trajectory, the step and the target
  refine ⟨by decide, by decide, by decide, ?_⟩
  -- the sum, `t_final` and the time step
  refine ⟨by decide, by decide, by decide, ?_⟩
  -- the two calls at `2 ^ 53`
  refine ⟨by decide, by decide, ?_⟩
  -- the call at `2 ^ 63`
  refine ⟨by decide, by decide, by decide, by decide, ?_⟩
  -- with exact sums
  refine ⟨by decide, ?_⟩
  exact ⟨(⟨1, far + 1, far + 1, 2⟩,
    [(0, ⟨[], [⟨far, ⟨0, 1⟩⟩, ⟨far + 1, ⟨1, 1⟩⟩]⟩)], false), by decide⟩

/-- The corrected claim C27 where the doubles are two units apart: with the step
2 the sum `T + 2` is a double after `T = 2 ^ 53`, and the check holds for
`t = T + 4`. -/
theorem first_time_step_positive_in_doubles_witness :
    ((memory_at far).deref 0).bind DiscreteTrajectory.last = some ⟨far, ⟨0, 1⟩⟩ ∧
    far < far + 4 ∧ far < binary64.add far (ephemeris_at 2 far).step_ ∧
    0 < binary64.sub (binary64.t_final (ephemeris_at 2 far) far (far + 4) 1000) far ∧
    binary64.sub (binary64.t_final (ephemeris_at 2 far) far (far + 4) 1000) far ≤
      binary64.sub (far + 4) far ∧
    binary64.FlowWithAdaptiveStep collaborators 10 (ephemeris_at 2 far) (memory_at far) 0 none
      (far + 4) (parameters 100) 1000 =
      .returns (⟨2, far + 4, far + 4, 2⟩,
        [(0, ⟨[], [⟨far, ⟨0, 1⟩⟩, ⟨far + 4, ⟨4, 1⟩⟩]⟩)], true) :=
  have h := first_time_step_positive_in_doubles collaborators 10 (ephemeris_at 2 far)
    (memory_at far) 0 none (far + 4) (parameters 100) 1000 ⟨far, ⟨0, 1⟩⟩ (by decide)
  have hpos := h.1.mpr ⟨by decide, Or.inr (by decide)⟩
  ⟨by decide, by decide, by decide, hpos, (h.2.1 hpos).1,
    (h.2.2.2.2.2 ⟨by decide, Or.inr (by decide)⟩ ⟨2, far + 4, far + 4, 2⟩ (by decide)).trans
      (by decide)⟩

/-- Claim C2 fails on the code.  On the plan `failed_burn`, which the constructor
and one call of `Append` produce, and for a burn at time 30, the manœuvre fits
between the start of the last coast and the final time, it is not singular,
and the trial coast forked at the fork point of the last coast reaches its
initial time; `Append` does not return true: it does not return, because
`ReplaceLastSegment` dies on `CHECK_EQ(0, anomalous_segments_)`. -/
theorem Append_dies_where_true_is_due :
    Reachable collaborators failed_burn ∧
    (collaborators.MakeNavigationManoeuvre burn_30 (tail_mass failed_burn)).FitsBetween
      failed_burn.start_of_last_coast failed_burn.final_time_ = true ∧
    (collaborators.MakeNavigationManoeuvre burn_30 (tail_mass failed_burn)).IsSingular = false ∧
    (∃ coast, failed_burn.last_coast = .returns coast ∧
      TrialCoastReaches collaborators 10 failed_burn coast
        (collaborators.MakeNavigationManoeuvre burn_30 (tail_mass failed_burn))) ∧
    Append collaborators 10 failed_burn burn_30 = .aborts ∧
    (∀ q, Append collaborators 10 failed_burn burn_30 ≠ .returns (q, true)) ∧
    (∀ q, Append collaborators 10 failed_burn burn_30 ≠ .returns (q, false)) := by
  have habort : Append collaborators 10 failed_burn burn_30 = .aborts := by decide
  refine ⟨@Reachable.Append collaborators 10 fresh_plan failed_burn burn_hard true
      (@Reachable.new collaborators 10 memory 0 0 50 1000 ephemeris (parameters 100) fresh_plan
        (by decide))
      (by decide), by decide, by decide, ⟨4, by decide, ?_⟩, habort, ?_, ?_⟩
  · exact ⟨⟨[(3, ⟨11, ⟨11, 1⟩⟩), (2, ⟨10, ⟨10, 1⟩⟩), (0, ⟨0, ⟨0, 1⟩⟩)], []⟩, 3, ⟨11, ⟨11, 1⟩⟩,
      failed_burn.trajectories ++
        [(5, ⟨[(3, ⟨11, ⟨11, 1⟩⟩), (2, ⟨10, ⟨10, 1⟩⟩), (0, ⟨0, ⟨0, 1⟩⟩)], []⟩)],
      5, ⟨1, 50, 50, 1⟩,
      failed_burn.trajectories ++
        [(5, ⟨[(3, ⟨11, ⟨11, 1⟩⟩), (2, ⟨10, ⟨10, 1⟩⟩), (0, ⟨0, ⟨0, 1⟩⟩)],
          [⟨30, ⟨30, 1⟩⟩]⟩)],
      by decide, by decide, by decide, by decide, by decide⟩
  · intro q h
    rw [habort] at h
    cases h
  · intro q h
    rw [habort] at h
    cases h

end Example

end Principia
